import Mathlib

/-!
# A verification development for the mavn compiler back-end

Shallow embedding of `IR.cpp`, `SyntaxAnalysis.cpp` and `LivenessAnalysis.cpp`.

Conventions of the embedding
* A `Variable*` is an address (`Nat`) into a heap `List Variable`; `new Variable`
  appends to the heap.  A `Variables` list (`std::list<Variable*>`) is a `List Nat`.
* An `Instruction*` is the index of the instruction in the instruction list
  (every instruction object is pushed to `instrs` exactly once, and the list only grows).
* C++ exceptions are the `Exn` values of `Except Exn _`.
* The stack `std::stack<Variable*>` is a `List Nat` whose head is the top.
-/

namespace Mavn

/-! ## Types.h, Constants.h -/

/-- Number of regs in processor. -/
def __REG_NUMBER__ : Nat := 4

/-- Instruction type (`enum InstructionType`). -/
inductive InstructionType where
  | I_NO_TYPE | I_ADD | I_ADDI | I_SUB | I_LA | I_LI | I_LW | I_SW | I_BLTZ | I_B | I_NOP
  | I_AND | I_OR | I_NOT | I_BNE
  deriving DecidableEq, Repr, Inhabited

/-- Reg names (`enum Regs`). -/
inductive Regs where
  | no_assign | t0 | t1 | t2 | t3
  deriving DecidableEq, Repr, Inhabited

/-- The cast `(int)r` of a `Regs` value. -/
def Regs.toInt : Regs → Int
  | .no_assign => 0
  | .t0 => 1
  | .t1 => 2
  | .t2 => 3
  | .t3 => 4

/-- The cast `(Regs)c` of an `int`; the code only casts the values 1..4. -/
def Regs.ofInt (c : Int) : Regs :=
  if c = 1 then .t0 else if c = 2 then .t1 else if c = 3 then .t2 else if c = 4 then .t3
  else .no_assign

/-! ## IR.h -/

/-- Types of variables supported (`Variable::VariableType`). -/
inductive VariableType where
  | MEM_VAR | REG_VAR | LABEL_VAR | CONST_VAR | NO_TYPE
  deriving DecidableEq, Repr, Inhabited

/-- One variable from program code (`class Variable`). -/
structure Variable where
  m_type : VariableType
  m_name : String
  m_position : Int
  m_assignment : Regs
  value : Int
  deriving DecidableEq, Repr

/-- The default constructor `Variable()`. -/
instance : Inhabited Variable :=
  ⟨⟨.NO_TYPE, "", -1, .no_assign, -1⟩⟩

/-- One instruction in program code (`class Instruction`). -/
structure Instruction where
  label : Option Nat
  m_position : Int
  m_type : InstructionType
  m_dst : List Nat
  m_src : List Nat
  m_use : List Nat
  m_def : List Nat
  m_in : List Nat
  m_out : List Nat
  m_succ : List Nat
  m_pred : List Nat
  deriving DecidableEq, Repr

instance : Inhabited Instruction :=
  ⟨⟨none, 0, .I_NO_TYPE, [], [], [], [], [], [], [], []⟩⟩

/-- The interference graph (`typedef std::vector<std::vector<int>> Matrix`). -/
abbrev Matrix := List (List Int)

/-- Exceptions thrown by the compiler. -/
inductive SyntaxError where
  | MEMORY_VAR_EXISTS | REGISTER_VAR_EXISTS | LABEL_EXISTS | FUNCTION_EXISTS | WRONG_TOKEN
  | VARIABLE_DOESNT_EXIST | LABEL_DOESNT_EXIST | NO_MAIN_FUNC | TOO_MANY_FUNCS
  deriving DecidableEq, Repr, Inhabited

/-- A thrown value: a `std::runtime_error`, a `SyntaxAnalysis::SyntaxError`, the
`std::invalid_argument` and `std::out_of_range` of `std::stoi`; `undefined` stands for
an operation whose behaviour C++ leaves undefined. -/
inductive Exn where
  | runtime_error (what : String)
  | syntaxError (e : SyntaxError)
  | invalid_argument (what : String)
  | out_of_range (what : String)
  | undefined (what : String)
  deriving DecidableEq, Repr, Inhabited

/-- Dereference of a `Variable*`. -/
def deref (heap : List Variable) (p : Nat) : Variable := heap.getD p default

/-- The access `matrix[x][y]` of a `std::vector<std::vector<int>>`. -/
def matAt (matrix : Matrix) (x y : Nat) : Int := (matrix.getD x []).getD y 0

/-- The function `contains(Variables&, Variable*)` (IR.cpp). -/
def contains (vars : List Nat) (var : Nat) : Bool :=
  vars.any (fun i => i == var)

/-! ## LivenessAnalysis.cpp : register allocation -/

/-- Removes the column and row `element` of a square matrix. -/
def removeElementOfMatrix (element : Nat) (matrix : Matrix) : Matrix :=
  (matrix.eraseIdx element).map (fun row => row.eraseIdx element)

/-- The `count` vector computed by the double loop of `findElementWithHighestRang`. -/
def countRang (matrix : Matrix) : List Nat :=
  (List.range matrix.length).foldl
    (fun count i =>
      (List.range i).foldl
        (fun count j =>
          if matAt matrix j i = 1 then
            let count := count.set i (count.getD i 0 + 1)
            count.set j (count.getD j 0 + 1)
          else count)
        count)
    (List.replicate matrix.length 0)

/-- The first selection loop: the last index whose count is below `__REG_NUMBER__`
(`none` is the value `-1`). -/
def lastCandidate (count : List Nat) (size : Nat) : Option Nat :=
  (List.range size).foldl
    (fun max i => if count.getD i 0 < __REG_NUMBER__ then some i else max) none

/-- The second selection loop. -/
def raiseCandidate (count : List Nat) (size : Nat) (max : Nat) : Nat :=
  (List.range size).foldl
    (fun max i =>
      if count.getD max 0 < count.getD i 0 ∧ count.getD i 0 < __REG_NUMBER__ then i else max) max

/-- Finds the node in the graph with the highest rang (`findElementWithHighestRang`). -/
def findElementWithHighestRang (matrix : Matrix) : Except Exn Nat :=
  let count := countRang matrix
  let size := matrix.length
  match lastCandidate count size with
  | none => .error (.runtime_error "Not enough registers!")
  | some max => .ok (raiseCandidate count size max)

/-- The loop of `createSimplificationStack`, with `n` iterations left.  Advancing
`notYetTaken.begin()` by `curr` and dereferencing it past the end is undefined in C++
and is reported as `undefined` here. -/
def simplificationLoop : Nat → Matrix → List Nat → List Nat → Except Exn (List Nat)
  | 0, _, _, result => .ok result
  | n + 1, matrixToWorkOn, notYetTaken, result =>
    match findElementWithHighestRang matrixToWorkOn with
    | .error e => .error e
    | .ok curr =>
      match notYetTaken[curr]? with
      | none => .error (.undefined "dereference past the end")
      | some found =>
        simplificationLoop n (removeElementOfMatrix curr matrixToWorkOn)
          (notYetTaken.eraseIdx curr) (found :: result)

/-- Creates the simplification stack used for resource allocation
(`LivenessAnalysis::createSimplificationStack`). -/
def createSimplificationStack (interferenceGraph : Matrix) (reg_vars : List Nat) :
    Except Exn (List Nat) :=
  simplificationLoop interferenceGraph.length interferenceGraph reg_vars []

/-- The state of a `LivenessAnalysis` object (the heap holds the `Variable` objects that
the lists point into). -/
structure LivenessAnalysis where
  err : Bool
  heap : List Variable
  reg_vars : List Nat
  mem_vars : List Nat
  vars : List Nat
  instrs : List Instruction
  interferenceGraph : Matrix
  deriving DecidableEq, Repr

/-- The method `Variable::getPos` through a pointer, used as a vector index. -/
def getPos (heap : List Variable) (p : Nat) : Nat := (deref heap p).m_position.toNat

/-- The method `LivenessAnalysis::getColor`. -/
def getColor (la : LivenessAnalysis) (var : Nat) : Int :=
  let allReg : List Int := (List.range __REG_NUMBER__).map (fun i => (i : Int) + 1)
  let allReg := la.vars.foldl
    (fun allReg other =>
      if matAt la.interferenceGraph (getPos la.heap var) (getPos la.heap other) = 1 then
        allReg.filter (fun c => c ≠ (deref la.heap other).m_assignment.toInt)
      else allReg)
    allReg
  match allReg with
  | [] => -1
  | c :: _ => c

/-- The assignment `p->getAssignment() = r`. -/
def setAssignment (heap : List Variable) (p : Nat) (r : Regs) : List Variable :=
  heap.set p { deref heap p with m_assignment := r }

/-- The `while` loop of `resourceAllocation`; `prev` is `none` for `nullptr`. -/
def allocationLoop : List Nat → Option Nat → LivenessAnalysis → LivenessAnalysis
  | [], _, la => la
  | in_use :: simplificationStack, prev, la =>
    let la := { la with vars := la.vars ++ [in_use] }
    match prev with
    | none =>
      allocationLoop simplificationStack (some in_use)
        { la with heap := setAssignment la.heap in_use (Regs.ofInt 1) }
    | some _ =>
      let color := getColor la in_use
      if color = -1 then { la with err := true }
      else
        allocationLoop simplificationStack (some in_use)
          { la with heap := setAssignment la.heap in_use (Regs.ofInt color) }

/-- The method `LivenessAnalysis::resourceAllocation`. -/
def resourceAllocation (la : LivenessAnalysis) : Except Exn LivenessAnalysis :=
  match createSimplificationStack la.interferenceGraph la.reg_vars with
  | .error e => .error e
  | .ok simplificationStack => .ok (allocationLoop simplificationStack none la)

/-! ## IR.cpp / LivenessAnalysis.cpp : liveness analysis -/

/-- The loop body `if (!contains(vars, v)) vars.push_back(v)`. -/
def pushIfNew (vars : List Nat) (v : Nat) : List Nat :=
  if !contains vars v then vars ++ [v] else vars

/-- Gets all input variables of all successor instructions (`Instruction::getSuccIns`). -/
def getSuccIns (instrs : List Instruction) (curr : Instruction) : List Nat :=
  curr.m_succ.foldl (fun vars s => (instrs.getD s default).m_in.foldl pushIfNew vars) []

/-- Gets all used variables with all output variables without defined variables
(`Instruction::getUseWithOutWithoutDef`). -/
def getUseWithOutWithoutDef (curr : Instruction) : List Nat :=
  let vars := curr.m_out.foldl
    (fun vars v => if !contains curr.m_def v then vars ++ [v] else vars) []
  curr.m_use.foldl pushIfNew vars

/-- The body of the reverse loop of `liveness()` for the instruction at index `k`; the
state is the instruction list and the flag `prevGood`. -/
def livenessVisit (st : List Instruction × Bool) (k : Nat) : List Instruction × Bool :=
  let instrs := st.1
  let prevGood := st.2
  let curr := instrs.getD k default
  let savedIn := curr.m_in
  let savedOut := curr.m_out
  let out := getSuccIns instrs curr
  let curr := { curr with m_out := out }
  let inn := getUseWithOutWithoutDef curr
  let curr := { curr with m_in := inn }
  (instrs.set k curr,
    if prevGood then (if savedIn ≠ inn ∨ savedOut ≠ out then false else prevGood)
    else prevGood)

/-- One traversal of the instruction list in reverse order, starting with
`prevGood = true`. -/
def livenessPass (instrs : List Instruction) : List Instruction × Bool :=
  (List.range instrs.length).reverse.foldl livenessVisit (instrs, true)

/-- The loop `for (counter = 0; !done && counter < 10; ++counter)` of `liveness()`;
`fuel` bounds the number of iterations (10 is enough).  Returns the instruction list,
the flag `done` and the number of passes made. -/
def livenessFor : Nat → Nat → Bool → List Instruction → List Instruction × Bool × Nat
  | 0, counter, done, instrs => (instrs, done, counter)
  | fuel + 1, counter, done, instrs =>
    if !done && counter < 10 then
      let r := livenessPass instrs
      livenessFor fuel (counter + 1) r.2 r.1
    else (instrs, done, counter)

/-- The method `LivenessAnalysis::liveness` on the instruction list. -/
def liveness (instrs : List Instruction) : List Instruction × Bool × Nat :=
  livenessFor 10 0 false instrs

/-! ## LivenessAnalysis.cpp : interference graph -/

/-- The matrix built by the constructor: `n` rows of `n` zeros. -/
def zeroMatrix (n : Nat) : Matrix := List.replicate n (List.replicate n 0)

/-- The method `LivenessAnalysis::setInterference`; a write outside the vectors is
undefined in C++ and leaves the matrix unchanged here. -/
def setInterference (interferenceGraph : Matrix) (x y : Nat) : Matrix :=
  let g := interferenceGraph.set y ((interferenceGraph.getD y []).set x 1)
  g.set x ((g.getD x []).set y 1)

/-- The loops of `LivenessAnalysis::setGraph` over the instruction list. -/
def setGraphLoop (heap : List Variable) (instrs : List Instruction) (g : Matrix) : Matrix :=
  instrs.foldl
    (fun g i =>
      i.m_def.foldl
        (fun g definedVar =>
          if contains i.m_out definedVar then
            i.m_out.foldl
              (fun g v =>
                if v ≠ definedVar then
                  setInterference g (getPos heap v) (getPos heap definedVar)
                else g)
              g
          else g)
        g)
    g

/-- The method `LivenessAnalysis::setGraph`. -/
def setGraph (la : LivenessAnalysis) : LivenessAnalysis :=
  { la with interferenceGraph := setGraphLoop la.heap la.instrs la.interferenceGraph }

/-- The method `LivenessAnalysis::Do`: the final state and the returned `!err`. -/
def LivenessAnalysis.Do (la : LivenessAnalysis) : Except Exn (LivenessAnalysis × Bool) :=
  let la := { la with instrs := (liveness la.instrs).1 }
  let la := setGraph la
  match resourceAllocation la with
  | .error e => .error e
  | .ok la => .ok (la, !la.err)

/-! ## Token.h, SyntaxAnalysis.h -/

/-- Supported token types (`enum TokenType`). -/
inductive TokenType where
  | T_NO_TYPE | T_ID | T_M_ID | T_R_ID | T_NUM | T_WHITE_SPACE
  | T_MEM | T_REG | T_FUNC | T_ADD | T_ADDI | T_SUB | T_LA | T_LI | T_LW | T_SW | T_BLTZ
  | T_B | T_NOP | T_AND | T_OR | T_NOT | T_BNE
  | T_COMMA | T_L_PARENT | T_R_PARENT | T_COL | T_SEMI_COL
  | T_COMMENT | T_END_OF_FILE | T_ERROR
  deriving DecidableEq, Repr, Inhabited

/-- A token (`class Token`): its type and its value. -/
structure Token where
  tokenType : TokenType
  value : String
  deriving DecidableEq, Repr

/-- The default constructor `Token()`. -/
instance : Inhabited Token :=
  ⟨⟨.T_NO_TYPE, ""⟩⟩

/-- The state of a `SyntaxAnalysis` object.  `tokens` is `lex.getTokenList()`, the
iterator `currentToken` is an index into it, `heap` holds the `Variable` objects created
with `new`, and `varCounter`, `insCounter` are the static members `Variable::counter`
and `Instruction::counter`. -/
structure SyntaxAnalysis where
  tokens : List Token
  currentToken : Nat
  instrs : List Instruction
  heap : List Variable
  reg_vars : List Nat
  mem_vars : List Nat
  label_vars : List Nat
  const_vars : List Nat
  err : Bool
  eof : Bool
  next_instruction_has_label : Bool
  varCounter : Nat
  insCounter : Nat
  deriving DecidableEq, Repr

/-- The outcome of a parser method: a normal return, a thrown exception (both with the
state of the object at that point), or the recursion bound of the model being used up. -/
inductive Result (α : Type) where
  | ok (a : α) (s : SyntaxAnalysis)
  | raise (e : Exn) (s : SyntaxAnalysis)
  | outOfFuel
  deriving DecidableEq, Repr

/-- A method of `SyntaxAnalysis`. -/
abbrev Parser (α : Type) := SyntaxAnalysis → Result α

/-- Sequencing of two statements; an exception of the first skips the second. -/
def Parser.bind {α β : Type} (m : Parser α) (f : α → Parser β) : Parser β := fun s =>
  match m s with
  | .ok a s1 => f a s1
  | .raise e s1 => .raise e s1
  | .outOfFuel => .outOfFuel

instance : Monad Parser where
  pure a := fun s => .ok a s
  bind := Parser.bind

/-- The statement `throw e` of a `SyntaxError`. -/
def raise {α : Type} (e : SyntaxError) : Parser α := fun s => .raise (.syntaxError e) s

/-- The assignment `err = true`. -/
def setErr : Parser Unit := fun s => .ok () { s with err := true }

/-- The token `*currentToken`; reading at `end()` is undefined in C++ and yields the
default token here, which no grammar rule accepts. -/
def currentTok (s : SyntaxAnalysis) : Token := s.tokens.getD s.currentToken default

/-- The expression `currentToken->getType()`. -/
def curType : Parser TokenType := fun s => .ok (currentTok s).tokenType s

/-- The expression `currentToken->getValue()`. -/
def curValue : Parser String := fun s => .ok (currentTok s).value s

/-- The function `isspace` of the C locale. -/
def isspace (c : Char) : Bool :=
  c = ' ' || c = '\t' || c = '\n' || c = '\r' || c.toNat = 11 || c.toNat = 12

/-- The function `std::stoi(str)`: skips leading white space, reads an optional sign and
the longest run of decimal digits; throws `std::invalid_argument` when there is no digit
and `std::out_of_range` when the value does not fit an `int`. -/
def stoi (str : String) : Except Exn Int :=
  let cs := str.toList.dropWhile isspace
  let signed : Bool × List Char :=
    match cs with
    | '-' :: rest => (true, rest)
    | '+' :: rest => (false, rest)
    | _ => (false, cs)
  let digits := signed.2.takeWhile Char.isDigit
  if digits = [] then .error (.invalid_argument "stoi")
  else
    let n : Nat := digits.foldl (fun acc c => 10 * acc + (c.toNat - 48)) 0
    let v : Int := if signed.1 then -(n : Int) else (n : Int)
    if v < -2147483648 ∨ 2147483647 < v then .error (.out_of_range "stoi") else .ok v

/-- The call `stoi(str)` inside a parser method. -/
def stoiP (str : String) : Parser Int := fun s =>
  match stoi str with
  | .ok v => .ok v s
  | .error e => .raise e s

/-- The function `std::to_string(int)`. -/
def to_string (value : Int) : String := toString value

/-- The constructor `Variable(type, name, val)` under `new`: the object is placed on the
heap and its address returned; a register variable takes the next position of
`Variable::counter`. -/
def newVariable (type : VariableType) (name : String) (val : Int) : Parser Nat := fun s =>
  if type = .REG_VAR then
    .ok s.heap.length
      { s with heap := s.heap ++ [⟨type, name, (s.varCounter : Int), .no_assign, val⟩],
               varCounter := s.varCounter + 1 }
  else
    .ok s.heap.length { s with heap := s.heap ++ [⟨type, name, -1, .no_assign, val⟩] }

/-- The constructor `Instruction(type, lab)` under `new`; the object joins the
instruction list when it is pushed. -/
def newInstruction (type : InstructionType) (lab : Option Nat) : Parser Instruction := fun s =>
  .ok ⟨lab, (s.insCounter : Int), type, [], [], [], [], [], [], [], []⟩
    { s with insCounter := s.insCounter + 1 }

/-- The method `Instruction::addDst`. -/
def Instruction.addDst (i : Instruction) (var : Nat) : Instruction :=
  { i with m_dst := i.m_dst ++ [var] }

/-- The method `Instruction::addSrc`. -/
def Instruction.addSrc (i : Instruction) (var : Nat) : Instruction :=
  { i with m_src := i.m_src ++ [var] }

/-- The method `Instruction::isFunc`. -/
def Instruction.isFunc (i : Instruction) : Bool :=
  i.label.isSome && i.m_type == .I_NO_TYPE

/-! ## SyntaxAnalysis.cpp -/

/-- The method `SyntaxAnalysis::eat`. -/
def eat (token : TokenType) : Parser Unit := fun s =>
  let s := if token = .T_END_OF_FILE then { s with eof := true } else s
  if (currentTok s).tokenType = token then
    .ok () { s with currentToken := s.currentToken + 1 }
  else
    .raise (.syntaxError .WRONG_TOKEN) { s with err := true }

/-- The method `SyntaxAnalysis::glance`. -/
def glance (token : TokenType) : Parser Unit := fun s =>
  if token ≠ (currentTok s).tokenType then
    .raise (.syntaxError .WRONG_TOKEN) { s with err := true }
  else .ok () s

/-- The search loop `for (it ...) if ((*it)->getName() == name)` over a table: the first
entry with that name. -/
def findByName (heap : List Variable) (table : List Nat) (name : String) : Option Nat :=
  table.find? (fun p => (deref heap p).m_name == name)

/-- The method `SyntaxAnalysis::regVariableExists`. -/
def regVariableExists (name : String) : Parser Unit := fun s =>
  match findByName s.heap s.reg_vars name with
  | some _ => .raise (.syntaxError .REGISTER_VAR_EXISTS) { s with err := true }
  | none => .ok () s

/-- The method `SyntaxAnalysis::memVariableExists`. -/
def memVariableExists (name : String) : Parser Unit := fun s =>
  match findByName s.heap s.mem_vars name with
  | some _ => .raise (.syntaxError .MEMORY_VAR_EXISTS) { s with err := true }
  | none => .ok () s

/-- The method `SyntaxAnalysis::labelExists`. -/
def labelExists (name : String) : Parser Unit := fun s =>
  match s.label_vars.find?
      (fun p => (deref s.heap p).m_name == name && (deref s.heap p).value == 1) with
  | some _ => .raise (.syntaxError .LABEL_EXISTS) { s with err := true }
  | none => .ok () s

/-- The method `SyntaxAnalysis::createVariable`. -/
def createVariable : Parser Nat := fun s =>
  match (currentTok s).tokenType with
  | .T_M_ID =>
    (do
      let name ← curValue
      memVariableExists name
      eat .T_M_ID
      glance .T_NUM
      let text ← curValue
      let val ← stoiP text
      let var ← newVariable .MEM_VAR name val
      eat .T_NUM
      pure var) s
  | .T_R_ID =>
    (do
      let name ← curValue
      regVariableExists name
      eat .T_R_ID
      newVariable .REG_VAR name 0) s
  | .T_ID =>
    (do
      let name ← curValue
      labelExists name
      eat .T_ID
      newVariable .LABEL_VAR name 1) s
  | _ => .raise (.syntaxError .WRONG_TOKEN) { s with err := true }

/-- The method `SyntaxAnalysis::findVariable(std::string& name)`.  In the case `c` the
arguments `"c" + name` and `stoi(name.replace(0, 1, ""))` of the constructor are
evaluated in an unspecified order; the model takes the order in which `replace` runs
first, so that the stored name is the name searched for. -/
def findVariableNamed (name : String) : Parser Nat := fun s =>
  let notFound : Result Nat := .raise (.syntaxError .VARIABLE_DOESNT_EXIST) { s with err := true }
  match name.toList.head? with
  | some 'r' =>
    match findByName s.heap s.reg_vars name with
    | some p => .ok p s
    | none => notFound
  | some 'm' =>
    match findByName s.heap s.mem_vars name with
    | some p => .ok p s
    | none => notFound
  | some 'c' =>
    match findByName s.heap s.const_vars name with
    | some p => .ok p s
    | none =>
      (do
        let replaced := String.mk (name.toList.drop 1)
        let val ← stoiP replaced
        let var ← newVariable .CONST_VAR ("c" ++ replaced) val
        fun s1 => .ok var { s1 with const_vars := s1.const_vars ++ [var] }) s
  | _ => notFound

/-- The method `SyntaxAnalysis::findVariable()`. -/
def findVariable : Parser Nat := fun s => findVariableNamed (currentTok s).value s

/-- The method `SyntaxAnalysis::constVariable`. -/
def constVariable (value : Int) : Parser Nat :=
  findVariableNamed ("c" ++ to_string value)

/-- The method `SyntaxAnalysis::findLabel`. -/
def findLabel (name : String) : Parser Nat := fun s =>
  match findByName s.heap s.label_vars name with
  | some p => .ok p s
  | none =>
    (do
      let var ← newVariable .LABEL_VAR name 0
      fun s1 => .ok var { s1 with label_vars := s1.label_vars ++ [var] }) s

/-- The method `SyntaxAnalysis::checkLabels`. -/
def checkLabels : Parser Unit := fun s =>
  match s.label_vars.find? (fun p => (deref s.heap p).value != 1) with
  | some _ => .raise (.syntaxError .LABEL_DOESNT_EXIST) { s with err := true }
  | none => .ok () s

/-- The method `SyntaxAnalysis::checkFunctions`; `instrs.front()` of an empty list is
undefined behaviour. -/
def checkFunctions : Parser Unit := fun s =>
  match s.instrs.head? with
  | none => .raise (.undefined "front() of an empty list") s
  | some front =>
    if !front.isFunc then .raise (.syntaxError .NO_MAIN_FUNC) { s with err := true }
    else
      let count := (s.instrs.filter (fun i => i.isFunc)).length
      if count ≠ 1 then .raise (.syntaxError .TOO_MANY_FUNCS) { s with err := true }
      else .ok () s

/-- The end of `E()`: `if (next_instruction_has_label) i->addLabel(label_vars.back());`
and `instrs.push_back(i)`.  `addLabel` stores the label and then throws when the variable
is not a label. -/
def finishE (i : Instruction) : Parser Unit := fun s =>
  if s.next_instruction_has_label then
    match s.label_vars.getLast? with
    | none => .raise (.undefined "back() of an empty list") s
    | some lab =>
      if (deref s.heap lab).m_type ≠ .LABEL_VAR then
        .raise (.runtime_error "Not able to attach a non label variable to the instruction!") s
      else .ok () { s with instrs := s.instrs ++ [{ i with label := some lab }] }
  else .ok () { s with instrs := s.instrs ++ [i] }

/-- The operand sequence `glance(T_R_ID); v = findVariable(); eat(T_R_ID);`. -/
def regOperand : Parser Nat := do
  glance .T_R_ID
  let v ← findVariable
  eat .T_R_ID
  pure v

/-- The operand sequence `glance(T_NUM); v = constVariable(stoi(value)); eat(T_NUM);`. -/
def numOperand : Parser Nat := do
  glance .T_NUM
  let text ← curValue
  let n ← stoiP text
  let v ← constVariable n
  eat .T_NUM
  pure v

/-- The operand sequence `glance(T_ID); v = findLabel(value); eat(T_ID);`. -/
def labelOperand : Parser Nat := do
  glance .T_ID
  let name ← curValue
  let v ← findLabel name
  eat .T_ID
  pure v

/-- The cases `T_ADD`, `T_SUB`, `T_AND`, `T_OR` of `E()`, which differ in the token and
the instruction type only. -/
def threeRegs (token : TokenType) (type : InstructionType) : Parser Unit := do
  eat token
  let i ← newInstruction type none
  let dst ← regOperand
  eat .T_COMMA
  let src1 ← regOperand
  eat .T_COMMA
  let src2 ← regOperand
  finishE (((i.addDst dst).addSrc src1).addSrc src2)

/-- The method `SyntaxAnalysis::E`. -/
def E : Parser Unit := fun s =>
  match (currentTok s).tokenType with
  | .T_ADD => threeRegs .T_ADD .I_ADD s
  | .T_ADDI =>
    (do
      eat .T_ADDI
      let i ← newInstruction .I_ADDI none
      let dst ← regOperand
      eat .T_COMMA
      let src1 ← regOperand
      eat .T_COMMA
      let src2 ← numOperand
      finishE (((i.addDst dst).addSrc src1).addSrc src2)) s
  | .T_B =>
    (do
      eat .T_B
      let i ← newInstruction .I_B none
      let src1 ← labelOperand
      finishE (i.addSrc src1)) s
  | .T_BLTZ =>
    (do
      eat .T_BLTZ
      let i ← newInstruction .I_BLTZ none
      let src1 ← regOperand
      eat .T_COMMA
      let src2 ← labelOperand
      finishE ((i.addSrc src1).addSrc src2)) s
  | .T_LA =>
    (do
      eat .T_LA
      let i ← newInstruction .I_LA none
      let dst ← regOperand
      eat .T_COMMA
      glance .T_M_ID
      let src1 ← findVariable
      eat .T_M_ID
      finishE ((i.addDst dst).addSrc src1)) s
  | .T_LI =>
    (do
      eat .T_LI
      let i ← newInstruction .I_LI none
      let dst ← regOperand
      eat .T_COMMA
      let src1 ← numOperand
      finishE ((i.addDst dst).addSrc src1)) s
  | .T_LW =>
    (do
      eat .T_LW
      let i ← newInstruction .I_LW none
      let dst ← regOperand
      eat .T_COMMA
      let src1 ← numOperand
      eat .T_L_PARENT
      let src2 ← regOperand
      eat .T_R_PARENT
      finishE (((i.addDst dst).addSrc src1).addSrc src2)) s
  | .T_NOP =>
    (do
      eat .T_NOP
      let i ← newInstruction .I_NOP none
      finishE i) s
  | .T_SUB => threeRegs .T_SUB .I_SUB s
  | .T_SW =>
    (do
      eat .T_SW
      let i ← newInstruction .I_SW none
      let src1 ← regOperand
      eat .T_COMMA
      let src2 ← numOperand
      eat .T_L_PARENT
      let dst ← regOperand
      eat .T_R_PARENT
      finishE (((i.addSrc src1).addSrc src2).addSrc dst)) s
  | .T_AND => threeRegs .T_AND .I_AND s
  | .T_OR => threeRegs .T_OR .I_OR s
  | .T_NOT =>
    (do
      eat .T_NOT
      let i ← newInstruction .I_NOT none
      let dst ← regOperand
      eat .T_COMMA
      let src1 ← regOperand
      finishE ((i.addDst dst).addSrc src1)) s
  | .T_BNE =>
    (do
      eat .T_BNE
      let i ← newInstruction .I_BNE none
      let src1 ← regOperand
      eat .T_COMMA
      let src2 ← regOperand
      eat .T_COMMA
      let dst ← labelOperand
      finishE (((i.addSrc src1).addSrc src2).addSrc dst)) s
  | _ => .raise (.syntaxError .WRONG_TOKEN) { s with err := true }

/-- The method `SyntaxAnalysis::S`. -/
def S : Parser Unit := fun s =>
  match (currentTok s).tokenType with
  | .T_MEM =>
    (do
      eat .T_MEM
      let var ← createVariable
      fun s1 => .ok () { s1 with mem_vars := s1.mem_vars ++ [var] }) s
  | .T_REG =>
    (do
      eat .T_REG
      let var ← createVariable
      fun s1 => .ok () { s1 with reg_vars := s1.reg_vars ++ [var] }) s
  | .T_FUNC =>
    (do
      eat .T_FUNC
      let var ← createVariable
      let i ← (fun s1 => newInstruction .I_NO_TYPE (some var)
        { s1 with label_vars := s1.label_vars ++ [var] })
      fun s2 => .ok () { s2 with instrs := s2.instrs ++ [i] }) s
  | .T_ID =>
    (do
      let var ← createVariable
      (fun s1 => .ok () { s1 with label_vars := s1.label_vars ++ [var],
                                  next_instruction_has_label := true })
      eat .T_COL
      E) s
  | _ => E s

/-- The method `SyntaxAnalysis::L`, given the method `Q` it calls. -/
def L (Q : Parser Unit) : Parser Unit := fun s =>
  if (currentTok s).tokenType = .T_END_OF_FILE then
    (do
      eat .T_END_OF_FILE
      fun s1 => .ok () { s1 with eof := true }) s
  else Q s

/-- The method `SyntaxAnalysis::Q`; the recursion `Q -> L -> Q` is bounded by `fuel`, and
every round consumes a token, so more fuel than tokens is never used up. -/
def Q : Nat → Parser Unit
  | 0 => fun _ => .outOfFuel
  | fuel + 1 => fun s =>
    let s := { s with next_instruction_has_label := false }
    if (currentTok s).tokenType = .T_COMMENT then
      (do
        eat .T_COMMENT
        L (Q fuel)) s
    else
      (do
        S
        eat .T_SEMI_COL
        L (Q fuel)) s

/-- The method `SyntaxAnalysis::Do`, returning `!err`. -/
def SyntaxAnalysis.Do : Parser Bool := fun s =>
  (do
    Q (s.tokens.length + 1)
    checkLabels
    checkFunctions
    fun s1 => .ok (!s1.err) s1) { s with currentToken := 0 }

/-- The object built by the constructor `SyntaxAnalysis(lexer)` in a fresh process. -/
def SyntaxAnalysis.init (tokens : List Token) : SyntaxAnalysis :=
  ⟨tokens, 0, [], [], [], [], [], [], false, false, false, 0, 0⟩

/-! ## Observations on parser outcomes -/

/-- The exception of an outcome, if it is one. -/
def Result.raised {α : Type} (r : Result α) : Option Exn :=
  match r with
  | .raise e _ => some e
  | _ => none

/-- The returned value of an outcome, if it returned. -/
def Result.returned {α : Type} (r : Result α) : Option α :=
  match r with
  | .ok a _ => some a
  | _ => none

/-- The state of the object at the end of an outcome. -/
def Result.state {α : Type} (r : Result α) : Option SyntaxAnalysis :=
  match r with
  | .ok _ s => some s
  | .raise _ s => some s
  | .outOfFuel => none

/-- The label table read through the heap: name and `value` (1 = defined) of each entry. -/
def labels (s : SyntaxAnalysis) : List (String × Int) :=
  s.label_vars.map (fun p => ((deref s.heap p).m_name, (deref s.heap p).value))

/-- Every pointer of the label table addresses an object of the heap. -/
def LabelsLive (s : SyntaxAnalysis) : Prop :=
  ∀ p ∈ s.label_vars, p < s.heap.length

/-- The token at index `p` of a token list (the default token outside it). -/
def tokenAt (tokens : List Token) (p : Nat) : Token := tokens.getD p default

/-- The token at `p` opens a branch instruction (`b`, `bltz` or `bne`) whose label
operand, at its place in the grammar, is the identifier `name`. -/
def BranchNames (tokens : List Token) (p : Nat) (name : String) : Prop :=
  ((tokenAt tokens p).tokenType = .T_B ∧ tokenAt tokens (p + 1) = ⟨.T_ID, name⟩) ∨
  ((tokenAt tokens p).tokenType = .T_BLTZ ∧ tokenAt tokens (p + 3) = ⟨.T_ID, name⟩) ∨
  ((tokenAt tokens p).tokenType = .T_BNE ∧ tokenAt tokens (p + 5) = ⟨.T_ID, name⟩)

/-- The tokens at `q` define the label `name`: an `id :` prefix, or `_func` followed by
`name`. -/
def Defines (tokens : List Token) (q : Nat) (name : String) : Prop :=
  (tokenAt tokens q = ⟨.T_ID, name⟩ ∧ (tokenAt tokens (q + 1)).tokenType = .T_COL) ∨
  ((tokenAt tokens q).tokenType = .T_FUNC ∧ (tokenAt tokens (q + 1)).value = name)

instance (tokens : List Token) (q : Nat) (name : String) : Decidable (Defines tokens q name) := by
  unfold Defines
  exact inferInstance

instance (tokens : List Token) (p : Nat) (name : String) :
    Decidable (BranchNames tokens p name) := by
  unfold BranchNames
  exact inferInstance

/-- What a normally returning run of parser methods from state `s` to state `s1` keeps
and adds: the token list and the error flag are kept, the position does not go back, and
the label table grows by entries that are undefined references (`value` 0) or come from a
definition among the consumed tokens; every branch among the consumed tokens has its
label in the table. -/
structure Run (s s1 : SyntaxAnalysis) : Prop where
  tokens : s1.tokens = s.tokens
  err : s1.err = s.err
  cur : s.currentToken ≤ s1.currentToken
  live : LabelsLive s → LabelsLive s1
  grows : LabelsLive s → ∃ added, labels s1 = labels s ++ added ∧
    ∀ e ∈ added, e.2 = 0 ∨
      ∃ q, s.currentToken ≤ q ∧ q < s1.currentToken ∧ Defines s.tokens q e.1
  branches : LabelsLive s → ∀ p, s.currentToken ≤ p → p < s1.currentToken →
    ∀ name, BranchNames s.tokens p name → name ∈ (labels s1).map Prod.fst

/-- A run that consumes exactly the tokens of the types `tys` and touches no table: only
objects are added to the heap. -/
structure Seg (tys : List TokenType) (s s1 : SyntaxAnalysis) : Prop where
  tokens : s1.tokens = s.tokens
  err : s1.err = s.err
  cur : s1.currentToken = s.currentToken + tys.length
  types : ∀ j, j < tys.length →
    (tokenAt s.tokens (s.currentToken + j)).tokenType = tys.getD j default
  label_vars : s1.label_vars = s.label_vars
  heap : ∃ ext, s1.heap = s.heap ++ ext

/-- Every normal return of the method is a run of kind `Seg tys`. -/
def Consumes {α : Type} (m : Parser α) (tys : List TokenType) : Prop :=
  ∀ s a s1, m s = .ok a s1 → Seg tys s s1

/-- The token types that do not open a branch instruction. -/
def NonBranch (t : TokenType) : Prop := t ≠ .T_B ∧ t ≠ .T_BLTZ ∧ t ≠ .T_BNE

/-- Every normal return of the method is a run that consumes at least one token. -/
def Advances {α : Type} (m : Parser α) : Prop :=
  ∀ s a s1, m s = .ok a s1 → Run s s1 ∧ s.currentToken < s1.currentToken

/-- The method never uses up the recursion bound. -/
def NoFuel {α : Type} (m : Parser α) : Prop := ∀ s, m s ≠ .outOfFuel

/-! ## Example programs -/

/-- The variables of the example program: `r1`, `r2`, `r3` at positions 0, 1, 2, the
label `main` and the constants 1 and 2. -/
def exampleHeap : List Variable :=
  [⟨.REG_VAR, "r1", 0, .no_assign, 0⟩, ⟨.REG_VAR, "r2", 1, .no_assign, 0⟩,
   ⟨.REG_VAR, "r3", 2, .no_assign, 0⟩, ⟨.LABEL_VAR, "main", -1, .no_assign, 1⟩,
   ⟨.CONST_VAR, "c1", -1, .no_assign, 1⟩, ⟨.CONST_VAR, "c2", -1, .no_assign, 2⟩]

/-- The instruction list of
`_func main; li r1, 1; li r2, 2; add r3, r1, r2; add r3, r3, r1;`
with the USE, DEF and edges that the constructor of `LivenessAnalysis` computes. -/
def exampleInstrs : List Instruction :=
  [⟨some 3, 0, .I_NO_TYPE, [], [], [], [], [], [], [], []⟩,
   ⟨none, 1, .I_LI, [0], [4], [], [0], [], [], [2], []⟩,
   ⟨none, 2, .I_LI, [1], [5], [], [1], [], [], [3], [1]⟩,
   ⟨none, 3, .I_ADD, [2], [0, 1], [0, 1], [2], [], [], [4], [2]⟩,
   ⟨none, 4, .I_ADD, [2], [2, 0], [2, 0], [2], [], [], [], [3]⟩]

/-- The `LivenessAnalysis` object of the example program after its constructor. -/
def exampleLA : LivenessAnalysis :=
  ⟨false, exampleHeap, [0, 1, 2], [], [], exampleInstrs, zeroMatrix 3⟩

/-- The example object after `liveness()`. -/
def exampleLiveLA : LivenessAnalysis :=
  { exampleLA with instrs := (liveness exampleLA.instrs).1 }

/-- The example object after `liveness()` and `setGraph()`. -/
def exampleGraphLA : LivenessAnalysis :=
  setGraph exampleLiveLA

/-- The example object after `resourceAllocation()`. -/
def exampleAllocated : LivenessAnalysis :=
  allocationLoop [1, 2, 0] none exampleGraphLA

/-- The instruction list of scenario 4,
`_func main; li r1, -1; bltz r1, done; li r1, 0; done: nop;`
(`r1` is variable 0), with the USE, DEF and edges of the CFG builder: `bltz` has the
successors `done` and the fall-through. -/
def bltzInstrs : List Instruction :=
  [⟨some 1, 0, .I_NO_TYPE, [], [], [], [], [], [], [], []⟩,
   ⟨none, 1, .I_LI, [0], [2], [], [0], [], [], [2], []⟩,
   ⟨none, 2, .I_BLTZ, [], [0, 3], [0], [], [], [], [4, 3], [1]⟩,
   ⟨none, 3, .I_LI, [0], [4], [], [0], [], [], [4], [2]⟩,
   ⟨some 3, 4, .I_NOP, [], [], [], [], [], [], [], [2, 3]⟩]

/-! ## Example token streams -/

/-- The tokens of `_func main; b done; done: nop;`: a branch to a label defined later. -/
def forwardBranchTokens : List Token :=
  [⟨.T_FUNC, "_func"⟩, ⟨.T_ID, "main"⟩, ⟨.T_SEMI_COL, ";"⟩,
   ⟨.T_B, "b"⟩, ⟨.T_ID, "done"⟩, ⟨.T_SEMI_COL, ";"⟩,
   ⟨.T_ID, "done"⟩, ⟨.T_COL, ":"⟩, ⟨.T_NOP, "nop"⟩, ⟨.T_SEMI_COL, ";"⟩,
   ⟨.T_END_OF_FILE, "EOF"⟩]

/-- The tokens of scenario 4,
`_func main; _reg r1; li r1, -1; bltz r1, done; li r1, 0; done: nop;`. -/
def scenario4Tokens : List Token :=
  [⟨.T_FUNC, "_func"⟩, ⟨.T_ID, "main"⟩, ⟨.T_SEMI_COL, ";"⟩,
   ⟨.T_REG, "_reg"⟩, ⟨.T_R_ID, "r1"⟩, ⟨.T_SEMI_COL, ";"⟩,
   ⟨.T_LI, "li"⟩, ⟨.T_R_ID, "r1"⟩, ⟨.T_COMMA, ","⟩, ⟨.T_NUM, "-1"⟩, ⟨.T_SEMI_COL, ";"⟩,
   ⟨.T_BLTZ, "bltz"⟩, ⟨.T_R_ID, "r1"⟩, ⟨.T_COMMA, ","⟩, ⟨.T_ID, "done"⟩, ⟨.T_SEMI_COL, ";"⟩,
   ⟨.T_LI, "li"⟩, ⟨.T_R_ID, "r1"⟩, ⟨.T_COMMA, ","⟩, ⟨.T_NUM, "0"⟩, ⟨.T_SEMI_COL, ";"⟩,
   ⟨.T_ID, "done"⟩, ⟨.T_COL, ":"⟩, ⟨.T_NOP, "nop"⟩, ⟨.T_SEMI_COL, ";"⟩,
   ⟨.T_END_OF_FILE, "EOF"⟩]

/-- The tokens of `_func main; done: nop; b done;`: a branch to a label defined earlier. -/
def backwardBranchTokens : List Token :=
  [⟨.T_FUNC, "_func"⟩, ⟨.T_ID, "main"⟩, ⟨.T_SEMI_COL, ";"⟩,
   ⟨.T_ID, "done"⟩, ⟨.T_COL, ":"⟩, ⟨.T_NOP, "nop"⟩, ⟨.T_SEMI_COL, ";"⟩,
   ⟨.T_B, "b"⟩, ⟨.T_ID, "done"⟩, ⟨.T_SEMI_COL, ";"⟩,
   ⟨.T_END_OF_FILE, "EOF"⟩]

/-- The state of the parser after `Q()` on `backwardBranchTokens`. -/
def backwardBranchParsed : SyntaxAnalysis :=
  ((Q 12 (SyntaxAnalysis.init backwardBranchTokens)).state).getD (SyntaxAnalysis.init [])

/-- The tokens of scenario 5, `_func main; b missing;`. -/
def undefinedLabelTokens : List Token :=
  [⟨.T_FUNC, "_func"⟩, ⟨.T_ID, "main"⟩, ⟨.T_SEMI_COL, ";"⟩,
   ⟨.T_B, "b"⟩, ⟨.T_ID, "missing"⟩, ⟨.T_SEMI_COL, ";"⟩,
   ⟨.T_END_OF_FILE, "EOF"⟩]

/-- The state of the parser after `Q()` on `undefinedLabelTokens`. -/
def undefinedLabelParsed : SyntaxAnalysis :=
  ((Q 8 (SyntaxAnalysis.init undefinedLabelTokens)).state).getD (SyntaxAnalysis.init [])

/-- The tokens of scenario 6, `_func main; _reg r1; _reg r1;`. -/
def duplicateRegTokens : List Token :=
  [⟨.T_FUNC, "_func"⟩, ⟨.T_ID, "main"⟩, ⟨.T_SEMI_COL, ";"⟩,
   ⟨.T_REG, "_reg"⟩, ⟨.T_R_ID, "r1"⟩, ⟨.T_SEMI_COL, ";"⟩,
   ⟨.T_REG, "_reg"⟩, ⟨.T_R_ID, "r1"⟩, ⟨.T_SEMI_COL, ";"⟩,
   ⟨.T_END_OF_FILE, "EOF"⟩]

/-- The state of the parser on `duplicateRegTokens` after its first two statements. -/
def duplicateRegState : SyntaxAnalysis :=
  (((do S; eat .T_SEMI_COL; S; eat .T_SEMI_COL : Parser Unit)
    (SyntaxAnalysis.init duplicateRegTokens)).state).getD (SyntaxAnalysis.init [])

/-- The tokens of `_func main; _reg m1 5; _reg m1 6; _mem r1; _mem r1;`: the second
`_reg` and the second `_mem` declare a name that their table already holds. -/
def redeclaredTokens : List Token :=
  [⟨.T_FUNC, "_func"⟩, ⟨.T_ID, "main"⟩, ⟨.T_SEMI_COL, ";"⟩,
   ⟨.T_REG, "_reg"⟩, ⟨.T_M_ID, "m1"⟩, ⟨.T_NUM, "5"⟩, ⟨.T_SEMI_COL, ";"⟩,
   ⟨.T_REG, "_reg"⟩, ⟨.T_M_ID, "m1"⟩, ⟨.T_NUM, "6"⟩, ⟨.T_SEMI_COL, ";"⟩,
   ⟨.T_MEM, "_mem"⟩, ⟨.T_R_ID, "r1"⟩, ⟨.T_SEMI_COL, ";"⟩,
   ⟨.T_MEM, "_mem"⟩, ⟨.T_R_ID, "r1"⟩, ⟨.T_SEMI_COL, ";"⟩,
   ⟨.T_END_OF_FILE, "EOF"⟩]

/-- The state of the parser on `redeclaredTokens` after its first two statements, before
the second `_reg m1`. -/
def redeclaredRegState : SyntaxAnalysis :=
  (((do S; eat .T_SEMI_COL; S; eat .T_SEMI_COL : Parser Unit)
    (SyntaxAnalysis.init redeclaredTokens)).state).getD (SyntaxAnalysis.init [])

/-- The state of the parser on `redeclaredTokens` after its first four statements, before
the second `_mem r1`. -/
def redeclaredMemState : SyntaxAnalysis :=
  (((do S; eat .T_SEMI_COL; S; eat .T_SEMI_COL : Parser Unit)
    redeclaredRegState).state).getD (SyntaxAnalysis.init [])

/-! ## The grammar of SyntaxAnalysis.h on token types -/

/-- The right-hand sides of the rule `E` as sequences of token types. -/
def shapesE : List (List TokenType) :=
  [[.T_ADD, .T_R_ID, .T_COMMA, .T_R_ID, .T_COMMA, .T_R_ID],
   [.T_ADDI, .T_R_ID, .T_COMMA, .T_R_ID, .T_COMMA, .T_NUM],
   [.T_SUB, .T_R_ID, .T_COMMA, .T_R_ID, .T_COMMA, .T_R_ID],
   [.T_LA, .T_R_ID, .T_COMMA, .T_M_ID],
   [.T_LW, .T_R_ID, .T_COMMA, .T_NUM, .T_L_PARENT, .T_R_ID, .T_R_PARENT],
   [.T_LI, .T_R_ID, .T_COMMA, .T_NUM],
   [.T_SW, .T_R_ID, .T_COMMA, .T_NUM, .T_L_PARENT, .T_R_ID, .T_R_PARENT],
   [.T_B, .T_ID],
   [.T_BLTZ, .T_R_ID, .T_COMMA, .T_ID],
   [.T_NOP],
   [.T_AND, .T_R_ID, .T_COMMA, .T_R_ID, .T_COMMA, .T_R_ID],
   [.T_OR, .T_R_ID, .T_COMMA, .T_R_ID, .T_COMMA, .T_R_ID],
   [.T_NOT, .T_R_ID, .T_COMMA, .T_R_ID],
   [.T_BNE, .T_R_ID, .T_COMMA, .T_R_ID, .T_COMMA, .T_ID]]

/-- The right-hand sides of the rule `S`:
`mem m_id num`, `reg r_id`, `func id`, `id : E` and `E`. -/
def shapesS : List (List TokenType) :=
  [[.T_MEM, .T_M_ID, .T_NUM], [.T_REG, .T_R_ID], [.T_FUNC, .T_ID]] ++
    shapesE.map (fun e => [.T_ID, .T_COL] ++ e) ++ shapesE

/-- The rules `Q -> comment L | S ; L` and `L -> eof | Q` as a recogniser of sequences of
token types: the stream is a sequence of comments and of statements, each statement
followed by `;`, up to an end-of-file token.  `fuel` bounds the number of rounds. -/
def grammarAccepts : Nat → List TokenType → Bool
  | 0, _ => false
  | fuel + 1, ts =>
    let ruleL : List TokenType → Bool := fun rest =>
      match rest with
      | .T_END_OF_FILE :: _ => true
      | _ => grammarAccepts fuel rest
    match ts with
    | .T_COMMENT :: rest => ruleL rest
    | _ =>
      shapesS.any (fun shape =>
        ts.take shape.length == shape &&
          (match ts.drop shape.length with
           | .T_SEMI_COL :: rest => ruleL rest
           | _ => false))

/-- The tokens of `_func main; b missing; add r1, r1, r1;`: the label `missing` is
undefined and the register `r1` is undeclared. -/
def preemptedTokens : List Token :=
  [⟨.T_FUNC, "_func"⟩, ⟨.T_ID, "main"⟩, ⟨.T_SEMI_COL, ";"⟩,
   ⟨.T_B, "b"⟩, ⟨.T_ID, "missing"⟩, ⟨.T_SEMI_COL, ";"⟩,
   ⟨.T_ADD, "add"⟩, ⟨.T_R_ID, "r1"⟩, ⟨.T_COMMA, ","⟩, ⟨.T_R_ID, "r1"⟩, ⟨.T_COMMA, ","⟩,
   ⟨.T_R_ID, "r1"⟩, ⟨.T_SEMI_COL, ";"⟩,
   ⟨.T_END_OF_FILE, "EOF"⟩]

/-! ## Specification predicates -/

/-- A matrix with `n` rows of `n` entries. -/
def Square (n : Nat) (matrix : Matrix) : Prop :=
  matrix.length = n ∧ ∀ row ∈ matrix, row.length = n

/-- A path `i = i0 -> i1 -> ... -> ik` along successor edges with `v` in `USE(ik)` and
`v` in no `DEF(ij)` for `j < k`. -/
inductive LivePath (instrs : List Instruction) (v : Nat) : Nat → Prop where
  | here (i : Nat) : v ∈ (instrs.getD i default).m_use → LivePath instrs v i
  | next (i s : Nat) : v ∉ (instrs.getD i default).m_def →
      s ∈ (instrs.getD i default).m_succ → LivePath instrs v s → LivePath instrs v i

/-- The two assignments of the loop body of `liveness()` change nothing at index `k`. -/
def FixAt (instrs : List Instruction) (k : Nat) : Prop :=
  (instrs.getD k default).m_out = getSuccIns instrs (instrs.getD k default) ∧
  (instrs.getD k default).m_in = getUseWithOutWithoutDef (instrs.getD k default)

/-- The list `cur` has the length and the USE, DEF and successor sets of `instrs`. -/
def SameStatic (instrs cur : List Instruction) : Prop :=
  cur.length = instrs.length ∧
    ∀ i, (cur.getD i default).m_use = (instrs.getD i default).m_use ∧
      (cur.getD i default).m_def = (instrs.getD i default).m_def ∧
      (cur.getD i default).m_succ = (instrs.getD i default).m_succ

/-- Every member of an IN set of `cur` is justified by a path in `instrs`. -/
def InSound (instrs cur : List Instruction) : Prop :=
  ∀ i v, v ∈ (cur.getD i default).m_in → LivePath instrs v i

/-- The matrix `after` is square and differs from `g` exactly by the entries of `E`,
which hold 1. -/
def AddsEdges (n : Nat) (g after : Matrix) (E : Nat → Nat → Prop) : Prop :=
  Square n after ∧
    ∀ a b, (E a b → matAt after a b = 1) ∧ (¬ E a b → matAt after a b = matAt g a b)

/-- The entries that `setGraph` writes: the positions of a defined live-out variable and
of another live-out variable of the same instruction, in either order. -/
def GraphEdge (n : Nat) (heap : List Variable) (instrs : List Instruction) (a b : Nat) : Prop :=
  ∃ i ∈ instrs, ∃ d ∈ i.m_def, d ∈ i.m_out ∧ ∃ v ∈ i.m_out, v ≠ d ∧
    ((a = getPos heap v ∧ b = getPos heap d) ∨ (a = getPos heap d ∧ b = getPos heap v)) ∧
    getPos heap v < n ∧ getPos heap d < n

/-! ## Simplification: rang, removal and cores -/

/-- The rang of node `i` as the double loop of `findElementWithHighestRang` counts it: the
entries 1 of column `i` above the diagonal plus the entries 1 of row `i` right of the
diagonal. -/
def rang (matrix : Matrix) (i : Nat) : Nat :=
  (List.range i).countP (fun j => decide (matAt matrix j i = 1)) +
  (List.range matrix.length).countP (fun k => decide (i < k ∧ matAt matrix i k = 1))

/-- The nodes `i` and `j` are joined by an entry 1 above the diagonal, which is where the
rang count looks. -/
def adjacent (matrix : Matrix) (i j : Nat) : Bool :=
  decide ((j < i ∧ matAt matrix j i = 1) ∨ (i < j ∧ matAt matrix i j = 1))

/-- The index in the matrix before a removal of the node that has index `i` after it. -/
def beforeRemoval (element i : Nat) : Nat := if i < element then i else i + 1

/-- A non-empty set of nodes each of which is adjacent to at least `__REG_NUMBER__` others
of the set. -/
def Core (matrix : Matrix) (C : List Nat) : Prop :=
  C ≠ [] ∧ C.Nodup ∧ (∀ i ∈ C, i < matrix.length) ∧
    ∀ i ∈ C, __REG_NUMBER__ ≤ (C.filter (fun j => adjacent matrix i j)).length

/-- The index after a removal of the node that had index `i` before it. -/
def afterRemoval (element i : Nat) : Nat := if i < element then i else i - 1

/-! ## Example interference graphs -/

/-- The variables of the five-register program: `r1` .. `r5` at positions 0 .. 4, the
label `main` and the constants 1 .. 5. -/
def fiveLiveHeap : List Variable :=
  [⟨.REG_VAR, "r1", 0, .no_assign, 0⟩, ⟨.REG_VAR, "r2", 1, .no_assign, 0⟩,
   ⟨.REG_VAR, "r3", 2, .no_assign, 0⟩, ⟨.REG_VAR, "r4", 3, .no_assign, 0⟩,
   ⟨.REG_VAR, "r5", 4, .no_assign, 0⟩, ⟨.LABEL_VAR, "main", -1, .no_assign, 1⟩,
   ⟨.CONST_VAR, "c1", -1, .no_assign, 1⟩, ⟨.CONST_VAR, "c2", -1, .no_assign, 2⟩,
   ⟨.CONST_VAR, "c3", -1, .no_assign, 3⟩, ⟨.CONST_VAR, "c4", -1, .no_assign, 4⟩,
   ⟨.CONST_VAR, "c5", -1, .no_assign, 5⟩]

/-- The instruction list of scenario 3,
`_func main; li r1, 1; li r2, 2; li r3, 3; li r4, 4; li r5, 5;
add r1, r1, r2; add r1, r1, r3; add r1, r1, r4; add r1, r1, r5;`
with the USE, DEF and edges that the constructor of `LivenessAnalysis` computes: after
`li r5, 5` the five registers are live at once. -/
def fiveLiveInstrs : List Instruction :=
  [⟨some 5, 0, .I_NO_TYPE, [], [], [], [], [], [], [], []⟩,
   ⟨none, 1, .I_LI, [0], [6], [], [0], [], [], [2], []⟩,
   ⟨none, 2, .I_LI, [1], [7], [], [1], [], [], [3], [1]⟩,
   ⟨none, 3, .I_LI, [2], [8], [], [2], [], [], [4], [2]⟩,
   ⟨none, 4, .I_LI, [3], [9], [], [3], [], [], [5], [3]⟩,
   ⟨none, 5, .I_LI, [4], [10], [], [4], [], [], [6], [4]⟩,
   ⟨none, 6, .I_ADD, [0], [0, 1], [0, 1], [0], [], [], [7], [5]⟩,
   ⟨none, 7, .I_ADD, [0], [0, 2], [0, 2], [0], [], [], [8], [6]⟩,
   ⟨none, 8, .I_ADD, [0], [0, 3], [0, 3], [0], [], [], [9], [7]⟩,
   ⟨none, 9, .I_ADD, [0], [0, 4], [0, 4], [0], [], [], [], [8]⟩]

/-- The `LivenessAnalysis` object of the five-register program after its constructor. -/
def fiveLiveLA : LivenessAnalysis :=
  ⟨false, fiveLiveHeap, [0, 1, 2, 3, 4], [], [], fiveLiveInstrs, zeroMatrix 5⟩

/-- The interference matrix of the five-register program after `liveness()` and
`setGraph()`. -/
def fiveLiveGraph : Matrix :=
  (setGraph { fiveLiveLA with instrs := (liveness fiveLiveLA.instrs).1 }).interferenceGraph

/-- The octahedron: six nodes, each joined to every node but itself and the node three
places further.  Every node has four neighbours, and the colours 1, 2, 3, 1, 2, 3 colour
it properly. -/
def octahedron : Matrix :=
  [[0, 1, 1, 0, 1, 1],
   [1, 0, 1, 1, 0, 1],
   [1, 1, 0, 1, 1, 0],
   [0, 1, 1, 0, 1, 1],
   [1, 0, 1, 1, 0, 1],
   [1, 1, 0, 1, 1, 0]]

/-- The `LivenessAnalysis` object of six register variables with the octahedron as
interference matrix and no instruction. -/
def octahedronLA : LivenessAnalysis :=
  ⟨false,
   [⟨.REG_VAR, "r1", 0, .no_assign, 0⟩, ⟨.REG_VAR, "r2", 1, .no_assign, 0⟩,
    ⟨.REG_VAR, "r3", 2, .no_assign, 0⟩, ⟨.REG_VAR, "r4", 3, .no_assign, 0⟩,
    ⟨.REG_VAR, "r5", 4, .no_assign, 0⟩, ⟨.REG_VAR, "r6", 5, .no_assign, 0⟩],
   [0, 1, 2, 3, 4, 5], [], [], [], octahedron⟩

/-! ## The parser: operands, constants and declarations -/

/-- The value that `stoi` reads from a run of digits. -/
def digitsValue (digits : List Char) : Nat :=
  digits.foldl (fun acc c => 10 * acc + (c.toNat - 48)) 0

/-- Every pointer of the four symbol tables addresses an object of the heap. -/
def TablesLive (s : SyntaxAnalysis) : Prop :=
  (∀ p ∈ s.reg_vars, p < s.heap.length) ∧ (∀ p ∈ s.mem_vars, p < s.heap.length) ∧
  (∀ p ∈ s.label_vars, p < s.heap.length) ∧ (∀ p ∈ s.const_vars, p < s.heap.length)

instance (s : SyntaxAnalysis) : Decidable (TablesLive s) := by
  unfold TablesLive
  exact inferInstance

/-- The classification of identifiers by the lexer: a register id starts with `r` and a
memory id with `m`. -/
def Lexed (tokens : List Token) : Prop :=
  ∀ t ∈ tokens, (t.tokenType = .T_R_ID → t.value.toList.head? = some 'r') ∧
    (t.tokenType = .T_M_ID → t.value.toList.head? = some 'm')

instance (tokens : List Token) : Decidable (Lexed tokens) := by
  unfold Lexed
  exact inferInstance

/-- The constant table as `constVariable` keeps it: every entry is a constant variable
named `c<value>` whose value is an `int`, and no two entries have the same value. -/
def ConstTable (s : SyntaxAnalysis) : Prop :=
  (∀ p ∈ s.const_vars,
    (deref s.heap p).m_type = .CONST_VAR ∧
    (-2147483648 ≤ (deref s.heap p).value ∧ (deref s.heap p).value ≤ 2147483647) ∧
    (deref s.heap p).m_name = "c" ++ to_string (deref s.heap p).value) ∧
  (s.const_vars.map (fun p => (deref s.heap p).value)).Nodup

instance (s : SyntaxAnalysis) : Decidable (ConstTable s) := by
  unfold ConstTable
  exact inferInstance

/-- What the parsing of the operands of an instruction keeps and adds: the token list,
the instruction list and the register and memory tables are kept, the heap and the label
and constant tables grow at their ends. -/
structure Opnd (s s1 : SyntaxAnalysis) : Prop where
  tokens : s1.tokens = s.tokens
  instrs : s1.instrs = s.instrs
  reg_vars : s1.reg_vars = s.reg_vars
  mem_vars : s1.mem_vars = s.mem_vars
  err : s1.err = s.err
  label_vars : ∃ ext, s1.label_vars = s.label_vars ++ ext
  const_vars : ∃ ext, s1.const_vars = s.const_vars ++ ext
  heap : ∃ ext, s1.heap = s.heap ++ ext
  live : TablesLive s → TablesLive s1
  const : TablesLive s → ConstTable s → ConstTable s1

/-- The variable at `p` is the one that the operand token `tok` names: the entry of the
token's table with the token's name, or for an integer literal `n` the entry `c<n>` of
the constant table. -/
def Denotes (s : SyntaxAnalysis) (p : Nat) (tok : Token) : Prop :=
  p < s.heap.length ∧
  match tok.tokenType with
  | .T_R_ID => p ∈ s.reg_vars ∧ (deref s.heap p).m_name = tok.value
  | .T_M_ID => p ∈ s.mem_vars ∧ (deref s.heap p).m_name = tok.value
  | .T_ID => p ∈ s.label_vars ∧ (deref s.heap p).m_name = tok.value
  | .T_NUM => p ∈ s.const_vars ∧
      ∃ n, stoi tok.value = .ok n ∧ (deref s.heap p).m_name = "c" ++ to_string n
  | _ => False

/-- The operand lists that the specification gives for each opcode: the instruction type
and the offsets, counted from the opcode token, of the tokens that make up the
destination list and the source list, in grammar order. -/
def operandOffsets : TokenType → Option (InstructionType × List Nat × List Nat)
  | .T_ADD => some (.I_ADD, [1], [3, 5])
  | .T_SUB => some (.I_SUB, [1], [3, 5])
  | .T_AND => some (.I_AND, [1], [3, 5])
  | .T_OR => some (.I_OR, [1], [3, 5])
  | .T_ADDI => some (.I_ADDI, [1], [3, 5])
  | .T_NOT => some (.I_NOT, [1], [3])
  | .T_LA => some (.I_LA, [1], [3])
  | .T_LI => some (.I_LI, [1], [3])
  | .T_LW => some (.I_LW, [1], [3, 5])
  | .T_SW => some (.I_SW, [], [1, 3, 5])
  | .T_B => some (.I_B, [], [1])
  | .T_BLTZ => some (.I_BLTZ, [], [1, 3])
  | .T_BNE => some (.I_BNE, [], [1, 3, 5])
  | .T_NOP => some (.I_NOP, [], [])
  | _ => none

/-- The state `s` reached from `s0` while the operands of an instruction are parsed:
`k` tokens have been consumed and the variables of `ops` are the operands found at the
given offsets. -/
structure Stage (s0 s : SyntaxAnalysis) (k : Nat) (ops : List (Nat × Nat)) : Prop where
  opnd : Opnd s0 s
  cur : s.currentToken = s0.currentToken + k
  live : TablesLive s
  lexed : Lexed s.tokens
  denotes : ∀ po ∈ ops, Denotes s po.1 (tokenAt s0.tokens (s0.currentToken + po.2))

/-- The invariant of the parser that the constant table rests on: the table is as
`ConstTable` says, all table pointers are live and the tokens are classified as by the
lexer. -/
def ParserInv (s : SyntaxAnalysis) : Prop :=
  ConstTable s ∧ TablesLive s ∧ Lexed s.tokens

/-- Every normal return of the method keeps `ParserInv`. -/
def Preserves {α : Type} (m : Parser α) : Prop :=
  ∀ s a s1, ParserInv s → m s = .ok a s1 → ParserInv s1

/-- The tokens of `_func main; _reg r1; _reg r2; sw r1, 4(r2);`. -/
def operandTokens : List Token :=
  [⟨.T_FUNC, "_func"⟩, ⟨.T_ID, "main"⟩, ⟨.T_SEMI_COL, ";"⟩,
   ⟨.T_REG, "_reg"⟩, ⟨.T_R_ID, "r1"⟩, ⟨.T_SEMI_COL, ";"⟩,
   ⟨.T_REG, "_reg"⟩, ⟨.T_R_ID, "r2"⟩, ⟨.T_SEMI_COL, ";"⟩,
   ⟨.T_SW, "sw"⟩, ⟨.T_R_ID, "r1"⟩, ⟨.T_COMMA, ","⟩, ⟨.T_NUM, "4"⟩, ⟨.T_L_PARENT, "("⟩,
   ⟨.T_R_ID, "r2"⟩, ⟨.T_R_PARENT, ")"⟩, ⟨.T_SEMI_COL, ";"⟩,
   ⟨.T_END_OF_FILE, "EOF"⟩]

/-- The state of the parser on `operandTokens` after the three declarations. -/
def operandState : SyntaxAnalysis :=
  (((do S; eat .T_SEMI_COL; S; eat .T_SEMI_COL; S; eat .T_SEMI_COL : Parser Unit)
    (SyntaxAnalysis.init operandTokens)).state).getD (SyntaxAnalysis.init [])

/-- The state of the parser on `operandTokens` after `E()` has parsed the `sw`. -/
def operandParsed : SyntaxAnalysis :=
  ((E operandState).state).getD (SyntaxAnalysis.init [])

/-- The tokens of
`_func main; _reg r1; li r1, 5; addi r1, r1, 5; addi r1, r1, -7; addi r1, r1, 005;`. -/
def constantTokens : List Token :=
  [⟨.T_FUNC, "_func"⟩, ⟨.T_ID, "main"⟩, ⟨.T_SEMI_COL, ";"⟩,
   ⟨.T_REG, "_reg"⟩, ⟨.T_R_ID, "r1"⟩, ⟨.T_SEMI_COL, ";"⟩,
   ⟨.T_LI, "li"⟩, ⟨.T_R_ID, "r1"⟩, ⟨.T_COMMA, ","⟩, ⟨.T_NUM, "5"⟩, ⟨.T_SEMI_COL, ";"⟩,
   ⟨.T_ADDI, "addi"⟩, ⟨.T_R_ID, "r1"⟩, ⟨.T_COMMA, ","⟩, ⟨.T_R_ID, "r1"⟩, ⟨.T_COMMA, ","⟩,
   ⟨.T_NUM, "5"⟩, ⟨.T_SEMI_COL, ";"⟩,
   ⟨.T_ADDI, "addi"⟩, ⟨.T_R_ID, "r1"⟩, ⟨.T_COMMA, ","⟩, ⟨.T_R_ID, "r1"⟩, ⟨.T_COMMA, ","⟩,
   ⟨.T_NUM, "-7"⟩, ⟨.T_SEMI_COL, ";"⟩,
   ⟨.T_ADDI, "addi"⟩, ⟨.T_R_ID, "r1"⟩, ⟨.T_COMMA, ","⟩, ⟨.T_R_ID, "r1"⟩, ⟨.T_COMMA, ","⟩,
   ⟨.T_NUM, "005"⟩, ⟨.T_SEMI_COL, ";"⟩,
   ⟨.T_END_OF_FILE, "EOF"⟩]

/-- The state of the parser after `Do()` on `constantTokens`. -/
def constantParsed : SyntaxAnalysis :=
  ((SyntaxAnalysis.Do (SyntaxAnalysis.init constantTokens)).state).getD (SyntaxAnalysis.init [])

/-- The tokens of `_mem m1 6; _reg r1; // only declarations`: a program without any
instruction. -/
def noInstructionTokens : List Token :=
  [⟨.T_MEM, "_mem"⟩, ⟨.T_M_ID, "m1"⟩, ⟨.T_NUM, "6"⟩, ⟨.T_SEMI_COL, ";"⟩,
   ⟨.T_REG, "_reg"⟩, ⟨.T_R_ID, "r1"⟩, ⟨.T_SEMI_COL, ";"⟩,
   ⟨.T_COMMENT, "// only declarations"⟩,
   ⟨.T_END_OF_FILE, "EOF"⟩]

/-- The tokens of `_reg m1 5; _reg m1 6; _mem r1; _mem r1; _func main;`: each
declaration keyword is followed by an identifier of another kind. -/
def duplicateNameTokens : List Token :=
  [⟨.T_REG, "_reg"⟩, ⟨.T_M_ID, "m1"⟩, ⟨.T_NUM, "5"⟩, ⟨.T_SEMI_COL, ";"⟩,
   ⟨.T_REG, "_reg"⟩, ⟨.T_M_ID, "m1"⟩, ⟨.T_NUM, "6"⟩, ⟨.T_SEMI_COL, ";"⟩,
   ⟨.T_MEM, "_mem"⟩, ⟨.T_R_ID, "r1"⟩, ⟨.T_SEMI_COL, ";"⟩,
   ⟨.T_MEM, "_mem"⟩, ⟨.T_R_ID, "r1"⟩, ⟨.T_SEMI_COL, ";"⟩,
   ⟨.T_FUNC, "_func"⟩, ⟨.T_ID, "main"⟩, ⟨.T_SEMI_COL, ";"⟩,
   ⟨.T_END_OF_FILE, "EOF"⟩]

/-- The tokens of `_mem r1; _reg r2; _func main;`. -/
def sparsePositionTokens : List Token :=
  [⟨.T_MEM, "_mem"⟩, ⟨.T_R_ID, "r1"⟩, ⟨.T_SEMI_COL, ";"⟩,
   ⟨.T_REG, "_reg"⟩, ⟨.T_R_ID, "r2"⟩, ⟨.T_SEMI_COL, ";"⟩,
   ⟨.T_FUNC, "_func"⟩, ⟨.T_ID, "main"⟩, ⟨.T_SEMI_COL, ";"⟩,
   ⟨.T_END_OF_FILE, "EOF"⟩]

/-- The tokens of `_reg m1 5; _reg foo; _mem r1; _func m2 1;`. -/
def misdeclaredTokens : List Token :=
  [⟨.T_REG, "_reg"⟩, ⟨.T_M_ID, "m1"⟩, ⟨.T_NUM, "5"⟩, ⟨.T_SEMI_COL, ";"⟩,
   ⟨.T_REG, "_reg"⟩, ⟨.T_ID, "foo"⟩, ⟨.T_SEMI_COL, ";"⟩,
   ⟨.T_MEM, "_mem"⟩, ⟨.T_R_ID, "r1"⟩, ⟨.T_SEMI_COL, ";"⟩,
   ⟨.T_FUNC, "_func"⟩, ⟨.T_M_ID, "m2"⟩, ⟨.T_NUM, "1"⟩, ⟨.T_SEMI_COL, ";"⟩,
   ⟨.T_END_OF_FILE, "EOF"⟩]

/-- The tokens of `_func main; _reg r1; lw r1, 99999999999(r9);`: the register `r9` is
undeclared and the literal before it does not fit an `int`. -/
def overlongLiteralTokens : List Token :=
  [⟨.T_FUNC, "_func"⟩, ⟨.T_ID, "main"⟩, ⟨.T_SEMI_COL, ";"⟩,
   ⟨.T_REG, "_reg"⟩, ⟨.T_R_ID, "r1"⟩, ⟨.T_SEMI_COL, ";"⟩,
   ⟨.T_LW, "lw"⟩, ⟨.T_R_ID, "r1"⟩, ⟨.T_COMMA, ","⟩, ⟨.T_NUM, "99999999999"⟩,
   ⟨.T_L_PARENT, "("⟩, ⟨.T_R_ID, "r9"⟩, ⟨.T_R_PARENT, ")"⟩, ⟨.T_SEMI_COL, ";"⟩,
   ⟨.T_END_OF_FILE, "EOF"⟩]

/-- The names of the variables of a table. -/
def names (heap : List Variable) (table : List Nat) : List String :=
  table.map (fun p => (deref heap p).m_name)

/-- The kinds of the variables of a table. -/
def kinds (heap : List Variable) (table : List Nat) : List VariableType :=
  table.map (fun p => (deref heap p).m_type)

/-- The positions of the variables of a table. -/
def positions (heap : List Variable) (table : List Nat) : List Int :=
  table.map (fun p => (deref heap p).m_position)

/-- The operand token is declared: a register id names an entry of the register table
and a memory id an entry of the memory table (other tokens need no declaration). -/
def Declared (s : SyntaxAnalysis) (tok : Token) : Prop :=
  (tok.tokenType = .T_R_ID → tok.value ∈ names s.heap s.reg_vars) ∧
  (tok.tokenType = .T_M_ID → tok.value ∈ names s.heap s.mem_vars)

instance (s : SyntaxAnalysis) (tok : Token) : Decidable (Declared s tok) := by
  unfold Declared
  exact inferInstance

/-- The tokens from the current position on have the types `tys`, the integer literals
among them are read by `stoi`, the identifiers are classified as by the lexer and the
table pointers are live. -/
def Window (tys : List TokenType) (s : SyntaxAnalysis) : Prop :=
  (∀ j, j < tys.length →
    (tokenAt s.tokens (s.currentToken + j)).tokenType = tys.getD j default) ∧
  (∀ j, j < tys.length → tys.getD j default = .T_NUM →
    (stoi (tokenAt s.tokens (s.currentToken + j)).value).toOption.isSome) ∧
  Lexed s.tokens ∧ TablesLive s

instance (tys : List TokenType) (s : SyntaxAnalysis) : Decidable (Window tys s) := by
  unfold Window
  exact inferInstance

/-- On tokens of the types `tys` with an undeclared operand among them the method raises
`VARIABLE_DOESNT_EXIST`, with the instruction list as it was. -/
def Rejects {α : Type} (m : Parser α) (tys : List TokenType) : Prop :=
  ∀ s, Window tys s →
    (∃ j, j < tys.length ∧ ¬ Declared s (tokenAt s.tokens (s.currentToken + j))) →
    ∃ s1, m s = .raise (.syntaxError .VARIABLE_DOESNT_EXIST) s1 ∧ s1.instrs = s.instrs ∧
      s1.err = true

/-- On tokens of the types `tys` whose operands are all declared the method returns,
having consumed these tokens. -/
def Accepts {α : Type} (m : Parser α) (tys : List TokenType) : Prop :=
  ∀ s, Window tys s →
    (∀ j, j < tys.length → Declared s (tokenAt s.tokens (s.currentToken + j))) →
    ∃ a s1, m s = .ok a s1 ∧ Opnd s s1 ∧ s1.currentToken = s.currentToken + tys.length

/-- The state of the parser on `overlongLiteralTokens` after the two declarations. -/
def overlongLiteralState : SyntaxAnalysis :=
  (((do S; eat .T_SEMI_COL; S; eat .T_SEMI_COL : Parser Unit)
    (SyntaxAnalysis.init overlongLiteralTokens)).state).getD (SyntaxAnalysis.init [])

/-- The tokens of `_func main; _reg r1; lw r1, 4(r9);`: the register `r9` is undeclared. -/
def undeclaredOperandTokens : List Token :=
  [⟨.T_FUNC, "_func"⟩, ⟨.T_ID, "main"⟩, ⟨.T_SEMI_COL, ";"⟩,
   ⟨.T_REG, "_reg"⟩, ⟨.T_R_ID, "r1"⟩, ⟨.T_SEMI_COL, ";"⟩,
   ⟨.T_LW, "lw"⟩, ⟨.T_R_ID, "r1"⟩, ⟨.T_COMMA, ","⟩, ⟨.T_NUM, "4"⟩,
   ⟨.T_L_PARENT, "("⟩, ⟨.T_R_ID, "r9"⟩, ⟨.T_R_PARENT, ")"⟩, ⟨.T_SEMI_COL, ";"⟩,
   ⟨.T_END_OF_FILE, "EOF"⟩]

/-- The state of the parser on `undeclaredOperandTokens` after the two declarations. -/
def undeclaredOperandState : SyntaxAnalysis :=
  (((do S; eat .T_SEMI_COL; S; eat .T_SEMI_COL : Parser Unit)
    (SyntaxAnalysis.init undeclaredOperandTokens)).state).getD (SyntaxAnalysis.init [])

/-! ## LivenessAnalysis.cpp : control-flow graph -/

/-- The method `Instruction::addPred`. -/
def Instruction.addPred (i : Instruction) (inn : Nat) : Instruction :=
  if !contains i.m_pred inn then { i with m_pred := i.m_pred ++ [inn] } else i

/-- The method `Instruction::addSucc`. -/
def Instruction.addSucc (i : Instruction) (inn : Nat) : Instruction :=
  if !contains i.m_succ inn then { i with m_succ := i.m_succ ++ [inn] } else i

/-- The friend function `addEachother(successor, predecessor)` on the objects at two
places of the instruction list. -/
def addEachother (instrs : List Instruction) (successor predecessor : Nat) :
    List Instruction :=
  let instrs := instrs.set successor ((instrs.getD successor default).addPred predecessor)
  instrs.set predecessor ((instrs.getD predecessor default).addSucc successor)

/-- The friend function `findInstructionWithLabel`: the first instruction of the list
whose label pointer is `lab`; it throws when there is none. -/
def findInstructionWithLabel (heap : List Variable) (lab : Nat) (ins : List Instruction) :
    Except Exn Nat :=
  let k := ins.findIdx (fun i => i.label == some lab)
  if k < ins.length then .ok k
  else .error (.runtime_error ("No instruction with " ++ (deref heap lab).m_name ++ " exists!"))

/-- The friend function `findInstructionAfterFunc`: the instruction after `inn`, `none`
(`nullptr`) when `inn` is not in the list.  When `inn` is the last instruction the loop
increments the iterator `end()`, which is undefined behaviour. -/
def findInstructionAfterFunc (inn : Nat) (ins : List Instruction) : Except Exn (Option Nat) :=
  if inn + 1 < ins.length then .ok (some (inn + 1))
  else if inn < ins.length then .error (.undefined "increment of end()")
  else .ok none

/-- The statements that the cases `I_B` and `I_BLTZ` of `setPredAndSucc` share: the
instruction labelled with the last source operand is looked up, replaced by the
instruction after it when it is a function, and linked to the current instruction. -/
def linkLabeled (heap : List Variable) (instrs : List Instruction) (curr : Nat) :
    Except Exn (List Instruction) :=
  match (instrs.getD curr default).m_src.getLast? with
  | none => .error (.undefined "back() of an empty list")
  | some lab =>
    match findInstructionWithLabel heap lab instrs with
    | .error e => .error e
    | .ok labeledInstruction =>
      if (instrs.getD labeledInstruction default).isFunc then
        match findInstructionAfterFunc labeledInstruction instrs with
        | .error e => .error e
        | .ok none => .ok instrs
        | .ok (some after) => .ok (addEachother instrs after curr)
      else .ok (addEachother instrs labeledInstruction curr)

/-- The end of the loop body of `setPredAndSucc`: `++currentInstruction`, once more when
the instruction reached is a function. -/
def nextInstruction (instrs : List Instruction) (currentInstruction : Nat) : Nat :=
  if currentInstruction + 1 < instrs.length &&
      (instrs.getD (currentInstruction + 1) default).isFunc then
    currentInstruction + 2
  else currentInstruction + 1

/-- The body of the loop of `setPredAndSucc` up to the end of the `switch`: the
fall-through edge from the previous instruction, the reset of `shouldAddToNext` and the
cases `I_B` and `I_BLTZ`.  Returns the instruction list and `shouldAddToNext`. -/
def linkRound (heap : List Variable) (instrs : List Instruction)
    (currentInstruction prevInstruction : Nat) (shouldAddToNext : Bool) :
    Except Exn (List Instruction × Bool) :=
  let instrs :=
    if !(instrs.getD prevInstruction default).isFunc && shouldAddToNext then
      addEachother instrs currentInstruction prevInstruction
    else instrs
  let shouldAddToNext := if !shouldAddToNext then true else shouldAddToNext
  match (instrs.getD currentInstruction default).m_type with
  | .I_B =>
    match linkLabeled heap instrs currentInstruction with
    | .error e => .error e
    | .ok instrs => .ok (instrs, false)
  | .I_BLTZ =>
    match linkLabeled heap instrs currentInstruction with
    | .error e => .error e
    | .ok instrs => .ok (instrs, shouldAddToNext)
  | _ => .ok (instrs, shouldAddToNext)

/-- The `while` loop of `setPredAndSucc`.  Every round moves `currentInstruction`
forward, so `fuel = instrs.length` rounds are never used up. -/
def predAndSuccLoop (heap : List Variable) :
    Nat → Nat → Nat → Bool → List Instruction → Except Exn (List Instruction)
  | 0, _, _, _, instrs => .ok instrs
  | fuel + 1, currentInstruction, prevInstruction, shouldAddToNext, instrs =>
    if currentInstruction < instrs.length then
      match linkRound heap instrs currentInstruction prevInstruction shouldAddToNext with
      | .error e => .error e
      | .ok (instrs, shouldAddToNext) =>
        predAndSuccLoop heap fuel (nextInstruction instrs currentInstruction)
          currentInstruction shouldAddToNext instrs
    else .ok instrs

/-- The method `LivenessAnalysis::setPredAndSucc` on the instruction list.  On an empty
list `prevInstruction = currentInstruction++` increments `end()`, which is undefined. -/
def setPredAndSucc (heap : List Variable) (instrs : List Instruction) :
    Except Exn (List Instruction) :=
  if instrs.length = 0 then .error (.undefined "increment of end()")
  else predAndSuccLoop heap instrs.length 1 0 true instrs

/-- The successor lists of an instruction list. -/
def succs (instrs : List Instruction) : List (List Nat) := instrs.map (fun i => i.m_succ)

/-- The predecessor lists of an instruction list. -/
def preds (instrs : List Instruction) : List (List Nat) := instrs.map (fun i => i.m_pred)

/-- The tokens of `_func main; _reg r1; loop: li r1, -1; bltz r1, loop; b main; nop; nop;`. -/
def branchTokens : List Token :=
  [⟨.T_FUNC, "_func"⟩, ⟨.T_ID, "main"⟩, ⟨.T_SEMI_COL, ";"⟩,
   ⟨.T_REG, "_reg"⟩, ⟨.T_R_ID, "r1"⟩, ⟨.T_SEMI_COL, ";"⟩,
   ⟨.T_ID, "loop"⟩, ⟨.T_COL, ":"⟩, ⟨.T_LI, "li"⟩, ⟨.T_R_ID, "r1"⟩, ⟨.T_COMMA, ","⟩,
   ⟨.T_NUM, "-1"⟩, ⟨.T_SEMI_COL, ";"⟩,
   ⟨.T_BLTZ, "bltz"⟩, ⟨.T_R_ID, "r1"⟩, ⟨.T_COMMA, ","⟩, ⟨.T_ID, "loop"⟩, ⟨.T_SEMI_COL, ";"⟩,
   ⟨.T_B, "b"⟩, ⟨.T_ID, "main"⟩, ⟨.T_SEMI_COL, ";"⟩,
   ⟨.T_NOP, "nop"⟩, ⟨.T_SEMI_COL, ";"⟩,
   ⟨.T_NOP, "nop"⟩, ⟨.T_SEMI_COL, ";"⟩,
   ⟨.T_END_OF_FILE, "EOF"⟩]

/-- The state of the parser after `Do()` on `branchTokens`. -/
def branchParsed : SyntaxAnalysis :=
  ((SyntaxAnalysis.Do (SyntaxAnalysis.init branchTokens)).state).getD (SyntaxAnalysis.init [])

/-- The list `out` holds the instructions of `instrs` with the same labels, types and
source operands (`setPredAndSucc` writes the edge lists only). -/
def SameCode (instrs out : List Instruction) : Prop :=
  out.length = instrs.length ∧
    ∀ k, (out.getD k default).label = (instrs.getD k default).label ∧
      (out.getD k default).m_type = (instrs.getD k default).m_type ∧
      (out.getD k default).m_src = (instrs.getD k default).m_src

/-- The instruction at `t` is the first one of the list that carries the label `lab`. -/
def FirstLabelled (instrs : List Instruction) (lab t : Nat) : Prop :=
  t < instrs.length ∧ (instrs.getD t default).label = some lab ∧
    ∀ j, j < t → (instrs.getD j default).label ≠ some lab

/-- The instruction at `v` is the target of the branch at `c`: the first instruction
labelled with the last source operand of the branch, or the instruction after it when
that instruction is a function. -/
def Target (instrs : List Instruction) (c v : Nat) : Prop :=
  ∃ lab t, (instrs.getD c default).m_src.getLast? = some lab ∧ FirstLabelled instrs lab t ∧
    v = (if (instrs.getD t default).isFunc then t + 1 else t) ∧ v < instrs.length

/-- One round of the loop of `setPredAndSucc` on the triple
`(currentInstruction, prevInstruction, shouldAddToNext)`. -/
def Round (instrs : List Instruction) (x y : Nat × Nat × Bool) : Prop :=
  x.1 < instrs.length ∧ y.1 = nextInstruction instrs x.1 ∧ y.2.1 = x.1 ∧
    y.2.2 = decide ((instrs.getD x.1 default).m_type ≠ .I_B)

/-- The edge `k -> v` is added in the round `x`: the fall-through from the previous
instruction, or the branch of the current instruction to its target. -/
def EdgeAt (instrs : List Instruction) (x : Nat × Nat × Bool) (k v : Nat) : Prop :=
  x.1 < instrs.length ∧
  ((k = x.2.1 ∧ v = x.1 ∧ (instrs.getD x.2.1 default).isFunc = false ∧ x.2.2 = true ∧
      x.2.1 < instrs.length) ∨
   (k = x.1 ∧ ((instrs.getD x.1 default).m_type = .I_B ∨
      (instrs.getD x.1 default).m_type = .I_BLTZ) ∧ Target instrs x.1 v))

/-- The instruction at `v` is reached from the one at `u` along successor edges. -/
def Reach (instrs : List Instruction) (u v : Nat) : Prop :=
  Relation.ReflTransGen (fun a b => b ∈ (instrs.getD a default).m_succ) u v

/-- The first instruction is a function and no other instruction of the list is. -/
def EntryOnly (instrs : List Instruction) : Prop :=
  (instrs.getD 0 default).isFunc = true ∧
    ∀ j, j < instrs.length → 1 ≤ j → (instrs.getD j default).isFunc = false

instance (instrs : List Instruction) : Decidable (EntryOnly instrs) := by
  unfold EntryOnly
  exact inferInstance

/-- The instructions have no edges yet, as the parser leaves them. -/
def NoEdges (instrs : List Instruction) : Prop :=
  ∀ i ∈ instrs, i.m_succ = [] ∧ i.m_pred = []

instance (instrs : List Instruction) : Decidable (NoEdges instrs) := by
  unfold NoEdges
  exact inferInstance

/-- The label of every `b` and `bltz`, its last source operand, is attached to an
instruction of the list. -/
def LabelsAttached (instrs : List Instruction) : Prop :=
  ∀ c, c < instrs.length →
    ((instrs.getD c default).m_type = .I_B ∨ (instrs.getD c default).m_type = .I_BLTZ) →
    ∃ t, t < instrs.length ∧ (instrs.getD t default).label.isSome = true ∧
      (instrs.getD t default).label = (instrs.getD c default).m_src.getLast?

instance (instrs : List Instruction) : Decidable (LabelsAttached instrs) := by
  unfold LabelsAttached
  exact inferInstance

/-- The instruction list of `branchTokens` after `setPredAndSucc()`. -/
def branchLinked : List Instruction :=
  ((setPredAndSucc branchParsed.heap branchParsed.instrs).toOption).getD []

/-- The tokens of `_func main; _reg r1; loop: nop; bne r1, r1, loop; nop;`. -/
def bneTokens : List Token :=
  [⟨.T_FUNC, "_func"⟩, ⟨.T_ID, "main"⟩, ⟨.T_SEMI_COL, ";"⟩,
   ⟨.T_REG, "_reg"⟩, ⟨.T_R_ID, "r1"⟩, ⟨.T_SEMI_COL, ";"⟩,
   ⟨.T_ID, "loop"⟩, ⟨.T_COL, ":"⟩, ⟨.T_NOP, "nop"⟩, ⟨.T_SEMI_COL, ";"⟩,
   ⟨.T_BNE, "bne"⟩, ⟨.T_R_ID, "r1"⟩, ⟨.T_COMMA, ","⟩, ⟨.T_R_ID, "r1"⟩, ⟨.T_COMMA, ","⟩,
   ⟨.T_ID, "loop"⟩, ⟨.T_SEMI_COL, ";"⟩,
   ⟨.T_NOP, "nop"⟩, ⟨.T_SEMI_COL, ";"⟩,
   ⟨.T_END_OF_FILE, "EOF"⟩]

/-- The state of the parser after `Do()` on `bneTokens`. -/
def bneParsed : SyntaxAnalysis :=
  ((SyntaxAnalysis.Do (SyntaxAnalysis.init bneTokens)).state).getD (SyntaxAnalysis.init [])

/-- The instruction list of `bneTokens` after `setPredAndSucc()`. -/
def bneLinked : List Instruction :=
  ((setPredAndSucc bneParsed.heap bneParsed.instrs).toOption).getD []

/-! ## LexicalAnalysis.cpp, Token.cpp : the lexer -/

/-- State symbol definitions (Constants.h). -/
def IDLE_STATE : Int := 0

/-- The start state (Constants.h). -/
def START_STATE : Int := 1

/-- The invalid state (Constants.h). -/
def INVALID_STATE : Int := -2

/-- The class `FiniteStateMachine` as the lexer uses it.  The transition matrix and the
table of token types (FiniteStateMachine.cpp) are not among the sources; `getNextState`
and `getTokenType` are parameters. -/
structure FiniteStateMachine where
  getNextState : Int → Char → Int
  getTokenType : Int → TokenType

/-- The state of a `LexicalAnalysis` object: the program buffer (a `std::vector<char>`,
the bytes of the input file), the current position in it, the state machine, the list of
tokens and the erroneous token. -/
structure LexicalAnalysis where
  programBuffer : List Char
  programBufferPosition : Nat
  fsm : FiniteStateMachine
  tokenList : List Token
  errorToken : Token

/-- The letter `-1` that the lexer passes to the state machine at the end of the input:
the `char` with all bits set. -/
def endLetter : Char := Char.ofNat 255

/-- The method `Token::makeToken`: the value is the buffer from `begin` up to the end
position, the type comes from the last finite state. -/
def Token.makeToken (fsm : FiniteStateMachine) (begin endPos : Nat)
    (programBuffer : List Char) (lastFiniteState : Int) : Token :=
  ⟨fsm.getTokenType lastFiniteState, String.mk ((programBuffer.drop begin).take (endPos - begin))⟩

/-- The method `Token::makeErrorToken`. -/
def Token.makeErrorToken (pos : Nat) (programBuffer : List Char) : Token :=
  ⟨.T_ERROR, String.mk [programBuffer.getD pos default]⟩

/-- The method `Token::makeEofToken`. -/
def Token.makeEofToken : Token := ⟨.T_END_OF_FILE, "EOF"⟩

/-- The return of a token from `getNextTokenLex`: `makeToken` and the move of the buffer
position to `lastLetterPos`.  A token that ends behind the buffer makes `makeToken` read
outside the vector, which is undefined. -/
def returnToken (lex : LexicalAnalysis) (lastLetterPos : Nat) (lastFiniteState : Int) :
    Except Exn (Token × LexicalAnalysis) :=
  if lex.programBuffer.length < lastLetterPos then
    .error (.undefined "read outside the program buffer")
  else
    .ok (Token.makeToken lex.fsm lex.programBufferPosition lastLetterPos lex.programBuffer
      lastFiniteState, { lex with programBufferPosition := lastLetterPos })

/-- The return of an error token from `getNextTokenLex`: `makeErrorToken` at
`programBufferPosition + counter - 1`, which also becomes the buffer position. -/
def returnError (lex : LexicalAnalysis) (counter : Nat) : Except Exn (Token × LexicalAnalysis) :=
  .ok (Token.makeErrorToken (lex.programBufferPosition + counter - 1) lex.programBuffer,
    { lex with programBufferPosition := lex.programBufferPosition + counter - 1 })

/-- The loop `while (true)` of `getNextTokenLex` on the variables `currentState`,
`lastFiniteState`, `counter` and `lastLetterPos`.  The result is `none` when the loop
has not ended after `fuel` rounds. -/
def lexLoop (lex : LexicalAnalysis) :
    Nat → Int → Int → Nat → Nat → Option (Except Exn (Token × LexicalAnalysis))
  | 0, _, _, _, _ => none
  | fuel + 1, currentState, lastFiniteState, counter, lastLetterPos =>
    let letterIndex := lex.programBufferPosition + counter
    if ¬ letterIndex < lex.programBuffer.length ∧
        lex.programBuffer.length ≤ lex.programBufferPosition then
      some (.ok (Token.makeEofToken, lex))
    else
      let letter :=
        if letterIndex < lex.programBuffer.length then lex.programBuffer.getD letterIndex default
        else endLetter
      let nextState := lex.fsm.getNextState currentState letter
      let counter := counter + 1
      if nextState > IDLE_STATE then
        if nextState = START_STATE then
          some (.error (.runtime_error
            "\nException: Infinite state detected! There is something very wrong with the code !\n"))
        else lexLoop lex fuel nextState nextState counter (lex.programBufferPosition + counter)
      else if nextState = INVALID_STATE then
        if lastFiniteState ≠ IDLE_STATE then some (returnToken lex lastLetterPos lastFiniteState)
        else some (returnError lex counter)
      else
        if ((lastLetterPos : Int) - (lex.programBufferPosition : Int)) > 0 then
          some (returnToken lex lastLetterPos lastFiniteState)
        else some (returnError lex counter)

/-- The method `LexicalAnalysis::getNextTokenLex`: the token and the state of the
object after the call, `none` when the scan has not ended after `fuel` letters. -/
def getNextTokenLex (fuel : Nat) (lex : LexicalAnalysis) :
    Option (Except Exn (Token × LexicalAnalysis)) :=
  lexLoop lex fuel START_STATE 0 0 lex.programBufferPosition

/-- The token that a call returned and the buffer position after it. -/
def returnedToken (r : Option (Except Exn (Token × LexicalAnalysis))) : Option (Token × Nat) :=
  match r with
  | some (.ok (token, lex)) => some (token, lex.programBufferPosition)
  | _ => none

/-- A state machine for the examples: letters `a` make an identifier, blanks make white
space, and every other letter leads to the invalid state. -/
def exampleFsm : FiniteStateMachine where
  getNextState := fun state letter =>
    if letter = 'a' ∧ (state = 1 ∨ state = 2) then 2
    else if letter = ' ' ∧ (state = 1 ∨ state = 3) then 3
    else -2
  getTokenType := fun state =>
    if state = 2 then .T_ID else if state = 3 then .T_WHITE_SPACE else .T_NO_TYPE

/-- A lexer on the buffer `aa @a` with the example state machine. -/
def exampleLex : LexicalAnalysis :=
  ⟨"aa @a".toList, 0, exampleFsm, [], default⟩

/-- A lexer on the buffer `aa a` with the example state machine. -/
def cleanLex : LexicalAnalysis :=
  ⟨"aa a".toList, 0, exampleFsm, [], default⟩

/-- The tokens of successive calls `getNextTokenLex()` that moved the buffer position,
starting from the state `lex0`, and the state after them. -/
inductive Scanned (fuel : Nat) (lex0 : LexicalAnalysis) : List Token → LexicalAnalysis → Prop where
  | start : Scanned fuel lex0 [] lex0
  | call (tokens : List Token) (lex lex1 : LexicalAnalysis) (token : Token) :
      Scanned fuel lex0 tokens lex →
      getNextTokenLex fuel lex = some (.ok (token, lex1)) →
      lex1.programBufferPosition ≠ lex.programBufferPosition →
      Scanned fuel lex0 (tokens ++ [token]) lex1

/-- The concatenation of the values of a list of tokens. -/
def values (tokens : List Token) : List Char :=
  (tokens.map (fun t => t.value.toList)).flatten

/-- The example lexer at the letter `@` of its buffer. -/
def errorLex : LexicalAnalysis :=
  { exampleLex with programBufferPosition := 3 }

/-- The tokens of `n` successive calls `getNextTokenLex()` and the state after them;
`none` when one of the calls throws or does not end. -/
def successiveCalls (fuel : Nat) : Nat → LexicalAnalysis → Option (List Token × LexicalAnalysis)
  | 0, lex => some ([], lex)
  | n + 1, lex =>
    match getNextTokenLex fuel lex with
    | some (.ok (token, lex1)) =>
      match successiveCalls fuel n lex1 with
      | some (tokens, lex2) => some (token :: tokens, lex2)
      | none => none
    | _ => none

/-! ## IR.cpp : the emitter -/

/-- The method `Variable::get`: the text that stands for the variable in the output. -/
def Variable.get (v : Variable) : String :=
  match v.m_type with
  | .REG_VAR =>
    match v.m_assignment with
    | .t0 => "$t0"
    | .t1 => "$t1"
    | .t2 => "$t2"
    | .t3 => "$t3"
    | _ => "error"
  | .CONST_VAR => to_string v.value
  | .LABEL_VAR => v.m_name
  | .MEM_VAR => v.m_name
  | _ => "error"

/-- The character that starts a placeholder of an instruction template. -/
def apostrophe : Char := Char.ofNat 39

/-- The function `replace(what, with)` on the characters of the two strings: the first
apostrophe of `what` and the character after it are replaced by `withText`
(`what.replace(what.find("'"), 2, with)`); without an apostrophe `what` is returned. -/
def replaceChars : List Char → List Char → List Char
  | [], _ => []
  | c :: rest, withText =>
    if c = apostrophe then withText ++ rest.drop 1 else c :: replaceChars rest withText

/-- The function `replace(std::string& what, std::string& with)` (IR.cpp). -/
def replace (what withText : String) : String :=
  String.mk (replaceChars what.toList withText.toList)

/-- The method `Instruction::toString`: the template of the instruction type. -/
def Instruction.toString (i : Instruction) : String :=
  match i.m_type with
  | .I_ADD => "add 'd, 's, 's"
  | .I_ADDI => "addi 'd, 's, 'c"
  | .I_B => "b 'l"
  | .I_BLTZ => "bltz 's, 'l"
  | .I_LA => "la 'd, 'm"
  | .I_LI => "li 'd, 'c"
  | .I_LW => "lw 'd, 'c('s)"
  | .I_SUB => "sub 'd, 's, 's"
  | .I_SW => "sw 's, 'c('s)"
  | .I_NOP => "nop"
  | .I_AND => "and 'd, 's, 's"
  | .I_OR => "or 'd, 's, 's"
  | .I_NOT => "not 'd, 's"
  | _ => ""

/-- The output operator `operator<<(std::ostream&, Instruction&)`: the text written for
an instruction. -/
def printInstruction (heap : List Variable) (i : Instruction) : String :=
  let val := i.toString
  let val :=
    match i.label with
    | some label => (deref heap label).get ++ ":" ++ (if i.isFunc then "" else "\n\t") ++ val
    | none => "\t" ++ val
  let val := i.m_dst.foldl (fun val dst => replace val (deref heap dst).get) val
  i.m_src.foldl (fun val src => replace val (deref heap src).get) val

/-- The body of an instruction line: the template of the instruction with the texts of
the destination and source operands substituted by `replace`, in this order. -/
def Instruction.body (heap : List Variable) (i : Instruction) : String :=
  (i.m_dst ++ i.m_src).foldl (fun val v => replace val (deref heap v).get) i.toString

/-- The start of an instruction line: the label with a colon, followed by a line break
and a tab unless the instruction is a function, or a tab alone without a label. -/
def lineHead (heap : List Variable) (i : Instruction) : String :=
  match i.label with
  | some label => (deref heap label).get ++ ":" ++ (if i.isFunc then "" else "\n\t")
  | none => "\t"

/-- The tokens of `_func main; _reg r1; _reg r2; done: lw r1, 4(r2); nop;`. -/
def emitTokens : List Token :=
  [⟨.T_FUNC, "_func"⟩, ⟨.T_ID, "main"⟩, ⟨.T_SEMI_COL, ";"⟩,
   ⟨.T_REG, "_reg"⟩, ⟨.T_R_ID, "r1"⟩, ⟨.T_SEMI_COL, ";"⟩,
   ⟨.T_REG, "_reg"⟩, ⟨.T_R_ID, "r2"⟩, ⟨.T_SEMI_COL, ";"⟩,
   ⟨.T_ID, "done"⟩, ⟨.T_COL, ":"⟩, ⟨.T_LW, "lw"⟩, ⟨.T_R_ID, "r1"⟩, ⟨.T_COMMA, ","⟩,
   ⟨.T_NUM, "4"⟩, ⟨.T_L_PARENT, "("⟩, ⟨.T_R_ID, "r2"⟩, ⟨.T_R_PARENT, ")"⟩, ⟨.T_SEMI_COL, ";"⟩,
   ⟨.T_NOP, "nop"⟩, ⟨.T_SEMI_COL, ";"⟩,
   ⟨.T_END_OF_FILE, "EOF"⟩]

/-- The state of the parser after `Do()` on `emitTokens`. -/
def emitParsed : SyntaxAnalysis :=
  ((SyntaxAnalysis.Do (SyntaxAnalysis.init emitTokens)).state).getD (SyntaxAnalysis.init [])

/-- The heap of `emitParsed` after an allocation that assigns `t0` to `r1` and `t1` to
`r2`. -/
def emitHeap : List Variable :=
  setAssignment (setAssignment emitParsed.heap 1 .t0) 2 .t1

/-- The text of an operand as the specification gives it: a register variable is written
as the register it is assigned to, `$t0` to `$t3`, a constant as its decimal value, a
memory or label variable as its name; an unassigned register variable and a variable
without a type have no text. -/
def operandText (v : Variable) : Option String :=
  match v.m_type with
  | .REG_VAR =>
    match v.m_assignment with
    | .t0 => some "$t0"
    | .t1 => some "$t1"
    | .t2 => some "$t2"
    | .t3 => some "$t3"
    | .no_assign => none
  | .CONST_VAR => some (toString v.value)
  | .MEM_VAR => some v.m_name
  | .LABEL_VAR => some v.m_name
  | .NO_TYPE => none

/-- The template `template` in which the k-th placeholder (an apostrophe and the letter
after it) is replaced by the k-th text of the list; `skip` says that the next character
is the letter of a placeholder just replaced.  Placeholders beyond the list stay. -/
def fillFrom : Bool → List Char → List String → List Char
  | _, [], _ => []
  | true, _ :: rest, texts => fillFrom false rest texts
  | false, c :: rest, [] => c :: fillFrom false rest []
  | false, c :: rest, text :: texts =>
    if c = apostrophe then text.toList ++ fillFrom true rest texts
    else c :: fillFrom false rest (text :: texts)

/-- The template with its placeholders replaced, from left to right, by the texts. -/
def fill (template : String) (texts : List String) : String :=
  String.mk (fillFrom false template.toList texts)

/-- The string holds no apostrophe. -/
def Clean (text : String) : Prop := apostrophe ∉ text.toList

instance (text : String) : Decidable (Clean text) := by
  unfold Clean
  exact inferInstance

/-- No token and no name of a variable holds an apostrophe, and every variable of the
heap has a type. -/
def HeapClean (s : SyntaxAnalysis) : Prop :=
  (∀ t ∈ s.tokens, Clean t.value) ∧ (∀ v ∈ s.heap, v.m_type ≠ .NO_TYPE ∧ Clean v.m_name)

/-- Every normal return of the method keeps `HeapClean` and returns a value with the
property `Q`. -/
def KeepsClean {α : Type} (m : Parser α) (Q : α → Prop) : Prop :=
  ∀ s a s1, HeapClean s → m s = .ok a s1 → HeapClean s1 ∧ Q a

/-- Every operand of every instruction is an object of the heap, and an instruction
other than `bne` has as many operands as its template has placeholders. -/
def InstrInv (s : SyntaxAnalysis) : Prop :=
  ∀ i ∈ s.instrs, (∀ p ∈ i.m_dst ++ i.m_src, p < s.heap.length) ∧
    (i.m_type ≠ .I_BNE → (i.m_dst ++ i.m_src).length = i.toString.toList.count apostrophe)

/-- The heap after register allocation: the variables of the parser, of which only the
assignments may have changed. -/
def Allocated (parsed heap : List Variable) : Prop :=
  heap.length = parsed.length ∧
  ∀ p, p < parsed.length → (deref heap p).m_type = (deref parsed p).m_type ∧
    (deref heap p).m_name = (deref parsed p).m_name ∧
    (deref heap p).value = (deref parsed p).value ∧
    (deref heap p).m_position = (deref parsed p).m_position

instance (parsed heap : List Variable) : Decidable (Allocated parsed heap) := by
  unfold Allocated
  exact inferInstance

/-! ## IR.h : the static position counters -/

/-- The object built by the constructor `SyntaxAnalysis(lexer)` in a process in which
the static members `Variable::counter` and `Instruction::counter` have the given values:
the constructor does not touch them. -/
def SyntaxAnalysis.construct (tokens : List Token) (varCounter insCounter : Nat) :
    SyntaxAnalysis :=
  ⟨tokens, 0, [], [], [], [], [], [], false, false, false, varCounter, insCounter⟩

/-- The variable with its position raised by `k` when it is a register variable. -/
def Variable.shift (k : Nat) (v : Variable) : Variable :=
  if v.m_type = .REG_VAR then { v with m_position := v.m_position + k } else v

/-- The instruction with its position raised by `k`. -/
def Instruction.shift (k : Nat) (i : Instruction) : Instruction :=
  { i with m_position := i.m_position + k }

/-- The state of a parser with the positions of its register variables and the counter
of variables raised by `v0`, and the positions of its instructions and the counter of
instructions raised by `i0`. -/
def SyntaxAnalysis.shift (v0 i0 : Nat) (s : SyntaxAnalysis) : SyntaxAnalysis :=
  { s with heap := s.heap.map (Variable.shift v0),
           instrs := s.instrs.map (Instruction.shift i0),
           varCounter := s.varCounter + v0,
           insCounter := s.insCounter + i0 }

/-- The outcome of a method with its state shifted and its value mapped by `g`. -/
def Result.shift {α : Type} (g : α → α) (v0 i0 : Nat) : Result α → Result α
  | .ok a s => .ok (g a) (s.shift v0 i0)
  | .raise e s => .raise e (s.shift v0 i0)
  | .outOfFuel => .outOfFuel

/-- The method run from a shifted state has the shifted outcome of the run from the
state itself, with its value mapped by `g`. -/
def Shifts {α : Type} (v0 i0 : Nat) (g : α → α) (m : Parser α) : Prop :=
  ∀ s, m (s.shift v0 i0) = (m s).shift g v0 i0

/-- The positions of the register variables of the table, in the order of the table. -/
def regPositions (s : SyntaxAnalysis) : List Int :=
  s.reg_vars.map (fun p => (deref s.heap p).m_position)

/-- The positions of the instructions, in the order of the list. -/
def insPositions (s : SyntaxAnalysis) : List Int :=
  s.instrs.map (fun i => i.m_position)

/-- The state after `Do()` of a second parser on `emitTokens`, constructed in the
process that has parsed `emitTokens` before. -/
def emitParsedAgain : SyntaxAnalysis :=
  ((SyntaxAnalysis.Do (SyntaxAnalysis.construct emitTokens emitParsed.varCounter
    emitParsed.insCounter)).state).getD (SyntaxAnalysis.init [])

/-- The statements that follow the construction of an instruction, run with the shifted
instruction from a shifted state, have the shifted outcome. -/
def ShiftsWith (v0 i0 : Nat) (f : Instruction → Parser Unit) : Prop :=
  ∀ i s, f (i.shift i0) (s.shift v0 i0) = (f i s).shift id v0 i0

/-! ## LivenessAnalysis.cpp : the constructor and the pipeline of `main()` -/

/-- The method `std::list::unique()`: of every run of consecutive equal elements only
the first is kept. -/
def unique : List Nat → List Nat
  | [] => []
  | [a] => [a]
  | a :: b :: rest => if a = b then unique (b :: rest) else a :: unique (b :: rest)

/-- The method `Instruction::setUse`: the register variables of the source list are
pushed to `m_use`, then `m_use.unique()`. -/
def Instruction.setUse (heap : List Variable) (i : Instruction) : Instruction :=
  { i with m_use := unique (i.m_src.foldl
      (fun use v => if (deref heap v).m_type = .REG_VAR then use ++ [v] else use) i.m_use) }

/-- The method `Instruction::setDef`: the register variables of the destination list are
pushed to `m_def`, then `m_def.unique()`. -/
def Instruction.setDef (heap : List Variable) (i : Instruction) : Instruction :=
  { i with m_def := unique (i.m_dst.foldl
      (fun defs v => if (deref heap v).m_type = .REG_VAR then defs ++ [v] else defs) i.m_def) }

/-- The method `LivenessAnalysis::setUseAndDef`. -/
def setUseAndDef (heap : List Variable) (instrs : List Instruction) : List Instruction :=
  instrs.map (fun i => (i.setDef heap).setUse heap)

/-- The constructor `LivenessAnalysis(SyntaxAnalysis&)`: the tables and the instruction list of
the parser, `setPredAndSucc()`, `setUseAndDef()` and a square matrix of zeros with a row
for every entry of the register table. -/
def LivenessAnalysis.construct (syn : SyntaxAnalysis) : Except Exn LivenessAnalysis :=
  match setPredAndSucc syn.heap syn.instrs with
  | .error e => .error e
  | .ok instrs =>
    .ok ⟨false, syn.heap, syn.reg_vars, syn.mem_vars, [],
      setUseAndDef syn.heap instrs, zeroMatrix syn.reg_vars.length⟩

/-- The part of `main()` after the lexer: `SyntaxAnalysis syn(lex); syn.Do();
LivenessAnalysis la(syn); la.Do();` in a fresh process.  The value is `none` when an
exception leaves `main()` or a `Do()` returns false, and the final state of the
`LivenessAnalysis` object otherwise. -/
def compile (tokens : List Token) : Option LivenessAnalysis :=
  match SyntaxAnalysis.Do (SyntaxAnalysis.init tokens) with
  | .ok true syn =>
    match LivenessAnalysis.construct syn with
    | .ok la =>
      match la.Do with
      | .ok (la, true) => some la
      | _ => none
    | .error _ => none
  | _ => none

/-- The `LivenessAnalysis` object that `main()` constructs for the tokens, before
`Do()`. -/
def constructed (tokens : List Token) : Option LivenessAnalysis :=
  match SyntaxAnalysis.Do (SyntaxAnalysis.init tokens) with
  | .ok true syn => (LivenessAnalysis.construct syn).toOption
  | _ => none

/-- The tokens of `_func main; _reg r1; _reg r2; li r1, 1; li r2, 2; add r1, r1, r1;`. -/
def deadDefTokens : List Token :=
  [⟨.T_FUNC, "_func"⟩, ⟨.T_ID, "main"⟩, ⟨.T_SEMI_COL, ";"⟩, ⟨.T_REG, "_reg"⟩, ⟨.T_R_ID, "r1"⟩,
   ⟨.T_SEMI_COL, ";"⟩, ⟨.T_REG, "_reg"⟩, ⟨.T_R_ID, "r2"⟩, ⟨.T_SEMI_COL, ";"⟩, ⟨.T_LI, "li"⟩,
   ⟨.T_R_ID, "r1"⟩, ⟨.T_COMMA, ","⟩, ⟨.T_NUM, "1"⟩, ⟨.T_SEMI_COL, ";"⟩, ⟨.T_LI, "li"⟩,
   ⟨.T_R_ID, "r2"⟩, ⟨.T_COMMA, ","⟩, ⟨.T_NUM, "2"⟩, ⟨.T_SEMI_COL, ";"⟩, ⟨.T_ADD, "add"⟩,
   ⟨.T_R_ID, "r1"⟩, ⟨.T_COMMA, ","⟩, ⟨.T_R_ID, "r1"⟩, ⟨.T_COMMA, ","⟩, ⟨.T_R_ID, "r1"⟩,
   ⟨.T_SEMI_COL, ";"⟩, ⟨.T_END_OF_FILE, "EOF"⟩]

/-- The tokens of `_func main; _reg r1; l0: add r1, r1, r1; l1: b l0; l2: b l1;` and so on up to `l10: b l9;`. -/
def chainTokens : List Token :=
  [⟨.T_FUNC, "_func"⟩, ⟨.T_ID, "main"⟩, ⟨.T_SEMI_COL, ";"⟩, ⟨.T_REG, "_reg"⟩, ⟨.T_R_ID, "r1"⟩,
   ⟨.T_SEMI_COL, ";"⟩, ⟨.T_ID, "l0"⟩, ⟨.T_COL, ":"⟩, ⟨.T_ADD, "add"⟩, ⟨.T_R_ID, "r1"⟩,
   ⟨.T_COMMA, ","⟩, ⟨.T_R_ID, "r1"⟩, ⟨.T_COMMA, ","⟩, ⟨.T_R_ID, "r1"⟩, ⟨.T_SEMI_COL, ";"⟩,
   ⟨.T_ID, "l1"⟩, ⟨.T_COL, ":"⟩, ⟨.T_B, "b"⟩, ⟨.T_ID, "l0"⟩, ⟨.T_SEMI_COL, ";"⟩, ⟨.T_ID, "l2"⟩,
   ⟨.T_COL, ":"⟩, ⟨.T_B, "b"⟩, ⟨.T_ID, "l1"⟩, ⟨.T_SEMI_COL, ";"⟩, ⟨.T_ID, "l3"⟩, ⟨.T_COL, ":"⟩,
   ⟨.T_B, "b"⟩, ⟨.T_ID, "l2"⟩, ⟨.T_SEMI_COL, ";"⟩, ⟨.T_ID, "l4"⟩, ⟨.T_COL, ":"⟩, ⟨.T_B, "b"⟩,
   ⟨.T_ID, "l3"⟩, ⟨.T_SEMI_COL, ";"⟩, ⟨.T_ID, "l5"⟩, ⟨.T_COL, ":"⟩, ⟨.T_B, "b"⟩, ⟨.T_ID, "l4"⟩,
   ⟨.T_SEMI_COL, ";"⟩, ⟨.T_ID, "l6"⟩, ⟨.T_COL, ":"⟩, ⟨.T_B, "b"⟩, ⟨.T_ID, "l5"⟩,
   ⟨.T_SEMI_COL, ";"⟩, ⟨.T_ID, "l7"⟩, ⟨.T_COL, ":"⟩, ⟨.T_B, "b"⟩, ⟨.T_ID, "l6"⟩,
   ⟨.T_SEMI_COL, ";"⟩, ⟨.T_ID, "l8"⟩, ⟨.T_COL, ":"⟩, ⟨.T_B, "b"⟩, ⟨.T_ID, "l7"⟩,
   ⟨.T_SEMI_COL, ";"⟩, ⟨.T_ID, "l9"⟩, ⟨.T_COL, ":"⟩, ⟨.T_B, "b"⟩, ⟨.T_ID, "l8"⟩,
   ⟨.T_SEMI_COL, ";"⟩, ⟨.T_ID, "l10"⟩, ⟨.T_COL, ":"⟩, ⟨.T_B, "b"⟩, ⟨.T_ID, "l9"⟩,
   ⟨.T_SEMI_COL, ";"⟩, ⟨.T_END_OF_FILE, "EOF"⟩]

/-- The tokens of `_func main; _reg r1; _reg r2; _reg r3; loop: add r1, r2, r1; bltz r1, loop; add r3, r1, r2;`. -/
def reorderTokens : List Token :=
  [⟨.T_FUNC, "_func"⟩, ⟨.T_ID, "main"⟩, ⟨.T_SEMI_COL, ";"⟩, ⟨.T_REG, "_reg"⟩, ⟨.T_R_ID, "r1"⟩,
   ⟨.T_SEMI_COL, ";"⟩, ⟨.T_REG, "_reg"⟩, ⟨.T_R_ID, "r2"⟩, ⟨.T_SEMI_COL, ";"⟩, ⟨.T_REG, "_reg"⟩,
   ⟨.T_R_ID, "r3"⟩, ⟨.T_SEMI_COL, ";"⟩, ⟨.T_ID, "loop"⟩, ⟨.T_COL, ":"⟩, ⟨.T_ADD, "add"⟩,
   ⟨.T_R_ID, "r1"⟩, ⟨.T_COMMA, ","⟩, ⟨.T_R_ID, "r2"⟩, ⟨.T_COMMA, ","⟩, ⟨.T_R_ID, "r1"⟩,
   ⟨.T_SEMI_COL, ";"⟩, ⟨.T_BLTZ, "bltz"⟩, ⟨.T_R_ID, "r1"⟩, ⟨.T_COMMA, ","⟩, ⟨.T_ID, "loop"⟩,
   ⟨.T_SEMI_COL, ";"⟩, ⟨.T_ADD, "add"⟩, ⟨.T_R_ID, "r3"⟩, ⟨.T_COMMA, ","⟩, ⟨.T_R_ID, "r1"⟩,
   ⟨.T_COMMA, ","⟩, ⟨.T_R_ID, "r2"⟩, ⟨.T_SEMI_COL, ";"⟩, ⟨.T_END_OF_FILE, "EOF"⟩]

/-- The `LivenessAnalysis` object after `Do()` on `deadDefTokens`. -/
def deadDefCompiled : LivenessAnalysis :=
  (compile deadDefTokens).getD ⟨true, [], [], [], [], [], []⟩

/-- The `LivenessAnalysis` object that `main()` constructs for `chainTokens`. -/
def chainLA : LivenessAnalysis :=
  (constructed chainTokens).getD ⟨true, [], [], [], [], [], []⟩

/-- The `LivenessAnalysis` object that `main()` constructs for `reorderTokens`. -/
def reorderLA : LivenessAnalysis :=
  (constructed reorderTokens).getD ⟨true, [], [], [], [], [], []⟩

/-- The tokens of `_func main; _reg r1; _reg r2; li r1, 0; add r2, r1, r1; nop;`. -/
def straightTokens : List Token :=
  [⟨.T_FUNC, "_func"⟩, ⟨.T_ID, "main"⟩, ⟨.T_SEMI_COL, ";"⟩, ⟨.T_REG, "_reg"⟩, ⟨.T_R_ID, "r1"⟩,
   ⟨.T_SEMI_COL, ";"⟩, ⟨.T_REG, "_reg"⟩, ⟨.T_R_ID, "r2"⟩, ⟨.T_SEMI_COL, ";"⟩, ⟨.T_LI, "li"⟩,
   ⟨.T_R_ID, "r1"⟩, ⟨.T_COMMA, ","⟩, ⟨.T_NUM, "0"⟩, ⟨.T_SEMI_COL, ";"⟩, ⟨.T_ADD, "add"⟩,
   ⟨.T_R_ID, "r2"⟩, ⟨.T_COMMA, ","⟩, ⟨.T_R_ID, "r1"⟩, ⟨.T_COMMA, ","⟩, ⟨.T_R_ID, "r1"⟩,
   ⟨.T_SEMI_COL, ";"⟩, ⟨.T_NOP, "nop"⟩, ⟨.T_SEMI_COL, ";"⟩, ⟨.T_END_OF_FILE, "EOF"⟩]

/-- The `LivenessAnalysis` object that `main()` constructs for `straightTokens`. -/
def straightLA : LivenessAnalysis :=
  (constructed straightTokens).getD ⟨true, [], [], [], [], [], []⟩

/-- The two lists hold the same variables, in whatever order and number. -/
def sameSet (a b : List Nat) : Bool :=
  a.all (fun v => contains b v) && b.all (fun v => contains a v)

/-- The loop body of `liveness()` in an analysis that compares IN and OUT as sets: the
assignments are those of `livenessVisit`, and `prevGood` is cleared only when the saved
IN or OUT differs from the new one as a set. -/
def livenessVisitSets (st : List Instruction × Bool) (k : Nat) : List Instruction × Bool :=
  let instrs := st.1
  let prevGood := st.2
  let curr := instrs.getD k default
  let savedIn := curr.m_in
  let savedOut := curr.m_out
  let out := getSuccIns instrs curr
  let curr := { curr with m_out := out }
  let inn := getUseWithOutWithoutDef curr
  let curr := { curr with m_in := inn }
  (instrs.set k curr,
    if prevGood then (if !sameSet savedIn inn || !sameSet savedOut out then false else prevGood)
    else prevGood)

/-- One pass of the analysis that compares sets. -/
def livenessPassSets (instrs : List Instruction) : List Instruction × Bool :=
  (List.range instrs.length).reverse.foldl livenessVisitSets (instrs, true)

/-- The loop of passes of the analysis that compares sets, with the cap of 10 passes. -/
def livenessForSets : Nat → Nat → Bool → List Instruction → List Instruction × Bool × Nat
  | 0, counter, done, instrs => (instrs, done, counter)
  | fuel + 1, counter, done, instrs =>
    if !done && counter < 10 then
      let r := livenessPassSets instrs
      livenessForSets fuel (counter + 1) r.2 r.1
    else (instrs, done, counter)

/-- The analysis of the specification: `liveness()` with the change test on sets. -/
def livenessSets (instrs : List Instruction) : List Instruction × Bool × Nat :=
  livenessForSets 10 0 false instrs

/-- The two lists have the same length and, at every index, the same USE, DEF and
successor lists and the same IN and OUT as sets. -/
def SameSets (a b : List Instruction) : Prop :=
  a.length = b.length ∧
    ∀ i, (a.getD i default).m_use = (b.getD i default).m_use ∧
      (a.getD i default).m_def = (b.getD i default).m_def ∧
      (a.getD i default).m_succ = (b.getD i default).m_succ ∧
      (∀ v, v ∈ (a.getD i default).m_in ↔ v ∈ (b.getD i default).m_in) ∧
      (∀ v, v ∈ (a.getD i default).m_out ↔ v ∈ (b.getD i default).m_out)

/-! ## Simplification choice, simplification stack and colours -/

/-- The degree of node `i` in the graph of the matrix: the number of other nodes `j`
with `matrix[i][j] = 1`. -/
def degree (matrix : Matrix) (i : Nat) : Nat :=
  (List.range matrix.length).countP (fun j => decide (j ≠ i ∧ matAt matrix i j = 1))

/-- Two nodes without an edge. -/
def twoIsolated : Matrix := [[0, 0], [0, 0]]

/-- The path 0 - 1 - 2 - 3: the inner nodes 1 and 2 have degree 2, the ends degree 1. -/
def pathOfFour : Matrix := [[0, 1, 0, 0], [1, 0, 1, 0], [0, 1, 0, 1], [0, 0, 1, 0]]

/-- The states of the loop of `createSimplificationStack` on the matrix `G` and the
register table `reg_vars`: the working matrix, the list of not-yet-taken variables and
the stack at the start and after every iteration. -/
inductive Simplifying (G : Matrix) (reg_vars : List Nat) :
    Matrix → List Nat → List Nat → Prop where
  | start : Simplifying G reg_vars G reg_vars []
  | step (matrixToWorkOn : Matrix) (notYetTaken result : List Nat) (curr found : Nat) :
      Simplifying G reg_vars matrixToWorkOn notYetTaken result →
      findElementWithHighestRang matrixToWorkOn = .ok curr →
      notYetTaken[curr]? = some found →
      Simplifying G reg_vars (removeElementOfMatrix curr matrixToWorkOn)
        (notYetTaken.eraseIdx curr) (found :: result)

/-- The working matrix and the list of not-yet-taken variables denote the same nodes
index by index: there are indices of the register table, different from each other, such
that the k-th variable of the list is the table entry of the k-th index and the working
matrix is the matrix `G` restricted to these indices, in this order. -/
def Aligned (G : Matrix) (reg_vars : List Nat) (matrixToWorkOn : Matrix)
    (notYetTaken : List Nat) : Prop :=
  ∃ idx : List Nat, idx.Nodup ∧ (∀ a ∈ idx, a < reg_vars.length) ∧
    matrixToWorkOn.length = idx.length ∧
    notYetTaken = idx.map (fun a => reg_vars.getD a 0) ∧
    ∀ a b, a < idx.length → b < idx.length →
      matAt matrixToWorkOn a b = matAt G (idx.getD a 0) (idx.getD b 0)

/-- The triangle 0 - 1 - 2 and the isolated node 3. -/
def triangleAndOne : Matrix := [[0, 1, 1, 0], [1, 0, 1, 0], [1, 1, 0, 0], [0, 0, 0, 0]]

/-- The object in `Do()` after `liveness()` and `setGraph()`, on which
`resourceAllocation()` runs. -/
def analysed (la : LivenessAnalysis) : LivenessAnalysis :=
  setGraph { la with instrs := (liveness la.instrs).1 }

/-- The `LivenessAnalysis` object after `Do()` on `reorderTokens`. -/
def reorderCompiled : LivenessAnalysis :=
  (compile reorderTokens).getD ⟨true, [], [], [], [], [], []⟩

/-! ## IR.cpp : the USE and DEF sets -/

/-- No pointer of the register table is a pointer of the label table. -/
def Apart (s : SyntaxAnalysis) : Prop := ∀ p ∈ s.reg_vars, p ∉ s.label_vars

/-- The shape of an instruction as `S()` and `E()` build it: USE and DEF are empty, there
is at most one destination and none for `sw` and the branches, and there are at most two
sources, or three of which the middle one is an entry of the constant table (`sw`) or of
which the first is an entry of the register table and the last one of the label table
(`bne`). -/
def Shape (s : SyntaxAnalysis) (i : Instruction) : Prop :=
  i.m_use = [] ∧ i.m_def = [] ∧ i.m_dst.length ≤ 1 ∧
  ((i.m_type = .I_SW ∨ i.m_type = .I_B ∨ i.m_type = .I_BLTZ ∨ i.m_type = .I_BNE) →
    i.m_dst = []) ∧
  (i.m_src.length ≤ 2 ∨
    ∃ a c b, i.m_src = [a, c, b] ∧ (c ∈ s.const_vars ∨ (a ∈ s.reg_vars ∧ b ∈ s.label_vars)))

/-- The invariant of the parser that the USE and DEF sets rest on, with the operands
found so far: `ParserInv`, `Apart`, the shape of every instruction, and the tables that
the operands `regs`, `consts` and `labs` were found in. -/
def Facts (regs consts labs : List Nat) (s : SyntaxAnalysis) : Prop :=
  ParserInv s ∧ Apart s ∧ (∀ i ∈ s.instrs, Shape s i) ∧
  (∀ p ∈ regs, p ∈ s.reg_vars) ∧ (∀ p ∈ consts, p ∈ s.const_vars) ∧
  (∀ p ∈ labs, p ∈ s.label_vars)

/-- Every normal return of the method from a state with `P` gives a value and a state
with `Q`. -/
def Holds {α : Type} (P : SyntaxAnalysis → Prop) (m : Parser α)
    (Q : α → SyntaxAnalysis → Prop) : Prop :=
  ∀ s a s1, P s → m s = .ok a s1 → Q a s1

/-- The instruction has the given type and operand lists and empty USE and DEF, as the
constructor `Instruction(type, lab)` followed by `addDst` and `addSrc` leaves it. -/
def Built (type : InstructionType) (dst src : List Nat) (i : Instruction) : Prop :=
  i.m_type = type ∧ i.m_dst = dst ∧ i.m_src = src ∧ i.m_use = [] ∧ i.m_def = []

/-- The tokens of `_func main; _reg r1; _reg r2; add r1, r2, r2; sw r1, 0(r1);
loop: bne r1, r2, loop;`. -/
def useTokens : List Token :=
  [⟨.T_FUNC, "_func"⟩, ⟨.T_ID, "main"⟩, ⟨.T_SEMI_COL, ";"⟩, ⟨.T_REG, "_reg"⟩, ⟨.T_R_ID, "r1"⟩,
   ⟨.T_SEMI_COL, ";"⟩, ⟨.T_REG, "_reg"⟩, ⟨.T_R_ID, "r2"⟩, ⟨.T_SEMI_COL, ";"⟩, ⟨.T_ADD, "add"⟩,
   ⟨.T_R_ID, "r1"⟩, ⟨.T_COMMA, ","⟩, ⟨.T_R_ID, "r2"⟩, ⟨.T_COMMA, ","⟩, ⟨.T_R_ID, "r2"⟩,
   ⟨.T_SEMI_COL, ";"⟩, ⟨.T_SW, "sw"⟩, ⟨.T_R_ID, "r1"⟩, ⟨.T_COMMA, ","⟩, ⟨.T_NUM, "0"⟩,
   ⟨.T_L_PARENT, "("⟩, ⟨.T_R_ID, "r1"⟩, ⟨.T_R_PARENT, ")"⟩, ⟨.T_SEMI_COL, ";"⟩, ⟨.T_ID, "loop"⟩,
   ⟨.T_COL, ":"⟩, ⟨.T_BNE, "bne"⟩, ⟨.T_R_ID, "r1"⟩, ⟨.T_COMMA, ","⟩, ⟨.T_R_ID, "r2"⟩,
   ⟨.T_COMMA, ","⟩, ⟨.T_ID, "loop"⟩, ⟨.T_SEMI_COL, ";"⟩, ⟨.T_END_OF_FILE, "EOF"⟩]

/-- The state of the parser after `Do()` on `useTokens`. -/
def useParsed : SyntaxAnalysis :=
  ((SyntaxAnalysis.Do (SyntaxAnalysis.init useTokens)).state).getD (SyntaxAnalysis.init [])

/-! # Theorems -/


theorem foldl_range_bound {α : Type} (size : Nat) (P : α → Prop) (f : α → Nat → α)
    (hf : ∀ a i, P a → i < size → P (f a i)) (init : α) (h0 : P init) :
    ∀ l : List Nat, (∀ i ∈ l, i < size) → P (l.foldl f init) := by
  intro l
  induction l generalizing init with
  | nil => intro _; simpa using h0
  | cons x xs ih =>
    intro hl
    simp only [List.foldl_cons]
    exact ih _ (hf _ _ h0 (hl x (by simp))) (fun i hi => hl i (by simp [hi]))

theorem lastCandidate_lt (count : List Nat) (size max : Nat)
    (h : lastCandidate count size = some max) : max < size := by
  have key := foldl_range_bound size (fun o : Option Nat => ∀ m, o = some m → m < size)
    (fun max i => if count.getD i 0 < __REG_NUMBER__ then some i else max)
    (by
      intro a i ha hi m hm
      by_cases hc : count.getD i 0 < __REG_NUMBER__
      · simp only [hc, if_true] at hm
        cases hm; exact hi
      · simp only [hc, if_false] at hm
        exact ha m hm)
    none (by intro m hm; cases hm) (List.range size) (by intro i hi; simpa using hi)
  exact key max h

theorem raiseCandidate_lt (count : List Nat) (size max : Nat) (h : max < size) :
    raiseCandidate count size max < size := by
  refine foldl_range_bound size (fun m : Nat => m < size) _ ?_ max h (List.range size)
    (by intro i hi; simpa using hi)
  intro a i ha hi
  dsimp only
  split
  · exact hi
  · exact ha

theorem findElementWithHighestRang_lt (matrix : Matrix) (curr : Nat)
    (h : findElementWithHighestRang matrix = .ok curr) : curr < matrix.length := by
  unfold findElementWithHighestRang at h
  simp only at h
  split at h
  · cases h
  · rename_i max hmax
    cases h
    exact raiseCandidate_lt _ _ _ (lastCandidate_lt _ _ _ hmax)

theorem length_removeElementOfMatrix (element : Nat) (matrix : Matrix)
    (h : element < matrix.length) :
    (removeElementOfMatrix element matrix).length = matrix.length - 1 := by
  simp [removeElementOfMatrix, List.length_eraseIdx, h]

theorem perm_cons_eraseIdx {α : Type} (l : List α) (i : Nat) (x : α) (h : l[i]? = some x) :
    (x :: l.eraseIdx i).Perm l := by
  induction l generalizing i with
  | nil => simp at h
  | cons y ys ih =>
    cases i with
    | zero =>
      simp at h
      subst h
      simp
    | succ j =>
      simp at h
      simp only [List.eraseIdx_cons_succ]
      exact (List.Perm.swap y x _).trans ((ih j h).cons y)

theorem simplificationLoop_perm (n : Nat) :
    ∀ (mat : Matrix) (nyt res st : List Nat), mat.length = n → nyt.length = n →
      simplificationLoop n mat nyt res = .ok st → st.Perm (nyt ++ res) := by
  induction n with
  | zero =>
    intro mat nyt res st _ hn h
    simp only [simplificationLoop] at h
    cases h
    have : nyt = [] := List.length_eq_zero.mp hn
    simp [this]
  | succ n ih =>
    intro mat nyt res st hm hn h
    simp only [simplificationLoop] at h
    split at h
    · cases h
    · rename_i curr hcurr
      have hlt := findElementWithHighestRang_lt _ _ hcurr
      split at h
      · cases h
      · rename_i found hfound
        have h1 : (removeElementOfMatrix curr mat).length = n := by
          rw [length_removeElementOfMatrix _ _ hlt, hm]; rfl
        have h2 : (nyt.eraseIdx curr).length = n := by
          rw [List.length_eraseIdx]
          have : curr < nyt.length := by omega
          rw [if_pos this, hn]; rfl
        have := ih _ _ _ _ h1 h2 h
        refine this.trans ?_
        have hp := perm_cons_eraseIdx nyt curr found hfound
        have : (nyt.eraseIdx curr ++ found :: res).Perm (found :: nyt.eraseIdx curr ++ res) := by
          simp
        exact this.trans (hp.append_right res)

theorem createSimplificationStack_perm (m : Matrix) (reg_vars st : List Nat)
    (hsize : m.length = reg_vars.length) (h : createSimplificationStack m reg_vars = .ok st) :
    st.Perm reg_vars := by
  have := simplificationLoop_perm m.length m reg_vars [] st rfl hsize.symm h
  simpa using this



theorem deref_setAssignment (heap : List Variable) (p q : Nat) (r : Regs) :
    deref (setAssignment heap p r) q =
      if q = p ∧ p < heap.length then { deref heap p with m_assignment := r } else deref heap q := by
  unfold setAssignment deref
  by_cases hqp : q = p
  · subst hqp
    by_cases hlt : q < heap.length
    · simp [List.getD_eq_getElem?_getD, List.getElem?_set, hlt]
    · have hnone : heap[q]? = none := List.getElem?_eq_none (by omega)
      simp [List.getD_eq_getElem?_getD, List.getElem?_set, hlt, hnone]
  · have : p ≠ q := fun h => hqp h.symm
    simp [List.getD_eq_getElem?_getD, List.getElem?_set_ne this, hqp]

theorem getPos_setAssignment (heap : List Variable) (p q : Nat) (r : Regs) :
    getPos (setAssignment heap p r) q = getPos heap q := by
  unfold getPos
  rw [deref_setAssignment]
  split
  · rename_i h; rw [h.1]
  · rfl

theorem length_setAssignment (heap : List Variable) (p : Nat) (r : Regs) :
    (setAssignment heap p r).length = heap.length := by
  simp [setAssignment]

/-- The colours that survive the removal loop of `getColor`. -/
theorem mem_colorFold (m : Matrix) (heap : List Variable) (var : Nat) (vars : List Nat) :
    ∀ (allReg : List Int) (c : Int),
      c ∈ vars.foldl
        (fun allReg other =>
          if matAt m (getPos heap var) (getPos heap other) = 1 then
            allReg.filter (fun c => c ≠ (deref heap other).m_assignment.toInt)
          else allReg) allReg →
      c ∈ allReg ∧ ∀ other ∈ vars, matAt m (getPos heap var) (getPos heap other) = 1 →
        c ≠ (deref heap other).m_assignment.toInt := by
  induction vars with
  | nil => intro allReg c h; exact ⟨by simpa using h, by simp⟩
  | cons o os ih =>
    intro allReg c h
    simp only [List.foldl_cons] at h
    obtain ⟨h1, h2⟩ := ih _ _ h
    by_cases hc : matAt m (getPos heap var) (getPos heap o) = 1
    · simp only [hc, if_true] at h1
      rw [List.mem_filter] at h1
      refine ⟨h1.1, ?_⟩
      intro other ho hm
      rcases List.mem_cons.mp ho with rfl | ho
      · simpa using h1.2
      · exact h2 other ho hm
    · simp only [hc, if_false] at h1
      refine ⟨h1, ?_⟩
      intro other ho hm
      rcases List.mem_cons.mp ho with rfl | ho
      · exact absurd hm hc
      · exact h2 other ho hm

theorem getColor_spec (la : LivenessAnalysis) (var : Nat) (h : getColor la var ≠ -1) :
    (1 ≤ getColor la var ∧ getColor la var ≤ 4) ∧
      ∀ other ∈ la.vars,
        matAt la.interferenceGraph (getPos la.heap var) (getPos la.heap other) = 1 →
          getColor la var ≠ (deref la.heap other).m_assignment.toInt := by
  unfold getColor at h ⊢
  simp only at h ⊢
  split
  · rename_i heq; rw [heq] at h; exact absurd rfl h
  · rename_i c rest heq
    have hmem := mem_colorFold la.interferenceGraph la.heap var la.vars _ c
      (by rw [heq]; simp)
    refine ⟨?_, hmem.2⟩
    have h1 := hmem.1
    simp [__REG_NUMBER__, List.range_succ] at h1
    omega

theorem ofInt_toInt (c : Int) (h : 1 ≤ c ∧ c ≤ 4) : (Regs.ofInt c).toInt = c := by
  have : c = 1 ∨ c = 2 ∨ c = 3 ∨ c = 4 := by omega
  rcases this with rfl | rfl | rfl | rfl <;> rfl

theorem ofInt_good (c : Int) (h : 1 ≤ c ∧ c ≤ 4) : Regs.ofInt c ≠ Regs.no_assign := by
  have : c = 1 ∨ c = 2 ∨ c = 3 ∨ c = 4 := by omega
  rcases this with rfl | rfl | rfl | rfl <;> decide


theorem allocationLoop_frame :
    ∀ (st : List Nat) (prev : Option Nat) (la : LivenessAnalysis),
      (allocationLoop st prev la).interferenceGraph = la.interferenceGraph ∧
      (allocationLoop st prev la).reg_vars = la.reg_vars ∧
      (allocationLoop st prev la).heap.length = la.heap.length ∧
      ∀ q, getPos (allocationLoop st prev la).heap q = getPos la.heap q := by
  intro st
  induction st with
  | nil => intro prev la; simp [allocationLoop]
  | cons v st ih =>
    intro prev la
    cases prev with
    | none =>
      simp only [allocationLoop]
      obtain ⟨h1, h2, h3, h4⟩ := ih (some v)
        { la with vars := la.vars ++ [v], heap := setAssignment la.heap v (Regs.ofInt 1) }
      refine ⟨h1, h2, ?_, ?_⟩
      · rw [h3]; exact length_setAssignment _ _ _
      · intro q; rw [h4]; exact getPos_setAssignment _ _ _ _
    | some w =>
      simp only [allocationLoop]
      split
      · simp
      · obtain ⟨h1, h2, h3, h4⟩ := ih (some v)
          { la with vars := la.vars ++ [v],
                    heap := setAssignment la.heap v
                      (Regs.ofInt (getColor { la with vars := la.vars ++ [v] } v)) }
        refine ⟨h1, h2, ?_, ?_⟩
        · rw [h3]; exact length_setAssignment _ _ _
        · intro q; rw [h4]; exact getPos_setAssignment _ _ _ _

theorem allocationLoop_assigned :
    ∀ (st : List Nat) (prev : Option Nat) (la : LivenessAnalysis) (done : List Nat),
      (∀ p ∈ st, p < la.heap.length) →
      (∀ p ∈ done, (deref la.heap p).m_assignment ≠ Regs.no_assign) →
      (allocationLoop st prev la).err = false →
      ∀ p, p ∈ done ∨ p ∈ st →
        (deref (allocationLoop st prev la).heap p).m_assignment ≠ Regs.no_assign := by
  intro st
  induction st with
  | nil =>
    intro prev la done _ hdone _ p hp
    rcases hp with hp | hp
    · simpa [allocationLoop] using hdone p hp
    · simp at hp
  | cons v st ih =>
    intro prev la done hst hdone herr p hp
    have hv : v < la.heap.length := hst v (by simp)
    have step : ∀ (c : Int), (1 ≤ c ∧ c ≤ 4) →
        ∀ q ∈ v :: done,
          (deref (setAssignment la.heap v (Regs.ofInt c)) q).m_assignment ≠ Regs.no_assign := by
      intro c hc q hq
      rw [deref_setAssignment]
      by_cases hqv : q = v
      · simp only [hqv, hv, and_self, if_true]
        exact ofInt_good c hc
      · simp only [hqv, false_and, if_false]
        rcases List.mem_cons.mp hq with h | h
        · exact absurd h hqv
        · exact hdone q h
    have hp2 : p ∈ v :: done ∨ p ∈ st := by
      rcases hp with hp | hp
      · exact Or.inl (by simp [hp])
      · rcases List.mem_cons.mp hp with h | h
        · exact Or.inl (by simp [h])
        · exact Or.inr h
    cases prev with
    | none =>
      simp only [allocationLoop] at herr ⊢
      exact ih (some v) _ (v :: done)
        (by intro q hq; simpa [length_setAssignment] using hst q (by simp [hq]))
        (step 1 (by omega)) herr p hp2
    | some w =>
      simp only [allocationLoop] at herr ⊢
      split at herr
      · simp at herr
      · rename_i hcol
        rw [if_neg hcol]
        exact ih (some v) _ (v :: done)
          (by intro q hq; simpa [length_setAssignment] using hst q (by simp [hq]))
          (step _ (getColor_spec _ _ hcol).1) herr p hp2


theorem allocationLoop_valid (m : Matrix)
    (hsymm : ∀ x y, matAt m x y = matAt m y x) (hdiag : ∀ x, matAt m x x = 0) :
    ∀ (st : List Nat) (prev : Option Nat) (la : LivenessAnalysis) (done : List Nat),
      la.interferenceGraph = m →
      (∀ p ∈ st, p < la.heap.length) → st.Nodup → (∀ p ∈ st, p ∉ done) →
      (∀ p ∈ done, p ∈ la.vars) → (prev = none → done = []) →
      (∀ a ∈ done, ∀ b ∈ done, matAt m (getPos la.heap a) (getPos la.heap b) = 1 →
        (deref la.heap a).m_assignment ≠ (deref la.heap b).m_assignment) →
      (allocationLoop st prev la).err = false →
      ∀ a, (a ∈ done ∨ a ∈ st) → ∀ b, (b ∈ done ∨ b ∈ st) →
        matAt m (getPos la.heap a) (getPos la.heap b) = 1 →
        (deref (allocationLoop st prev la).heap a).m_assignment ≠
          (deref (allocationLoop st prev la).heap b).m_assignment := by
  intro st
  induction st with
  | nil =>
    intro prev la done _ _ _ _ _ _ hinv _ a ha b hb hab
    simp only [List.not_mem_nil, or_false] at ha hb
    simpa [allocationLoop] using hinv a ha b hb hab
  | cons v st ih =>
    intro prev la done hm hst hnd hfresh hvars hprev hinv herr a ha b hb hab
    have hv : v < la.heap.length := hst v (by simp)
    have hvdone : v ∉ done := hfresh v (by simp)
    have hnd2 : st.Nodup := (List.nodup_cons.mp hnd).2
    have hvst : v ∉ st := (List.nodup_cons.mp hnd).1
    -- the step: colouring `v` with `r` keeps the invariant when `r` avoids the neighbours
    have step : ∀ (r : Regs),
        (∀ b ∈ done, matAt m (getPos la.heap v) (getPos la.heap b) = 1 →
          r ≠ (deref la.heap b).m_assignment) →
        ∀ a ∈ v :: done, ∀ b ∈ v :: done,
          matAt m (getPos (setAssignment la.heap v r) a) (getPos (setAssignment la.heap v r) b) = 1 →
          (deref (setAssignment la.heap v r) a).m_assignment ≠
            (deref (setAssignment la.heap v r) b).m_assignment := by
      intro r hr a ha b hb hab
      rw [getPos_setAssignment, getPos_setAssignment] at hab
      rw [deref_setAssignment, deref_setAssignment]
      by_cases hav : a = v
      · by_cases hbv : b = v
        · subst hav; subst hbv
          rw [hdiag] at hab
          exact absurd hab (by decide)
        · have hbd : b ∈ done := by
            rcases List.mem_cons.mp hb with h | h
            · exact absurd h hbv
            · exact h
          subst hav
          simp only [hv, and_self, if_true, hbv, false_and, if_false]
          exact hr b hbd hab
      · have had : a ∈ done := by
          rcases List.mem_cons.mp ha with h | h
          · exact absurd h hav
          · exact h
        by_cases hbv : b = v
        · subst hbv
          simp only [hv, and_self, if_true, hav, false_and, if_false]
          rw [hsymm] at hab
          exact fun h => hr a had hab h.symm
        · have hbd : b ∈ done := by
            rcases List.mem_cons.mp hb with h | h
            · exact absurd h hbv
            · exact h
          simp only [hav, hbv, false_and, if_false]
          exact hinv a had b hbd hab
    have mem2 : ∀ p, (p ∈ done ∨ p ∈ v :: st) → (p ∈ v :: done ∨ p ∈ st) := by
      intro p hp
      rcases hp with hp | hp
      · exact Or.inl (by simp [hp])
      · rcases List.mem_cons.mp hp with h | h
        · exact Or.inl (by simp [h])
        · exact Or.inr h
    have hfresh2 : ∀ p ∈ st, p ∉ v :: done := by
      intro p hp hmem
      rcases List.mem_cons.mp hmem with h | h
      · exact hvst (h ▸ hp)
      · exact hfresh p (by simp [hp]) h
    cases prev with
    | none =>
      have hd : done = [] := hprev rfl
      simp only [allocationLoop] at herr ⊢
      have := ih (some v)
        { la with vars := la.vars ++ [v], heap := setAssignment la.heap v (Regs.ofInt 1) }
        (v :: done) hm
        (by intro q hq; simpa [length_setAssignment] using hst q (by simp [hq]))
        hnd2 hfresh2
        (by
          intro p hp
          rcases List.mem_cons.mp hp with h | h
          · simp [h]
          · simp [hvars p h])
        (by intro h; cases h)
        (step _ (by intro b hb; rw [hd] at hb; simp at hb))
        herr a (mem2 a ha) b (mem2 b hb)
        (by simpa [getPos_setAssignment] using hab)
      exact this
    | some w =>
      simp only [allocationLoop] at herr ⊢
      split at herr
      · simp at herr
      · rename_i hcol
        rw [if_neg hcol]
        have hspec := getColor_spec _ _ hcol
        have := ih (some v)
          { la with vars := la.vars ++ [v],
                    heap := setAssignment la.heap v
                      (Regs.ofInt (getColor { la with vars := la.vars ++ [v] } v)) }
          (v :: done) hm
          (by intro q hq; simpa [length_setAssignment] using hst q (by simp [hq]))
          hnd2 hfresh2
          (by
            intro p hp
            rcases List.mem_cons.mp hp with h | h
            · simp [h]
            · simp [hvars p h])
          (by intro h; cases h)
          (step _ (by
            intro b hb hvb heq
            have h2 := hspec.2 b (by simp [hvars b hb]) (by simpa [hm] using hvb)
            apply h2
            have := congrArg Regs.toInt heq
            rw [ofInt_toInt _ hspec.1] at this
            exact this))
          herr a (mem2 a ha) b (mem2 b hb)
          (by simpa [getPos_setAssignment] using hab)
        exact this

theorem setInterference_length (g : Matrix) (x y : Nat) :
    (setInterference g x y).length = g.length := by
  simp [setInterference]

theorem foldl_length_inv {α : Type} (f : Matrix → α → Matrix)
    (hf : ∀ g a, (f g a).length = g.length) (l : List α) (g : Matrix) :
    (l.foldl f g).length = g.length := by
  induction l generalizing g with
  | nil => rfl
  | cons a l ih => simp only [List.foldl_cons]; rw [ih, hf]

theorem setGraphLoop_length (heap : List Variable) (instrs : List Instruction) (g : Matrix) :
    (setGraphLoop heap instrs g).length = g.length := by
  unfold setGraphLoop
  apply foldl_length_inv
  intro g i
  apply foldl_length_inv
  intro g d
  split
  · apply foldl_length_inv
    intro g v
    split
    · exact setInterference_length _ _ _
    · rfl
  · rfl

theorem pointer_valid_of_pos (heap : List Variable) (p k : Nat)
    (h : (deref heap p).m_position = (k : Int)) : p < heap.length := by
  by_contra hlt
  have hnone : heap[p]? = none := List.getElem?_eq_none (by omega)
  have : deref heap p = default := by
    simp [deref, List.getD_eq_getElem?_getD, hnone]
  rw [this] at h
  have h2 : (default : Variable).m_position = -1 := rfl
  rw [h2] at h
  omega

theorem nodup_of_pos (heap : List Variable) (reg_vars : List Nat)
    (hpos : ∀ k (hk : k < reg_vars.length),
      (deref heap (reg_vars.get ⟨k, hk⟩)).m_position = (k : Int)) : reg_vars.Nodup := by
  rw [List.nodup_iff_injective_get]
  intro i j hij
  have hi := hpos i.1 i.2
  have hj := hpos j.1 j.2
  have e1 : reg_vars.get ⟨i.1, i.2⟩ = reg_vars.get i := rfl
  have e2 : reg_vars.get ⟨j.1, j.2⟩ = reg_vars.get j := rfl
  rw [e1, hij] at hi
  rw [e2, hi] at hj
  exact Fin.ext (by exact_mod_cast hj)

theorem matAt_eq_zero (n : Nat) (m : Matrix) (hsq : Square n m) (x y : Nat)
    (h : n ≤ x ∨ n ≤ y) : matAt m x y = 0 := by
  unfold matAt
  by_cases hx : x < m.length
  · have hrow : m.getD x [] = m[x] := by
      simp [List.getD_eq_getElem?_getD, List.getElem?_eq_getElem hx]
    have hlen : (m[x]).length = n := hsq.2 _ (List.getElem_mem hx)
    have hy : n ≤ y := by
      rcases h with h | h
      · have := hsq.1; omega
      · exact h
    rw [hrow]
    have hnone : (m[x])[y]? = none := List.getElem?_eq_none (by omega)
    simp [List.getD_eq_getElem?_getD, hnone]
  · have hnone : m[x]? = none := List.getElem?_eq_none (by omega)
    simp [List.getD_eq_getElem?_getD, hnone]

/-- C1. Colouring validity: over a symmetric, zero-diagonal R x R interference matrix
and a register table whose variables' positions equal their index in the table, a run of
`resourceAllocation` that neither raises nor sets the error flag leaves any two register
variables `a`, `b` with `interferenceGraph[a.pos][b.pos] = 1` with different physical
assignments. -/
theorem coloring_validity (la after : LivenessAnalysis)
    (hsq : Square la.reg_vars.length la.interferenceGraph)
    (hpos : ∀ k (hk : k < la.reg_vars.length),
      (deref la.heap (la.reg_vars.get ⟨k, hk⟩)).m_position = (k : Int))
    (hsymm : ∀ x, x < la.reg_vars.length → ∀ y, y < la.reg_vars.length →
      matAt la.interferenceGraph x y = matAt la.interferenceGraph y x)
    (hdiag : ∀ x, x < la.reg_vars.length → matAt la.interferenceGraph x x = 0)
    (hrun : resourceAllocation la = .ok after) (herr : after.err = false) :
    ∀ a ∈ after.reg_vars, ∀ b ∈ after.reg_vars,
      matAt after.interferenceGraph (getPos after.heap a) (getPos after.heap b) = 1 →
        (deref after.heap a).m_assignment ≠ (deref after.heap b).m_assignment := by
  have hsymm2 : ∀ x y, matAt la.interferenceGraph x y = matAt la.interferenceGraph y x := by
    intro x y
    by_cases hx : x < la.reg_vars.length
    · by_cases hy : y < la.reg_vars.length
      · exact hsymm x hx y hy
      · rw [matAt_eq_zero _ _ hsq x y (Or.inr (by omega)),
          matAt_eq_zero _ _ hsq y x (Or.inl (by omega))]
    · rw [matAt_eq_zero _ _ hsq x y (Or.inl (by omega)),
        matAt_eq_zero _ _ hsq y x (Or.inr (by omega))]
  have hdiag2 : ∀ x, matAt la.interferenceGraph x x = 0 := by
    intro x
    by_cases hx : x < la.reg_vars.length
    · exact hdiag x hx
    · exact matAt_eq_zero _ _ hsq x x (Or.inl (by omega))
  unfold resourceAllocation at hrun
  split at hrun
  · cases hrun
  · rename_i st hst
    cases hrun
    have hperm := createSimplificationStack_perm _ _ _ hsq.1 hst
    have hnd : la.reg_vars.Nodup := nodup_of_pos _ _ hpos
    have hvalid : ∀ p ∈ st, p < la.heap.length := by
      intro p hp
      have hp2 : p ∈ la.reg_vars := hperm.subset hp
      obtain ⟨i, hi⟩ := List.get_of_mem hp2
      have := hpos i.1 i.2
      have e : la.reg_vars.get ⟨i.1, i.2⟩ = p := hi
      rw [e] at this
      exact pointer_valid_of_pos _ _ _ this
    obtain ⟨f1, f2, _, f4⟩ := allocationLoop_frame st none la
    intro a ha b hb hab
    rw [f2] at ha hb
    rw [f1, f4, f4] at hab
    exact allocationLoop_valid la.interferenceGraph hsymm2 hdiag2 st none la [] rfl hvalid
      (hperm.nodup_iff.mpr hnd) (by simp) (by simp) (by simp) (by simp) herr
      a (Or.inr (hperm.symm.subset ha)) b (Or.inr (hperm.symm.subset hb)) hab

/-- Witness of C1 on the example program: `r1` and `r2` interfere and get different
registers. -/
theorem coloring_validity_witness :
    (deref exampleAllocated.heap 0).m_assignment ≠ (deref exampleAllocated.heap 1).m_assignment :=
  coloring_validity exampleGraphLA exampleAllocated (by unfold Square; decide) (by decide)
    (by decide) (by decide) (by rfl) (by rfl) 0 (by decide) 1 (by decide) (by decide)

theorem contains_iff (vars : List Nat) (v : Nat) : contains vars v = true ↔ v ∈ vars := by
  unfold contains
  rw [List.any_eq_true]
  constructor
  · rintro ⟨x, hx, hxv⟩
    have : x = v := by simpa using hxv
    exact this ▸ hx
  · intro h
    exact ⟨v, h, by simp⟩

theorem mem_foldl_pushIfNew (l : List Nat) :
    ∀ (init : List Nat) (v : Nat), v ∈ l.foldl pushIfNew init ↔ v ∈ init ∨ v ∈ l := by
  induction l with
  | nil => intro init v; simp
  | cons x xs ih =>
    intro init v
    simp only [List.foldl_cons, ih, List.mem_cons]
    unfold pushIfNew
    by_cases hx : contains init x = true
    · have hx2 := (contains_iff _ _).mp hx
      simp only [hx, Bool.not_true, Bool.false_eq_true, if_false]
      constructor
      · rintro (h | h)
        · exact Or.inl h
        · exact Or.inr (Or.inr h)
      · rintro (h | h | h)
        · exact Or.inl h
        · exact Or.inl (h ▸ hx2)
        · exact Or.inr h
    · simp only [hx, Bool.not_false, if_true, List.mem_append, List.mem_singleton]
      tauto

theorem mem_getSuccIns (instrs : List Instruction) (curr : Instruction) (v : Nat) :
    v ∈ getSuccIns instrs curr ↔ ∃ s ∈ curr.m_succ, v ∈ (instrs.getD s default).m_in := by
  unfold getSuccIns
  have key : ∀ (succs : List Nat) (init : List Nat),
      v ∈ succs.foldl (fun vars s => (instrs.getD s default).m_in.foldl pushIfNew vars) init ↔
        v ∈ init ∨ ∃ s ∈ succs, v ∈ (instrs.getD s default).m_in := by
    intro succs
    induction succs with
    | nil => intro init; simp
    | cons s ss ih =>
      intro init
      simp only [List.foldl_cons, ih, mem_foldl_pushIfNew, List.mem_cons, exists_eq_or_imp]
      tauto
  simpa using key curr.m_succ []

theorem mem_getUseWithOutWithoutDef (curr : Instruction) (v : Nat) :
    v ∈ getUseWithOutWithoutDef curr ↔ v ∈ curr.m_use ∨ (v ∈ curr.m_out ∧ v ∉ curr.m_def) := by
  unfold getUseWithOutWithoutDef
  have key : ∀ (outs : List Nat) (init : List Nat),
      v ∈ outs.foldl (fun vars v => if !contains curr.m_def v then vars ++ [v] else vars) init ↔
        v ∈ init ∨ (v ∈ outs ∧ v ∉ curr.m_def) := by
    intro outs
    induction outs with
    | nil => intro init; simp
    | cons o os ih =>
      intro init
      simp only [List.foldl_cons, ih, List.mem_cons]
      by_cases ho : contains curr.m_def o = true
      · have ho2 := (contains_iff _ _).mp ho
        simp only [ho, Bool.not_true, Bool.false_eq_true, if_false]
        constructor
        · rintro (h | h)
          · exact Or.inl h
          · exact Or.inr ⟨Or.inr h.1, h.2⟩
        · rintro (h | ⟨h | h, h2⟩)
          · exact Or.inl h
          · exact absurd (h ▸ ho2) h2
          · exact Or.inr ⟨h, h2⟩
      · have ho2 : o ∉ curr.m_def := fun h => ho ((contains_iff _ _).mpr h)
        simp only [ho, Bool.not_false, if_true, List.mem_append, List.mem_singleton]
        constructor
        · rintro ((h | h) | h)
          · exact Or.inl h
          · exact Or.inr ⟨Or.inl h, h ▸ ho2⟩
          · exact Or.inr ⟨Or.inr h.1, h.2⟩
        · rintro (h | ⟨h | h, h2⟩)
          · exact Or.inl (Or.inl h)
          · exact Or.inl (Or.inr h)
          · exact Or.inr ⟨h, h2⟩
  simp only [mem_foldl_pushIfNew, key]
  simp
  tauto

theorem getD_set_instr (l : List Instruction) (k i : Nat) (c : Instruction) :
    (l.set k c).getD i default = if i = k ∧ k < l.length then c else l.getD i default := by
  by_cases hik : i = k
  · subst hik
    by_cases hlt : i < l.length
    · simp [List.getD_eq_getElem?_getD, List.getElem?_set, hlt]
    · have hnone : l[i]? = none := List.getElem?_eq_none (by omega)
      simp [List.getD_eq_getElem?_getD, List.getElem?_set, hlt, hnone]
  · have : k ≠ i := fun h => hik h.symm
    simp [List.getD_eq_getElem?_getD, List.getElem?_set_ne this, hik]

theorem set_getD_self (l : List Instruction) (k : Nat) : l.set k (l.getD k default) = l := by
  apply List.ext_getElem?
  intro i
  by_cases hik : k = i
  · subst hik
    by_cases hlt : k < l.length
    · simp [List.getElem?_set, hlt, List.getD_eq_getElem?_getD]
    · have hnone : l[k]? = none := List.getElem?_eq_none (by omega)
      simp [List.getElem?_set, hlt, hnone]
  · simp [List.getElem?_set_ne hik]

theorem instr_update_self (c : Instruction) (o i : List Nat) (ho : c.m_out = o)
    (hi : c.m_in = i) : ({ ({ c with m_out := o } : Instruction) with m_in := i }) = c := by
  cases c
  simp only at ho hi
  subst ho; subst hi
  rfl

theorem livenessVisit_true (instrs after : List Instruction) (b : Bool) (k : Nat)
    (h : livenessVisit (instrs, b) k = (after, true)) :
    b = true ∧ after = instrs ∧ FixAt instrs k := by
  have h1 := congrArg Prod.fst h
  have h2 := congrArg Prod.snd h
  change instrs.set k
      { ({ instrs.getD k default with
            m_out := getSuccIns instrs (instrs.getD k default) } : Instruction) with
        m_in := getUseWithOutWithoutDef
          { instrs.getD k default with
            m_out := getSuccIns instrs (instrs.getD k default) } } = after at h1
  change (if b then
      (if (instrs.getD k default).m_in ≠ getUseWithOutWithoutDef
            { instrs.getD k default with
              m_out := getSuccIns instrs (instrs.getD k default) } ∨
          (instrs.getD k default).m_out ≠ getSuccIns instrs (instrs.getD k default)
        then false else b)
      else b) = true at h2
  cases b with
  | false => simp at h2
  | true =>
    rw [if_pos rfl] at h2
    split at h2
    · cases h2
    · rename_i hc
      simp only [not_or, not_not] at hc
      obtain ⟨hin, hout⟩ := hc
      rw [instr_update_self _ _ _ hout hin, set_getD_self] at h1
      have e1 : ({ instrs.getD k default with
          m_out := getSuccIns instrs (instrs.getD k default) } : Instruction)
          = instrs.getD k default := by
        have := instr_update_self (instrs.getD k default) _ _ hout rfl
        simpa using this
      rw [e1] at hin
      exact ⟨rfl, h1.symm, hout, hin⟩

theorem foldl_livenessVisit_true (l : List Nat) :
    ∀ (instrs after : List Instruction) (b : Bool),
      l.foldl livenessVisit (instrs, b) = (after, true) →
        b = true ∧ after = instrs ∧ ∀ k ∈ l, FixAt instrs k := by
  induction l with
  | nil =>
    intro instrs after b h
    simp only [List.foldl_nil, Prod.mk.injEq] at h
    exact ⟨h.2, h.1.symm, by simp⟩
  | cons x xs ih =>
    intro instrs after b h
    simp only [List.foldl_cons] at h
    have hv : livenessVisit (instrs, b) x =
        ((livenessVisit (instrs, b) x).1, (livenessVisit (instrs, b) x).2) := rfl
    rw [hv] at h
    obtain ⟨h1, h2, h3⟩ := ih _ _ _ h
    rw [h1] at hv
    obtain ⟨g1, g2, g3⟩ := livenessVisit_true _ _ _ _ hv
    rw [g2] at h2 h3
    refine ⟨g1, h2, ?_⟩
    intro k hk
    rcases List.mem_cons.mp hk with rfl | hk
    · exact g3
    · exact h3 k hk

theorem livenessPass_true (instrs after : List Instruction)
    (h : livenessPass instrs = (after, true)) :
    after = instrs ∧ ∀ k, k < instrs.length → FixAt instrs k := by
  unfold livenessPass at h
  obtain ⟨_, h2, h3⟩ := foldl_livenessVisit_true _ _ _ _ h
  exact ⟨h2, fun k hk => h3 k (by simpa using hk)⟩

theorem livenessFor_done (fuel : Nat) :
    ∀ (counter : Nat) (instrs : List Instruction),
      (livenessFor fuel counter false instrs).2.1 = true →
        ∀ k, k < (livenessFor fuel counter false instrs).1.length →
          FixAt (livenessFor fuel counter false instrs).1 k := by
  induction fuel with
  | zero => intro counter instrs h; simp [livenessFor] at h
  | succ n ih =>
    intro counter instrs h
    unfold livenessFor at h ⊢
    by_cases hc : counter < 10
    · simp only [Bool.not_false, Bool.true_and, decide_eq_true_eq, hc, if_true] at h ⊢
      cases hpg : (livenessPass instrs).2 with
      | false =>
        rw [hpg] at h
        exact ih _ _ h
      | true =>
        have hp : livenessPass instrs = ((livenessPass instrs).1, true) := by
          rw [← hpg]
        obtain ⟨e, hfix⟩ := livenessPass_true _ _ hp
        have stop : livenessFor n (counter + 1) true (livenessPass instrs).1
            = ((livenessPass instrs).1, true, counter + 1) := by
          cases n <;> simp [livenessFor]
        rw [stop]
        simp only
        rw [e]
        exact hfix
    · simp [hc] at h


theorem livenessVisit_fst (st : List Instruction × Bool) (k : Nat) :
    (livenessVisit st k).1 = st.1.set k
      { ({ st.1.getD k default with
            m_out := getSuccIns st.1 (st.1.getD k default) } : Instruction) with
        m_in := getUseWithOutWithoutDef
          { st.1.getD k default with
            m_out := getSuccIns st.1 (st.1.getD k default) } } := rfl

theorem livenessVisit_static (instrs : List Instruction) (st : List Instruction × Bool)
    (k : Nat) (h : SameStatic instrs st.1) : SameStatic instrs (livenessVisit st k).1 := by
  obtain ⟨hlen, hstat⟩ := h
  rw [livenessVisit_fst]
  refine ⟨by simpa using hlen, ?_⟩
  intro i
  rw [getD_set_instr]
  split
  · rename_i hik
    rw [hik.1]
    exact hstat k
  · exact hstat i

theorem livenessVisit_sound (instrs : List Instruction) (st : List Instruction × Bool)
    (k : Nat) (hs : SameStatic instrs st.1) (hin : InSound instrs st.1) :
    InSound instrs (livenessVisit st k).1 := by
  obtain ⟨_, hstat⟩ := hs
  rw [livenessVisit_fst]
  intro i v hv
  rw [getD_set_instr] at hv
  split at hv
  · rename_i hik
    rw [hik.1]
    change v ∈ getUseWithOutWithoutDef _ at hv
    rw [mem_getUseWithOutWithoutDef] at hv
    obtain ⟨hu, hd, hs⟩ := hstat k
    rcases hv with hv | ⟨hv, hnd⟩
    · exact LivePath.here k (hu ▸ hv)
    · change v ∈ getSuccIns _ _ at hv
      change v ∉ (st.1.getD k default).m_def at hnd
      rw [mem_getSuccIns] at hv
      obtain ⟨s, hs1, hs2⟩ := hv
      exact LivePath.next k s (hd ▸ hnd) (hs ▸ hs1) (hin s v hs2)
  · exact hin i v hv

theorem foldl_livenessVisit_sound (instrs : List Instruction) (l : List Nat) :
    ∀ (st : List Instruction × Bool), SameStatic instrs st.1 →
      SameStatic instrs (l.foldl livenessVisit st).1 ∧
      (InSound instrs st.1 → InSound instrs (l.foldl livenessVisit st).1) := by
  induction l with
  | nil => intro st h; exact ⟨h, fun h => h⟩
  | cons x xs ih =>
    intro st h
    simp only [List.foldl_cons]
    have h1 := livenessVisit_static instrs st x h
    exact ⟨(ih _ h1).1, fun hin => (ih _ h1).2 (livenessVisit_sound instrs st x h hin)⟩

theorem livenessFor_sound (instrs : List Instruction) (fuel : Nat) :
    ∀ (counter : Nat) (done : Bool) (cur : List Instruction), SameStatic instrs cur →
      SameStatic instrs (livenessFor fuel counter done cur).1 ∧
      (InSound instrs cur → InSound instrs (livenessFor fuel counter done cur).1) := by
  induction fuel with
  | zero => intro counter done cur h; exact ⟨h, fun h => h⟩
  | succ n ih =>
    intro counter done cur h
    unfold livenessFor
    split
    · have h1 := foldl_livenessVisit_sound instrs (List.range cur.length).reverse (cur, true) h
      have h2 := ih (counter + 1) (livenessPass cur).2 (livenessPass cur).1 h1.1
      exact ⟨h2.1, fun hin => h2.2 (h1.2 hin)⟩
    · exact ⟨h, fun h => h⟩

theorem sameStatic_refl (instrs : List Instruction) : SameStatic instrs instrs :=
  ⟨rfl, fun _ => ⟨rfl, rfl, rfl⟩⟩

theorem getD_default_of_ge (instrs : List Instruction) (i : Nat) (h : ¬ i < instrs.length) :
    instrs.getD i default = default := by
  have hnone : instrs[i]? = none := List.getElem?_eq_none (by omega)
  simp [List.getD_eq_getElem?_getD, hnone]

theorem inSound_init (instrs : List Instruction)
    (hempty : ∀ i ∈ instrs, i.m_in = [] ∧ i.m_out = []) : InSound instrs instrs := by
  intro i v hv
  exfalso
  by_cases hlt : i < instrs.length
  · have : instrs.getD i default = instrs[i] := by
      simp [List.getD_eq_getElem?_getD, List.getElem?_eq_getElem hlt]
    rw [this, (hempty _ (List.getElem_mem hlt)).1] at hv
    simp at hv
  · rw [getD_default_of_ge _ _ hlt] at hv
    change v ∈ ([] : List Nat) at hv
    simp at hv

theorem livePath_lt (instrs : List Instruction) (v i : Nat) (h : LivePath instrs v i) :
    i < instrs.length := by
  by_contra hlt
  have hd := getD_default_of_ge instrs i hlt
  cases h with
  | here _ hu =>
    rw [hd] at hu
    change v ∈ ([] : List Nat) at hu
    simp at hu
  | next _ s _ hs _ =>
    rw [hd] at hs
    change s ∈ ([] : List Nat) at hs
    simp at hs

theorem livePath_used (instrs : List Instruction) (v i : Nat) (h : LivePath instrs v i) :
    ∃ j, j < instrs.length ∧ v ∈ (instrs.getD j default).m_use := by
  induction h with
  | here i hu => exact ⟨i, livePath_lt _ _ _ (LivePath.here i hu), hu⟩
  | next i s _ _ _ ih => exact ih

/-- The two equations at an instruction where the loop body changes nothing, as
membership statements over the USE, DEF and successor sets of `instrs`. -/
theorem fixAt_mem (instrs cur : List Instruction) (hstat : SameStatic instrs cur) (i : Nat)
    (hfix : FixAt cur i) (v : Nat) :
    (v ∈ (cur.getD i default).m_in ↔
      v ∈ (instrs.getD i default).m_use ∨
        (v ∈ (cur.getD i default).m_out ∧ v ∉ (instrs.getD i default).m_def)) ∧
    (v ∈ (cur.getD i default).m_out ↔
      ∃ s ∈ (instrs.getD i default).m_succ, v ∈ (cur.getD s default).m_in) := by
  obtain ⟨hu, hd, hs⟩ := hstat.2 i
  obtain ⟨fout, fin⟩ := hfix
  constructor
  · rw [← hu, ← hd]
    nth_rewrite 1 [fin]
    exact mem_getUseWithOutWithoutDef _ _
  · rw [← hs]
    nth_rewrite 1 [fout]
    exact mem_getSuccIns _ _ _

/-- C3. Liveness fixpoint: when `liveness()` ends because a full reverse pass changed no
IN and no OUT (`done` is set), the list keeps its length and its USE, DEF and successor
sets, and at every instruction `i`, as sets, IN(i) = USE(i) ∪ (OUT(i) \ DEF(i)) and
OUT(i) is the union of IN(s) over the successors `s` of `i`. -/
theorem liveness_fixpoint (instrs : List Instruction)
    (hdone : (liveness instrs).2.1 = true) :
    (liveness instrs).1.length = instrs.length ∧
    ∀ i, i < instrs.length →
      ((liveness instrs).1.getD i default).m_use = (instrs.getD i default).m_use ∧
      ((liveness instrs).1.getD i default).m_def = (instrs.getD i default).m_def ∧
      ((liveness instrs).1.getD i default).m_succ = (instrs.getD i default).m_succ ∧
      ∀ v,
        (v ∈ ((liveness instrs).1.getD i default).m_in ↔
          v ∈ (instrs.getD i default).m_use ∨
            (v ∈ ((liveness instrs).1.getD i default).m_out ∧
              v ∉ (instrs.getD i default).m_def)) ∧
        (v ∈ ((liveness instrs).1.getD i default).m_out ↔
          ∃ s ∈ (instrs.getD i default).m_succ,
            v ∈ ((liveness instrs).1.getD s default).m_in) := by
  have hstat := (livenessFor_sound instrs 10 0 false instrs (sameStatic_refl instrs)).1
  have hfix := livenessFor_done 10 0 instrs hdone
  change SameStatic instrs (liveness instrs).1 at hstat
  change ∀ k, k < (liveness instrs).1.length → FixAt (liveness instrs).1 k at hfix
  refine ⟨hstat.1, ?_⟩
  intro i hi
  obtain ⟨hu, hd, hs⟩ := hstat.2 i
  exact ⟨hu, hd, hs, fixAt_mem instrs _ hstat i (hfix i (by rw [hstat.1]; exact hi))⟩

/-- Witness of C3 on the example program: at `add r3, r1, r2` (index 3) the variable
`r1` is in OUT exactly when it is in the IN of a successor. -/
theorem liveness_fixpoint_witness :
    (0 ∈ ((liveness exampleInstrs).1.getD 3 default).m_out ↔
      ∃ s ∈ (exampleInstrs.getD 3 default).m_succ,
        0 ∈ ((liveness exampleInstrs).1.getD s default).m_in) :=
  (((liveness_fixpoint exampleInstrs (by decide)).2 3 (by decide)).2.2.2 0).2

/-- C4. Liveness means live: starting from empty IN and OUT sets, when `liveness()` ends
on a pass without change, a variable `v` is in IN(i) exactly when a path
i = i0 -> ... -> ik along successor edges has `v` in USE(ik) and `v` in no DEF(ij), j < k;
so a variable that no instruction uses is in no IN and no OUT set. -/
theorem liveness_means_live (instrs : List Instruction)
    (hempty : ∀ i ∈ instrs, i.m_in = [] ∧ i.m_out = [])
    (hdone : (liveness instrs).2.1 = true) :
    (∀ i v, i < instrs.length →
      (v ∈ ((liveness instrs).1.getD i default).m_in ↔ LivePath instrs v i)) ∧
    (∀ v, (∀ j, j < instrs.length → v ∉ (instrs.getD j default).m_use) →
      ∀ i, i < instrs.length →
        v ∉ ((liveness instrs).1.getD i default).m_in ∧
        v ∉ ((liveness instrs).1.getD i default).m_out) := by
  have hstat := (livenessFor_sound instrs 10 0 false instrs (sameStatic_refl instrs)).1
  have hfix := livenessFor_done 10 0 instrs hdone
  change SameStatic instrs (liveness instrs).1 at hstat
  change ∀ k, k < (liveness instrs).1.length → FixAt (liveness instrs).1 k at hfix
  have hfp : ∀ i, i < instrs.length → ∀ v,
      (v ∈ ((liveness instrs).1.getD i default).m_in ↔
        v ∈ (instrs.getD i default).m_use ∨
          (v ∈ ((liveness instrs).1.getD i default).m_out ∧
            v ∉ (instrs.getD i default).m_def)) ∧
      (v ∈ ((liveness instrs).1.getD i default).m_out ↔
        ∃ s ∈ (instrs.getD i default).m_succ,
          v ∈ ((liveness instrs).1.getD s default).m_in) :=
    fun i hi => fixAt_mem instrs _ hstat i (hfix i (by rw [hstat.1]; exact hi))
  have hsound := (livenessFor_sound instrs 10 0 false instrs (sameStatic_refl instrs)).2
    (inSound_init instrs hempty)
  change InSound instrs (liveness instrs).1 at hsound
  have main : ∀ i v, LivePath instrs v i → v ∈ ((liveness instrs).1.getD i default).m_in := by
    intro i v hp
    induction hp with
    | here i hu =>
      have hi := livePath_lt _ _ _ (LivePath.here i hu)
      exact (hfp i hi v).1.mpr (Or.inl hu)
    | next i s hd hs hp ih =>
      have hi := livePath_lt _ _ _ (LivePath.next i s hd hs hp)
      have hout := (hfp i hi v).2.mpr ⟨s, hs, ih⟩
      exact (hfp i hi v).1.mpr (Or.inr ⟨hout, hd⟩)
  refine ⟨fun i v _ => ⟨hsound i v, main i v⟩, ?_⟩
  intro v hnu i hi
  have hnin : ∀ k, v ∉ ((liveness instrs).1.getD k default).m_in := by
    intro k hk
    obtain ⟨j, hj, hju⟩ := livePath_used _ _ _ (hsound k v hk)
    exact hnu j hj hju
  refine ⟨hnin i, ?_⟩
  intro hout
  obtain ⟨s, _, hs⟩ := (hfp i hi v).2.mp hout
  exact hnin s hs


/-- Witness of C4 on scenario 4: `r1` (variable 0) is live into `bltz` (index 2), by the
path of length 0, and is not live into `done` (index 4). -/
theorem liveness_means_live_witness :
    0 ∈ ((liveness bltzInstrs).1.getD 2 default).m_in ∧
    0 ∉ ((liveness bltzInstrs).1.getD 4 default).m_in :=
  ⟨((liveness_means_live bltzInstrs (by decide) (by decide)).1 2 0 (by decide)).mpr
      (LivePath.here 2 (by decide)),
    by decide⟩


theorem getD_set_eq {α : Type} (l : List α) (k i : Nat) (c d : α) :
    (l.set k c).getD i d = if i = k ∧ k < l.length then c else l.getD i d := by
  by_cases hik : i = k
  · subst hik
    by_cases hlt : i < l.length
    · simp [List.getD_eq_getElem?_getD, List.getElem?_set, hlt]
    · have hnone : l[i]? = none := List.getElem?_eq_none (by omega)
      simp [List.getD_eq_getElem?_getD, List.getElem?_set, hlt, hnone]
  · have : k ≠ i := fun h => hik h.symm
    simp [List.getD_eq_getElem?_getD, List.getElem?_set_ne this, hik]

theorem square_row (n : Nat) (g : Matrix) (hsq : Square n g) (x : Nat) (hx : x < n) :
    (g.getD x []).length = n := by
  have hx2 : x < g.length := by rw [hsq.1]; exact hx
  have : g.getD x [] = g[x] := by
    simp [List.getD_eq_getElem?_getD, List.getElem?_eq_getElem hx2]
  rw [this]
  exact hsq.2 _ (List.getElem_mem hx2)

theorem square_set (n : Nat) (g : Matrix) (hsq : Square n g) (x : Nat) (row : List Int)
    (hrow : row.length = n) : Square n (g.set x row) := by
  refine ⟨by simpa using hsq.1, ?_⟩
  intro r hr
  rcases List.mem_or_eq_of_mem_set hr with h | h
  · exact hsq.2 r h
  · rw [h]; exact hrow

theorem matAt_set (g : Matrix) (x : Nat) (row : List Int) (a b : Nat) :
    matAt (g.set x row) a b = if a = x ∧ x < g.length then row.getD b 0 else matAt g a b := by
  unfold matAt
  rw [getD_set_eq]
  split <;> rfl

theorem setInterference_addsEdges (n : Nat) (g : Matrix) (hsq : Square n g) (x y : Nat) :
    AddsEdges n g (setInterference g x y)
      (fun a b => ((a = x ∧ b = y) ∨ (a = y ∧ b = x)) ∧ x < n ∧ y < n) := by
  unfold setInterference
  simp only
  by_cases hx : x < n
  · by_cases hy : y < n
    · have hr1 : ((g.getD y []).set x 1).length = n := by
        simpa using square_row n g hsq y hy
      have hsq1 := square_set n g hsq y _ hr1
      have hr2 : (((g.set y ((g.getD y []).set x 1)).getD x []).set y 1).length = n := by
        simpa using square_row n _ hsq1 x hx
      refine ⟨square_set n _ hsq1 x _ hr2, ?_⟩
      intro a b
      have hlen1 : (g.set y ((g.getD y []).set x 1)).length = n := hsq1.1
      have hlen0 : g.length = n := hsq.1
      have hrowx := square_row n g hsq x hx
      have hrowy := square_row n g hsq y hy
      rw [matAt_set, getD_set_eq, getD_set_eq, matAt_set, getD_set_eq]
      simp only [hlen1, hlen0, hx, hy, and_true, hrowx, hrowy]
      have hl : (if x = y then (g.getD y []).set x 1 else g.getD x []).length = n := by
        split
        · simpa using hrowy
        · exact hrowx
      rw [hl]
      simp only [hy, and_true]
      by_cases hax : a = x
      · simp only [hax, if_true, true_and]
        by_cases hby : b = y
        · simp [hby]
        · simp only [hby, if_false, false_or, not_and]
          by_cases hxy : x = y
          · subst hxy
            simp only [if_true, getD_set_eq, hby, false_and, if_false, matAt]
            simp
          · simp [hxy, matAt]
      · simp only [hax, if_false, false_and, false_or]
        by_cases hay : a = y
        · simp only [hay, if_true, true_and]
          by_cases hbx : b = x
          · simp [hbx]
          · simp [hbx, matAt]
        · simp [hay]
    · have h1 : g.set y ((g.getD y []).set x 1) = g := by
        apply List.set_eq_of_length_le
        rw [hsq.1]; omega
      rw [h1]
      have h2 : (g.getD x []).set y 1 = g.getD x [] := by
        apply List.set_eq_of_length_le
        rw [square_row n g hsq x hx]; omega
      rw [h2]
      have h3 : g.set x (g.getD x []) = g := by
        apply List.ext_getElem?
        intro i
        by_cases hxi : x = i
        · subst hxi
          have hlt : x < g.length := by rw [hsq.1]; exact hx
          simp [List.getElem?_set, hlt, List.getD_eq_getElem?_getD]
        · simp [List.getElem?_set_ne hxi]
      rw [h3]
      refine ⟨hsq, fun a b => ⟨fun h => absurd h.2.2 hy, fun _ => rfl⟩⟩
  · have hlen0 : g.length = n := hsq.1
    have h1 : ∀ (g1 : Matrix) (row : List Int), g1.length = n → g1.set x row = g1 := by
      intro g1 row hl
      apply List.set_eq_of_length_le
      rw [hl]; omega
    by_cases hy : y < n
    · have h2 : (g.getD y []).set x 1 = g.getD y [] := by
        apply List.set_eq_of_length_le
        rw [square_row n g hsq y hy]; omega
      rw [h2]
      have h3 : g.set y (g.getD y []) = g := by
        apply List.ext_getElem?
        intro i
        by_cases hyi : y = i
        · subst hyi
          have hlt : y < g.length := by rw [hsq.1]; exact hy
          simp [List.getElem?_set, hlt, List.getD_eq_getElem?_getD]
        · simp [List.getElem?_set_ne hyi]
      rw [h3, h1 g _ hlen0]
      refine ⟨hsq, fun a b => ⟨fun h => absurd h.2.1 hx, fun _ => rfl⟩⟩
    · have h4 : g.set y ((g.getD y []).set x 1) = g := by
        apply List.set_eq_of_length_le
        rw [hsq.1]; omega
      rw [h4, h1 g _ hlen0]
      refine ⟨hsq, fun a b => ⟨fun h => absurd h.2.1 hx, fun _ => rfl⟩⟩


theorem addsEdges_refl (n : Nat) (g : Matrix) (hsq : Square n g) :
    AddsEdges n g g (fun _ _ => False) :=
  ⟨hsq, fun _ _ => ⟨fun h => h.elim, fun _ => rfl⟩⟩

theorem addsEdges_congr (n : Nat) (g after : Matrix) (E F : Nat → Nat → Prop)
    (h : AddsEdges n g after E) (hEF : ∀ a b, E a b ↔ F a b) : AddsEdges n g after F :=
  ⟨h.1, fun a b => ⟨fun hf => (h.2 a b).1 ((hEF a b).mpr hf),
    fun hf => (h.2 a b).2 (fun he => hf ((hEF a b).mp he))⟩⟩

theorem foldl_addsEdges {α : Type} (n : Nat) (f : Matrix → α → Matrix)
    (E : α → Nat → Nat → Prop)
    (hf : ∀ g e, Square n g → AddsEdges n g (f g e) (E e)) (l : List α) :
    ∀ g, Square n g → AddsEdges n g (l.foldl f g) (fun a b => ∃ e ∈ l, E e a b) := by
  induction l with
  | nil =>
    intro g hsq
    exact addsEdges_congr n g g _ _ (addsEdges_refl n g hsq) (by simp)
  | cons x xs ih =>
    intro g hsq
    simp only [List.foldl_cons]
    have h1 := hf g x hsq
    have h2 := ih (f g x) h1.1
    refine ⟨h2.1, ?_⟩
    intro a b
    constructor
    · rintro ⟨e, he, hE⟩
      by_cases hxs : ∃ e ∈ xs, E e a b
      · exact (h2.2 a b).1 hxs
      · rw [(h2.2 a b).2 hxs]
        rcases List.mem_cons.mp he with rfl | he
        · exact (h1.2 a b).1 hE
        · exact absurd ⟨e, he, hE⟩ hxs
    · intro hno
      have hxs : ¬ ∃ e ∈ xs, E e a b := by
        rintro ⟨e, he, hE⟩
        exact hno ⟨e, List.mem_cons_of_mem _ he, hE⟩
      have hx : ¬ E x a b := fun hE => hno ⟨x, List.mem_cons_self _ _, hE⟩
      rw [(h2.2 a b).2 hxs, (h1.2 a b).2 hx]

theorem setGraphLoop_addsEdges (n : Nat) (heap : List Variable) (instrs : List Instruction)
    (g : Matrix) (hsq : Square n g) :
    AddsEdges n g (setGraphLoop heap instrs g) (GraphEdge n heap instrs) := by
  unfold setGraphLoop
  refine addsEdges_congr n _ _ _ _
    (foldl_addsEdges n _
      (fun (i : Instruction) a b => ∃ d ∈ i.m_def, d ∈ i.m_out ∧ ∃ v ∈ i.m_out, v ≠ d ∧
        ((a = getPos heap v ∧ b = getPos heap d) ∨ (a = getPos heap d ∧ b = getPos heap v)) ∧
        getPos heap v < n ∧ getPos heap d < n) ?_ instrs g hsq) (fun a b => Iff.rfl)
  intro g i hsq
  refine addsEdges_congr n _ _ _ _
    (foldl_addsEdges n _
      (fun (d : Nat) a b => d ∈ i.m_out ∧ ∃ v ∈ i.m_out, v ≠ d ∧
        ((a = getPos heap v ∧ b = getPos heap d) ∨ (a = getPos heap d ∧ b = getPos heap v)) ∧
        getPos heap v < n ∧ getPos heap d < n) ?_ i.m_def g hsq) (fun a b => Iff.rfl)
  intro g d hsq
  by_cases hc : contains i.m_out d = true
  · rw [if_pos hc]
    have hd : d ∈ i.m_out := by
      unfold contains at hc
      rw [List.any_eq_true] at hc
      obtain ⟨x, hx, hxv⟩ := hc
      have : x = d := by simpa using hxv
      exact this ▸ hx
    refine addsEdges_congr n _ _ _ _
      (foldl_addsEdges n _
        (fun (v : Nat) a b => v ≠ d ∧
          ((a = getPos heap v ∧ b = getPos heap d) ∨ (a = getPos heap d ∧ b = getPos heap v)) ∧
          getPos heap v < n ∧ getPos heap d < n) ?_ i.m_out g hsq)
      (fun a b => ⟨fun h => ⟨hd, h⟩, fun h => h.2⟩)
    intro g v hsq
    by_cases hv : v = d
    · simp only [hv, ne_eq, not_true_eq_false, if_false, false_and]
      exact addsEdges_refl n g hsq
    · rw [if_pos hv]
      exact addsEdges_congr n _ _ _ _ (setInterference_addsEdges n g hsq _ _)
        (fun a b => ⟨fun h => ⟨hv, h⟩, fun h => h.2⟩)
  · rw [if_neg hc]
    have hd : d ∉ i.m_out := by
      intro hd
      apply hc
      unfold contains
      rw [List.any_eq_true]
      exact ⟨d, hd, by simp⟩
    exact addsEdges_congr n _ _ _ _ (addsEdges_refl n g hsq)
      (fun a b => ⟨fun h => h.elim, fun h => hd h.1⟩)

theorem square_zeroMatrix (n : Nat) : Square n (zeroMatrix n) := by
  unfold Square zeroMatrix
  refine ⟨by simp, ?_⟩
  intro row hrow
  rw [List.eq_of_mem_replicate hrow]
  simp

theorem matAt_zeroMatrix (n a b : Nat) : matAt (zeroMatrix n) a b = 0 := by
  unfold matAt zeroMatrix
  by_cases ha : a < n
  · by_cases hb : b < n
    · simp [List.getD_eq_getElem?_getD, List.getElem?_replicate, ha, hb]
    · simp [List.getD_eq_getElem?_getD, List.getElem?_replicate, ha, hb]
  · simp [List.getD_eq_getElem?_getD, List.getElem?_replicate, ha]

theorem setGraph_zero_iff (n : Nat) (heap : List Variable) (instrs : List Instruction)
    (a b : Nat) :
    matAt (setGraphLoop heap instrs (zeroMatrix n)) a b = 1 ↔ GraphEdge n heap instrs a b := by
  have h := setGraphLoop_addsEdges n heap instrs (zeroMatrix n) (square_zeroMatrix n)
  constructor
  · intro h1
    by_contra hne
    rw [(h.2 a b).2 hne, matAt_zeroMatrix] at h1
    exact absurd h1 (by decide)
  · exact (h.2 a b).1



theorem getPos_of_pos (heap : List Variable) (reg_vars : List Nat)
    (hpos : ∀ k (hk : k < reg_vars.length),
      (deref heap (reg_vars.get ⟨k, hk⟩)).m_position = (k : Int))
    (p : Nat) (hp : p ∈ reg_vars) :
    ∃ k, ∃ hk : k < reg_vars.length, reg_vars.get ⟨k, hk⟩ = p ∧ getPos heap p = k := by
  obtain ⟨i, hi⟩ := List.get_of_mem hp
  refine ⟨i.1, i.2, hi, ?_⟩
  have := hpos i.1 i.2
  have e : reg_vars.get ⟨i.1, i.2⟩ = p := hi
  rw [e] at this
  unfold getPos
  rw [this]
  simp

theorem getPos_injective (heap : List Variable) (reg_vars : List Nat)
    (hpos : ∀ k (hk : k < reg_vars.length),
      (deref heap (reg_vars.get ⟨k, hk⟩)).m_position = (k : Int))
    (p q : Nat) (hp : p ∈ reg_vars) (hq : q ∈ reg_vars)
    (h : getPos heap p = getPos heap q) : p = q := by
  obtain ⟨k, hk, e1, e2⟩ := getPos_of_pos heap reg_vars hpos p hp
  obtain ⟨l, hl, f1, f2⟩ := getPos_of_pos heap reg_vars hpos q hq
  have : k = l := by rw [← e2, ← f2, h]
  subst this
  rw [← e1, ← f1]

/-- C5. Interference characterisation: after `setGraph()` on a zero-initialised R x R
matrix, for register variables `a` and `b` of the table (positions equal to table
indices, OUT sets drawn from the table), `interferenceGraph[a.pos][b.pos] = 1` exactly
when `a ≠ b` and some instruction has both in OUT and at least one of them in DEF. -/
theorem interference_characterisation (la : LivenessAnalysis)
    (hzero : la.interferenceGraph = zeroMatrix la.reg_vars.length)
    (hpos : ∀ k (hk : k < la.reg_vars.length),
      (deref la.heap (la.reg_vars.get ⟨k, hk⟩)).m_position = (k : Int))
    (hout : ∀ i ∈ la.instrs, ∀ v ∈ i.m_out, v ∈ la.reg_vars) :
    ∀ a ∈ la.reg_vars, ∀ b ∈ la.reg_vars,
      (matAt (setGraph la).interferenceGraph (getPos la.heap a) (getPos la.heap b) = 1 ↔
        a ≠ b ∧ ∃ i ∈ la.instrs, a ∈ i.m_out ∧ b ∈ i.m_out ∧ (a ∈ i.m_def ∨ b ∈ i.m_def)) := by
  intro a ha b hb
  have hlt : ∀ p ∈ la.reg_vars, getPos la.heap p < la.reg_vars.length := by
    intro p hp
    obtain ⟨k, hk, _, e⟩ := getPos_of_pos _ _ hpos p hp
    rw [e]; exact hk
  have hinj := getPos_injective la.heap la.reg_vars hpos
  change matAt (setGraphLoop la.heap la.instrs la.interferenceGraph) _ _ = 1 ↔ _
  rw [hzero, setGraph_zero_iff]
  constructor
  · rintro ⟨i, hi, d, hd, hdo, v, hv, hvd, hab, _, _⟩
    have hvr := hout i hi v hv
    have hdr := hout i hi d hdo
    rcases hab with ⟨h1, h2⟩ | ⟨h1, h2⟩
    · have e1 := hinj a v ha hvr h1
      have e2 := hinj b d hb hdr h2
      subst e1; subst e2
      exact ⟨hvd, i, hi, hv, hdo, Or.inr hd⟩
    · have e1 := hinj a d ha hdr h1
      have e2 := hinj b v hb hvr h2
      subst e1; subst e2
      exact ⟨fun h => hvd h.symm, i, hi, hdo, hv, Or.inl hd⟩
  · rintro ⟨hne, i, hi, hao, hbo, hdef⟩
    rcases hdef with hd | hd
    · exact ⟨i, hi, a, hd, hao, b, hbo, fun h => hne h.symm, Or.inr ⟨rfl, rfl⟩,
        hlt b hb, hlt a ha⟩
    · exact ⟨i, hi, b, hd, hbo, a, hao, hne, Or.inl ⟨rfl, rfl⟩, hlt a ha, hlt b hb⟩

/-- Witness of C5 on the example program: `r1` and `r2` are both live out of
`li r2, 2`, which defines `r2`, so their entry of the matrix is 1. -/
theorem interference_characterisation_witness :
    matAt exampleGraphLA.interferenceGraph 0 1 = 1 :=
  (interference_characterisation exampleLiveLA (by rfl) (by decide) (by decide)
    0 (by decide) 1 (by decide)).mpr (by decide)

theorem bind_ok_iff {α β : Type} (m : Parser α) (f : α → Parser β) (s s2 : SyntaxAnalysis)
    (b : β) :
    (m >>= f) s = .ok b s2 ↔ ∃ a s1, m s = .ok a s1 ∧ f a s1 = .ok b s2 := by
  change Parser.bind m f s = _ ↔ _
  unfold Parser.bind
  cases h : m s with
  | ok a s1 =>
    constructor
    · intro h2; exact ⟨a, s1, rfl, h2⟩
    · rintro ⟨a1, s11, h1, h2⟩
      simp only [Result.ok.injEq] at h1
      rw [h1.1, h1.2]; exact h2
  | raise e s1 => simp
  | outOfFuel => simp

theorem pure_ok_iff {α : Type} (a b : α) (s s1 : SyntaxAnalysis) :
    (pure a : Parser α) s = .ok b s1 ↔ a = b ∧ s = s1 := by
  change Result.ok a s = _ ↔ _
  simp

theorem seg_nil (s : SyntaxAnalysis) : Seg [] s s :=
  ⟨rfl, rfl, rfl, fun _ h => absurd h (by simp), rfl, ⟨[], by simp⟩⟩

theorem seg_append (A B : List TokenType) (s s1 s2 : SyntaxAnalysis)
    (h1 : Seg A s s1) (h2 : Seg B s1 s2) : Seg (A ++ B) s s2 := by
  refine ⟨h2.tokens.trans h1.tokens, h2.err.trans h1.err, ?_, ?_,
    h2.label_vars.trans h1.label_vars, ?_⟩
  · rw [h2.cur, h1.cur, List.length_append]; omega
  · intro j hj
    by_cases hjA : j < A.length
    · rw [h1.types j hjA]
      simp [List.getD_eq_getElem?_getD, List.getElem?_append_left hjA]
    · have hjB : j - A.length < B.length := by
        rw [List.length_append] at hj; omega
      have := h2.types (j - A.length) hjB
      rw [h1.tokens, h1.cur] at this
      have e : s.currentToken + A.length + (j - A.length) = s.currentToken + j := by omega
      rw [e] at this
      rw [this]
      simp [List.getD_eq_getElem?_getD, List.getElem?_append_right (Nat.le_of_not_lt hjA)]
  · obtain ⟨e1, he1⟩ := h1.heap
    obtain ⟨e2, he2⟩ := h2.heap
    exact ⟨e1 ++ e2, by rw [he2, he1, List.append_assoc]⟩

theorem consumes_bind {α β : Type} (m : Parser α) (f : α → Parser β)
    (A B : List TokenType) (hm : Consumes m A) (hf : ∀ a, Consumes (f a) B) :
    Consumes (m >>= f) (A ++ B) := by
  intro s b s2 h
  obtain ⟨a, s1, h1, h2⟩ := (bind_ok_iff m f s s2 b).mp h
  exact seg_append A B s s1 s2 (hm s a s1 h1) (hf a s1 b s2 h2)

theorem consumes_pure {α : Type} (a : α) : Consumes (pure a : Parser α) [] := by
  intro s b s1 h
  obtain ⟨_, rfl⟩ := (pure_ok_iff a b s s1).mp h
  exact seg_nil s

theorem eat_ok (token : TokenType) (s s1 : SyntaxAnalysis) (a : Unit)
    (h : eat token s = .ok a s1) :
    (currentTok s).tokenType = token ∧
    s1 = { (if token = .T_END_OF_FILE then { s with eof := true } else s) with
            currentToken := s.currentToken + 1 } := by
  unfold eat at h
  by_cases ht : token = .T_END_OF_FILE
  · simp only [ht, if_true] at h ⊢
    split at h
    · rename_i hc
      simp only [Result.ok.injEq, true_and] at h
      exact ⟨hc, h.symm⟩
    · cases h
  · simp only [ht, if_false] at h ⊢
    split at h
    · rename_i hc
      simp only [Result.ok.injEq, true_and] at h
      exact ⟨hc, h.symm⟩
    · cases h

theorem eat_consumes (token : TokenType) : Consumes (eat token) [token] := by
  intro s a s1 h
  obtain ⟨ht, rfl⟩ := eat_ok token s s1 a h
  refine ⟨?_, ?_, ?_, ?_, ?_, ⟨[], ?_⟩⟩
  · split <;> rfl
  · split <;> rfl
  · split <;> rfl
  · intro j hj
    have : j = 0 := by simpa using hj
    subst this
    simpa [tokenAt, currentTok] using ht
  · split <;> rfl
  · split <;> simp

theorem glance_consumes (token : TokenType) : Consumes (glance token) [] := by
  intro s a s1 h
  unfold glance at h
  split at h
  · cases h
  · simp only [Result.ok.injEq, true_and] at h
    subst h
    exact seg_nil s

theorem curValue_consumes : Consumes curValue [] := by
  intro s a s1 h
  unfold curValue at h
  simp only [Result.ok.injEq] at h
  rw [← h.2]
  exact seg_nil s

theorem stoiP_consumes (str : String) : Consumes (stoiP str) [] := by
  intro s a s1 h
  unfold stoiP at h
  split at h
  · simp only [Result.ok.injEq] at h
    rw [← h.2]
    exact seg_nil s
  · cases h

theorem newVariable_ok (type : VariableType) (name : String) (val : Int)
    (s s1 : SyntaxAnalysis) (a : Nat) (h : newVariable type name val s = .ok a s1) :
    a = s.heap.length ∧ s1.tokens = s.tokens ∧ s1.err = s.err ∧
    s1.currentToken = s.currentToken ∧ s1.label_vars = s.label_vars ∧
    s1.reg_vars = s.reg_vars ∧ s1.mem_vars = s.mem_vars ∧ s1.const_vars = s.const_vars ∧
    s1.instrs = s.instrs ∧
    s1.next_instruction_has_label = s.next_instruction_has_label ∧
    ∃ var : Variable, s1.heap = s.heap ++ [var] ∧ var.m_type = type ∧ var.m_name = name ∧
      var.value = val := by
  unfold newVariable at h
  split at h
  · simp only [Result.ok.injEq] at h
    obtain ⟨rfl, rfl⟩ := h
    exact ⟨rfl, rfl, rfl, rfl, rfl, rfl, rfl, rfl, rfl, rfl, _, rfl, rfl, rfl, rfl⟩
  · simp only [Result.ok.injEq] at h
    obtain ⟨rfl, rfl⟩ := h
    exact ⟨rfl, rfl, rfl, rfl, rfl, rfl, rfl, rfl, rfl, rfl, _, rfl, rfl, rfl, rfl⟩

theorem newVariable_consumes (type : VariableType) (name : String) (val : Int) :
    Consumes (newVariable type name val) [] := by
  intro s a s1 h
  obtain ⟨_, h1, h2, h3, h4, _, _, _, _, _, var, h5, _⟩ := newVariable_ok _ _ _ _ _ _ h
  exact ⟨h1, h2, by simpa using h3, fun _ hj => absurd hj (by simp), h4, ⟨[var], h5⟩⟩

theorem newInstruction_consumes (type : InstructionType) (lab : Option Nat) :
    Consumes (newInstruction type lab) [] := by
  intro s a s1 h
  unfold newInstruction at h
  simp only [Result.ok.injEq] at h
  rw [← h.2]
  exact ⟨rfl, rfl, rfl, fun _ hj => absurd hj (by simp), rfl, ⟨[], by simp⟩⟩

theorem finishE_consumes (i : Instruction) : Consumes (finishE i) [] := by
  intro s a s1 h
  unfold finishE at h
  split at h
  · split at h
    · cases h
    · split at h
      · cases h
      · simp only [Result.ok.injEq, true_and] at h
        rw [← h]
        exact ⟨rfl, rfl, rfl, fun _ hj => absurd hj (by simp), rfl, ⟨[], by simp⟩⟩
  · simp only [Result.ok.injEq, true_and] at h
    rw [← h]
    exact ⟨rfl, rfl, rfl, fun _ hj => absurd hj (by simp), rfl, ⟨[], by simp⟩⟩

theorem consumes_of_eq {α : Type} (m : Parser α) (A B : List TokenType) (h : Consumes m A)
    (e : A = B) : Consumes m B := e ▸ h

theorem findVariableNamed_consumes (name : String) : Consumes (findVariableNamed name) [] := by
  intro s a s1 h
  unfold findVariableNamed at h
  simp only at h
  split at h
  · split at h
    · simp only [Result.ok.injEq] at h
      rw [← h.2]; exact seg_nil s
    · cases h
  · split at h
    · simp only [Result.ok.injEq] at h
      rw [← h.2]; exact seg_nil s
    · cases h
  · split at h
    · simp only [Result.ok.injEq] at h
      rw [← h.2]; exact seg_nil s
    · have hc : Consumes (do
          let replaced := String.mk (name.toList.drop 1)
          let val ← stoiP replaced
          let var ← newVariable .CONST_VAR ("c" ++ replaced) val
          fun s1 => Result.ok var { s1 with const_vars := s1.const_vars ++ [var] }) [] := by
        refine consumes_of_eq _ _ _
          (consumes_bind _ _ [] [] (stoiP_consumes _) (fun val =>
            consumes_bind _ _ [] [] (newVariable_consumes _ _ _) (fun var => ?_))) rfl
        intro s2 b s3 h3
        simp only [Result.ok.injEq] at h3
        rw [← h3.2]
        exact ⟨rfl, rfl, rfl, fun _ hj => absurd hj (by simp), rfl, ⟨[], by simp⟩⟩
      exact hc s a s1 h
  · cases h

theorem findVariable_consumes : Consumes findVariable [] := by
  intro s a s1 h
  exact findVariableNamed_consumes _ s a s1 h

theorem constVariable_consumes (value : Int) : Consumes (constVariable value) [] :=
  findVariableNamed_consumes _

theorem consumes_bind_cons {α β : Type} (m : Parser α) (f : α → Parser β)
    (t : TokenType) (B : List TokenType) (hm : Consumes m [t]) (hf : ∀ a, Consumes (f a) B) :
    Consumes (m >>= f) (t :: B) :=
  consumes_bind m f [t] B hm hf

theorem consumes_bind_nil {α β : Type} (m : Parser α) (f : α → Parser β)
    (B : List TokenType) (hm : Consumes m []) (hf : ∀ a, Consumes (f a) B) :
    Consumes (m >>= f) B :=
  consumes_bind m f [] B hm hf

theorem regOperand_consumes : Consumes regOperand [.T_R_ID] := by
  unfold regOperand
  apply consumes_bind_nil _ _ _ (glance_consumes _); intro _
  apply consumes_bind_nil _ _ _ findVariable_consumes; intro v
  apply consumes_bind_cons _ _ _ _ (eat_consumes _); intro _
  exact consumes_pure v

theorem numOperand_consumes : Consumes numOperand [.T_NUM] := by
  unfold numOperand
  apply consumes_bind_nil _ _ _ (glance_consumes _); intro _
  apply consumes_bind_nil _ _ _ curValue_consumes; intro text
  apply consumes_bind_nil _ _ _ (stoiP_consumes _); intro n
  apply consumes_bind_nil _ _ _ (constVariable_consumes _); intro v
  apply consumes_bind_cons _ _ _ _ (eat_consumes _); intro _
  exact consumes_pure v

theorem threeRegs_consumes (token : TokenType) (type : InstructionType) :
    Consumes (threeRegs token type) [token, .T_R_ID, .T_COMMA, .T_R_ID, .T_COMMA, .T_R_ID] := by
  unfold threeRegs
  apply consumes_bind_cons _ _ _ _ (eat_consumes _); intro _
  apply consumes_bind_nil _ _ _ (newInstruction_consumes _ _); intro i
  apply consumes_bind_cons _ _ _ _ regOperand_consumes; intro dst
  apply consumes_bind_cons _ _ _ _ (eat_consumes _); intro _
  apply consumes_bind_cons _ _ _ _ regOperand_consumes; intro src1
  apply consumes_bind_cons _ _ _ _ (eat_consumes _); intro _
  apply consumes_bind_cons _ _ _ _ regOperand_consumes; intro src2
  exact finishE_consumes _


theorem deref_append (heap ext : List Variable) (p : Nat) (h : p < heap.length) :
    deref (heap ++ ext) p = deref heap p := by
  unfold deref
  simp [List.getD_eq_getElem?_getD, List.getElem?_append_left h]

theorem labels_of_ext (s s1 : SyntaxAnalysis) (hl : s1.label_vars = s.label_vars)
    (hh : ∃ ext, s1.heap = s.heap ++ ext) (hlive : LabelsLive s) :
    LabelsLive s1 ∧ labels s1 = labels s := by
  obtain ⟨ext, he⟩ := hh
  constructor
  · intro p hp
    rw [hl] at hp
    rw [he, List.length_append]
    have := hlive p hp
    omega
  · unfold labels
    rw [hl, he]
    apply List.map_congr_left
    intro p hp
    rw [deref_append _ _ _ (hlive p hp)]

theorem branchNames_type (tokens : List Token) (p : Nat) (name : String)
    (h : BranchNames tokens p name) : ¬ NonBranch (tokenAt tokens p).tokenType := by
  intro hn
  rcases h with h | h | h
  · exact hn.1 h.1
  · exact hn.2.1 h.1
  · exact hn.2.2 h.1

theorem seg_type_mem (tys : List TokenType) (s s1 : SyntaxAnalysis) (h : Seg tys s s1)
    (p : Nat) (h1 : s.currentToken ≤ p) (h2 : p < s1.currentToken) :
    (tokenAt s.tokens p).tokenType ∈ tys := by
  have hj : p - s.currentToken < tys.length := by rw [h.cur] at h2; omega
  have := h.types (p - s.currentToken) hj
  have e : s.currentToken + (p - s.currentToken) = p := by omega
  rw [e] at this
  rw [this]
  simp [List.getD_eq_getElem?_getD, List.getElem?_eq_getElem hj]

theorem run_of_seg (tys : List TokenType) (s s1 : SyntaxAnalysis) (h : Seg tys s s1)
    (hnb : ∀ t ∈ tys, NonBranch t) : Run s s1 := by
  refine ⟨h.tokens, h.err, by rw [h.cur]; omega, ?_, ?_, ?_⟩
  · intro hlive; exact (labels_of_ext s s1 h.label_vars h.heap hlive).1
  · intro hlive
    exact ⟨[], by simp [(labels_of_ext s s1 h.label_vars h.heap hlive).2], by simp⟩
  · intro _ p h1 h2 name hb
    exact absurd (hnb _ (seg_type_mem tys s s1 h p h1 h2)) (branchNames_type _ _ _ hb)

theorem run_refl (s : SyntaxAnalysis) : Run s s :=
  run_of_seg [] s s (seg_nil s) (by simp)

theorem run_trans (s s1 s2 : SyntaxAnalysis) (h1 : Run s s1) (h2 : Run s1 s2) : Run s s2 := by
  refine ⟨h2.tokens.trans h1.tokens, h2.err.trans h1.err, Nat.le_trans h1.cur h2.cur,
    fun hl => h2.live (h1.live hl), ?_, ?_⟩
  · intro hl
    obtain ⟨a1, e1, g1⟩ := h1.grows hl
    obtain ⟨a2, e2, g2⟩ := h2.grows (h1.live hl)
    refine ⟨a1 ++ a2, by rw [e2, e1, List.append_assoc], ?_⟩
    intro e he
    rcases List.mem_append.mp he with he | he
    · rcases g1 e he with h | ⟨q, q1, q2, q3⟩
      · exact Or.inl h
      · exact Or.inr ⟨q, q1, Nat.lt_of_lt_of_le q2 h2.cur, q3⟩
    · rcases g2 e he with h | ⟨q, q1, q2, q3⟩
      · exact Or.inl h
      · exact Or.inr ⟨q, Nat.le_trans h1.cur q1, q2, h1.tokens ▸ q3⟩
  · intro hl p p1 p2 name hb
    obtain ⟨a2, e2, _⟩ := h2.grows (h1.live hl)
    by_cases hp : p < s1.currentToken
    · have := h1.branches hl p p1 hp name hb
      rw [e2, List.map_append]
      exact List.mem_append_left _ this
    · exact h2.branches (h1.live hl) p (Nat.le_of_not_lt hp) p2 name (h1.tokens ▸ hb)

theorem findByName_some (heap : List Variable) (table : List Nat) (name : String) (p : Nat)
    (h : findByName heap table name = some p) : p ∈ table ∧ (deref heap p).m_name = name := by
  unfold findByName at h
  exact ⟨List.mem_of_find?_eq_some h, by simpa using List.find?_some h⟩

theorem findLabel_ok (name : String) (s s1 : SyntaxAnalysis) (v : Nat)
    (h : findLabel name s = .ok v s1) :
    s1.tokens = s.tokens ∧ s1.err = s.err ∧ s1.currentToken = s.currentToken ∧
    (LabelsLive s → LabelsLive s1 ∧
      ∃ added, labels s1 = labels s ++ added ∧ (∀ e ∈ added, e.2 = 0) ∧
        name ∈ (labels s1).map Prod.fst) := by
  unfold findLabel at h
  split at h
  · rename_i p hp
    simp only [Result.ok.injEq] at h
    obtain ⟨_, rfl⟩ := h
    refine ⟨rfl, rfl, rfl, fun hl => ⟨hl, [], by simp, by simp, ?_⟩⟩
    obtain ⟨h1, h2⟩ := findByName_some _ _ _ _ hp
    unfold labels
    simp only [List.map_map, List.mem_map, Function.comp]
    exact ⟨p, h1, h2⟩
  · obtain ⟨a, sa, ha, hb⟩ := (bind_ok_iff _ _ _ _ _).mp h
    obtain ⟨e0, e1, e2, e3, e4, _, _, _, _, _, var, e5, _, e6, e7⟩ := newVariable_ok _ _ _ _ _ _ ha
    simp only [Result.ok.injEq] at hb
    obtain ⟨_, rfl⟩ := hb
    refine ⟨e1, e2, e3, fun hl => ?_⟩
    have hlab : labels { sa with label_vars := sa.label_vars ++ [a] } =
        labels s ++ [(name, 0)] := by
      unfold labels
      simp only [List.map_append, List.map_cons, List.map_nil]
      congr 1
      · rw [e4, e5]
        apply List.map_congr_left
        intro p hp
        rw [deref_append _ _ _ (hl p hp)]
      · rw [e0, e5]
        have : deref (s.heap ++ [var]) s.heap.length = var := by
          unfold deref
          simp [List.getD_eq_getElem?_getD]
        rw [this, e6, e7]
    refine ⟨?_, [(name, 0)], hlab, by simp, ?_⟩
    · intro p hp
      simp only [List.mem_append, List.mem_singleton] at hp
      simp only [e5, List.length_append, List.length_singleton]
      rcases hp with hp | hp
      · rw [e4] at hp
        have := hl p hp; omega
      · rw [hp, e0]; omega
    · rw [hlab]; simp


theorem labelOperand_ok (s s1 : SyntaxAnalysis) (v : Nat) (h : labelOperand s = .ok v s1) :
    s1.tokens = s.tokens ∧ s1.err = s.err ∧ s1.currentToken = s.currentToken + 1 ∧
    (currentTok s).tokenType = .T_ID ∧
    (LabelsLive s → LabelsLive s1 ∧
      ∃ added, labels s1 = labels s ++ added ∧ (∀ e ∈ added, e.2 = 0) ∧
        (currentTok s).value ∈ (labels s1).map Prod.fst) := by
  unfold labelOperand at h
  obtain ⟨_, sa, ha, h⟩ := (bind_ok_iff _ _ _ _ _).mp h
  obtain ⟨name, sb, hb, h⟩ := (bind_ok_iff _ _ _ _ _).mp h
  obtain ⟨w, sc, hc, h⟩ := (bind_ok_iff _ _ _ _ _).mp h
  obtain ⟨_, sd, hd, h⟩ := (bind_ok_iff _ _ _ _ _).mp h
  obtain ⟨_, rfl⟩ := (pure_ok_iff _ _ _ _).mp h
  have ea : sa = s := by
    unfold glance at ha
    split at ha
    · cases ha
    · simp only [Result.ok.injEq, true_and] at ha; exact ha.symm
  subst ea
  unfold curValue at hb
  simp only [Result.ok.injEq] at hb
  obtain ⟨rfl, rfl⟩ := hb
  obtain ⟨c1, c2, c3, c4⟩ := findLabel_ok _ _ _ _ hc
  have hseg := eat_consumes .T_ID sc () sd hd
  have htype := hseg.types 0 (by simp)
  simp only [Nat.add_zero, List.getD_cons_zero] at htype
  rw [c1, c3] at htype
  refine ⟨hseg.tokens.trans c1, hseg.err.trans c2, by rw [hseg.cur, c3]; rfl, htype, ?_⟩
  intro hl
  obtain ⟨l1, added, l2, l3, l4⟩ := c4 hl
  obtain ⟨m1, m2⟩ := labels_of_ext sc sd hseg.label_vars hseg.heap l1
  exact ⟨m1, added, by rw [m2, l2], l3, by rw [m2]; exact l4⟩

theorem advances_of_consumes {α : Type} (m : Parser α) (t : TokenType) (tys : List TokenType)
    (h : Consumes m (t :: tys)) (hnb : ∀ x ∈ t :: tys, NonBranch x) : Advances m := by
  intro s a s1 hs
  have hseg := h s a s1 hs
  exact ⟨run_of_seg _ s s1 hseg hnb, by rw [hseg.cur]; simp⟩

/-- A branch instruction: the tokens `pre` up to the label operand, the label operand,
and the end of `E()`. -/
theorem branch_run (pre : List TokenType) (s sb sc s1 : SyntaxAnalysis) (v : Nat)
    (hpre : Seg pre s sb) (hlab : labelOperand sb = .ok v sc) (hpost : Seg [] sc s1)
    (hkind : pre = [.T_B] ∨ pre = [.T_BLTZ, .T_R_ID, .T_COMMA] ∨
      pre = [.T_BNE, .T_R_ID, .T_COMMA, .T_R_ID, .T_COMMA]) :
    Run s s1 ∧ s.currentToken < s1.currentToken := by
  obtain ⟨l1, l2, l3, l4, l5⟩ := labelOperand_ok _ _ _ hlab
  have hcur1 : s1.currentToken = s.currentToken + pre.length + 1 := by
    have := hpost.cur
    simp only [List.length_nil, Nat.add_zero] at this
    rw [this, l3, hpre.cur]
  have hlen : 0 < pre.length := by
    rcases hkind with h | h | h <;> simp [h]
  refine ⟨⟨?_, ?_, by omega, ?_, ?_, ?_⟩, by omega⟩
  · rw [hpost.tokens, l1, hpre.tokens]
  · rw [hpost.err, l2, hpre.err]
  · intro hl
    have hb := (labels_of_ext s sb hpre.label_vars hpre.heap hl).1
    exact (labels_of_ext sc s1 hpost.label_vars hpost.heap (l5 hb).1).1
  · intro hl
    obtain ⟨hb, eb⟩ := labels_of_ext s sb hpre.label_vars hpre.heap hl
    obtain ⟨hc, added, ec, hz, _⟩ := l5 hb
    obtain ⟨_, e1⟩ := labels_of_ext sc s1 hpost.label_vars hpost.heap hc
    exact ⟨added, by rw [e1, ec, eb], fun e he => Or.inl (hz e he)⟩
  · intro hl p p1 p2 name hbn
    obtain ⟨hb, eb⟩ := labels_of_ext s sb hpre.label_vars hpre.heap hl
    obtain ⟨hc, added, ec, hz, hmem⟩ := l5 hb
    obtain ⟨_, e1⟩ := labels_of_ext sc s1 hpost.label_vars hpost.heap hc
    rw [e1]
    have hval : (currentTok sb).value = (tokenAt s.tokens (s.currentToken + pre.length)).value := by
      unfold currentTok tokenAt
      rw [hpre.tokens, hpre.cur]
    have hty : (tokenAt s.tokens (s.currentToken + pre.length)).tokenType = .T_ID := by
      rw [← l4]
      unfold currentTok tokenAt
      rw [hpre.tokens, hpre.cur]
    rw [hval] at hmem
    by_cases hp0 : p = s.currentToken
    · subst hp0
      have h0 := hpre.types 0 hlen
      simp only [Nat.add_zero] at h0
      rcases hkind with h | h | h
      · subst h
        simp only [List.getD_cons_zero] at h0
        rcases hbn with ⟨_, hb2⟩ | ⟨hb1, _⟩ | ⟨hb1, _⟩
        · simp only [List.length_singleton] at hmem
          rw [hb2] at hmem; exact hmem
        · rw [h0] at hb1; cases hb1
        · rw [h0] at hb1; cases hb1
      · subst h
        simp only [List.getD_cons_zero] at h0
        rcases hbn with ⟨hb1, _⟩ | ⟨_, hb2⟩ | ⟨hb1, _⟩
        · rw [h0] at hb1; cases hb1
        · simp only [List.length_cons, List.length_nil] at hmem
          rw [hb2] at hmem; exact hmem
        · rw [h0] at hb1; cases hb1
      · subst h
        simp only [List.getD_cons_zero] at h0
        rcases hbn with ⟨hb1, _⟩ | ⟨hb1, _⟩ | ⟨_, hb2⟩
        · rw [h0] at hb1; cases hb1
        · rw [h0] at hb1; cases hb1
        · simp only [List.length_cons, List.length_nil] at hmem
          rw [hb2] at hmem; exact hmem
    · exfalso
      apply branchNames_type _ _ _ hbn
      by_cases hpl : p = s.currentToken + pre.length
      · rw [hpl, hty]; exact ⟨by decide, by decide, by decide⟩
      · have hj : p - s.currentToken < pre.length := by omega
        have hj0 : p - s.currentToken ≠ 0 := by omega
        have ht := hpre.types (p - s.currentToken) hj
        have e : s.currentToken + (p - s.currentToken) = p := by omega
        rw [e] at ht
        rw [ht]
        rcases hkind with h | h | h
        · subst h
          simp only [List.length_singleton] at hj
          omega
        · subst h
          simp only [List.length_cons, List.length_nil] at hj
          have : p - s.currentToken = 1 ∨ p - s.currentToken = 2 := by omega
          rcases this with h | h <;> rw [h] <;> exact ⟨by decide, by decide, by decide⟩
        · subst h
          simp only [List.length_cons, List.length_nil] at hj
          have : p - s.currentToken = 1 ∨ p - s.currentToken = 2 ∨ p - s.currentToken = 3 ∨
              p - s.currentToken = 4 := by omega
          rcases this with h | h | h | h <;> rw [h] <;> exact ⟨by decide, by decide, by decide⟩


theorem E_advances : Advances E := by
  intro s a s1 h
  unfold E at h
  split at h
  · exact advances_of_consumes _ _ _ (threeRegs_consumes _ _) (by simp [NonBranch]) s a s1 h
  · -- addi
    refine advances_of_consumes _ .T_ADDI [.T_R_ID, .T_COMMA, .T_R_ID, .T_COMMA, .T_NUM] ?_
      (by simp [NonBranch]) s a s1 h
    apply consumes_bind_cons _ _ _ _ (eat_consumes _); intro _
    apply consumes_bind_nil _ _ _ (newInstruction_consumes _ _); intro i
    apply consumes_bind_cons _ _ _ _ regOperand_consumes; intro dst
    apply consumes_bind_cons _ _ _ _ (eat_consumes _); intro _
    apply consumes_bind_cons _ _ _ _ regOperand_consumes; intro src1
    apply consumes_bind_cons _ _ _ _ (eat_consumes _); intro _
    apply consumes_bind_cons _ _ _ _ numOperand_consumes; intro src2
    exact finishE_consumes _
  · -- b
    obtain ⟨_, sa, ha, h⟩ := (bind_ok_iff _ _ _ _ _).mp h
    obtain ⟨i, sb, hb, h⟩ := (bind_ok_iff _ _ _ _ _).mp h
    obtain ⟨v, sc, hc, h⟩ := (bind_ok_iff _ _ _ _ _).mp h
    have hpre : Seg [.T_B] s sb :=
      seg_append [.T_B] [] s sa sb (eat_consumes _ _ _ _ ha) (newInstruction_consumes _ _ _ _ _ hb)
    exact branch_run _ s sb sc s1 v hpre hc (finishE_consumes _ _ _ _ h) (Or.inl rfl)
  · -- bltz
    obtain ⟨_, sa, ha, h⟩ := (bind_ok_iff _ _ _ _ _).mp h
    obtain ⟨i, sb, hb, h⟩ := (bind_ok_iff _ _ _ _ _).mp h
    obtain ⟨r, sr, hr, h⟩ := (bind_ok_iff _ _ _ _ _).mp h
    obtain ⟨_, sm, hm, h⟩ := (bind_ok_iff _ _ _ _ _).mp h
    obtain ⟨v, sc, hc, h⟩ := (bind_ok_iff _ _ _ _ _).mp h
    have hpre : Seg [.T_BLTZ, .T_R_ID, .T_COMMA] s sm :=
      seg_append [.T_BLTZ] [.T_R_ID, .T_COMMA] s sa sm (eat_consumes _ _ _ _ ha)
        (seg_append [] [.T_R_ID, .T_COMMA] sa sb sm (newInstruction_consumes _ _ _ _ _ hb)
          (seg_append [.T_R_ID] [.T_COMMA] sb sr sm (regOperand_consumes _ _ _ hr)
            (eat_consumes _ _ _ _ hm)))
    exact branch_run _ s sm sc s1 v hpre hc (finishE_consumes _ _ _ _ h) (Or.inr (Or.inl rfl))
  · -- la
    refine advances_of_consumes _ .T_LA [.T_R_ID, .T_COMMA, .T_M_ID] ?_
      (by simp [NonBranch]) s a s1 h
    apply consumes_bind_cons _ _ _ _ (eat_consumes _); intro _
    apply consumes_bind_nil _ _ _ (newInstruction_consumes _ _); intro i
    apply consumes_bind_cons _ _ _ _ regOperand_consumes; intro dst
    apply consumes_bind_cons _ _ _ _ (eat_consumes _); intro _
    apply consumes_bind_nil _ _ _ (glance_consumes _); intro _
    apply consumes_bind_nil _ _ _ findVariable_consumes; intro src1
    apply consumes_bind_cons _ _ _ _ (eat_consumes _); intro _
    exact finishE_consumes _
  · -- li
    refine advances_of_consumes _ .T_LI [.T_R_ID, .T_COMMA, .T_NUM] ?_
      (by simp [NonBranch]) s a s1 h
    apply consumes_bind_cons _ _ _ _ (eat_consumes _); intro _
    apply consumes_bind_nil _ _ _ (newInstruction_consumes _ _); intro i
    apply consumes_bind_cons _ _ _ _ regOperand_consumes; intro dst
    apply consumes_bind_cons _ _ _ _ (eat_consumes _); intro _
    apply consumes_bind_cons _ _ _ _ numOperand_consumes; intro src1
    exact finishE_consumes _
  · -- lw
    refine advances_of_consumes _ .T_LW
      [.T_R_ID, .T_COMMA, .T_NUM, .T_L_PARENT, .T_R_ID, .T_R_PARENT] ?_
      (by simp [NonBranch]) s a s1 h
    apply consumes_bind_cons _ _ _ _ (eat_consumes _); intro _
    apply consumes_bind_nil _ _ _ (newInstruction_consumes _ _); intro i
    apply consumes_bind_cons _ _ _ _ regOperand_consumes; intro dst
    apply consumes_bind_cons _ _ _ _ (eat_consumes _); intro _
    apply consumes_bind_cons _ _ _ _ numOperand_consumes; intro src1
    apply consumes_bind_cons _ _ _ _ (eat_consumes _); intro _
    apply consumes_bind_cons _ _ _ _ regOperand_consumes; intro src2
    apply consumes_bind_cons _ _ _ _ (eat_consumes _); intro _
    exact finishE_consumes _
  · -- nop
    refine advances_of_consumes _ .T_NOP [] ?_ (by simp [NonBranch]) s a s1 h
    apply consumes_bind_cons _ _ _ _ (eat_consumes _); intro _
    apply consumes_bind_nil _ _ _ (newInstruction_consumes _ _); intro i
    exact finishE_consumes _
  · exact advances_of_consumes _ _ _ (threeRegs_consumes _ _) (by simp [NonBranch]) s a s1 h
  · -- sw
    refine advances_of_consumes _ .T_SW
      [.T_R_ID, .T_COMMA, .T_NUM, .T_L_PARENT, .T_R_ID, .T_R_PARENT] ?_
      (by simp [NonBranch]) s a s1 h
    apply consumes_bind_cons _ _ _ _ (eat_consumes _); intro _
    apply consumes_bind_nil _ _ _ (newInstruction_consumes _ _); intro i
    apply consumes_bind_cons _ _ _ _ regOperand_consumes; intro src1
    apply consumes_bind_cons _ _ _ _ (eat_consumes _); intro _
    apply consumes_bind_cons _ _ _ _ numOperand_consumes; intro src2
    apply consumes_bind_cons _ _ _ _ (eat_consumes _); intro _
    apply consumes_bind_cons _ _ _ _ regOperand_consumes; intro dst
    apply consumes_bind_cons _ _ _ _ (eat_consumes _); intro _
    exact finishE_consumes _
  · exact advances_of_consumes _ _ _ (threeRegs_consumes _ _) (by simp [NonBranch]) s a s1 h
  · exact advances_of_consumes _ _ _ (threeRegs_consumes _ _) (by simp [NonBranch]) s a s1 h
  · -- not
    refine advances_of_consumes _ .T_NOT [.T_R_ID, .T_COMMA, .T_R_ID] ?_
      (by simp [NonBranch]) s a s1 h
    apply consumes_bind_cons _ _ _ _ (eat_consumes _); intro _
    apply consumes_bind_nil _ _ _ (newInstruction_consumes _ _); intro i
    apply consumes_bind_cons _ _ _ _ regOperand_consumes; intro dst
    apply consumes_bind_cons _ _ _ _ (eat_consumes _); intro _
    apply consumes_bind_cons _ _ _ _ regOperand_consumes; intro src1
    exact finishE_consumes _
  · -- bne
    obtain ⟨_, sa, ha, h⟩ := (bind_ok_iff _ _ _ _ _).mp h
    obtain ⟨i, sb, hb, h⟩ := (bind_ok_iff _ _ _ _ _).mp h
    obtain ⟨r, sr, hr, h⟩ := (bind_ok_iff _ _ _ _ _).mp h
    obtain ⟨_, sm, hm, h⟩ := (bind_ok_iff _ _ _ _ _).mp h
    obtain ⟨r2, sr2, hr2, h⟩ := (bind_ok_iff _ _ _ _ _).mp h
    obtain ⟨_, sm2, hm2, h⟩ := (bind_ok_iff _ _ _ _ _).mp h
    obtain ⟨v, sc, hc, h⟩ := (bind_ok_iff _ _ _ _ _).mp h
    have hpre : Seg [.T_BNE, .T_R_ID, .T_COMMA, .T_R_ID, .T_COMMA] s sm2 :=
      seg_append [.T_BNE] [.T_R_ID, .T_COMMA, .T_R_ID, .T_COMMA] s sa sm2
        (eat_consumes _ _ _ _ ha)
        (seg_append [] [.T_R_ID, .T_COMMA, .T_R_ID, .T_COMMA] sa sb sm2
          (newInstruction_consumes _ _ _ _ _ hb)
          (seg_append [.T_R_ID] [.T_COMMA, .T_R_ID, .T_COMMA] sb sr sm2
            (regOperand_consumes _ _ _ hr)
            (seg_append [.T_COMMA] [.T_R_ID, .T_COMMA] sr sm sm2 (eat_consumes _ _ _ _ hm)
              (seg_append [.T_R_ID] [.T_COMMA] sm sr2 sm2 (regOperand_consumes _ _ _ hr2)
                (eat_consumes _ _ _ _ hm2)))))
    exact branch_run _ s sm2 sc s1 v hpre hc (finishE_consumes _ _ _ _ h)
      (Or.inr (Or.inr rfl))
  · cases h


theorem memVariableExists_ok (name : String) (s s1 : SyntaxAnalysis) (a : Unit)
    (h : memVariableExists name s = .ok a s1) : s1 = s := by
  unfold memVariableExists at h
  split at h
  · cases h
  · simp only [Result.ok.injEq, true_and] at h; exact h.symm

theorem regVariableExists_ok (name : String) (s s1 : SyntaxAnalysis) (a : Unit)
    (h : regVariableExists name s = .ok a s1) : s1 = s := by
  unfold regVariableExists at h
  split at h
  · cases h
  · simp only [Result.ok.injEq, true_and] at h; exact h.symm

theorem labelExists_ok (name : String) (s s1 : SyntaxAnalysis) (a : Unit)
    (h : labelExists name s = .ok a s1) : s1 = s := by
  unfold labelExists at h
  split at h
  · cases h
  · simp only [Result.ok.injEq, true_and] at h; exact h.symm

theorem glance_ok (token : TokenType) (s s1 : SyntaxAnalysis) (a : Unit)
    (h : glance token s = .ok a s1) : s1 = s ∧ (currentTok s).tokenType = token := by
  unfold glance at h
  split at h
  · cases h
  · rename_i hc
    simp only [Result.ok.injEq, true_and] at h
    exact ⟨h.symm, by simpa [eq_comm] using hc⟩

theorem eat_heap (token : TokenType) (s s1 : SyntaxAnalysis) (a : Unit)
    (h : eat token s = .ok a s1) : s1.heap = s.heap := by
  obtain ⟨_, rfl⟩ := eat_ok token s s1 a h
  split <;> rfl

theorem stoiP_ok (str : String) (s s1 : SyntaxAnalysis) (a : Int)
    (h : stoiP str s = .ok a s1) : s1 = s := by
  unfold stoiP at h
  split at h
  · simp only [Result.ok.injEq] at h; exact h.2.symm
  · cases h

/-- What a normal return of `createVariable` leaves: one new object on the heap, named
as the current token, and the consumed tokens. -/
theorem createVariable_ok (s s1 : SyntaxAnalysis) (v : Nat) (h : createVariable s = .ok v s1) :
    v = s.heap.length ∧
    (∃ var : Variable, s1.heap = s.heap ++ [var] ∧ var.m_name = (currentTok s).value) ∧
    ∃ tys, Seg tys s s1 ∧ (tys = [.T_M_ID, .T_NUM] ∨ tys = [.T_R_ID] ∨ tys = [.T_ID]) := by
  unfold createVariable at h
  split at h
  · -- T_M_ID
    obtain ⟨name, sa, ha, h1⟩ := (bind_ok_iff _ _ _ _ _).mp h
    obtain ⟨_, sb, hb, h2⟩ := (bind_ok_iff _ _ _ _ _).mp h1
    obtain ⟨_, sc, hc, h3⟩ := (bind_ok_iff _ _ _ _ _).mp h2
    obtain ⟨_, sd, hd, h4⟩ := (bind_ok_iff _ _ _ _ _).mp h3
    obtain ⟨text, se, he, h5⟩ := (bind_ok_iff _ _ _ _ _).mp h4
    obtain ⟨val, sf, hf, h6⟩ := (bind_ok_iff _ _ _ _ _).mp h5
    obtain ⟨var, sg, hg, h7⟩ := (bind_ok_iff _ _ _ _ _).mp h6
    obtain ⟨_, sh, hh, h8⟩ := (bind_ok_iff _ _ _ _ _).mp h7
    clear h h1 h2 h3 h4 h5 h6 h7
    obtain ⟨rfl, rfl⟩ := (pure_ok_iff _ _ _ _).mp h8
    unfold curValue at ha he
    simp only [Result.ok.injEq] at ha he
    obtain ⟨rfl, rfl⟩ := ha
    obtain ⟨rfl, rfl⟩ := he
    have eb := memVariableExists_ok _ _ _ _ hb
    subst eb
    have ed := (glance_ok _ _ _ _ hd).1
    subst ed
    have ef := stoiP_ok _ _ _ _ hf
    subst ef
    obtain ⟨g0, _, _, _, _, _, _, _, _, _, w, g5, _, g6, _⟩ := newVariable_ok _ _ _ _ _ _ hg
    have hc2 := eat_heap _ _ _ _ hc
    have hh2 := eat_heap _ _ _ _ hh
    refine ⟨by rw [g0, hc2], ⟨w, by rw [hh2, g5, hc2], g6⟩, [.T_M_ID, .T_NUM], ?_, Or.inl rfl⟩
    exact seg_append [.T_M_ID] [.T_NUM] _ _ _ (eat_consumes _ _ _ _ hc)
      (seg_append [] [.T_NUM] _ _ _ (newVariable_consumes _ _ _ _ _ _ hg)
        (eat_consumes _ _ _ _ hh))
  · -- T_R_ID
    obtain ⟨name, sa, ha, h1⟩ := (bind_ok_iff _ _ _ _ _).mp h
    obtain ⟨_, sb, hb, h2⟩ := (bind_ok_iff _ _ _ _ _).mp h1
    obtain ⟨_, sc, hc, h3⟩ := (bind_ok_iff _ _ _ _ _).mp h2
    clear h h1 h2
    unfold curValue at ha
    simp only [Result.ok.injEq] at ha
    obtain ⟨rfl, rfl⟩ := ha
    have eb := regVariableExists_ok _ _ _ _ hb
    subst eb
    obtain ⟨g0, _, _, _, _, _, _, _, _, _, w, g5, _, g6, _⟩ := newVariable_ok _ _ _ _ _ _ h3
    have hc2 := eat_heap _ _ _ _ hc
    refine ⟨by rw [g0, hc2], ⟨w, by rw [g5, hc2], g6⟩, [.T_R_ID], ?_, Or.inr (Or.inl rfl)⟩
    exact seg_append [.T_R_ID] [] _ _ _ (eat_consumes _ _ _ _ hc)
      (newVariable_consumes _ _ _ _ _ _ h3)
  · -- T_ID
    obtain ⟨name, sa, ha, h1⟩ := (bind_ok_iff _ _ _ _ _).mp h
    obtain ⟨_, sb, hb, h2⟩ := (bind_ok_iff _ _ _ _ _).mp h1
    obtain ⟨_, sc, hc, h3⟩ := (bind_ok_iff _ _ _ _ _).mp h2
    clear h h1 h2
    unfold curValue at ha
    simp only [Result.ok.injEq] at ha
    obtain ⟨rfl, rfl⟩ := ha
    have eb := labelExists_ok _ _ _ _ hb
    subst eb
    obtain ⟨g0, _, _, _, _, _, _, _, _, _, w, g5, _, g6, _⟩ := newVariable_ok _ _ _ _ _ _ h3
    have hc2 := eat_heap _ _ _ _ hc
    refine ⟨by rw [g0, hc2], ⟨w, by rw [g5, hc2], g6⟩, [.T_ID], ?_, Or.inr (Or.inr rfl)⟩
    exact seg_append [.T_ID] [] _ _ _ (eat_consumes _ _ _ _ hc)
      (newVariable_consumes _ _ _ _ _ _ h3)
  · cases h

theorem nonBranch_createVariable (tys : List TokenType)
    (h : tys = [.T_M_ID, .T_NUM] ∨ tys = [.T_R_ID] ∨ tys = [.T_ID]) :
    (∀ t ∈ tys, NonBranch t) ∧ 0 < tys.length := by
  rcases h with h | h | h <;> subst h <;> simp [NonBranch]

/-- A run that consumes non-branch tokens, adds one object to the heap and pushes it to
the label table, where the consumed tokens define its name. -/
theorem run_push_label (tys : List TokenType) (s s1 : SyntaxAnalysis) (var : Variable)
    (htok : s1.tokens = s.tokens) (herr : s1.err = s.err)
    (hcur : s1.currentToken = s.currentToken + tys.length)
    (htypes : ∀ j, j < tys.length →
      (tokenAt s.tokens (s.currentToken + j)).tokenType = tys.getD j default)
    (hnb : ∀ t ∈ tys, NonBranch t) (hpos : 0 < tys.length)
    (hheap : s1.heap = s.heap ++ [var])
    (hlab : s1.label_vars = s.label_vars ++ [s.heap.length])
    (hdef : Defines s.tokens s.currentToken var.m_name) : Run s s1 := by
  have hlabels : LabelsLive s → labels s1 = labels s ++ [(var.m_name, var.value)] := by
    intro hl
    unfold labels
    rw [hlab, hheap]
    simp only [List.map_append, List.map_cons, List.map_nil]
    congr 1
    · apply List.map_congr_left
      intro p hp
      rw [deref_append _ _ _ (hl p hp)]
    · have : deref (s.heap ++ [var]) s.heap.length = var := by
        unfold deref
        simp [List.getD_eq_getElem?_getD]
      rw [this]
  refine ⟨htok, herr, by omega, ?_, ?_, ?_⟩
  · intro hl p hp
    rw [hlab] at hp
    rw [hheap, List.length_append, List.length_singleton]
    rcases List.mem_append.mp hp with hp | hp
    · have := hl p hp; omega
    · simp only [List.mem_singleton] at hp; omega
  · intro hl
    refine ⟨[(var.m_name, var.value)], hlabels hl, ?_⟩
    intro e he
    simp only [List.mem_singleton] at he
    subst he
    exact Or.inr ⟨s.currentToken, Nat.le_refl _, by omega, hdef⟩
  · intro _ p p1 p2 name hb
    exfalso
    apply branchNames_type _ _ _ hb
    have hj : p - s.currentToken < tys.length := by omega
    have := htypes (p - s.currentToken) hj
    have e : s.currentToken + (p - s.currentToken) = p := by omega
    rw [e] at this
    rw [this]
    apply hnb
    simp [List.getD_eq_getElem?_getD, List.getElem?_eq_getElem hj]


theorem seg_types_zero (tys : List TokenType) (s s1 : SyntaxAnalysis) (h : Seg tys s s1)
    (hpos : 0 < tys.length) : (currentTok s).tokenType = tys.getD 0 default := by
  have := h.types 0 hpos
  simpa [tokenAt, currentTok] using this

theorem S_advances : Advances S := by
  intro s a s1 h
  unfold S at h
  split at h
  · -- _mem
    obtain ⟨_, sa, ha, h1⟩ := (bind_ok_iff _ _ _ _ _).mp h
    obtain ⟨v, sb, hb, h2⟩ := (bind_ok_iff _ _ _ _ _).mp h1
    clear h h1
    simp only [Result.ok.injEq, true_and] at h2
    obtain ⟨_, _, tys, hseg, hk⟩ := createVariable_ok _ _ _ hb
    obtain ⟨hnb, hpos⟩ := nonBranch_createVariable tys hk
    have hfin : Seg [] sb s1 := by
      rw [← h2]
      exact ⟨rfl, rfl, rfl, fun _ hj => absurd hj (by simp), rfl, ⟨[], by simp⟩⟩
    have hall := seg_append [.T_MEM] (tys ++ []) s sa s1 (eat_consumes _ _ _ _ ha)
      (seg_append tys [] sa sb s1 hseg hfin)
    refine ⟨run_of_seg _ s s1 hall ?_, by rw [hall.cur]; simp⟩
    intro t ht
    simp only [List.append_nil, List.singleton_append, List.mem_cons] at ht
    rcases ht with rfl | ht
    · exact ⟨by decide, by decide, by decide⟩
    · exact hnb t ht
  · -- _reg
    obtain ⟨_, sa, ha, h1⟩ := (bind_ok_iff _ _ _ _ _).mp h
    obtain ⟨v, sb, hb, h2⟩ := (bind_ok_iff _ _ _ _ _).mp h1
    clear h h1
    simp only [Result.ok.injEq, true_and] at h2
    obtain ⟨_, _, tys, hseg, hk⟩ := createVariable_ok _ _ _ hb
    obtain ⟨hnb, hpos⟩ := nonBranch_createVariable tys hk
    have hfin : Seg [] sb s1 := by
      rw [← h2]
      exact ⟨rfl, rfl, rfl, fun _ hj => absurd hj (by simp), rfl, ⟨[], by simp⟩⟩
    have hall := seg_append [.T_REG] (tys ++ []) s sa s1 (eat_consumes _ _ _ _ ha)
      (seg_append tys [] sa sb s1 hseg hfin)
    refine ⟨run_of_seg _ s s1 hall ?_, by rw [hall.cur]; simp⟩
    intro t ht
    simp only [List.append_nil, List.singleton_append, List.mem_cons] at ht
    rcases ht with rfl | ht
    · exact ⟨by decide, by decide, by decide⟩
    · exact hnb t ht
  · -- _func
    obtain ⟨_, sa, ha, h1⟩ := (bind_ok_iff _ _ _ _ _).mp h
    obtain ⟨v, sb, hb, h2⟩ := (bind_ok_iff _ _ _ _ _).mp h1
    obtain ⟨i, sc, hc, h3⟩ := (bind_ok_iff _ _ _ _ _).mp h2
    clear h h1 h2
    simp only [Result.ok.injEq, true_and] at h3
    obtain ⟨hv, ⟨w, hw1, hw2⟩, tys, hseg, hk⟩ := createVariable_ok _ _ _ hb
    obtain ⟨hnb, hpos⟩ := nonBranch_createVariable tys hk
    have hsa := eat_consumes _ _ _ _ ha
    have hheapa := eat_heap _ _ _ _ ha
    have hpre := seg_append [.T_FUNC] tys s sa sb hsa hseg
    unfold newInstruction at hc
    simp only [Result.ok.injEq] at hc
    obtain ⟨_, hsc⟩ := hc
    have f1 : s1.tokens = sb.tokens := by rw [← h3, ← hsc]
    have f2 : s1.err = sb.err := by rw [← h3, ← hsc]
    have f3 : s1.currentToken = sb.currentToken := by rw [← h3, ← hsc]
    have f4 : s1.heap = sb.heap := by rw [← h3, ← hsc]
    have f5 : s1.label_vars = sb.label_vars ++ [v] := by rw [← h3, ← hsc]
    have hrun : Run s s1 := run_push_label (.T_FUNC :: tys) s s1 w
      (by rw [f1]; exact hpre.tokens) (by rw [f2]; exact hpre.err)
      (by rw [f3]; exact hpre.cur) hpre.types
      (by
        intro t ht
        rcases List.mem_cons.mp ht with rfl | ht
        · exact ⟨by decide, by decide, by decide⟩
        · exact hnb t ht)
      (by simp)
      (by rw [f4, hw1, hheapa])
      (by rw [f5, hpre.label_vars, hv, hheapa])
      (by
        right
        refine ⟨?_, ?_⟩
        · have := hsa.types 0 (by simp)
          simpa using this
        · rw [hw2]
          unfold currentTok tokenAt
          rw [hsa.tokens, hsa.cur]
          rfl)
    exact ⟨hrun, by rw [f3, hpre.cur]; simp⟩
  · -- id :
    rename_i htype
    obtain ⟨v, sa, ha, h1⟩ := (bind_ok_iff _ _ _ _ _).mp h
    obtain ⟨_, sb, hb, h2⟩ := (bind_ok_iff _ _ _ _ _).mp h1
    obtain ⟨_, sc, hc, h3⟩ := (bind_ok_iff _ _ _ _ _).mp h2
    clear h h1 h2
    simp only [Result.ok.injEq, true_and] at hb
    obtain ⟨hv, ⟨w, hw1, hw2⟩, tys, hseg, hk⟩ := createVariable_ok _ _ _ ha
    have ht0 := seg_types_zero tys s sa hseg (nonBranch_createVariable tys hk).2
    rw [htype] at ht0
    have htys : tys = [.T_ID] := by
      rcases hk with h | h | h
      · subst h; cases ht0
      · subst h; cases ht0
      · exact h
    subst htys
    have hsc := eat_consumes _ _ _ _ hc
    have hheapc := eat_heap _ _ _ _ hc
    subst hb
    have hrun : Run s sc := run_push_label [.T_ID, .T_COL] s sc w
      (by rw [hsc.tokens]; exact hseg.tokens)
      (by rw [hsc.err]; exact hseg.err)
      (by rw [hsc.cur]; show sa.currentToken + 1 = _; rw [hseg.cur]; rfl)
      (by
        intro j hj
        have : j = 0 ∨ j = 1 := by simp at hj; omega
        rcases this with rfl | rfl
        · exact hseg.types 0 (by simp)
        · have := hsc.types 0 (by simp)
          simp only [Nat.add_zero, List.getD_cons_zero] at this
          have e : sa.currentToken = s.currentToken + 1 := hseg.cur
          have e2 : sa.tokens = s.tokens := hseg.tokens
          change (tokenAt sa.tokens sa.currentToken).tokenType = _ at this
          rw [e2, e] at this
          simpa using this)
      (by simp [NonBranch]) (by simp)
      (by rw [hheapc]; exact hw1)
      (by rw [hsc.label_vars]; show sa.label_vars ++ [v] = _; rw [hseg.label_vars, hv])
      (by
        left
        refine ⟨?_, ?_⟩
        · have e1 : (tokenAt s.tokens s.currentToken).tokenType = .T_ID := htype
          have e2 : (tokenAt s.tokens s.currentToken).value = w.m_name := hw2.symm
          cases hx : tokenAt s.tokens s.currentToken with
          | mk ty val =>
            rw [hx] at e1 e2
            simp only at e1 e2
            rw [e1, e2]
        · have := hsc.types 0 (by simp)
          simp only [Nat.add_zero, List.getD_cons_zero] at this
          have e : sa.currentToken = s.currentToken + 1 := hseg.cur
          have e2 : sa.tokens = s.tokens := hseg.tokens
          change (tokenAt sa.tokens sa.currentToken).tokenType = _ at this
          rw [e2, e] at this
          exact this)
    obtain ⟨hE, hlt⟩ := E_advances sc _ s1 h3
    exact ⟨run_trans s sc s1 hrun hE, Nat.lt_of_le_of_lt hrun.cur hlt⟩
  · exact E_advances s a s1 h

theorem L_run (Qf : Parser Unit) (hQ : ∀ s a s1, Qf s = .ok a s1 → Run s s1) :
    ∀ s a s1, L Qf s = .ok a s1 → Run s s1 := by
  intro s a s1 h
  unfold L at h
  split at h
  · obtain ⟨_, sa, ha, h1⟩ := (bind_ok_iff _ _ _ _ _).mp h
    simp only [Result.ok.injEq, true_and] at h1
    have hfin : Seg [] sa s1 := by
      rw [← h1]
      exact ⟨rfl, rfl, rfl, fun _ hj => absurd hj (by simp), rfl, ⟨[], by simp⟩⟩
    exact run_of_seg _ s s1
      (seg_append [.T_END_OF_FILE] [] s sa s1 (eat_consumes _ _ _ _ ha) hfin)
      (by simp [NonBranch])
  · exact hQ s a s1 h

theorem Q_run (fuel : Nat) : ∀ s a s1, Q fuel s = .ok a s1 → Run s s1 := by
  induction fuel with
  | zero => intro s a s1 h; cases h
  | succ n ih =>
    intro s a s1 h
    unfold Q at h
    simp only at h
    have h0 : Run s { s with next_instruction_has_label := false } :=
      run_of_seg [] _ _
        ⟨rfl, rfl, rfl, fun _ hj => absurd hj (by simp), rfl, ⟨[], by simp⟩⟩ (by simp)
    split at h
    · obtain ⟨_, sa, ha, h1⟩ := (bind_ok_iff _ _ _ _ _).mp h
      have r1 := run_of_seg _ _ _ (eat_consumes _ _ _ _ ha) (by simp [NonBranch])
      exact run_trans _ _ _ h0 (run_trans _ _ _ r1 (L_run _ ih _ _ _ h1))
    · obtain ⟨_, sa, ha, h1⟩ := (bind_ok_iff _ _ _ _ _).mp h
      obtain ⟨_, sb, hb, h2⟩ := (bind_ok_iff _ _ _ _ _).mp h1
      have r1 := (S_advances _ _ _ ha).1
      have r2 := run_of_seg _ _ _ (eat_consumes _ _ _ _ hb) (by simp [NonBranch])
      exact run_trans _ _ _ h0
        (run_trans _ _ _ r1 (run_trans _ _ _ r2 (L_run _ ih _ _ _ h2)))


theorem nofuel_bind {α β : Type} (m : Parser α) (f : α → Parser β) (hm : NoFuel m)
    (hf : ∀ a, NoFuel (f a)) : NoFuel (m >>= f) := by
  intro s h
  change Parser.bind m f s = _ at h
  unfold Parser.bind at h
  split at h
  · exact hf _ _ h
  · cases h
  · rename_i hms; exact hm s hms

theorem nofuel_pure {α : Type} (a : α) : NoFuel (pure a : Parser α) := by
  intro s h; cases h

theorem nofuel_eat (t : TokenType) : NoFuel (eat t) := by
  intro s h
  unfold eat at h
  by_cases ht : t = .T_END_OF_FILE
  · simp only [ht, if_true] at h
    split at h <;> cases h
  · simp only [ht, if_false] at h
    split at h <;> cases h

theorem nofuel_glance (t : TokenType) : NoFuel (glance t) := by
  intro s h; unfold glance at h; split at h <;> cases h

theorem nofuel_curValue : NoFuel curValue := by
  intro s h; cases h

theorem nofuel_stoiP (str : String) : NoFuel (stoiP str) := by
  intro s h; unfold stoiP at h; split at h <;> cases h

theorem nofuel_newVariable (t : VariableType) (n : String) (v : Int) :
    NoFuel (newVariable t n v) := by
  intro s h; unfold newVariable at h; split at h <;> cases h

theorem nofuel_newInstruction (t : InstructionType) (l : Option Nat) :
    NoFuel (newInstruction t l) := by
  intro s h; cases h

theorem nofuel_finishE (i : Instruction) : NoFuel (finishE i) := by
  intro s h; unfold finishE at h
  split at h
  · split at h
    · cases h
    · split at h <;> cases h
  · cases h

theorem nofuel_exists (f : String → Parser Unit)
    (hf : f = regVariableExists ∨ f = memVariableExists ∨ f = labelExists) (n : String) :
    NoFuel (f n) := by
  intro s h
  rcases hf with rfl | rfl | rfl
  · unfold regVariableExists at h; split at h <;> cases h
  · unfold memVariableExists at h; split at h <;> cases h
  · unfold labelExists at h; split at h <;> cases h

theorem nofuel_findVariableNamed (name : String) : NoFuel (findVariableNamed name) := by
  intro s h
  unfold findVariableNamed at h
  simp only at h
  split at h
  · split at h <;> cases h
  · split at h <;> cases h
  · split at h
    · cases h
    · refine (?_ : NoFuel _) s h
      apply nofuel_bind _ _ (nofuel_stoiP _); intro _
      apply nofuel_bind _ _ (nofuel_newVariable _ _ _); intro _
      intro s2 h2; cases h2
  · cases h

theorem nofuel_findVariable : NoFuel findVariable :=
  fun s => nofuel_findVariableNamed _ s

theorem nofuel_findLabel (name : String) : NoFuel (findLabel name) := by
  intro s h
  unfold findLabel at h
  split at h
  · cases h
  · refine (?_ : NoFuel _) s h
    apply nofuel_bind _ _ (nofuel_newVariable _ _ _); intro _
    intro s2 h2; cases h2

theorem nofuel_regOperand : NoFuel regOperand := by
  unfold regOperand
  apply nofuel_bind _ _ (nofuel_glance _); intro _
  apply nofuel_bind _ _ nofuel_findVariable; intro _
  apply nofuel_bind _ _ (nofuel_eat _); intro _
  exact nofuel_pure _

theorem nofuel_numOperand : NoFuel numOperand := by
  unfold numOperand
  apply nofuel_bind _ _ (nofuel_glance _); intro _
  apply nofuel_bind _ _ nofuel_curValue; intro _
  apply nofuel_bind _ _ (nofuel_stoiP _); intro _
  apply nofuel_bind _ _ (nofuel_findVariableNamed _); intro _
  apply nofuel_bind _ _ (nofuel_eat _); intro _
  exact nofuel_pure _

theorem nofuel_labelOperand : NoFuel labelOperand := by
  unfold labelOperand
  apply nofuel_bind _ _ (nofuel_glance _); intro _
  apply nofuel_bind _ _ nofuel_curValue; intro _
  apply nofuel_bind _ _ (nofuel_findLabel _); intro _
  apply nofuel_bind _ _ (nofuel_eat _); intro _
  exact nofuel_pure _

theorem nofuel_threeRegs (t : TokenType) (ty : InstructionType) : NoFuel (threeRegs t ty) := by
  unfold threeRegs
  apply nofuel_bind _ _ (nofuel_eat _); intro _
  apply nofuel_bind _ _ (nofuel_newInstruction _ _); intro _
  apply nofuel_bind _ _ nofuel_regOperand; intro _
  apply nofuel_bind _ _ (nofuel_eat _); intro _
  apply nofuel_bind _ _ nofuel_regOperand; intro _
  apply nofuel_bind _ _ (nofuel_eat _); intro _
  apply nofuel_bind _ _ nofuel_regOperand; intro _
  exact nofuel_finishE _

theorem nofuel_E : NoFuel E := by
  intro s h
  unfold E at h
  split at h
  · exact nofuel_threeRegs _ _ s h
  · -- addi
    refine (?_ : NoFuel _) s h
    apply nofuel_bind _ _ (nofuel_eat _); intro _
    apply nofuel_bind _ _ (nofuel_newInstruction _ _); intro _
    apply nofuel_bind _ _ nofuel_regOperand; intro _
    apply nofuel_bind _ _ (nofuel_eat _); intro _
    apply nofuel_bind _ _ nofuel_regOperand; intro _
    apply nofuel_bind _ _ (nofuel_eat _); intro _
    apply nofuel_bind _ _ nofuel_numOperand; intro _
    exact nofuel_finishE _
  · -- b
    refine (?_ : NoFuel _) s h
    apply nofuel_bind _ _ (nofuel_eat _); intro _
    apply nofuel_bind _ _ (nofuel_newInstruction _ _); intro _
    apply nofuel_bind _ _ nofuel_labelOperand; intro _
    exact nofuel_finishE _
  · -- bltz
    refine (?_ : NoFuel _) s h
    apply nofuel_bind _ _ (nofuel_eat _); intro _
    apply nofuel_bind _ _ (nofuel_newInstruction _ _); intro _
    apply nofuel_bind _ _ nofuel_regOperand; intro _
    apply nofuel_bind _ _ (nofuel_eat _); intro _
    apply nofuel_bind _ _ nofuel_labelOperand; intro _
    exact nofuel_finishE _
  · -- la
    refine (?_ : NoFuel _) s h
    apply nofuel_bind _ _ (nofuel_eat _); intro _
    apply nofuel_bind _ _ (nofuel_newInstruction _ _); intro _
    apply nofuel_bind _ _ nofuel_regOperand; intro _
    apply nofuel_bind _ _ (nofuel_eat _); intro _
    apply nofuel_bind _ _ (nofuel_glance _); intro _
    apply nofuel_bind _ _ nofuel_findVariable; intro _
    apply nofuel_bind _ _ (nofuel_eat _); intro _
    exact nofuel_finishE _
  · -- li
    refine (?_ : NoFuel _) s h
    apply nofuel_bind _ _ (nofuel_eat _); intro _
    apply nofuel_bind _ _ (nofuel_newInstruction _ _); intro _
    apply nofuel_bind _ _ nofuel_regOperand; intro _
    apply nofuel_bind _ _ (nofuel_eat _); intro _
    apply nofuel_bind _ _ nofuel_numOperand; intro _
    exact nofuel_finishE _
  · -- lw
    refine (?_ : NoFuel _) s h
    apply nofuel_bind _ _ (nofuel_eat _); intro _
    apply nofuel_bind _ _ (nofuel_newInstruction _ _); intro _
    apply nofuel_bind _ _ nofuel_regOperand; intro _
    apply nofuel_bind _ _ (nofuel_eat _); intro _
    apply nofuel_bind _ _ nofuel_numOperand; intro _
    apply nofuel_bind _ _ (nofuel_eat _); intro _
    apply nofuel_bind _ _ nofuel_regOperand; intro _
    apply nofuel_bind _ _ (nofuel_eat _); intro _
    exact nofuel_finishE _
  · -- nop
    refine (?_ : NoFuel _) s h
    apply nofuel_bind _ _ (nofuel_eat _); intro _
    apply nofuel_bind _ _ (nofuel_newInstruction _ _); intro _
    exact nofuel_finishE _
  · exact nofuel_threeRegs _ _ s h
  · -- sw
    refine (?_ : NoFuel _) s h
    apply nofuel_bind _ _ (nofuel_eat _); intro _
    apply nofuel_bind _ _ (nofuel_newInstruction _ _); intro _
    apply nofuel_bind _ _ nofuel_regOperand; intro _
    apply nofuel_bind _ _ (nofuel_eat _); intro _
    apply nofuel_bind _ _ nofuel_numOperand; intro _
    apply nofuel_bind _ _ (nofuel_eat _); intro _
    apply nofuel_bind _ _ nofuel_regOperand; intro _
    apply nofuel_bind _ _ (nofuel_eat _); intro _
    exact nofuel_finishE _
  · exact nofuel_threeRegs _ _ s h
  · exact nofuel_threeRegs _ _ s h
  · -- not
    refine (?_ : NoFuel _) s h
    apply nofuel_bind _ _ (nofuel_eat _); intro _
    apply nofuel_bind _ _ (nofuel_newInstruction _ _); intro _
    apply nofuel_bind _ _ nofuel_regOperand; intro _
    apply nofuel_bind _ _ (nofuel_eat _); intro _
    apply nofuel_bind _ _ nofuel_regOperand; intro _
    exact nofuel_finishE _
  · -- bne
    refine (?_ : NoFuel _) s h
    apply nofuel_bind _ _ (nofuel_eat _); intro _
    apply nofuel_bind _ _ (nofuel_newInstruction _ _); intro _
    apply nofuel_bind _ _ nofuel_regOperand; intro _
    apply nofuel_bind _ _ (nofuel_eat _); intro _
    apply nofuel_bind _ _ nofuel_regOperand; intro _
    apply nofuel_bind _ _ (nofuel_eat _); intro _
    apply nofuel_bind _ _ nofuel_labelOperand; intro _
    exact nofuel_finishE _
  · cases h

theorem nofuel_createVariable : NoFuel createVariable := by
  intro s h
  unfold createVariable at h
  split at h
  · refine (?_ : NoFuel _) s h
    apply nofuel_bind _ _ nofuel_curValue; intro _
    apply nofuel_bind _ _ (nofuel_exists _ (Or.inr (Or.inl rfl)) _); intro _
    apply nofuel_bind _ _ (nofuel_eat _); intro _
    apply nofuel_bind _ _ (nofuel_glance _); intro _
    apply nofuel_bind _ _ nofuel_curValue; intro _
    apply nofuel_bind _ _ (nofuel_stoiP _); intro _
    apply nofuel_bind _ _ (nofuel_newVariable _ _ _); intro _
    apply nofuel_bind _ _ (nofuel_eat _); intro _
    exact nofuel_pure _
  · refine (?_ : NoFuel _) s h
    apply nofuel_bind _ _ nofuel_curValue; intro _
    apply nofuel_bind _ _ (nofuel_exists _ (Or.inl rfl) _); intro _
    apply nofuel_bind _ _ (nofuel_eat _); intro _
    exact nofuel_newVariable _ _ _
  · refine (?_ : NoFuel _) s h
    apply nofuel_bind _ _ nofuel_curValue; intro _
    apply nofuel_bind _ _ (nofuel_exists _ (Or.inr (Or.inr rfl)) _); intro _
    apply nofuel_bind _ _ (nofuel_eat _); intro _
    exact nofuel_newVariable _ _ _
  · cases h

theorem nofuel_S : NoFuel S := by
  intro s h
  unfold S at h
  split at h
  · refine (?_ : NoFuel _) s h
    apply nofuel_bind _ _ (nofuel_eat _); intro _
    apply nofuel_bind _ _ nofuel_createVariable; intro _
    intro s2 h2; cases h2
  · refine (?_ : NoFuel _) s h
    apply nofuel_bind _ _ (nofuel_eat _); intro _
    apply nofuel_bind _ _ nofuel_createVariable; intro _
    intro s2 h2; cases h2
  · refine (?_ : NoFuel _) s h
    apply nofuel_bind _ _ (nofuel_eat _); intro _
    apply nofuel_bind _ _ nofuel_createVariable; intro _
    apply nofuel_bind; · intro s2 h2; cases h2
    intro _ s2 h2; cases h2
  · refine (?_ : NoFuel _) s h
    apply nofuel_bind _ _ nofuel_createVariable; intro _
    apply nofuel_bind; · intro s2 h2; cases h2
    intro _
    apply nofuel_bind _ _ (nofuel_eat _); intro _
    exact nofuel_E
  · exact nofuel_E s h

theorem currentTok_outside (s : SyntaxAnalysis) (h : s.tokens.length ≤ s.currentToken) :
    (currentTok s).tokenType = .T_NO_TYPE := by
  unfold currentTok
  have hnone : s.tokens[s.currentToken]? = none := List.getElem?_eq_none h
  simp [List.getD_eq_getElem?_getD, hnone]
  rfl

theorem S_outside (s : SyntaxAnalysis) (h : (currentTok s).tokenType = .T_NO_TYPE) :
    S s = .raise (.syntaxError .WRONG_TOKEN) { s with err := true } := by
  unfold S
  rw [h]
  simp only
  unfold E
  rw [h]

/-- Enough fuel: with more fuel than tokens left, `Q` returns or raises. -/
theorem Q_fuel (n : Nat) :
    ∀ s : SyntaxAnalysis, s.tokens.length < s.currentToken + (n + 1) →
      Q (n + 1) s ≠ .outOfFuel := by
  induction n with
  | zero =>
    intro s hs h
    have hout : s.tokens.length ≤ s.currentToken := by omega
    have ht := currentTok_outside { s with next_instruction_has_label := false } hout
    unfold Q at h
    simp only at h
    rw [if_neg (by rw [ht]; decide)] at h
    have hS := S_outside _ ht
    change Parser.bind S _ _ = _ at h
    unfold Parser.bind at h
    rw [hS] at h
    cases h
  | succ m ih =>
    intro s hs h
    unfold Q at h
    simp only at h
    have hL : ∀ sa : SyntaxAnalysis, s.currentToken < sa.currentToken →
        sa.tokens = s.tokens → L (Q (m + 1)) sa ≠ .outOfFuel := by
      intro sa hlt htok hl
      unfold L at hl
      split at hl
      · refine (?_ : NoFuel _) sa hl
        apply nofuel_bind _ _ (nofuel_eat _); intro _
        intro s2 h2; cases h2
      · exact ih sa (by rw [htok]; omega) hl
    split at h
    · change Parser.bind (eat .T_COMMENT) _ _ = _ at h
      unfold Parser.bind at h
      split at h
      · rename_i a sa ha
        have hseg := eat_consumes _ _ _ _ ha
        exact hL sa (by rw [hseg.cur]; simp) hseg.tokens h
      · cases h
      · rename_i ha; exact nofuel_eat _ _ ha
    · change Parser.bind S _ _ = _ at h
      unfold Parser.bind at h
      split at h
      · rename_i a sa ha
        obtain ⟨hrun, hlt⟩ := S_advances _ _ _ ha
        change Parser.bind (eat .T_SEMI_COL) _ _ = _ at h
        unfold Parser.bind at h
        split at h
        · rename_i b sb hb
          have hseg := eat_consumes _ _ _ _ hb
          refine hL sb ?_ ?_ h
          · rw [hseg.cur]
            have : s.currentToken < sa.currentToken := hlt
            omega
          · rw [hseg.tokens, hrun.tokens]
        · cases h
        · rename_i hb; exact nofuel_eat _ _ hb
      · cases h
      · rename_i ha; exact nofuel_S _ ha

/-- The method `Do()` returns or raises: the recursion bound of the model is never used up. -/
theorem Do_fuel (s : SyntaxAnalysis) : s.Do ≠ .outOfFuel := by
  intro h
  unfold SyntaxAnalysis.Do at h
  change Parser.bind (Q (s.tokens.length + 1)) _ _ = _ at h
  unfold Parser.bind at h
  split at h
  · rename_i a s1 _
    change Parser.bind checkLabels _ _ = _ at h
    unfold Parser.bind at h
    split at h
    · rename_i b s2 _
      change Parser.bind checkFunctions _ _ = _ at h
      unfold Parser.bind at h
      split at h
      · cases h
      · cases h
      · rename_i hc
        unfold checkFunctions at hc
        split at hc
        · cases hc
        · split at hc
          · cases hc
          · simp only at hc
            split at hc <;> cases hc
    · cases h
    · rename_i hc
      unfold checkLabels at hc
      split at hc <;> cases hc
  · cases h
  · rename_i hq
    exact Q_fuel s.tokens.length _ (by simp) hq



theorem bind_of_ok {α β : Type} (m : Parser α) (f : α → Parser β) (s s1 : SyntaxAnalysis)
    (a : α) (h : m s = .ok a s1) : (m >>= f) s = f a s1 := by
  change Parser.bind m f s = _
  unfold Parser.bind
  rw [h]

theorem bind_of_raise {α β : Type} (m : Parser α) (f : α → Parser β) (s s1 : SyntaxAnalysis)
    (e : Exn) (h : m s = .raise e s1) : (m >>= f) s = .raise e s1 := by
  change Parser.bind m f s = _
  unfold Parser.bind
  rw [h]

theorem checkLabels_raise (s : SyntaxAnalysis)
    (h : ∃ p ∈ s.label_vars, (deref s.heap p).value ≠ 1) :
    checkLabels s = .raise (.syntaxError .LABEL_DOESNT_EXIST) { s with err := true } := by
  unfold checkLabels
  obtain ⟨p, hp, hv⟩ := h
  cases hf : s.label_vars.find? (fun p => (deref s.heap p).value != 1) with
  | some q => rfl
  | none =>
    exfalso
    have := List.find?_eq_none.mp hf p hp
    simp at this
    exact hv this

/-- C8, as amended. Undefined label: when the grammar phase `Q()` parses the token stream
to the end without raising (no wrong token, duplicate definition or undefined variable),
some branch among the consumed tokens names a label, and no `id :` prefix and no
`_func id` in the stream defines that name, `SyntaxAnalysis::Do()` fails with
`LABEL_DOESNT_EXIST`. -/
theorem undefined_label_rejected (s s1 : SyntaxAnalysis) (name : String) (p : Nat)
    (hfresh : s.label_vars = [])
    (hq : Q (s.tokens.length + 1) { s with currentToken := 0 } = .ok () s1)
    (hp : p < s1.currentToken)
    (hbr : BranchNames s.tokens p name)
    (hnd : ∀ q, ¬ Defines s.tokens q name) :
    s.Do = .raise (.syntaxError .LABEL_DOESNT_EXIST) { s1 with err := true } := by
  have hrun := Q_run _ _ _ _ hq
  have hlive : LabelsLive { s with currentToken := 0 } := by
    intro q hq2
    change q ∈ s.label_vars at hq2
    rw [hfresh] at hq2
    simp at hq2
  obtain ⟨added, hlab, hadd⟩ := hrun.grows hlive
  have hl0 : labels { s with currentToken := 0 } = [] := by
    unfold labels
    change List.map _ s.label_vars = []
    rw [hfresh]; rfl
  rw [hl0, List.nil_append] at hlab
  have hmem := hrun.branches hlive p (Nat.zero_le _) hp name hbr
  rw [List.mem_map] at hmem
  obtain ⟨e, he, hname⟩ := hmem
  have hval : e.2 = 0 := by
    rcases hadd e (hlab ▸ he) with h | ⟨q, _, _, hd⟩
    · exact h
    · exact absurd (hname ▸ hd) (hnd q)
  unfold labels at he
  rw [List.mem_map] at he
  obtain ⟨ptr, hptr, hpe⟩ := he
  have hraise := checkLabels_raise s1 ⟨ptr, hptr, by
    have : (deref s1.heap ptr).value = e.2 := by rw [← hpe]
    rw [this, hval]; decide⟩
  unfold SyntaxAnalysis.Do
  rw [bind_of_ok _ _ _ _ _ hq, bind_of_raise _ _ _ _ _ hraise]

theorem checkLabels_ok (s s1 : SyntaxAnalysis) (a : Unit) (h : checkLabels s = .ok a s1) :
    s1 = s := by
  unfold checkLabels at h
  split at h
  · cases h
  · simp only [Result.ok.injEq, true_and] at h; exact h.symm

/-- C10. Entry-function checks: when the token stream passes the grammar (`Q()` returns) and
the label check, and the instruction list is not empty, `Do()` raises `NO_MAIN_FUNC` if the
first instruction is not a FUNC-ENTRY, otherwise raises `TOO_MANY_FUNCS` if the list holds
more than one FUNC-ENTRY, and otherwise returns true; so after every successful parse the
first instruction is the only FUNC-ENTRY. -/
theorem entry_function_checks (s s1 : SyntaxAnalysis) (first : Instruction)
    (rest : List Instruction) (herr : s.err = false)
    (hq : Q (s.tokens.length + 1) { s with currentToken := 0 } = .ok () s1)
    (hl : checkLabels s1 = .ok () s1)
    (hins : s1.instrs = first :: rest) :
    (first.isFunc = false →
      s.Do = .raise (.syntaxError .NO_MAIN_FUNC) { s1 with err := true }) ∧
    (first.isFunc = true → 1 < (s1.instrs.filter (fun i => i.isFunc)).length →
      s.Do = .raise (.syntaxError .TOO_MANY_FUNCS) { s1 with err := true }) ∧
    (first.isFunc = true → ¬ 1 < (s1.instrs.filter (fun i => i.isFunc)).length →
      s.Do = .ok true s1) ∧
    (∀ b, s.Do = .ok b s1 → b = true ∧ first.isFunc = true ∧ ∀ i ∈ rest, i.isFunc = false) := by
  have hrun := Q_run _ _ _ _ hq
  have herr1 : s1.err = false := by rw [hrun.err]; exact herr
  have hdo : s.Do = (checkFunctions >>= fun _ => fun s2 => Result.ok (!s2.err) s2) s1 := by
    unfold SyntaxAnalysis.Do
    rw [bind_of_ok _ _ _ _ _ hq, bind_of_ok _ _ _ _ _ hl]
  have hcount : (s1.instrs.filter (fun i => i.isFunc)).length =
      (if first.isFunc then 1 else 0) + (rest.filter (fun i => i.isFunc)).length := by
    rw [hins, List.filter_cons]
    split
    · simp; omega
    · simp
  have c1 : first.isFunc = false →
      s.Do = .raise (.syntaxError .NO_MAIN_FUNC) { s1 with err := true } := by
    intro hf
    rw [hdo]
    apply bind_of_raise
    unfold checkFunctions
    rw [hins]
    simp [hf]
  have c2 : first.isFunc = true → 1 < (s1.instrs.filter (fun i => i.isFunc)).length →
      s.Do = .raise (.syntaxError .TOO_MANY_FUNCS) { s1 with err := true } := by
    intro hf hc
    rw [hdo]
    apply bind_of_raise
    unfold checkFunctions
    have hne : (List.filter (fun i => i.isFunc) s1.instrs).length ≠ 1 := by omega
    rw [hins] at hne ⊢
    simp only [List.head?_cons, hf, Bool.not_true, Bool.false_eq_true, if_false]
    rw [if_pos hne]
  have hone : first.isFunc = true → ¬ 1 < (s1.instrs.filter (fun i => i.isFunc)).length →
      (s1.instrs.filter (fun i => i.isFunc)).length = 1 := by
    intro hf hc
    rw [hcount, hf] at hc ⊢
    simp only [if_true] at hc ⊢
    omega
  have c3 : first.isFunc = true → ¬ 1 < (s1.instrs.filter (fun i => i.isFunc)).length →
      s.Do = .ok true s1 := by
    intro hf hc
    have h1 := hone hf hc
    rw [hdo]
    have hcf : checkFunctions s1 = .ok () s1 := by
      unfold checkFunctions
      rw [hins] at h1 ⊢
      simp only [List.head?_cons, hf, Bool.not_true, Bool.false_eq_true, if_false]
      rw [if_neg (by rw [h1]; decide)]
    rw [bind_of_ok _ _ _ _ _ hcf, herr1]
    rfl
  refine ⟨c1, c2, c3, ?_⟩
  intro b hb
  cases hf : first.isFunc with
  | false => rw [c1 hf] at hb; cases hb
  | true =>
    by_cases hc : 1 < (s1.instrs.filter (fun i => i.isFunc)).length
    · rw [c2 hf hc] at hb; cases hb
    · rw [c3 hf hc] at hb
      simp only [Result.ok.injEq, and_true] at hb
      refine ⟨hb.symm, rfl, ?_⟩
      have h1 := hone hf hc
      rw [hcount, hf] at h1
      simp only [if_true] at h1
      have h0 : (rest.filter (fun i => i.isFunc)).length = 0 := by omega
      have hnil := List.length_eq_zero.mp h0
      intro i hi
      have := List.filter_eq_nil_iff.mp hnil i hi
      simpa using this


theorem eat_of_type (t : TokenType) (s : SyntaxAnalysis) (h : (currentTok s).tokenType = t)
    (hne : t ≠ .T_END_OF_FILE) :
    eat t s = .ok () { s with currentToken := s.currentToken + 1 } := by
  unfold eat
  simp only [hne, if_false, h, if_true]

theorem findByName_isSome (heap : List Variable) (table : List Nat) (name : String)
    (h : ∃ p ∈ table, (deref heap p).m_name = name) :
    ∃ q, findByName heap table name = some q := by
  unfold findByName
  obtain ⟨p, hp, hn⟩ := h
  cases hf : table.find? (fun p => (deref heap p).m_name == name) with
  | some q => exact ⟨q, rfl⟩
  | none =>
    exfalso
    have := List.find?_eq_none.mp hf p hp
    simp [hn] at this

theorem regVariableExists_raise (name : String) (s : SyntaxAnalysis)
    (h : ∃ p ∈ s.reg_vars, (deref s.heap p).m_name = name) :
    regVariableExists name s = .raise (.syntaxError .REGISTER_VAR_EXISTS) { s with err := true } := by
  unfold regVariableExists
  obtain ⟨q, hq⟩ := findByName_isSome _ _ _ h
  rw [hq]

theorem memVariableExists_raise (name : String) (s : SyntaxAnalysis)
    (h : ∃ p ∈ s.mem_vars, (deref s.heap p).m_name = name) :
    memVariableExists name s = .raise (.syntaxError .MEMORY_VAR_EXISTS) { s with err := true } := by
  unfold memVariableExists
  obtain ⟨q, hq⟩ := findByName_isSome _ _ _ h
  rw [hq]

theorem labelExists_raise (name : String) (s : SyntaxAnalysis)
    (h : ∃ p ∈ s.label_vars, (deref s.heap p).m_name = name ∧ (deref s.heap p).value = 1) :
    labelExists name s = .raise (.syntaxError .LABEL_EXISTS) { s with err := true } := by
  unfold labelExists
  obtain ⟨p, hp, hn, hv⟩ := h
  cases hf : s.label_vars.find?
      (fun p => (deref s.heap p).m_name == name && (deref s.heap p).value == 1) with
  | some q => rfl
  | none =>
    exfalso
    have := List.find?_eq_none.mp hf p hp
    simp [hn, hv] at this

theorem createVariable_reg_raise (s : SyntaxAnalysis) (name : String)
    (htok : currentTok s = ⟨.T_R_ID, name⟩)
    (h : ∃ p ∈ s.reg_vars, (deref s.heap p).m_name = name) :
    createVariable s = .raise (.syntaxError .REGISTER_VAR_EXISTS) { s with err := true } := by
  unfold createVariable
  rw [htok]
  simp only
  have hcv : curValue s = .ok name s := by unfold curValue; rw [htok]
  rw [bind_of_ok _ _ _ _ _ hcv]
  exact bind_of_raise _ _ _ _ _ (regVariableExists_raise name s h)

theorem createVariable_mem_raise (s : SyntaxAnalysis) (name : String)
    (htok : currentTok s = ⟨.T_M_ID, name⟩)
    (h : ∃ p ∈ s.mem_vars, (deref s.heap p).m_name = name) :
    createVariable s = .raise (.syntaxError .MEMORY_VAR_EXISTS) { s with err := true } := by
  unfold createVariable
  rw [htok]
  simp only
  have hcv : curValue s = .ok name s := by unfold curValue; rw [htok]
  rw [bind_of_ok _ _ _ _ _ hcv]
  exact bind_of_raise _ _ _ _ _ (memVariableExists_raise name s h)

theorem createVariable_label_raise (s : SyntaxAnalysis) (name : String)
    (htok : currentTok s = ⟨.T_ID, name⟩)
    (h : ∃ p ∈ s.label_vars, (deref s.heap p).m_name = name ∧ (deref s.heap p).value = 1) :
    createVariable s = .raise (.syntaxError .LABEL_EXISTS) { s with err := true } := by
  unfold createVariable
  rw [htok]
  simp only
  have hcv : curValue s = .ok name s := by unfold curValue; rw [htok]
  rw [bind_of_ok _ _ _ _ _ hcv]
  exact bind_of_raise _ _ _ _ _ (labelExists_raise name s h)

/-- A statement that starts with the keyword `kw` (one of `_mem`, `_reg`, `_func`) and
whose `createVariable` call raises: `Q` raises the same exception in the same state. -/
theorem Q_keyword_raise (fuel : Nat) (s : SyntaxAnalysis) (kw : TokenType) (e : SyntaxError)
    (hkw : kw = .T_MEM ∨ kw = .T_REG ∨ kw = .T_FUNC)
    (htype : (currentTok s).tokenType = kw)
    (hcv : createVariable
        { s with next_instruction_has_label := false, currentToken := s.currentToken + 1 } =
      .raise (.syntaxError e)
        { s with next_instruction_has_label := false, currentToken := s.currentToken + 1,
                 err := true }) :
    Q (fuel + 1) s = .raise (.syntaxError e)
      { s with next_instruction_has_label := false, currentToken := s.currentToken + 1,
               err := true } := by
  have ht0 : (currentTok { s with next_instruction_has_label := false }).tokenType = kw := htype
  have hne : kw ≠ .T_END_OF_FILE := by rcases hkw with h | h | h <;> rw [h] <;> decide
  have hnc : ¬ (currentTok { s with next_instruction_has_label := false }).tokenType
      = .T_COMMENT := by
    rw [ht0]; rcases hkw with h | h | h <;> rw [h] <;> decide
  have heat := eat_of_type kw { s with next_instruction_has_label := false } ht0 hne
  unfold Q
  simp only
  rw [if_neg hnc]
  apply bind_of_raise
  unfold S
  rcases hkw with h | h | h
  · subst h
    rw [ht0]
    simp only
    rw [bind_of_ok _ _ _ _ _ heat]
    exact bind_of_raise _ _ _ _ _ hcv
  · subst h
    rw [ht0]
    simp only
    rw [bind_of_ok _ _ _ _ _ heat]
    exact bind_of_raise _ _ _ _ _ hcv
  · subst h
    rw [ht0]
    simp only
    rw [bind_of_ok _ _ _ _ _ heat]
    exact bind_of_raise _ _ _ _ _ hcv

/-- Duplicate definitions in the forms of the grammar: at a statement `_reg` followed by
a register id whose name is already in the register table the parser raises
`REGISTER_VAR_EXISTS`, at `_mem` followed by a memory id whose name is already in the
memory table it raises `MEMORY_VAR_EXISTS`, and at `_func id` or `id :` whose name is
already a defined label it raises `LABEL_EXISTS`; in the state at the throw the tables and
the heap are those before the statement (no second entry is added).  A declaration whose
identifier is of another kind than its keyword is not covered: the check then reads
another table. -/
theorem duplicate_definitions_rejected (s : SyntaxAnalysis) (name : String) (fuel : Nat) :
    ((currentTok s).tokenType = .T_REG →
      tokenAt s.tokens (s.currentToken + 1) = ⟨.T_R_ID, name⟩ →
      (∃ p ∈ s.reg_vars, (deref s.heap p).m_name = name) →
      Q (fuel + 1) s = .raise (.syntaxError .REGISTER_VAR_EXISTS)
        { s with next_instruction_has_label := false, currentToken := s.currentToken + 1,
                 err := true }) ∧
    ((currentTok s).tokenType = .T_MEM →
      tokenAt s.tokens (s.currentToken + 1) = ⟨.T_M_ID, name⟩ →
      (∃ p ∈ s.mem_vars, (deref s.heap p).m_name = name) →
      Q (fuel + 1) s = .raise (.syntaxError .MEMORY_VAR_EXISTS)
        { s with next_instruction_has_label := false, currentToken := s.currentToken + 1,
                 err := true }) ∧
    ((currentTok s).tokenType = .T_FUNC →
      tokenAt s.tokens (s.currentToken + 1) = ⟨.T_ID, name⟩ →
      (∃ p ∈ s.label_vars, (deref s.heap p).m_name = name ∧ (deref s.heap p).value = 1) →
      Q (fuel + 1) s = .raise (.syntaxError .LABEL_EXISTS)
        { s with next_instruction_has_label := false, currentToken := s.currentToken + 1,
                 err := true }) ∧
    (currentTok s = ⟨.T_ID, name⟩ →
      (∃ p ∈ s.label_vars, (deref s.heap p).m_name = name ∧ (deref s.heap p).value = 1) →
      Q (fuel + 1) s = .raise (.syntaxError .LABEL_EXISTS)
        { s with next_instruction_has_label := false, err := true }) := by
  refine ⟨?_, ?_, ?_, ?_⟩
  · intro htype hnext hex
    exact Q_keyword_raise fuel s .T_REG _ (Or.inr (Or.inl rfl)) htype
      (createVariable_reg_raise _ name hnext hex)
  · intro htype hnext hex
    exact Q_keyword_raise fuel s .T_MEM _ (Or.inl rfl) htype
      (createVariable_mem_raise _ name hnext hex)
  · intro htype hnext hex
    exact Q_keyword_raise fuel s .T_FUNC _ (Or.inr (Or.inr rfl)) htype
      (createVariable_label_raise _ name hnext hex)
  · intro htok hex
    have ht0 : currentTok { s with next_instruction_has_label := false } = ⟨.T_ID, name⟩ := htok
    have hnc : ¬ (currentTok { s with next_instruction_has_label := false }).tokenType
        = .T_COMMENT := by
      rw [ht0]; intro hc; cases hc
    unfold Q
    simp only
    rw [if_neg hnc]
    apply bind_of_raise
    unfold S
    rw [ht0]
    simp only
    exact bind_of_raise _ _ _ _ _
      (createVariable_label_raise { s with next_instruction_has_label := false } name ht0 hex)



theorem tokenAt_outside (tokens : List Token) (q : Nat) (h : tokens.length ≤ q) :
    tokenAt tokens q = default := by
  unfold tokenAt
  have hnone : tokens[q]? = none := List.getElem?_eq_none h
  simp [List.getD_eq_getElem?_getD, hnone]

theorem defines_bounded (tokens : List Token) (name : String)
    (h : ∀ q, q < tokens.length → ¬ Defines tokens q name) : ∀ q, ¬ Defines tokens q name := by
  intro q hd
  by_cases hq : q < tokens.length
  · exact h q hq hd
  · have := tokenAt_outside tokens q (by omega)
    rcases hd with ⟨h1, _⟩ | ⟨h1, _⟩
    · rw [this] at h1; cases h1
    · rw [this] at h1; cases h1

/-- C7. A branch to a label defined later is rejected: on `_func main; b done; done: nop;`
and on scenario 4 `Do()` raises `LABEL_DOESNT_EXIST`; the label table then holds two
entries named `done`, the reference with the flag 0 and the definition with the flag 1. -/
theorem forward_branch_rejected :
    ((SyntaxAnalysis.init forwardBranchTokens).Do).raised =
      some (.syntaxError .LABEL_DOESNT_EXIST) ∧
    ((SyntaxAnalysis.init forwardBranchTokens).Do).state.map labels =
      some [("main", 1), ("done", 0), ("done", 1)] ∧
    ((SyntaxAnalysis.init scenario4Tokens).Do).raised =
      some (.syntaxError .LABEL_DOESNT_EXIST) ∧
    ((SyntaxAnalysis.init scenario4Tokens).Do).state.map labels =
      some [("main", 1), ("done", 0), ("done", 1)] := by
  decide!

/-- Counterexample to C8 as stated: `_func main; b missing; add r1, r1, r1;` follows the
grammar and its branch names the label `missing`, which nothing defines, but `Do()`
fails with `VARIABLE_DOESNT_EXIST`, raised while the statement `add` is parsed, before
the label check runs. -/
theorem undefined_label_preempted :
    grammarAccepts 4 (preemptedTokens.map (fun t => t.tokenType)) = true ∧
    BranchNames preemptedTokens 3 "missing" ∧
    (∀ q, q < preemptedTokens.length → ¬ Defines preemptedTokens q "missing") ∧
    ((SyntaxAnalysis.init preemptedTokens).Do).raised =
      some (.syntaxError .VARIABLE_DOESNT_EXIST) ∧
    ((SyntaxAnalysis.init preemptedTokens).Do).raised ≠
      some (.syntaxError .LABEL_DOESNT_EXIST) := by
  decide!

/-- Witness of C8 on scenario 5, `_func main; b missing;`. -/
theorem undefined_label_rejected_witness :
    (SyntaxAnalysis.init undefinedLabelTokens).Do =
      .raise (.syntaxError .LABEL_DOESNT_EXIST) { undefinedLabelParsed with err := true } :=
  undefined_label_rejected (SyntaxAnalysis.init undefinedLabelTokens) undefinedLabelParsed
    "missing" 3 (by rfl) (by decide!) (by decide!) (by decide!)
    (defines_bounded _ _ (by decide!))

/-- Scenario 6, `_func main; _reg r1; _reg r1;`: the second `_reg r1` raises
`REGISTER_VAR_EXISTS`. -/
theorem duplicate_definitions_rejected_witness :
    Q 4 duplicateRegState = .raise (.syntaxError .REGISTER_VAR_EXISTS)
      { duplicateRegState with next_instruction_has_label := false,
                               currentToken := duplicateRegState.currentToken + 1,
                               err := true } :=
  (duplicate_definitions_rejected duplicateRegState "r1" 3).1 (by decide!) (by decide!)
    ⟨1, by decide!, by decide!⟩

/-- C9 (divergence). On `_func main; _reg m1 5; _reg m1 6; _mem r1; _mem r1;` no
duplicate is rejected.  Before the statement `_reg m1 6` the register table holds an
entry named `m1`, yet `S()` returns and adds a second entry `m1`; before the second
`_mem r1` the memory table holds an entry named `r1`, yet `S()` returns and adds a second
entry `r1`; `Do()` returns true and raises neither `REGISTER_VAR_EXISTS` nor
`MEMORY_VAR_EXISTS`. -/
theorem duplicate_declaration_accepted :
    ((currentTok redeclaredRegState).tokenType = .T_REG ∧
      tokenAt redeclaredRegState.tokens (redeclaredRegState.currentToken + 1) =
        ⟨.T_M_ID, "m1"⟩ ∧
      (∃ p ∈ redeclaredRegState.reg_vars, (deref redeclaredRegState.heap p).m_name = "m1") ∧
      names redeclaredRegState.heap redeclaredRegState.reg_vars = ["m1"] ∧
      (S redeclaredRegState).returned = some () ∧
      (S redeclaredRegState).state.map (fun s => names s.heap s.reg_vars) =
        some ["m1", "m1"]) ∧
    ((currentTok redeclaredMemState).tokenType = .T_MEM ∧
      tokenAt redeclaredMemState.tokens (redeclaredMemState.currentToken + 1) =
        ⟨.T_R_ID, "r1"⟩ ∧
      (∃ p ∈ redeclaredMemState.mem_vars, (deref redeclaredMemState.heap p).m_name = "r1") ∧
      names redeclaredMemState.heap redeclaredMemState.mem_vars = ["r1"] ∧
      (S redeclaredMemState).returned = some () ∧
      (S redeclaredMemState).state.map (fun s => names s.heap s.mem_vars) =
        some ["r1", "r1"]) ∧
    (SyntaxAnalysis.Do (SyntaxAnalysis.init redeclaredTokens)).returned = some true ∧
    (SyntaxAnalysis.Do (SyntaxAnalysis.init redeclaredTokens)).raised = none ∧
    (SyntaxAnalysis.Do (SyntaxAnalysis.init redeclaredTokens)).state.map
      (fun s => (names s.heap s.reg_vars, names s.heap s.mem_vars)) =
        some (["m1", "m1"], ["r1", "r1"]) := by
  decide!

/-- Witness of C10 on `_func main; done: nop; b done;`: `Do()` returns true. -/
theorem entry_function_checks_witness :
    (SyntaxAnalysis.init backwardBranchTokens).Do = .ok true backwardBranchParsed :=
  (entry_function_checks (SyntaxAnalysis.init backwardBranchTokens) backwardBranchParsed
    (backwardBranchParsed.instrs.headD default) backwardBranchParsed.instrs.tail
    (by rfl) (by decide!) (by decide!) (by decide!)).2.2.1 (by decide!) (by decide!)


/-! ## Simplification and colouring -/

theorem countP_range_succ (p : Nat → Bool) (k : Nat) :
    (List.range (k + 1)).countP p = (List.range k).countP p + (if p k then 1 else 0) := by
  rw [List.range_succ, List.countP_append]
  simp [List.countP_cons]

theorem foldl_range_succ {α : Type} (f : α → Nat → α) (a : α) (k : Nat) :
    (List.range (k + 1)).foldl f a = f ((List.range k).foldl f a) k := by
  rw [List.range_succ, List.foldl_append]
  rfl

/-- The two increments `count[i]++; count[j]++` for `j` different from `i`. -/
theorem bump_getD (c : List Nat) (i k x : Nat) (hki : k ≠ i) (hi : i < c.length)
    (hk : k < c.length) :
    ((c.set i (c.getD i 0 + 1)).set k ((c.set i (c.getD i 0 + 1)).getD k 0 + 1)).getD x 0 =
      c.getD x 0 + (if x = i ∨ x = k then 1 else 0) := by
  rw [getD_set_eq, getD_set_eq, getD_set_eq]
  simp only [List.length_set]
  by_cases hxk : x = k
  · subst hxk; simp [hki, hk]
  · by_cases hxi : x = i
    · subst hxi; simp [hxk, hi]
    · simp [hxk, hxi]

/-- The inner loop of the rang count for column `i`, run over the rows below `k`. -/
theorem countInner_getD (matrix : Matrix) (i : Nat) (c : List Nat) (hi : i < c.length) :
    ∀ k, k ≤ i →
      ((List.range k).foldl
        (fun count j =>
          if matAt matrix j i = 1 then
            let count := count.set i (count.getD i 0 + 1)
            count.set j (count.getD j 0 + 1)
          else count) c).length = c.length ∧
      ∀ x, ((List.range k).foldl
        (fun count j =>
          if matAt matrix j i = 1 then
            let count := count.set i (count.getD i 0 + 1)
            count.set j (count.getD j 0 + 1)
          else count) c).getD x 0 =
        c.getD x 0 +
          (if x = i then (List.range k).countP (fun j => decide (matAt matrix j i = 1))
           else if x < k ∧ matAt matrix x i = 1 then 1 else 0) := by
  intro k
  induction k with
  | zero => intro _; simp
  | succ k ih =>
    intro hk
    obtain ⟨hlen, hget⟩ := ih (by omega)
    rw [foldl_range_succ]
    generalize (List.range k).foldl _ c = c1 at hlen hget ⊢
    have hki : k ≠ i := by omega
    by_cases he : matAt matrix k i = 1
    · simp only [he, if_true]
      refine ⟨by simp [hlen], ?_⟩
      intro x
      rw [bump_getD c1 i k x hki (by omega) (by omega), hget x, countP_range_succ]
      by_cases hxi : x = i
      · subst hxi
        simp [he]; omega
      · simp only [hxi, if_false, false_or]
        by_cases hxk : x = k
        · subst hxk; simp [he]
        · have h1 : ¬ (x < k + 1 ∧ matAt matrix x i = 1) ↔ ¬ (x < k ∧ matAt matrix x i = 1) := by
            constructor <;> intro h ⟨a, b⟩ <;> exact h ⟨by omega, b⟩
          by_cases h2 : x < k ∧ matAt matrix x i = 1
          · have h3 : x < k + 1 ∧ matAt matrix x i = 1 := ⟨by omega, h2.2⟩
            simp [h2, h3, hxk]
          · have h3 : ¬ (x < k + 1 ∧ matAt matrix x i = 1) := h1.mpr h2
            simp only [h2, h3, hxk, if_false]
    · simp only [he, if_false]
      refine ⟨hlen, ?_⟩
      intro x
      rw [hget x, countP_range_succ]
      by_cases hxi : x = i
      · simp [hxi, he]
      · simp only [hxi, if_false]
        by_cases hxk : x = k
        · subst hxk; simp [he]
        · have h4 : x < k + 1 ↔ x < k := by omega
          simp only [h4]

/-- The vector `count` of `findElementWithHighestRang` holds the rang of every node. -/
theorem countRang_getD (matrix : Matrix) (x : Nat) (hx : x < matrix.length) :
    (countRang matrix).getD x 0 = rang matrix x := by
  have key : ∀ k, k ≤ matrix.length →
      ((List.range k).foldl
        (fun count i =>
          (List.range i).foldl
            (fun count j =>
              if matAt matrix j i = 1 then
                let count := count.set i (count.getD i 0 + 1)
                count.set j (count.getD j 0 + 1)
              else count)
            count)
        (List.replicate matrix.length 0)).length = matrix.length ∧
      ∀ x, x < matrix.length → ((List.range k).foldl
        (fun count i =>
          (List.range i).foldl
            (fun count j =>
              if matAt matrix j i = 1 then
                let count := count.set i (count.getD i 0 + 1)
                count.set j (count.getD j 0 + 1)
              else count)
            count)
        (List.replicate matrix.length 0)).getD x 0 =
        (if x < k then (List.range x).countP (fun j => decide (matAt matrix j x = 1)) else 0) +
          (List.range k).countP (fun i => decide (x < i ∧ matAt matrix x i = 1)) := by
    intro k
    induction k with
    | zero =>
      intro _
      refine ⟨by simp, ?_⟩
      intro x hx
      simp [List.getD_eq_getElem?_getD, List.getElem?_replicate, hx]
    | succ k ih =>
      intro hk
      obtain ⟨hlen, hget⟩ := ih (by omega)
      rw [foldl_range_succ]
      generalize (List.range k).foldl _ (List.replicate matrix.length 0) = c1 at hlen hget ⊢
      obtain ⟨h1, h2⟩ := countInner_getD matrix k c1 (by omega) k (le_refl _)
      refine ⟨by rw [h1, hlen], ?_⟩
      intro x hx
      rw [h2 x, hget x hx, countP_range_succ]
      by_cases hxk : x = k
      · subst hxk
        have h0 : (List.range x).countP (fun i => decide (x < i ∧ matAt matrix x i = 1)) = 0 := by
          rw [List.countP_eq_zero]
          intro a ha
          have := List.mem_range.mp ha
          simp; intro h; omega
        simp [h0]; omega
      · simp only [hxk, if_false]
        by_cases hlt : x < k
        · have : x < k + 1 := by omega
          simp [hlt, this]; omega
        · have : ¬ x < k + 1 := by omega
          simp [hlt, this]
  have := (key matrix.length (le_refl _)).2 x hx
  unfold countRang rang
  rw [this]
  simp [hx]

theorem countP_range_lt (p : Nat → Bool) (i n : Nat) (h : i ≤ n) :
    (List.range n).countP (fun j => decide (j < i) && p j) = (List.range i).countP p := by
  induction n with
  | zero =>
    have : i = 0 := by omega
    subst this; simp
  | succ n ih =>
    by_cases hi : i = n + 1
    · subst hi
      apply List.countP_congr
      intro x hx
      have := List.mem_range.mp hx
      simp [this]
    · rw [countP_range_succ, ih (by omega)]
      have : ¬ n < i := by omega
      simp [this]

theorem countP_add_disjoint {α : Type} (p q : α → Bool) (l : List α)
    (h : ∀ x ∈ l, ¬ (p x = true ∧ q x = true)) :
    l.countP p + l.countP q = l.countP (fun x => p x || q x) := by
  induction l with
  | nil => simp
  | cons a l ih =>
    have ih2 := ih (fun x hx => h x (by simp [hx]))
    have ha := h a (by simp)
    simp only [List.countP_cons]
    cases hp : p a <;> cases hq : q a <;> simp_all <;> omega

/-- The rang of a node is the number of nodes adjacent to it. -/
theorem rang_eq_countP (matrix : Matrix) (i : Nat) (hi : i < matrix.length) :
    rang matrix i = (List.range matrix.length).countP (fun j => adjacent matrix i j) := by
  unfold rang
  rw [← countP_range_lt (fun j => decide (matAt matrix j i = 1)) i matrix.length (by omega)]
  rw [countP_add_disjoint]
  · apply List.countP_congr
    intro x _
    simp [adjacent]
  · intro x _ h
    simp at h
    omega

theorem lastCandidate_none (count : List Nat) : ∀ size,
    lastCandidate count size = none → ∀ i, i < size → ¬ count.getD i 0 < __REG_NUMBER__ := by
  intro size
  induction size with
  | zero => intro _ i hi; omega
  | succ n ih =>
    intro h i hi
    unfold lastCandidate at h ih
    rw [foldl_range_succ] at h
    by_cases hc : count.getD n 0 < __REG_NUMBER__
    · rw [if_pos hc] at h
      cases h
    · simp only [hc, if_false] at h
      by_cases hin : i = n
      · subst hin; exact hc
      · exact ih h i (by omega)

theorem lastCandidate_some (count : List Nat) : ∀ size max,
    lastCandidate count size = some max → count.getD max 0 < __REG_NUMBER__ := by
  intro size
  induction size with
  | zero => intro max h; simp [lastCandidate] at h
  | succ n ih =>
    intro max h
    unfold lastCandidate at h ih
    rw [foldl_range_succ] at h
    by_cases hc : count.getD n 0 < __REG_NUMBER__
    · simp only [hc, if_true, Option.some.injEq] at h
      subst h; exact hc
    · simp only [hc, if_false] at h
      exact ih max h

theorem lastCandidate_exists (count : List Nat) : ∀ size i, i < size →
    count.getD i 0 < __REG_NUMBER__ → lastCandidate count size ≠ none := by
  intro size i hi hc h
  exact lastCandidate_none count size h i hi hc

theorem raiseCandidate_candidate (count : List Nat) (size max : Nat)
    (h : count.getD max 0 < __REG_NUMBER__) :
    count.getD (raiseCandidate count size max) 0 < __REG_NUMBER__ := by
  refine foldl_range_bound size (fun m : Nat => count.getD m 0 < __REG_NUMBER__) _ ?_ max h
    (List.range size) (by intro i hi; simpa using hi)
  intro a i ha _
  dsimp only
  split
  · rename_i hh; exact hh.2
  · exact ha

/-- A returned index is a node of rang below `__REG_NUMBER__`. -/
theorem findElementWithHighestRang_ok (matrix : Matrix) (curr : Nat)
    (h : findElementWithHighestRang matrix = .ok curr) :
    curr < matrix.length ∧ rang matrix curr < __REG_NUMBER__ := by
  have hlt := findElementWithHighestRang_lt matrix curr h
  refine ⟨hlt, ?_⟩
  unfold findElementWithHighestRang at h
  simp only at h
  split at h
  · cases h
  · rename_i max hmax
    cases h
    rw [← countRang_getD matrix _ hlt]
    exact raiseCandidate_candidate _ _ _ (lastCandidate_some _ _ _ hmax)

/-- The exception is raised exactly when no node has a rang below `__REG_NUMBER__`. -/
theorem findElementWithHighestRang_error (matrix : Matrix) :
    (∀ i, i < matrix.length → __REG_NUMBER__ ≤ rang matrix i) ↔
      findElementWithHighestRang matrix = .error (.runtime_error "Not enough registers!") := by
  constructor
  · intro hall
    unfold findElementWithHighestRang
    simp only
    split
    · rfl
    · rename_i max hmax
      have h1 := lastCandidate_some _ _ _ hmax
      have h2 := lastCandidate_lt _ _ _ hmax
      rw [countRang_getD matrix _ h2] at h1
      have := hall max h2
      omega
  · intro h i hi
    unfold findElementWithHighestRang at h
    simp only at h
    split at h
    · rename_i hnone
      have := lastCandidate_none _ _ hnone i hi
      rw [countRang_getD matrix _ hi] at this
      omega
    · cases h

theorem findElementWithHighestRang_cases (matrix : Matrix) :
    findElementWithHighestRang matrix = .error (.runtime_error "Not enough registers!") ∨
      ∃ curr, findElementWithHighestRang matrix = .ok curr := by
  unfold findElementWithHighestRang
  simp only
  split
  · exact Or.inl rfl
  · exact Or.inr ⟨_, rfl⟩

theorem getD_eraseIdx {α : Type} (l : List α) (c i : Nat) (d : α) :
    (l.eraseIdx c).getD i d = l.getD (beforeRemoval c i) d := by
  simp only [List.getD_eq_getElem?_getD, List.getElem?_eraseIdx, beforeRemoval]
  split <;> rfl

theorem matAt_removeElementOfMatrix (element : Nat) (matrix : Matrix) (i j : Nat) :
    matAt (removeElementOfMatrix element matrix) i j =
      matAt matrix (beforeRemoval element i) (beforeRemoval element j) := by
  unfold matAt removeElementOfMatrix
  have h : ((matrix.eraseIdx element).map (fun row => row.eraseIdx element)).getD i [] =
      ((matrix.eraseIdx element).getD i []).eraseIdx element := by
    cases hrow : (matrix.eraseIdx element)[i]? with
    | none => simp [List.getD_eq_getElem?_getD, hrow]
    | some row => simp [List.getD_eq_getElem?_getD, hrow]
  rw [h, getD_eraseIdx, getD_eraseIdx]

theorem beforeRemoval_lt (c i j : Nat) : beforeRemoval c i < beforeRemoval c j ↔ i < j := by
  unfold beforeRemoval
  split <;> split <;> omega

theorem adjacent_removeElementOfMatrix (element : Nat) (matrix : Matrix) (i j : Nat) :
    adjacent (removeElementOfMatrix element matrix) i j =
      adjacent matrix (beforeRemoval element i) (beforeRemoval element j) := by
  unfold adjacent
  simp only [matAt_removeElementOfMatrix, beforeRemoval_lt]

theorem before_afterRemoval (c i : Nat) (h : i ≠ c) :
    beforeRemoval c (afterRemoval c i) = i := by
  unfold beforeRemoval afterRemoval
  by_cases hi : i < c
  · simp [hi]
  · have h2 : ¬ i - 1 < c := by omega
    simp only [hi, h2, if_false]
    omega

theorem core_rang (matrix : Matrix) (C : List Nat) (h : Core matrix C) (i : Nat) (hi : i ∈ C) :
    __REG_NUMBER__ ≤ rang matrix i := by
  obtain ⟨_, hnd, hlt, hdeg⟩ := h
  rw [rang_eq_countP matrix i (hlt i hi), List.countP_eq_length_filter]
  refine le_trans (hdeg i hi) ?_
  apply List.Subperm.length_le
  apply List.subperm_of_subset (hnd.filter _)
  intro j hj
  rw [List.mem_filter] at hj ⊢
  exact ⟨List.mem_range.mpr (hlt j hj.1), hj.2⟩

theorem core_removeElementOfMatrix (matrix : Matrix) (C : List Nat) (h : Core matrix C)
    (c : Nat) (hc : c ∉ C) (hlt : c < matrix.length) :
    Core (removeElementOfMatrix c matrix) (C.map (afterRemoval c)) := by
  obtain ⟨hne, hnd, hbound, hdeg⟩ := h
  have hnc : ∀ i ∈ C, i ≠ c := fun i hi e => hc (e ▸ hi)
  refine ⟨by simpa using hne, ?_, ?_, ?_⟩
  · apply List.Nodup.map_on _ hnd
    intro x hx y hy hxy
    have := congrArg (beforeRemoval c) hxy
    rwa [before_afterRemoval c x (hnc x hx), before_afterRemoval c y (hnc y hy)] at this
  · intro i' hi'
    obtain ⟨i, hi, rfl⟩ := List.mem_map.mp hi'
    rw [length_removeElementOfMatrix _ _ hlt]
    have h1 := hbound i hi
    have h2 := hnc i hi
    unfold afterRemoval
    split <;> omega
  · intro i' hi'
    obtain ⟨i, hi, rfl⟩ := List.mem_map.mp hi'
    rw [List.filter_map, List.length_map]
    have : C.filter ((fun j => adjacent (removeElementOfMatrix c matrix) (afterRemoval c i) j) ∘
        afterRemoval c) = C.filter (fun j => adjacent matrix i j) := by
      apply List.filter_congr
      intro j hj
      simp only [Function.comp, adjacent_removeElementOfMatrix,
        before_afterRemoval c i (hnc i hi), before_afterRemoval c j (hnc j hj)]
    rw [this]
    exact hdeg i hi

/-- With a core in the working matrix the simplification loop runs into the exception
of `findElementWithHighestRang`: the nodes of the core are never candidates. -/
theorem simplificationLoop_core (n : Nat) :
    ∀ (mat : Matrix) (nyt res : List Nat) (C : List Nat), mat.length = n → nyt.length = n →
      Core mat C →
      simplificationLoop n mat nyt res = .error (.runtime_error "Not enough registers!") := by
  induction n with
  | zero =>
    intro mat nyt res C hm _ hcore
    exfalso
    obtain ⟨hne, _, hbound, _⟩ := hcore
    cases C with
    | nil => exact hne rfl
    | cons a _ => have := hbound a (by simp); omega
  | succ n ih =>
    intro mat nyt res C hm hn hcore
    simp only [simplificationLoop]
    rcases findElementWithHighestRang_cases mat with h | ⟨curr, h⟩
    · rw [h]
    · rw [h]
      obtain ⟨hlt, hrang⟩ := findElementWithHighestRang_ok mat curr h
      have hnot : curr ∉ C := by
        intro hin
        have := core_rang mat C hcore curr hin
        omega
      dsimp only
      split
      · rename_i hnone
        have := List.getElem?_eq_none_iff.mp hnone
        omega
      · apply ih _ _ _ (C.map (afterRemoval curr))
        · rw [length_removeElementOfMatrix _ _ hlt, hm]; rfl
        · rw [List.length_eraseIdx, if_pos (by omega), hn]; rfl
        · exact core_removeElementOfMatrix mat C hcore curr hnot hlt

theorem length_filter_ne (l : List Int) (x : Int) (h : l.Nodup) :
    l.length ≤ (l.filter (fun c => decide (c ≠ x))).length + 1 := by
  induction l with
  | nil => simp
  | cons a l ih =>
    have hnd := List.nodup_cons.mp h
    by_cases hax : a = x
    · subst hax
      have : l.filter (fun c => decide (c ≠ a)) = l := by
        rw [List.filter_eq_self]
        intro b hb
        simp
        intro e; subst e; exact hnd.1 hb
      rw [List.filter_cons_of_neg (by simp), this]
      simp
    · have := ih hnd.2
      rw [List.filter_cons_of_pos (by simpa using hax)]
      simp only [List.length_cons]
      omega

/-- The removal loop of `getColor` takes away at most one colour for each already
coloured neighbour. -/
theorem colorFold_length (m : Matrix) (heap : List Variable) (var : Nat) (vars : List Nat) :
    ∀ (allReg : List Int), allReg.Nodup →
      allReg.length ≤ (vars.foldl
        (fun allReg other =>
          if matAt m (getPos heap var) (getPos heap other) = 1 then
            allReg.filter (fun c => c ≠ (deref heap other).m_assignment.toInt)
          else allReg) allReg).length +
        vars.countP (fun w => decide (matAt m (getPos heap var) (getPos heap w) = 1)) := by
  induction vars with
  | nil => intro allReg _; simp
  | cons o os ih =>
    intro allReg hnd
    simp only [List.foldl_cons, List.countP_cons]
    by_cases hc : matAt m (getPos heap var) (getPos heap o) = 1
    · simp only [hc, if_true, decide_True]
      have h1 := ih _ (hnd.filter (fun c => decide (c ≠ (deref heap o).m_assignment.toInt)))
      have h2 := length_filter_ne allReg (deref heap o).m_assignment.toInt hnd
      omega
    · simp only [hc, if_false]
      have h1 := ih _ hnd
      simp at h1 ⊢
      omega

/-- With fewer than `__REG_NUMBER__` neighbours among the coloured variables `getColor`
finds a colour. -/
theorem getColor_ne (la : LivenessAnalysis) (var : Nat)
    (h : la.vars.countP
      (fun w => decide (matAt la.interferenceGraph (getPos la.heap var) (getPos la.heap w) = 1))
        < __REG_NUMBER__) :
    getColor la var ≠ -1 := by
  have key : ∀ init : List Int, init.Nodup → init.length = __REG_NUMBER__ →
      (∀ c ∈ init, c ≠ -1) →
      (match la.vars.foldl
        (fun allReg other =>
          if matAt la.interferenceGraph (getPos la.heap var) (getPos la.heap other) = 1 then
            allReg.filter (fun c => c ≠ (deref la.heap other).m_assignment.toInt)
          else allReg) init with
      | [] => (-1 : Int)
      | c :: _ => c) ≠ -1 := by
    intro init hnd h4 hne
    have hlen := colorFold_length la.interferenceGraph la.heap var la.vars init hnd
    split
    · rename_i heq
      rw [heq] at hlen
      simp only [List.length_nil, zero_add] at hlen
      omega
    · rename_i c rest heq
      have hmem := mem_colorFold la.interferenceGraph la.heap var la.vars init c
        (by rw [heq]; simp)
      exact hne c hmem.1
  unfold getColor
  exact key _ (by decide) (by decide) (by decide)

/-- The colouring loop sets no error flag when every variable of the stack has fewer
than `__REG_NUMBER__` neighbours among the variables coloured before it. -/
theorem allocationLoop_no_error :
    ∀ (st : List Nat) (prev : Option Nat) (la : LivenessAnalysis),
      la.err = false → (∀ x, matAt la.interferenceGraph x x = 0) →
      (∀ k, k < st.length → (la.vars ++ st.take k).countP
        (fun w => decide (matAt la.interferenceGraph (getPos la.heap (st.getD k 0))
          (getPos la.heap w) = 1)) < __REG_NUMBER__) →
      (allocationLoop st prev la).err = false := by
  intro st
  induction st with
  | nil => intro prev la herr _ _; simpa [allocationLoop] using herr
  | cons v st ih =>
    intro prev la herr hdiag hgood
    have hstep : ∀ (r : Regs), ∀ k, k < st.length →
        ((la.vars ++ [v]) ++ st.take k).countP
          (fun w => decide (matAt la.interferenceGraph
            (getPos (setAssignment la.heap v r) (st.getD k 0))
            (getPos (setAssignment la.heap v r) w) = 1)) < __REG_NUMBER__ := by
      intro r k hk
      have := hgood (k + 1) (by simp; omega)
      simp only [List.take_succ_cons, List.getD_cons_succ] at this
      simp only [getPos_setAssignment, List.append_assoc, List.singleton_append]
      exact this
    cases prev with
    | none =>
      simp only [allocationLoop]
      exact ih (some v) _ herr hdiag (hstep _)
    | some w =>
      simp only [allocationLoop]
      have hcol : getColor { la with vars := la.vars ++ [v] } v ≠ -1 := by
        apply getColor_ne
        have := hgood 0 (by simp)
        simp only [List.take_zero, List.append_nil, List.getD_cons_zero] at this
        simp only [List.countP_append, List.countP_cons, List.countP_nil, hdiag]
        simpa using this
      rw [if_neg hcol]
      exact ih (some v) _ herr hdiag (hstep _)

theorem beforeRemoval_injective (c i j : Nat) (h : beforeRemoval c i = beforeRemoval c j) :
    i = j := by
  unfold beforeRemoval at h
  split at h <;> split at h <;> omega

theorem core_of_removeElementOfMatrix (matrix : Matrix) (C : List Nat) (c : Nat)
    (hlt : c < matrix.length) (h : Core (removeElementOfMatrix c matrix) C) :
    Core matrix (C.map (beforeRemoval c)) := by
  obtain ⟨hne, hnd, hbound, hdeg⟩ := h
  rw [length_removeElementOfMatrix _ _ hlt] at hbound
  refine ⟨by simpa using hne, ?_, ?_, ?_⟩
  · exact List.Nodup.map (fun i j h => beforeRemoval_injective c i j h) hnd
  · intro i' hi'
    obtain ⟨i, hi, rfl⟩ := List.mem_map.mp hi'
    have := hbound i hi
    unfold beforeRemoval
    split <;> omega
  · intro i' hi'
    obtain ⟨i, hi, rfl⟩ := List.mem_map.mp hi'
    rw [List.filter_map, List.length_map]
    have : C.filter ((fun j => adjacent matrix (beforeRemoval c i) j) ∘ beforeRemoval c) =
        C.filter (fun j => adjacent (removeElementOfMatrix c matrix) i j) := by
      apply List.filter_congr
      intro j _
      simp only [Function.comp, adjacent_removeElementOfMatrix]
    rw [this]
    exact hdeg i hi

/-- When `findElementWithHighestRang` raises, all nodes of the matrix form a core. -/
theorem core_of_error (matrix : Matrix) (hne : matrix ≠ [])
    (h : findElementWithHighestRang matrix = .error (.runtime_error "Not enough registers!")) :
    Core matrix (List.range matrix.length) := by
  have hall := (findElementWithHighestRang_error matrix).mpr h
  refine ⟨?_, List.nodup_range _, fun i hi => List.mem_range.mp hi, ?_⟩
  · intro h0
    have : matrix.length = 0 := by simpa using h0
    exact hne (List.length_eq_zero.mp this)
  · intro i hi
    have hi2 := List.mem_range.mp hi
    rw [← List.countP_eq_length_filter, ← rang_eq_countP matrix i hi2]
    exact hall i hi2

/-- Without a core the simplification loop returns a stack. -/
theorem simplificationLoop_ok (n : Nat) :
    ∀ (mat : Matrix) (nyt res : List Nat), mat.length = n → nyt.length = n →
      (∀ C, ¬ Core mat C) → ∃ st, simplificationLoop n mat nyt res = .ok st := by
  induction n with
  | zero => intro mat nyt res _ _ _; exact ⟨res, rfl⟩
  | succ n ih =>
    intro mat nyt res hm hn hno
    simp only [simplificationLoop]
    rcases findElementWithHighestRang_cases mat with h | ⟨curr, h⟩
    · exfalso
      refine hno _ (core_of_error mat ?_ h)
      intro h0; rw [h0] at hm; simp at hm
    · rw [h]
      have hlt := findElementWithHighestRang_lt mat curr h
      dsimp only
      split
      · rename_i hnone
        have := List.getElem?_eq_none_iff.mp hnone
        omega
      · apply ih
        · rw [length_removeElementOfMatrix _ _ hlt, hm]; rfl
        · rw [List.length_eraseIdx, if_pos (by omega), hn]; rfl
        · intro C hC
          exact hno _ (core_of_removeElementOfMatrix mat C curr hlt hC)

theorem countP_getD_range {α : Type} (p : α → Bool) (d : α) (l : List α) :
    l.countP p = (List.range l.length).countP (fun j => p (l.getD j d)) := by
  induction l with
  | nil => simp
  | cons a l ih =>
    rw [List.length_cons, List.range_succ_eq_map, List.countP_cons, List.countP_cons,
      List.countP_map, ih]
    rfl

/-- Every variable of a simplification stack has, among the variables above it on the
stack (which are coloured before it), fewer than `__REG_NUMBER__` neighbours: they are
the nodes that were left in the working matrix when it was chosen. -/
theorem simplificationLoop_order (G : Matrix) (heap : List Variable)
    (hsymm : ∀ x y, matAt G x y = matAt G y x) (hdiag : ∀ x, matAt G x x = 0) (n : Nat) :
    ∀ (work : Matrix) (taken res st : List Nat), work.length = n → taken.length = n →
      (∀ i j, i < n → j < n → matAt work i j =
        matAt G (getPos heap (taken.getD i 0)) (getPos heap (taken.getD j 0))) →
      simplificationLoop n work taken res = .ok st →
      ∃ order, st = order ++ res ∧ order.Perm taken ∧
        ∀ k, k < order.length → (order.take k).countP
          (fun w => decide (matAt G (getPos heap (order.getD k 0)) (getPos heap w) = 1))
            < __REG_NUMBER__ := by
  induction n with
  | zero =>
    intro work taken res st _ hn _ h
    simp only [simplificationLoop] at h
    cases h
    have : taken = [] := List.length_eq_zero.mp hn
    exact ⟨[], by simp, by simp [this], by intro k hk; simp at hk⟩
  | succ n ih =>
    intro work taken res st hm hn hinv h
    simp only [simplificationLoop] at h
    split at h
    · cases h
    · rename_i curr hcurr
      obtain ⟨hlt, hrang⟩ := findElementWithHighestRang_ok work curr hcurr
      have hc : curr < n + 1 := by omega
      split at h
      · cases h
      · rename_i found hfound
        have hv : taken.getD curr 0 = found := by
          simp [List.getD_eq_getElem?_getD, hfound]
        have h1 : (removeElementOfMatrix curr work).length = n := by
          rw [length_removeElementOfMatrix _ _ hlt, hm]; rfl
        have h2 : (taken.eraseIdx curr).length = n := by
          rw [List.length_eraseIdx, if_pos (by omega), hn]; rfl
        have hinv2 : ∀ i j, i < n → j < n → matAt (removeElementOfMatrix curr work) i j =
            matAt G (getPos heap ((taken.eraseIdx curr).getD i 0))
              (getPos heap ((taken.eraseIdx curr).getD j 0)) := by
          intro i j hi hj
          rw [matAt_removeElementOfMatrix, getD_eraseIdx, getD_eraseIdx]
          apply hinv
          · unfold beforeRemoval; split <;> omega
          · unfold beforeRemoval; split <;> omega
        obtain ⟨order, hst, hperm, hgood⟩ := ih _ _ _ _ h1 h2 hinv2 h
        have hp := perm_cons_eraseIdx taken curr found hfound
        refine ⟨order ++ [found], by simp [hst], ?_, ?_⟩
        · exact (List.perm_append_singleton found order).trans ((hperm.cons found).trans hp)
        · intro k hk
          simp only [List.length_append, List.length_singleton] at hk
          by_cases hk2 : k < order.length
          · rw [List.take_append_of_le_length (by omega), List.getD_append _ _ _ _ hk2]
            exact hgood k hk2
          · have hk3 : k = order.length := by omega
            subst hk3
            rw [List.take_left', List.getD_append_right _ _ _ _ (le_refl _)]
            swap
            · rfl
            simp only [Nat.sub_self, List.getD_cons_zero]
            -- the neighbours of `found` among the variables left after its removal
            have e1 := hperm.countP_eq
              (fun w => decide (matAt G (getPos heap found) (getPos heap w) = 1))
            have e2 := hp.countP_eq
              (fun w => decide (matAt G (getPos heap found) (getPos heap w) = 1))
            rw [List.countP_cons] at e2
            simp only [hdiag, zero_ne_one, decide_False, Bool.false_eq_true, if_false,
              Nat.add_zero] at e2
            rw [e1, e2, countP_getD_range _ 0 taken, hn]
            have e3 : (List.range (n + 1)).countP
                (fun j => decide (matAt G (getPos heap found) (getPos heap (taken.getD j 0)) = 1))
                = (List.range work.length).countP (fun j => adjacent work curr j) := by
              rw [hm]
              apply List.countP_congr
              intro j hj
              have hj2 := List.mem_range.mp hj
              have a1 := hinv curr j hc hj2
              have a2 := hinv j curr hj2 hc
              rw [hv] at a1 a2
              have a3 : matAt work j curr = matAt work curr j := by
                rw [a1, a2]; exact hsymm _ _
              have a4 : matAt work curr curr = 0 := by
                rw [hinv curr curr hc hc]; exact hdiag _
              unfold adjacent
              rw [a3, ← a1]
              by_cases hjc : j = curr
              · subst hjc; simp [a4]
              · have hor : j < curr ∨ curr < j := by omega
                rw [decide_eq_true_iff, decide_eq_true_iff]
                constructor
                · intro h1
                  rcases hor with h | h
                  · exact Or.inl ⟨h, h1⟩
                  · exact Or.inr ⟨h, h1⟩
                · rintro (⟨_, h1⟩ | ⟨_, h1⟩) <;> exact h1
            rw [e3, ← rang_eq_countP work curr hlt]
            exact hrang

theorem matAt_lt (matrix : Matrix) (x y : Nat) (h : matAt matrix x y = 1) :
    x < matrix.length := by
  by_contra hx
  have hnone : matrix[x]? = none := List.getElem?_eq_none (by omega)
  simp [matAt, List.getD_eq_getElem?_getD, hnone] at h

/-- C18. More simultaneously live registers than K: for every interference matrix (one
row per register variable) that contains 5 pairwise interfering variables, whatever the
other variables and entries are, `createSimplificationStack` raises
`std::runtime_error("Not enough registers!")`.  The entries of both orders of each pair
are 1, which in a symmetric matrix is one condition per pair. -/
theorem five_interfering_rejected (interferenceGraph : Matrix) (reg_vars clique : List Nat)
    (hsize : interferenceGraph.length = reg_vars.length)
    (hfive : clique.length = 5) (hnd : clique.Nodup)
    (hcl : ∀ a ∈ clique, ∀ b ∈ clique, a ≠ b → matAt interferenceGraph a b = 1) :
    createSimplificationStack interferenceGraph reg_vars =
      .error (.runtime_error "Not enough registers!") := by
  have hcore : Core interferenceGraph clique := by
    have hfilter : ∀ i ∈ clique,
        clique.filter (fun j => adjacent interferenceGraph i j) = clique.erase i := by
      intro i hi
      rw [hnd.erase_eq_filter]
      apply List.filter_congr
      intro j hj
      unfold adjacent
      by_cases hji : j = i
      · subst hji; simp
      · have h1 := hcl i hi j hj (fun e => hji e.symm)
        have h2 := hcl j hj i hi hji
        have : j < i ∨ i < j := by omega
        simp [h1, h2, hji, this]
    refine ⟨?_, hnd, ?_, ?_⟩
    · intro h0; rw [h0] at hfive; simp at hfive
    · intro a ha
      have : ∃ b ∈ clique, a ≠ b := by
        by_contra hno
        have hall : ∀ b ∈ clique, b = a := by
          intro b hb
          by_contra hba
          exact hno ⟨b, hb, fun e => hba e.symm⟩
        have : clique.length ≤ 1 := by
          rw [List.eq_replicate_of_mem hall] at hnd
          rcases hlen : clique.length with _ | _ | k
          · omega
          · omega
          · rw [hlen] at hnd
            simp [List.replicate_succ] at hnd
        omega
      obtain ⟨b, hb, hab⟩ := this
      exact matAt_lt interferenceGraph a b (hcl a ha b hb hab)
    · intro i hi
      rw [hfilter i hi, List.length_erase_of_mem hi, hfive]
      decide
  exact simplificationLoop_core interferenceGraph.length interferenceGraph reg_vars [] clique
    rfl hsize.symm hcore

/-- Witness of C18 on scenario 3: the five registers of the program interfere pairwise,
and the stack cannot be built. -/
theorem five_interfering_rejected_witness :
    createSimplificationStack fiveLiveGraph [0, 1, 2, 3, 4] =
      .error (.runtime_error "Not enough registers!") :=
  five_interfering_rejected fiveLiveGraph [0, 1, 2, 3, 4] [0, 1, 2, 3, 4] (by decide)
    (by decide) (by decide) (by decide)

/-- Counterexample to C19: on the five-register program `Do()` does not return false, it
leaves by the exception of `findElementWithHighestRang`. -/
theorem allocation_failure_raises :
    fiveLiveLA.Do = .error (.runtime_error "Not enough registers!") ∧
      ∀ after b, fiveLiveLA.Do ≠ .ok (after, b) := by
  have h : fiveLiveLA.Do = .error (.runtime_error "Not enough registers!") := by rfl
  refine ⟨h, ?_⟩
  intro after b hc
  rw [h] at hc
  cases hc

/-- C19 (amended). When the interference graph built by `liveness()` and `setGraph()`
holds a non-empty set of variables each of which interferes with at least 4 others of the
set, e.g. 5 pairwise interfering variables, so that simplification runs out of nodes with
fewer than 4 neighbours, `Do()` raises `std::runtime_error("Not enough registers!")`
and returns no boolean. -/
theorem stuck_simplification_raises (la : LivenessAnalysis) (C : List Nat)
    (hsize : la.interferenceGraph.length = la.reg_vars.length)
    (hcore : Core (setGraph { la with instrs := (liveness la.instrs).1 }).interferenceGraph C) :
    la.Do = .error (.runtime_error "Not enough registers!") := by
  have hlen : (setGraph { la with instrs := (liveness la.instrs).1 }).interferenceGraph.length =
      la.reg_vars.length := by
    simp [setGraph, setGraphLoop_length, hsize]
  have h := simplificationLoop_core _ _
    (setGraph { la with instrs := (liveness la.instrs).1 }).reg_vars [] C rfl hlen.symm hcore
  unfold LivenessAnalysis.Do resourceAllocation createSimplificationStack
  simp only
  rw [h]

/-- Witness of C19 on the octahedron: six variables, each with four neighbours. -/
theorem stuck_simplification_raises_witness :
    octahedronLA.Do = .error (.runtime_error "Not enough registers!") :=
  stuck_simplification_raises octahedronLA [0, 1, 2, 3, 4, 5] (by decide)
    (by unfold Core; decide)

theorem no_core_of_rang (matrix : Matrix)
    (h : ∀ i, i < matrix.length → rang matrix i < __REG_NUMBER__) : ∀ C, ¬ Core matrix C := by
  intro C hC
  have hC2 := hC
  obtain ⟨hne, _, hbound, _⟩ := hC
  cases C with
  | nil => exact hne rfl
  | cons a _ =>
    have h1 := core_rang matrix _ hC2 a (by simp)
    have h2 := h a (hbound a (by simp))
    omega

/-- Counterexample to C20: the octahedron is symmetric with a zero diagonal and the
colours 1, 2, 3, 1, 2, 3 colour it properly, yet every node has four neighbours and
`createSimplificationStack` raises. -/
theorem colourable_graph_rejected :
    (∀ x, x < 6 → ∀ y, y < 6 → matAt octahedron x y = matAt octahedron y x) ∧
    (∀ x, x < 6 → matAt octahedron x x = 0) ∧
    (∀ x, x < 6 → ∀ y, y < 6 → matAt octahedron x y = 1 →
      ([1, 2, 3, 1, 2, 3] : List Nat).getD x 0 ≠ ([1, 2, 3, 1, 2, 3] : List Nat).getD y 0) ∧
    createSimplificationStack octahedron [0, 1, 2, 3, 4, 5] =
      .error (.runtime_error "Not enough registers!") ∧
    resourceAllocation octahedronLA = .error (.runtime_error "Not enough registers!") := by
  refine ⟨by decide, by decide, by decide, by rfl, by rfl⟩

/-- C20 (amended). The allocator reports an error exactly when simplification gets
stuck: over a symmetric, zero-diagonal R x R interference matrix and a register table
whose positions equal the table indices, with no variable coloured yet,
`resourceAllocation` raises "Not enough registers!" when some non-empty set of variables
has each member interfering with at least 4 others of the set, and otherwise
`createSimplificationStack` returns a stack and the colouring loop ends without setting
the error flag. -/
theorem allocation_fails_iff_core (la : LivenessAnalysis)
    (hsq : Square la.reg_vars.length la.interferenceGraph)
    (hpos : ∀ k (hk : k < la.reg_vars.length),
      (deref la.heap (la.reg_vars.get ⟨k, hk⟩)).m_position = (k : Int))
    (hsymm : ∀ x, x < la.reg_vars.length → ∀ y, y < la.reg_vars.length →
      matAt la.interferenceGraph x y = matAt la.interferenceGraph y x)
    (hdiag : ∀ x, x < la.reg_vars.length → matAt la.interferenceGraph x x = 0)
    (hvars : la.vars = []) (herr : la.err = false) :
    ((∃ C, Core la.interferenceGraph C) →
      resourceAllocation la = .error (.runtime_error "Not enough registers!")) ∧
    ((∀ C, ¬ Core la.interferenceGraph C) →
      ∃ stack, createSimplificationStack la.interferenceGraph la.reg_vars = .ok stack ∧
        ∃ after, resourceAllocation la = .ok after ∧ after.err = false) := by
  have hsymm2 : ∀ x y, matAt la.interferenceGraph x y = matAt la.interferenceGraph y x := by
    intro x y
    by_cases hx : x < la.reg_vars.length
    · by_cases hy : y < la.reg_vars.length
      · exact hsymm x hx y hy
      · rw [matAt_eq_zero _ _ hsq x y (Or.inr (by omega)),
          matAt_eq_zero _ _ hsq y x (Or.inl (by omega))]
    · rw [matAt_eq_zero _ _ hsq x y (Or.inl (by omega)),
        matAt_eq_zero _ _ hsq y x (Or.inr (by omega))]
  have hdiag2 : ∀ x, matAt la.interferenceGraph x x = 0 := by
    intro x
    by_cases hx : x < la.reg_vars.length
    · exact hdiag x hx
    · exact matAt_eq_zero _ _ hsq x x (Or.inl (by omega))
  constructor
  · rintro ⟨C, hC⟩
    have h := simplificationLoop_core _ _ la.reg_vars [] C rfl hsq.1.symm hC
    unfold resourceAllocation createSimplificationStack
    rw [h]
  · intro hno
    obtain ⟨stack, hstack⟩ := simplificationLoop_ok _ la.interferenceGraph la.reg_vars []
      rfl hsq.1.symm hno
    refine ⟨stack, hstack, ?_⟩
    have hinv : ∀ i j, i < la.interferenceGraph.length → j < la.interferenceGraph.length →
        matAt la.interferenceGraph i j = matAt la.interferenceGraph
          (getPos la.heap (la.reg_vars.getD i 0)) (getPos la.heap (la.reg_vars.getD j 0)) := by
      have hget : ∀ i, i < la.interferenceGraph.length →
          getPos la.heap (la.reg_vars.getD i 0) = i := by
        intro i hi
        have hi2 : i < la.reg_vars.length := by rw [← hsq.1]; exact hi
        have := hpos i hi2
        have e : la.reg_vars.getD i 0 = la.reg_vars.get ⟨i, hi2⟩ := by
          simp [List.getD_eq_getElem?_getD, List.getElem?_eq_getElem hi2]
        unfold getPos
        rw [e, this]
        simp
      intro i j hi hj
      rw [hget i hi, hget j hj]
    obtain ⟨order, hst, _, hgood⟩ := simplificationLoop_order la.interferenceGraph la.heap
      hsymm2 hdiag2 _ _ _ _ _ rfl hsq.1.symm hinv hstack
    have hso : stack = order := by simpa using hst
    refine ⟨allocationLoop stack none la, ?_, ?_⟩
    · unfold resourceAllocation createSimplificationStack
      rw [hstack]
    · apply allocationLoop_no_error stack none la herr hdiag2
      intro k hk
      rw [hvars, List.nil_append, hso]
      exact hgood k (by rw [← hso]; exact hk)

/-- Witness of C20 on the example program: no node of its graph has four neighbours, the
stack is built and all three variables are coloured. -/
theorem allocation_fails_iff_core_witness :
    ∃ stack, createSimplificationStack exampleGraphLA.interferenceGraph
        exampleGraphLA.reg_vars = .ok stack ∧
      ∃ after, resourceAllocation exampleGraphLA = .ok after ∧ after.err = false :=
  (allocation_fails_iff_core exampleGraphLA (by unfold Square; decide) (by decide) (by decide)
    (by decide) (by decide) (by decide)).2
    (no_core_of_rang _ (by decide))

/-! ## The parser: operands, constants and declarations -/

theorem digitChar_props (d : Nat) (h : d < 10) :
    (Nat.digitChar d).isDigit = true ∧ (Nat.digitChar d).toNat - 48 = d ∧
      isspace (Nat.digitChar d) = false ∧ Nat.digitChar d ≠ '-' ∧ Nat.digitChar d ≠ '+' := by
  have : d = 0 ∨ d = 1 ∨ d = 2 ∨ d = 3 ∨ d = 4 ∨ d = 5 ∨ d = 6 ∨ d = 7 ∨ d = 8 ∨ d = 9 := by
    omega
  rcases this with h | h | h | h | h | h | h | h | h | h <;> subst h <;> decide

/-- The digits that `Nat.repr` writes are decimal digits and read back as the number. -/
theorem toDigitsCore_spec (fuel : Nat) : ∀ (n : Nat) (ds : List Char), n < fuel →
    ∃ pre, Nat.toDigitsCore 10 fuel n ds = pre ++ ds ∧ pre ≠ [] ∧
      (∀ c ∈ pre, c.isDigit = true ∧ isspace c = false ∧ c ≠ '-' ∧ c ≠ '+') ∧
      ∀ acc, pre.foldl (fun acc c => 10 * acc + (c.toNat - 48)) acc =
        acc * 10 ^ pre.length + n := by
  induction fuel with
  | zero => intro n ds h; omega
  | succ fuel ih =>
    intro n ds h
    have hd := digitChar_props (n % 10) (Nat.mod_lt _ (by decide))
    unfold Nat.toDigitsCore
    simp only
    by_cases h0 : n / 10 = 0
    · rw [if_pos h0]
      refine ⟨[Nat.digitChar (n % 10)], rfl, by simp, ?_, ?_⟩
      · intro c hc
        simp only [List.mem_singleton] at hc
        subst hc
        exact ⟨hd.1, hd.2.2.1, hd.2.2.2.1, hd.2.2.2.2⟩
      · intro acc
        simp only [List.foldl_cons, List.foldl_nil, List.length_singleton, pow_one, hd.2.1]
        have : n % 10 = n := Nat.mod_eq_of_lt (by omega)
        rw [this]; ring
    · rw [if_neg h0]
      obtain ⟨pre, hpre, hne, hall, hval⟩ := ih (n / 10) (Nat.digitChar (n % 10) :: ds)
        (by omega)
      refine ⟨pre ++ [Nat.digitChar (n % 10)], by rw [hpre]; simp, by simp, ?_, ?_⟩
      · intro c hc
        rcases List.mem_append.mp hc with hc | hc
        · exact hall c hc
        · simp only [List.mem_singleton] at hc
          subst hc
          exact ⟨hd.1, hd.2.2.1, hd.2.2.2.1, hd.2.2.2.2⟩
      · intro acc
        rw [List.foldl_append, hval acc]
        simp only [List.foldl_cons, List.foldl_nil, List.length_append, List.length_singleton,
          hd.2.1, pow_succ]
        have := Nat.div_add_mod n 10
        nlinarith [this]

theorem repr_spec (n : Nat) :
    (Nat.repr n).toList ≠ [] ∧
      (∀ c ∈ (Nat.repr n).toList, c.isDigit = true ∧ isspace c = false ∧ c ≠ '-' ∧ c ≠ '+') ∧
      digitsValue (Nat.repr n).toList = n := by
  obtain ⟨pre, hpre, hne, hall, hval⟩ := toDigitsCore_spec (n + 1) n [] (by omega)
  have e : (Nat.repr n).toList = pre := by
    show Nat.toDigits 10 n = pre
    unfold Nat.toDigits
    rw [hpre]; simp
  rw [e]
  refine ⟨hne, hall, ?_⟩
  unfold digitsValue
  rw [hval 0]; simp

/-- The function `stoi` on an optional minus sign followed by decimal digits. -/
theorem stoi_digits (neg : Bool) (digits : List Char) (hne : digits ≠ [])
    (hall : ∀ c ∈ digits, c.isDigit = true ∧ isspace c = false ∧ c ≠ '-' ∧ c ≠ '+')
    (hrange : if neg then digitsValue digits ≤ 2147483648 else digitsValue digits ≤ 2147483647) :
    stoi (String.mk (if neg then '-' :: digits else digits)) =
      .ok (if neg then -(digitsValue digits : Int) else (digitsValue digits : Int)) := by
  obtain ⟨d, rest, rfl⟩ := List.exists_cons_of_ne_nil hne
  have hd := hall d (by simp)
  have htake : (d :: rest).takeWhile Char.isDigit = d :: rest := by
    rw [List.takeWhile_eq_self_iff]
    intro c hc; exact (hall c hc).1
  unfold stoi
  cases neg with
  | true =>
    simp only [if_true] at hrange ⊢
    have hdrop : ('-' :: d :: rest).dropWhile isspace = '-' :: d :: rest := by
      rw [List.dropWhile_cons_of_neg (by decide)]
    simp only [String.toList, hdrop, htake]
    rw [if_neg (by simp)]
    have : ¬ (-((digitsValue (d :: rest) : Nat) : Int) < -2147483648 ∨
        2147483647 < -((digitsValue (d :: rest) : Nat) : Int)) := by omega
    unfold digitsValue at this ⊢
    simp only [if_true]
    rw [if_neg this]
  | false =>
    simp only [Bool.false_eq_true, if_false] at hrange ⊢
    have hdrop : (d :: rest).dropWhile isspace = d :: rest := by
      rw [List.dropWhile_cons_of_neg (by simp [hd.2.1])]
    simp only [String.toList, hdrop]
    have key : ∀ sig : Bool × List Char, sig = (false, d :: rest) →
        (if List.takeWhile Char.isDigit sig.2 = [] then
          (Except.error (Exn.invalid_argument "stoi") : Except Exn Int)
        else
          if (if sig.1 = true then
                -((List.foldl (fun acc c => 10 * acc + (c.toNat - 48)) 0
                  (List.takeWhile Char.isDigit sig.2) : Nat) : Int)
              else ((List.foldl (fun acc c => 10 * acc + (c.toNat - 48)) 0
                  (List.takeWhile Char.isDigit sig.2) : Nat) : Int)) < -2147483648 ∨
              2147483647 < (if sig.1 = true then
                -((List.foldl (fun acc c => 10 * acc + (c.toNat - 48)) 0
                  (List.takeWhile Char.isDigit sig.2) : Nat) : Int)
              else ((List.foldl (fun acc c => 10 * acc + (c.toNat - 48)) 0
                  (List.takeWhile Char.isDigit sig.2) : Nat) : Int)) then
            Except.error (Exn.out_of_range "stoi")
          else
            Except.ok (if sig.1 = true then
                -((List.foldl (fun acc c => 10 * acc + (c.toNat - 48)) 0
                  (List.takeWhile Char.isDigit sig.2) : Nat) : Int)
              else ((List.foldl (fun acc c => 10 * acc + (c.toNat - 48)) 0
                  (List.takeWhile Char.isDigit sig.2) : Nat) : Int))) =
        Except.ok ((digitsValue (d :: rest) : Nat) : Int) := by
      intro sig hsig
      subst hsig
      simp only [htake]
      rw [if_neg (by simp)]
      have : ¬ (((digitsValue (d :: rest) : Nat) : Int) < -2147483648 ∨
          2147483647 < ((digitsValue (d :: rest) : Nat) : Int)) := by omega
      unfold digitsValue at this ⊢
      simp only [Bool.false_eq_true, if_false]
      rw [if_neg this]
    apply key
    split
    · rename_i heq; cases heq; exact absurd rfl hd.2.2.1
    · rename_i heq; cases heq; exact absurd rfl hd.2.2.2
    · rfl

/-- Reading back what `std::to_string` wrote: `stoi(to_string(n)) = n` for every `int`. -/
theorem stoi_to_string (n : Int) (h : -2147483648 ≤ n ∧ n ≤ 2147483647) :
    stoi (to_string n) = .ok n := by
  cases n with
  | ofNat m =>
    simp only [Int.ofNat_eq_coe] at h
    obtain ⟨h1, h2, h3⟩ := repr_spec m
    have := stoi_digits false (Nat.repr m).toList h1 h2
      (by simp only [Bool.false_eq_true, if_false]; rw [h3]; omega)
    simp only [Bool.false_eq_true, if_false, h3] at this
    exact this
  | negSucc m =>
    rw [Int.negSucc_eq] at h
    obtain ⟨h1, h2, h3⟩ := repr_spec (m + 1)
    have := stoi_digits true (Nat.repr (m + 1)).toList h1 h2
      (by simp only [if_true]; rw [h3]; omega)
    simp only [if_true, h3] at this
    have e : to_string (Int.negSucc m) = String.mk ('-' :: (Nat.repr (m + 1)).toList) := rfl
    rw [e, this]
    rfl

theorem opnd_refl (s : SyntaxAnalysis) : Opnd s s :=
  ⟨rfl, rfl, rfl, rfl, rfl, ⟨[], by simp⟩, ⟨[], by simp⟩, ⟨[], by simp⟩, id, fun _ h => h⟩

theorem opnd_trans (s s1 s2 : SyntaxAnalysis) (h1 : Opnd s s1) (h2 : Opnd s1 s2) :
    Opnd s s2 := by
  obtain ⟨l1, hl1⟩ := h1.label_vars
  obtain ⟨l2, hl2⟩ := h2.label_vars
  obtain ⟨c1, hc1⟩ := h1.const_vars
  obtain ⟨c2, hc2⟩ := h2.const_vars
  obtain ⟨e1, he1⟩ := h1.heap
  obtain ⟨e2, he2⟩ := h2.heap
  exact ⟨h2.tokens.trans h1.tokens, h2.instrs.trans h1.instrs, h2.reg_vars.trans h1.reg_vars,
    h2.mem_vars.trans h1.mem_vars, h2.err.trans h1.err,
    ⟨l1 ++ l2, by rw [hl2, hl1, List.append_assoc]⟩,
    ⟨c1 ++ c2, by rw [hc2, hc1, List.append_assoc]⟩,
    ⟨e1 ++ e2, by rw [he2, he1, List.append_assoc]⟩,
    fun h => h2.live (h1.live h), fun hl hc => h2.const (h1.live hl) (h1.const hl hc)⟩

/-- A step that moves the token position, the counters or the flags only. -/
theorem opnd_of_fields (s s1 : SyntaxAnalysis) (h1 : s1.tokens = s.tokens)
    (h2 : s1.instrs = s.instrs) (h3 : s1.reg_vars = s.reg_vars) (h4 : s1.mem_vars = s.mem_vars)
    (h5 : s1.err = s.err) (h6 : s1.label_vars = s.label_vars)
    (h7 : s1.const_vars = s.const_vars) (h8 : s1.heap = s.heap) : Opnd s s1 := by
  refine ⟨h1, h2, h3, h4, h5, ⟨[], by simp [h6]⟩, ⟨[], by simp [h7]⟩, ⟨[], by simp [h8]⟩, ?_, ?_⟩
  · intro h
    unfold TablesLive at h ⊢
    rw [h3, h4, h6, h7, h8]; exact h
  · intro _ h
    unfold ConstTable at h ⊢
    rw [h7, h8]; exact h

theorem eat_opnd (token : TokenType) (s s1 : SyntaxAnalysis) (a : Unit)
    (h : eat token s = .ok a s1) :
    Opnd s s1 ∧ s1.currentToken = s.currentToken + 1 ∧ (currentTok s).tokenType = token := by
  obtain ⟨ht, hs⟩ := eat_ok token s s1 a h
  by_cases he : token = .T_END_OF_FILE
  · rw [if_pos he] at hs
    subst hs
    exact ⟨opnd_of_fields _ _ rfl rfl rfl rfl rfl rfl rfl rfl, rfl, ht⟩
  · rw [if_neg he] at hs
    subst hs
    exact ⟨opnd_of_fields _ _ rfl rfl rfl rfl rfl rfl rfl rfl, rfl, ht⟩

theorem newInstruction_opnd (type : InstructionType) (lab : Option Nat)
    (s s1 : SyntaxAnalysis) (i : Instruction) (h : newInstruction type lab s = .ok i s1) :
    Opnd s s1 ∧ s1.currentToken = s.currentToken ∧ i.m_type = type ∧ i.m_dst = [] ∧
      i.m_src = [] := by
  unfold newInstruction at h
  simp only [Result.ok.injEq] at h
  obtain ⟨hi, hs⟩ := h
  subst hi; subst hs
  exact ⟨opnd_of_fields _ _ rfl rfl rfl rfl rfl rfl rfl rfl, rfl, rfl, rfl, rfl⟩

theorem stoi_range (str : String) (n : Int) (h : stoi str = .ok n) :
    -2147483648 ≤ n ∧ n ≤ 2147483647 := by
  unfold stoi at h
  simp only at h
  split_ifs at h with h1 h2
  all_goals simp only [Except.ok.injEq] at h
  all_goals rw [← h]
  all_goals omega

theorem to_string_injective (a b : Int) (ha : -2147483648 ≤ a ∧ a ≤ 2147483647)
    (hb : -2147483648 ≤ b ∧ b ≤ 2147483647) (h : to_string a = to_string b) : a = b := by
  have h1 := stoi_to_string a ha
  have h2 := stoi_to_string b hb
  rw [h] at h1
  rw [h1] at h2
  simpa using h2

theorem c_append_cancel (x y : String) (h : "c" ++ x = "c" ++ y) : x = y := by
  have := congrArg String.data h
  simp only [String.data_append, List.append_cancel_left_eq] at this
  exact String.ext this

theorem findVariableNamed_r (name : String) (s : SyntaxAnalysis)
    (h : name.toList.head? = some 'r') :
    findVariableNamed name s =
      match findByName s.heap s.reg_vars name with
      | some p => .ok p s
      | none => .raise (.syntaxError .VARIABLE_DOESNT_EXIST) { s with err := true } := by
  unfold findVariableNamed
  simp only [h]

theorem findVariableNamed_m (name : String) (s : SyntaxAnalysis)
    (h : name.toList.head? = some 'm') :
    findVariableNamed name s =
      match findByName s.heap s.mem_vars name with
      | some p => .ok p s
      | none => .raise (.syntaxError .VARIABLE_DOESNT_EXIST) { s with err := true } := by
  unfold findVariableNamed
  simp only [h]

/-- A later call of `constVariable`: the entry `c<n>` is returned and nothing is added. -/
theorem constVariable_found (n : Int) (s : SyntaxAnalysis) (p : Nat)
    (h : findByName s.heap s.const_vars ("c" ++ to_string n) = some p) :
    constVariable n s = .ok p s := by
  unfold constVariable findVariableNamed
  have hh : ("c" ++ to_string n).toList.head? = some 'c' := rfl
  simp only [hh, h]

/-- The first call of `constVariable`: a constant variable `c<n>` with value `n` is
created and appended to the constant table. -/
theorem constVariable_new (n : Int) (s : SyntaxAnalysis)
    (hn : -2147483648 ≤ n ∧ n ≤ 2147483647)
    (h : findByName s.heap s.const_vars ("c" ++ to_string n) = none) :
    constVariable n s = .ok s.heap.length
      { s with heap := s.heap ++ [⟨.CONST_VAR, "c" ++ to_string n, -1, .no_assign, n⟩],
               const_vars := s.const_vars ++ [s.heap.length] } := by
  unfold constVariable findVariableNamed
  have hh : ("c" ++ to_string n).toList.head? = some 'c' := rfl
  have hd : String.mk (("c" ++ to_string n).toList.drop 1) = to_string n := rfl
  simp only [hh, h, hd]
  have h1 : stoiP (to_string n) s = .ok n s := by
    unfold stoiP; rw [stoi_to_string n hn]
  rw [bind_of_ok _ _ _ _ _ h1]
  have h2 : newVariable .CONST_VAR ("c" ++ to_string n) n s = .ok s.heap.length
      { s with heap := s.heap ++ [⟨.CONST_VAR, "c" ++ to_string n, -1, .no_assign, n⟩] } := by
    unfold newVariable
    rw [if_neg (by decide)]
  rw [bind_of_ok _ _ _ _ _ h2]

/-- With the invariant of the constant table a search for `c<n>` finds the entry with
value `n`, if there is one. -/
theorem findByName_const (s : SyntaxAnalysis) (n : Int) (hc : ConstTable s)
    (hn : -2147483648 ≤ n ∧ n ≤ 2147483647) :
    (∀ p, findByName s.heap s.const_vars ("c" ++ to_string n) = some p →
      p ∈ s.const_vars ∧ (deref s.heap p).value = n) ∧
    (findByName s.heap s.const_vars ("c" ++ to_string n) = none →
      ∀ p ∈ s.const_vars, (deref s.heap p).value ≠ n) := by
  constructor
  · intro p hp
    obtain ⟨hmem, hname⟩ := findByName_some _ _ _ _ hp
    obtain ⟨_, hr, hnm⟩ := hc.1 p hmem
    rw [hnm] at hname
    exact ⟨hmem, to_string_injective _ _ hr hn (c_append_cancel _ _ hname)⟩
  · intro hnone p hp hv
    obtain ⟨_, _, hnm⟩ := hc.1 p hp
    rw [hv] at hnm
    obtain ⟨q, hq⟩ := findByName_isSome s.heap s.const_vars _ ⟨p, hp, hnm⟩
    rw [hq] at hnone
    cases hnone

theorem tablesLive_push_heap (s : SyntaxAnalysis) (ext : List Variable) (h : TablesLive s) :
    TablesLive { s with heap := s.heap ++ ext } := by
  unfold TablesLive at h ⊢
  simp only [List.length_append]
  obtain ⟨h1, h2, h3, h4⟩ := h
  exact ⟨fun p hp => by have := h1 p hp; omega, fun p hp => by have := h2 p hp; omega,
    fun p hp => by have := h3 p hp; omega, fun p hp => by have := h4 p hp; omega⟩

/-- The constant table is untouched by a growth of the heap. -/
theorem constTable_push_heap (s : SyntaxAnalysis) (ext : List Variable) (hl : TablesLive s)
    (h : ConstTable s) : ConstTable { s with heap := s.heap ++ ext } := by
  unfold ConstTable at h ⊢
  have hd : ∀ p ∈ s.const_vars, deref (s.heap ++ ext) p = deref s.heap p :=
    fun p hp => deref_append _ _ _ (hl.2.2.2 p hp)
  constructor
  · intro p hp
    simp only at hp ⊢
    rw [hd p hp]
    exact h.1 p hp
  · have : s.const_vars.map (fun p => (deref (s.heap ++ ext) p).value) =
        s.const_vars.map (fun p => (deref s.heap p).value) := by
      apply List.map_congr_left
      intro p hp
      rw [hd p hp]
    simp only
    rw [this]
    exact h.2

/-- What `constVariable(n)` returns and keeps. -/
theorem constVariable_opnd (n : Int) (s s1 : SyntaxAnalysis) (v : Nat)
    (hn : -2147483648 ≤ n ∧ n ≤ 2147483647) (h : constVariable n s = .ok v s1) :
    Opnd s s1 ∧ s1.currentToken = s.currentToken ∧ v ∈ s1.const_vars ∧
      (TablesLive s → v < s1.heap.length ∧ (deref s1.heap v).m_name = "c" ++ to_string n) := by
  cases hf : findByName s.heap s.const_vars ("c" ++ to_string n) with
  | some p =>
    rw [constVariable_found n s p hf] at h
    simp only [Result.ok.injEq] at h
    obtain ⟨rfl, rfl⟩ := h
    obtain ⟨hmem, hname⟩ := findByName_some _ _ _ _ hf
    exact ⟨opnd_refl s, rfl, hmem, fun hl => ⟨hl.2.2.2 p hmem, hname⟩⟩
  | none =>
    rw [constVariable_new n s hn hf] at h
    simp only [Result.ok.injEq] at h
    obtain ⟨rfl, rfl⟩ := h
    have hnew : deref (s.heap ++ [⟨.CONST_VAR, "c" ++ to_string n, -1, .no_assign, n⟩])
        s.heap.length = ⟨.CONST_VAR, "c" ++ to_string n, -1, .no_assign, n⟩ := by
      simp [deref, List.getD_eq_getElem?_getD]
    refine ⟨⟨rfl, rfl, rfl, rfl, rfl, ⟨[], by simp⟩, ⟨[s.heap.length], rfl⟩, ⟨_, rfl⟩, ?_, ?_⟩,
      rfl, by simp, fun _ => ⟨by simp, by rw [hnew]⟩⟩
    · intro hl
      have h1 := tablesLive_push_heap s
        [⟨.CONST_VAR, "c" ++ to_string n, -1, .no_assign, n⟩] hl
      unfold TablesLive at h1 ⊢
      refine ⟨h1.1, h1.2.1, h1.2.2.1, ?_⟩
      intro p hp
      simp only [List.mem_append, List.mem_singleton] at hp
      rcases hp with hp | hp
      · exact h1.2.2.2 p hp
      · subst hp; simp
    · intro hl hc
      have h1 := constTable_push_heap s
        [⟨.CONST_VAR, "c" ++ to_string n, -1, .no_assign, n⟩] hl hc
      have hfresh := (findByName_const s n hc hn).2 hf
      unfold ConstTable at h1 ⊢
      constructor
      · intro p hp
        simp only [List.mem_append, List.mem_singleton] at hp
        rcases hp with hp | hp
        · exact h1.1 p hp
        · subst hp
          simp only
          rw [hnew]
          exact ⟨rfl, hn, rfl⟩
      · simp only [List.map_append, List.map_cons, List.map_nil]
        rw [hnew]
        have h2 := h1.2
        simp only at h2
        apply List.Nodup.append h2 (by simp)
        intro x hx1 hx2
        simp only [List.mem_singleton] at hx2
        subst hx2
        obtain ⟨p, hp, hpv⟩ := List.mem_map.mp hx1
        rw [deref_append _ _ _ (hl.2.2.2 p hp)] at hpv
        exact hfresh p hp hpv

theorem currentTok_mem (s : SyntaxAnalysis) (h : (currentTok s).tokenType ≠ .T_NO_TYPE) :
    currentTok s ∈ s.tokens := by
  by_cases hlt : s.currentToken < s.tokens.length
  · have : currentTok s = s.tokens[s.currentToken] := by
      simp [currentTok, List.getD_eq_getElem?_getD, List.getElem?_eq_getElem hlt]
    rw [this]
    exact List.getElem_mem hlt
  · exact absurd (currentTok_outside s (by omega)) h

theorem denotes_mono (s s1 : SyntaxAnalysis) (p : Nat) (tok : Token) (h : Opnd s s1)
    (hd : Denotes s p tok) : Denotes s1 p tok := by
  obtain ⟨hp, hd⟩ := hd
  obtain ⟨e, he⟩ := h.heap
  obtain ⟨l, hl⟩ := h.label_vars
  obtain ⟨c, hc⟩ := h.const_vars
  have hder : deref s1.heap p = deref s.heap p := by rw [he]; exact deref_append _ _ _ hp
  refine ⟨by rw [he, List.length_append]; omega, ?_⟩
  split at hd
  · rw [hder]
    exact ⟨by rw [h.reg_vars]; exact hd.1, hd.2⟩
  · rw [hder]
    exact ⟨by rw [h.mem_vars]; exact hd.1, hd.2⟩
  · rw [hder]
    exact ⟨by rw [hl]; exact List.mem_append_left _ hd.1, hd.2⟩
  · rw [hder]
    exact ⟨by rw [hc]; exact List.mem_append_left _ hd.1, hd.2⟩
  · exact hd.elim

/-- The operand sequence for a register: the variable found is the entry of the register
table named by the token. -/
theorem regOperand_opnd (s s1 : SyntaxAnalysis) (v : Nat) (hlex : Lexed s.tokens)
    (hlive : TablesLive s) (h : regOperand s = .ok v s1) :
    Opnd s s1 ∧ s1.currentToken = s.currentToken + 1 ∧
      Denotes s1 v (tokenAt s.tokens s.currentToken) := by
  unfold regOperand at h
  obtain ⟨_, sa, ha, h⟩ := (bind_ok_iff _ _ _ _ _).mp h
  obtain ⟨w, sb, hb, h⟩ := (bind_ok_iff _ _ _ _ _).mp h
  obtain ⟨_, sc, hc, h⟩ := (bind_ok_iff _ _ _ _ _).mp h
  obtain ⟨rfl, rfl⟩ := (pure_ok_iff _ _ _ _).mp h
  obtain ⟨rfl, hty⟩ := glance_ok _ _ _ _ ha
  have hmem := currentTok_mem sa (by rw [hty]; decide)
  have hhead := (hlex _ hmem).1 hty
  unfold findVariable at hb
  rw [findVariableNamed_r _ _ hhead] at hb
  cases hf : findByName sa.heap sa.reg_vars (currentTok sa).value with
  | none => rw [hf] at hb; cases hb
  | some p =>
    rw [hf] at hb
    simp only [Result.ok.injEq] at hb
    obtain ⟨rfl, rfl⟩ := hb
    obtain ⟨ho, hcur, _⟩ := eat_opnd _ _ _ _ hc
    obtain ⟨hin, hname⟩ := findByName_some _ _ _ _ hf
    refine ⟨ho, hcur, denotes_mono _ _ _ _ ho ⟨hlive.1 _ hin, ?_⟩⟩
    have hty2 : (tokenAt sa.tokens sa.currentToken).tokenType = .T_R_ID := hty
    rw [hty2]
    exact ⟨hin, hname⟩

/-- The operand sequence `glance(T_M_ID); v = findVariable(); eat(T_M_ID);` of `la`. -/
theorem memOperand_opnd (s sa sb sc : SyntaxAnalysis) (v : Nat) (a b : Unit)
    (hlex : Lexed s.tokens) (hlive : TablesLive s)
    (ha : glance .T_M_ID s = .ok a sa) (hb : findVariable sa = .ok v sb)
    (hc : eat .T_M_ID sb = .ok b sc) :
    Opnd s sc ∧ sc.currentToken = s.currentToken + 1 ∧
      Denotes sc v (tokenAt s.tokens s.currentToken) := by
  obtain ⟨rfl, hty⟩ := glance_ok _ _ _ _ ha
  have hmem := currentTok_mem sa (by rw [hty]; decide)
  have hhead := (hlex _ hmem).2 hty
  unfold findVariable at hb
  rw [findVariableNamed_m _ _ hhead] at hb
  cases hf : findByName sa.heap sa.mem_vars (currentTok sa).value with
  | none => rw [hf] at hb; cases hb
  | some p =>
    rw [hf] at hb
    simp only [Result.ok.injEq] at hb
    obtain ⟨rfl, rfl⟩ := hb
    obtain ⟨ho, hcur, _⟩ := eat_opnd _ _ _ _ hc
    obtain ⟨hin, hname⟩ := findByName_some _ _ _ _ hf
    refine ⟨ho, hcur, denotes_mono _ _ _ _ ho ⟨hlive.2.1 _ hin, ?_⟩⟩
    have hty2 : (tokenAt sa.tokens sa.currentToken).tokenType = .T_M_ID := hty
    rw [hty2]
    exact ⟨hin, hname⟩

/-- The operand sequence for an integer literal `n`: the variable is the entry `c<n>` of
the constant table. -/
theorem numOperand_opnd (s s1 : SyntaxAnalysis) (v : Nat) (hlive : TablesLive s)
    (h : numOperand s = .ok v s1) :
    Opnd s s1 ∧ s1.currentToken = s.currentToken + 1 ∧
      Denotes s1 v (tokenAt s.tokens s.currentToken) := by
  unfold numOperand at h
  obtain ⟨_, sa, ha, h⟩ := (bind_ok_iff _ _ _ _ _).mp h
  obtain ⟨text, sb, hb, h⟩ := (bind_ok_iff _ _ _ _ _).mp h
  obtain ⟨n, sc, hc, h⟩ := (bind_ok_iff _ _ _ _ _).mp h
  obtain ⟨w, sd, hd, h⟩ := (bind_ok_iff _ _ _ _ _).mp h
  obtain ⟨_, se, he, h⟩ := (bind_ok_iff _ _ _ _ _).mp h
  obtain ⟨rfl, rfl⟩ := (pure_ok_iff _ _ _ _).mp h
  obtain ⟨rfl, hty⟩ := glance_ok _ _ _ _ ha
  unfold curValue at hb
  simp only [Result.ok.injEq] at hb
  obtain ⟨rfl, rfl⟩ := hb
  have hsc := stoiP_ok _ _ _ _ hc
  subst hsc
  have hst : stoi (currentTok sc).value = .ok n := by
    unfold stoiP at hc
    split at hc
    · rename_i hh
      simp only [Result.ok.injEq] at hc
      rw [hh, hc.1]
    · cases hc
  obtain ⟨ho1, hcur1, hin, hv⟩ := constVariable_opnd n _ _ _ (stoi_range _ _ hst) hd
  obtain ⟨ho2, hcur2, _⟩ := eat_opnd _ _ _ _ he
  obtain ⟨hlt, hname⟩ := hv hlive
  refine ⟨opnd_trans _ _ _ ho1 ho2, by rw [hcur2, hcur1], denotes_mono _ _ _ _ ho2 ⟨hlt, ?_⟩⟩
  have hty2 : (tokenAt sc.tokens sc.currentToken).tokenType = .T_NUM := hty
  rw [hty2]
  exact ⟨hin, n, hst, hname⟩

theorem findLabel_opnd (name : String) (s s1 : SyntaxAnalysis) (v : Nat)
    (h : findLabel name s = .ok v s1) :
    Opnd s s1 ∧ s1.currentToken = s.currentToken ∧ v ∈ s1.label_vars ∧
      (TablesLive s → v < s1.heap.length ∧ (deref s1.heap v).m_name = name) := by
  unfold findLabel at h
  cases hf : findByName s.heap s.label_vars name with
  | some p =>
    rw [hf] at h
    simp only [Result.ok.injEq] at h
    obtain ⟨rfl, rfl⟩ := h
    obtain ⟨hmem, hname⟩ := findByName_some _ _ _ _ hf
    exact ⟨opnd_refl s, rfl, hmem, fun hl => ⟨hl.2.2.1 p hmem, hname⟩⟩
  | none =>
    rw [hf] at h
    have h2 : newVariable .LABEL_VAR name 0 s = .ok s.heap.length
        { s with heap := s.heap ++ [⟨.LABEL_VAR, name, -1, .no_assign, 0⟩] } := by
      unfold newVariable
      rw [if_neg (by decide)]
    simp only at h
    rw [bind_of_ok _ _ _ _ _ h2] at h
    simp only [Result.ok.injEq] at h
    obtain ⟨rfl, rfl⟩ := h
    have hnew : deref (s.heap ++ [⟨.LABEL_VAR, name, -1, .no_assign, 0⟩])
        s.heap.length = ⟨.LABEL_VAR, name, -1, .no_assign, 0⟩ := by
      simp [deref, List.getD_eq_getElem?_getD]
    refine ⟨⟨rfl, rfl, rfl, rfl, rfl, ⟨[s.heap.length], rfl⟩, ⟨[], by simp⟩, ⟨_, rfl⟩, ?_, ?_⟩,
      rfl, by simp, fun _ => ⟨by simp, by rw [hnew]⟩⟩
    · intro hl
      have h1 := tablesLive_push_heap s [⟨.LABEL_VAR, name, -1, .no_assign, 0⟩] hl
      unfold TablesLive at h1 ⊢
      refine ⟨h1.1, h1.2.1, ?_, h1.2.2.2⟩
      intro p hp
      simp only [List.mem_append, List.mem_singleton] at hp
      rcases hp with hp | hp
      · exact h1.2.2.1 p hp
      · subst hp; simp
    · intro hl hc
      exact constTable_push_heap s [⟨.LABEL_VAR, name, -1, .no_assign, 0⟩] hl hc

/-- The operand sequence for a label: the variable is the entry of the label table named
by the token. -/
theorem labelOperand_opnd (s s1 : SyntaxAnalysis) (v : Nat) (hlive : TablesLive s)
    (h : labelOperand s = .ok v s1) :
    Opnd s s1 ∧ s1.currentToken = s.currentToken + 1 ∧
      Denotes s1 v (tokenAt s.tokens s.currentToken) := by
  unfold labelOperand at h
  obtain ⟨_, sa, ha, h⟩ := (bind_ok_iff _ _ _ _ _).mp h
  obtain ⟨name, sb, hb, h⟩ := (bind_ok_iff _ _ _ _ _).mp h
  obtain ⟨w, sd, hd, h⟩ := (bind_ok_iff _ _ _ _ _).mp h
  obtain ⟨_, se, he, h⟩ := (bind_ok_iff _ _ _ _ _).mp h
  obtain ⟨rfl, rfl⟩ := (pure_ok_iff _ _ _ _).mp h
  obtain ⟨rfl, hty⟩ := glance_ok _ _ _ _ ha
  unfold curValue at hb
  simp only [Result.ok.injEq] at hb
  obtain ⟨rfl, rfl⟩ := hb
  obtain ⟨ho1, hcur1, hin, hv⟩ := findLabel_opnd _ _ _ _ hd
  obtain ⟨ho2, hcur2, _⟩ := eat_opnd _ _ _ _ he
  obtain ⟨hlt, hname⟩ := hv hlive
  refine ⟨opnd_trans _ _ _ ho1 ho2, by rw [hcur2, hcur1], denotes_mono _ _ _ _ ho2 ⟨hlt, ?_⟩⟩
  have hty2 : (tokenAt sa.tokens sa.currentToken).tokenType = .T_ID := hty
  rw [hty2]
  exact ⟨hin, hname⟩

theorem stage_init (s : SyntaxAnalysis) (hlex : Lexed s.tokens) (hlive : TablesLive s) :
    Stage s s 0 [] :=
  ⟨opnd_refl s, rfl, hlive, hlex, by intro po hpo; simp at hpo⟩

theorem stage_step (s0 s s1 : SyntaxAnalysis) (k j : Nat) (ops : List (Nat × Nat))
    (g : Stage s0 s k ops) (ho : Opnd s s1) (hcur : s1.currentToken = s.currentToken + j) :
    Stage s0 s1 (k + j) ops :=
  ⟨opnd_trans _ _ _ g.opnd ho, by rw [hcur, g.cur, Nat.add_assoc], ho.live g.live,
    by rw [ho.tokens]; exact g.lexed,
    fun po hpo => denotes_mono _ _ _ _ ho (g.denotes po hpo)⟩

theorem stage_operand (s0 s s1 : SyntaxAnalysis) (k : Nat) (ops : List (Nat × Nat)) (v : Nat)
    (g : Stage s0 s k ops) (ho : Opnd s s1) (hcur : s1.currentToken = s.currentToken + 1)
    (hd : Denotes s1 v (tokenAt s.tokens s.currentToken)) :
    Stage s0 s1 (k + 1) ((v, k) :: ops) := by
  have g1 := stage_step s0 s s1 k 1 ops g ho hcur
  refine ⟨g1.opnd, g1.cur, g1.live, g1.lexed, ?_⟩
  intro po hpo
  rcases List.mem_cons.mp hpo with rfl | hpo
  · have := g.opnd.tokens
    rw [g.cur, this] at hd
    exact hd
  · exact g1.denotes po hpo

theorem stage_eat (s0 s s1 : SyntaxAnalysis) (k : Nat) (ops : List (Nat × Nat))
    (t : TokenType) (a : Unit) (g : Stage s0 s k ops) (h : eat t s = .ok a s1) :
    Stage s0 s1 (k + 1) ops := by
  obtain ⟨ho, hcur, _⟩ := eat_opnd _ _ _ _ h
  exact stage_step _ _ _ _ _ _ g ho hcur

theorem stage_new (s0 s s1 : SyntaxAnalysis) (k : Nat) (ops : List (Nat × Nat))
    (ty : InstructionType) (lab : Option Nat) (i : Instruction) (g : Stage s0 s k ops)
    (h : newInstruction ty lab s = .ok i s1) :
    Stage s0 s1 k ops ∧ i.m_type = ty ∧ i.m_dst = [] ∧ i.m_src = [] := by
  obtain ⟨ho, hcur, hi⟩ := newInstruction_opnd _ _ _ _ _ h
  exact ⟨stage_step _ _ _ _ 0 _ g ho (by rw [hcur]; rfl), hi⟩

theorem stage_reg (s0 s s1 : SyntaxAnalysis) (k : Nat) (ops : List (Nat × Nat)) (v : Nat)
    (g : Stage s0 s k ops) (h : regOperand s = .ok v s1) :
    Stage s0 s1 (k + 1) ((v, k) :: ops) := by
  obtain ⟨ho, hcur, hd⟩ := regOperand_opnd _ _ _ g.lexed g.live h
  exact stage_operand _ _ _ _ _ _ g ho hcur hd

theorem stage_num (s0 s s1 : SyntaxAnalysis) (k : Nat) (ops : List (Nat × Nat)) (v : Nat)
    (g : Stage s0 s k ops) (h : numOperand s = .ok v s1) :
    Stage s0 s1 (k + 1) ((v, k) :: ops) := by
  obtain ⟨ho, hcur, hd⟩ := numOperand_opnd _ _ _ g.live h
  exact stage_operand _ _ _ _ _ _ g ho hcur hd

theorem stage_label (s0 s s1 : SyntaxAnalysis) (k : Nat) (ops : List (Nat × Nat)) (v : Nat)
    (g : Stage s0 s k ops) (h : labelOperand s = .ok v s1) :
    Stage s0 s1 (k + 1) ((v, k) :: ops) := by
  obtain ⟨ho, hcur, hd⟩ := labelOperand_opnd _ _ _ g.live h
  exact stage_operand _ _ _ _ _ _ g ho hcur hd

/-- The end of `E()` appends the instruction, with or without a label, and changes
nothing else. -/
theorem finishE_ok (i : Instruction) (s s1 : SyntaxAnalysis) (a : Unit)
    (h : finishE i s = .ok a s1) :
    ∃ j, s1 = { s with instrs := s.instrs ++ [j] } ∧ j.m_type = i.m_type ∧
      j.m_dst = i.m_dst ∧ j.m_src = i.m_src := by
  unfold finishE at h
  split at h
  · split at h
    · cases h
    · split at h
      · cases h
      · simp only [Result.ok.injEq, true_and] at h
        exact ⟨_, h.symm, rfl, rfl, rfl⟩
  · simp only [Result.ok.injEq, true_and] at h
    exact ⟨_, h.symm, rfl, rfl, rfl⟩

/-- The instruction appended by `E()` has the type and the operand lists
`operandOffsets` gives for the opcode token. -/
theorem stage_finish (s0 s s1 : SyntaxAnalysis) (k : Nat) (ops : List (Nat × Nat))
    (j : Instruction) (a : Unit) (ty : InstructionType) (dst src dps sps : List Nat)
    (g : Stage s0 s k ops) (h : finishE j s = .ok a s1) (hty : j.m_type = ty)
    (hd : j.m_dst = dps) (hs : j.m_src = sps)
    (hdo : List.Forall₂ (fun p off => (p, off) ∈ ops) dps dst)
    (hso : List.Forall₂ (fun p off => (p, off) ∈ ops) sps src)
    (hoff : operandOffsets (currentTok s0).tokenType = some (ty, dst, src)) :
    ∃ sf i ty dst src, Opnd s0 sf ∧ TablesLive sf ∧
      s1 = { sf with instrs := sf.instrs ++ [i] } ∧
      operandOffsets (currentTok s0).tokenType = some (ty, dst, src) ∧ i.m_type = ty ∧
      List.Forall₂ (fun p off => Denotes sf p (tokenAt s0.tokens (s0.currentToken + off)))
        i.m_dst dst ∧
      List.Forall₂ (fun p off => Denotes sf p (tokenAt s0.tokens (s0.currentToken + off)))
        i.m_src src := by
  obtain ⟨j2, hs1, h1, h2, h3⟩ := finishE_ok _ _ _ _ h
  refine ⟨s, j2, ty, dst, src, g.opnd, g.live, hs1, hoff, by rw [h1, hty], ?_, ?_⟩
  · rw [h2, hd]
    exact hdo.imp (fun p off hp => g.denotes (p, off) hp)
  · rw [h3, hs]
    exact hso.imp (fun p off hp => g.denotes (p, off) hp)

theorem threeRegs_operands (token : TokenType) (type : InstructionType)
    (s s1 : SyntaxAnalysis) (a : Unit) (hlex : Lexed s.tokens) (hlive : TablesLive s)
    (hoff : operandOffsets (currentTok s).tokenType = some (type, [1], [3, 5]))
    (h : threeRegs token type s = .ok a s1) :
    ∃ sf i ty dst src, Opnd s sf ∧ TablesLive sf ∧
      s1 = { sf with instrs := sf.instrs ++ [i] } ∧
      operandOffsets (currentTok s).tokenType = some (ty, dst, src) ∧ i.m_type = ty ∧
      List.Forall₂ (fun p off => Denotes sf p (tokenAt s.tokens (s.currentToken + off)))
        i.m_dst dst ∧
      List.Forall₂ (fun p off => Denotes sf p (tokenAt s.tokens (s.currentToken + off)))
        i.m_src src := by
  unfold threeRegs at h
  have g0 := stage_init s hlex hlive
  obtain ⟨_, t1, h1, h⟩ := (bind_ok_iff _ _ _ _ _).mp h
  have g1 := stage_eat _ _ _ _ _ _ _ g0 h1
  obtain ⟨i, t2, h2, h⟩ := (bind_ok_iff _ _ _ _ _).mp h
  obtain ⟨g2, hi1, hi2, hi3⟩ := stage_new _ _ _ _ _ _ _ _ g1 h2
  obtain ⟨dst, t3, h3, h⟩ := (bind_ok_iff _ _ _ _ _).mp h
  have g3 := stage_reg _ _ _ _ _ _ g2 h3
  obtain ⟨_, t4, h4, h⟩ := (bind_ok_iff _ _ _ _ _).mp h
  have g4 := stage_eat _ _ _ _ _ _ _ g3 h4
  obtain ⟨src1, t5, h5, h⟩ := (bind_ok_iff _ _ _ _ _).mp h
  have g5 := stage_reg _ _ _ _ _ _ g4 h5
  obtain ⟨_, t6, h6, h⟩ := (bind_ok_iff _ _ _ _ _).mp h
  have g6 := stage_eat _ _ _ _ _ _ _ g5 h6
  obtain ⟨src2, t7, h7, h⟩ := (bind_ok_iff _ _ _ _ _).mp h
  have g7 := stage_reg _ _ _ _ _ _ g6 h7
  exact stage_finish _ _ _ _ _ _ _ type [1] [3, 5] [dst] [src1, src2] g7 h
    (by simp [Instruction.addDst, Instruction.addSrc, hi1])
    (by simp [Instruction.addDst, Instruction.addSrc, hi2])
    (by simp [Instruction.addDst, Instruction.addSrc, hi3])
    (List.Forall₂.cons (by simp) List.Forall₂.nil)
    (List.Forall₂.cons (by simp) (List.Forall₂.cons (by simp) List.Forall₂.nil))
    hoff

/-- Every instruction that `E()` accepts is appended with the type and the operand
lists that `operandOffsets` gives for its opcode; the rest of the state moves as in
`Opnd`. -/
theorem E_operands (s s1 : SyntaxAnalysis) (a : Unit) (hlex : Lexed s.tokens)
    (hlive : TablesLive s) (h : E s = .ok a s1) :
    ∃ sf i ty dst src, Opnd s sf ∧ TablesLive sf ∧
      s1 = { sf with instrs := sf.instrs ++ [i] } ∧
      operandOffsets (currentTok s).tokenType = some (ty, dst, src) ∧ i.m_type = ty ∧
      List.Forall₂ (fun p off => Denotes sf p (tokenAt s.tokens (s.currentToken + off)))
        i.m_dst dst ∧
      List.Forall₂ (fun p off => Denotes sf p (tokenAt s.tokens (s.currentToken + off)))
        i.m_src src := by
  unfold E at h
  split at h
  · rename_i heq
    exact threeRegs_operands _ _ s s1 a hlex hlive (by rw [heq]; rfl) h
  · -- addi
    rename_i heq
    have g0 := stage_init s hlex hlive
    obtain ⟨_, t1, h1, h⟩ := (bind_ok_iff _ _ _ _ _).mp h
    have g1 := stage_eat _ _ _ _ _ _ _ g0 h1
    obtain ⟨i, t2, h2, h⟩ := (bind_ok_iff _ _ _ _ _).mp h
    obtain ⟨g2, hi1, hi2, hi3⟩ := stage_new _ _ _ _ _ _ _ _ g1 h2
    obtain ⟨dst, t3, h3, h⟩ := (bind_ok_iff _ _ _ _ _).mp h
    have g3 := stage_reg _ _ _ _ _ _ g2 h3
    obtain ⟨_, t4, h4, h⟩ := (bind_ok_iff _ _ _ _ _).mp h
    have g4 := stage_eat _ _ _ _ _ _ _ g3 h4
    obtain ⟨src1, t5, h5, h⟩ := (bind_ok_iff _ _ _ _ _).mp h
    have g5 := stage_reg _ _ _ _ _ _ g4 h5
    obtain ⟨_, t6, h6, h⟩ := (bind_ok_iff _ _ _ _ _).mp h
    have g6 := stage_eat _ _ _ _ _ _ _ g5 h6
    obtain ⟨src2, t7, h7, h⟩ := (bind_ok_iff _ _ _ _ _).mp h
    have g7 := stage_num _ _ _ _ _ _ g6 h7
    exact stage_finish _ _ _ _ _ _ _ .I_ADDI [1] [3, 5] [dst] [src1, src2] g7 h
      (by simp [Instruction.addDst, Instruction.addSrc, hi1])
      (by simp [Instruction.addDst, Instruction.addSrc, hi2])
      (by simp [Instruction.addDst, Instruction.addSrc, hi3])
      (List.Forall₂.cons (by simp) List.Forall₂.nil)
      (List.Forall₂.cons (by simp) (List.Forall₂.cons (by simp) List.Forall₂.nil))
      (by rw [heq]; rfl)
  · -- b
    rename_i heq
    have g0 := stage_init s hlex hlive
    obtain ⟨_, t1, h1, h⟩ := (bind_ok_iff _ _ _ _ _).mp h
    have g1 := stage_eat _ _ _ _ _ _ _ g0 h1
    obtain ⟨i, t2, h2, h⟩ := (bind_ok_iff _ _ _ _ _).mp h
    obtain ⟨g2, hi1, hi2, hi3⟩ := stage_new _ _ _ _ _ _ _ _ g1 h2
    obtain ⟨src1, t3, h3, h⟩ := (bind_ok_iff _ _ _ _ _).mp h
    have g3 := stage_label _ _ _ _ _ _ g2 h3
    exact stage_finish _ _ _ _ _ _ _ .I_B [] [1] [] [src1] g3 h
      (by simp [Instruction.addDst, Instruction.addSrc, hi1])
      (by simp [Instruction.addDst, Instruction.addSrc, hi2])
      (by simp [Instruction.addDst, Instruction.addSrc, hi3])
      List.Forall₂.nil
      (List.Forall₂.cons (by simp) List.Forall₂.nil)
      (by rw [heq]; rfl)
  · -- bltz
    rename_i heq
    have g0 := stage_init s hlex hlive
    obtain ⟨_, t1, h1, h⟩ := (bind_ok_iff _ _ _ _ _).mp h
    have g1 := stage_eat _ _ _ _ _ _ _ g0 h1
    obtain ⟨i, t2, h2, h⟩ := (bind_ok_iff _ _ _ _ _).mp h
    obtain ⟨g2, hi1, hi2, hi3⟩ := stage_new _ _ _ _ _ _ _ _ g1 h2
    obtain ⟨src1, t3, h3, h⟩ := (bind_ok_iff _ _ _ _ _).mp h
    have g3 := stage_reg _ _ _ _ _ _ g2 h3
    obtain ⟨_, t4, h4, h⟩ := (bind_ok_iff _ _ _ _ _).mp h
    have g4 := stage_eat _ _ _ _ _ _ _ g3 h4
    obtain ⟨src2, t5, h5, h⟩ := (bind_ok_iff _ _ _ _ _).mp h
    have g5 := stage_label _ _ _ _ _ _ g4 h5
    exact stage_finish _ _ _ _ _ _ _ .I_BLTZ [] [1, 3] [] [src1, src2] g5 h
      (by simp [Instruction.addDst, Instruction.addSrc, hi1])
      (by simp [Instruction.addDst, Instruction.addSrc, hi2])
      (by simp [Instruction.addDst, Instruction.addSrc, hi3])
      List.Forall₂.nil
      (List.Forall₂.cons (by simp) (List.Forall₂.cons (by simp) List.Forall₂.nil))
      (by rw [heq]; rfl)
  · -- la
    rename_i heq
    have g0 := stage_init s hlex hlive
    obtain ⟨_, t1, h1, h⟩ := (bind_ok_iff _ _ _ _ _).mp h
    have g1 := stage_eat _ _ _ _ _ _ _ g0 h1
    obtain ⟨i, t2, h2, h⟩ := (bind_ok_iff _ _ _ _ _).mp h
    obtain ⟨g2, hi1, hi2, hi3⟩ := stage_new _ _ _ _ _ _ _ _ g1 h2
    obtain ⟨dst, t3, h3, h⟩ := (bind_ok_iff _ _ _ _ _).mp h
    have g3 := stage_reg _ _ _ _ _ _ g2 h3
    obtain ⟨_, t4, h4, h⟩ := (bind_ok_iff _ _ _ _ _).mp h
    have g4 := stage_eat _ _ _ _ _ _ _ g3 h4
    obtain ⟨_, t5a, h5a, h⟩ := (bind_ok_iff _ _ _ _ _).mp h
    obtain ⟨src1, t5b, h5b, h⟩ := (bind_ok_iff _ _ _ _ _).mp h
    obtain ⟨_, t5, h5, h⟩ := (bind_ok_iff _ _ _ _ _).mp h
    obtain ⟨ho, hcur, hd⟩ := memOperand_opnd _ _ _ _ _ _ _ g4.lexed g4.live h5a h5b h5
    have g5 := stage_operand _ _ _ _ _ _ g4 ho hcur hd
    exact stage_finish _ _ _ _ _ _ _ .I_LA [1] [3] [dst] [src1] g5 h
      (by simp [Instruction.addDst, Instruction.addSrc, hi1])
      (by simp [Instruction.addDst, Instruction.addSrc, hi2])
      (by simp [Instruction.addDst, Instruction.addSrc, hi3])
      (List.Forall₂.cons (by simp) List.Forall₂.nil)
      (List.Forall₂.cons (by simp) List.Forall₂.nil)
      (by rw [heq]; rfl)
  · -- li
    rename_i heq
    have g0 := stage_init s hlex hlive
    obtain ⟨_, t1, h1, h⟩ := (bind_ok_iff _ _ _ _ _).mp h
    have g1 := stage_eat _ _ _ _ _ _ _ g0 h1
    obtain ⟨i, t2, h2, h⟩ := (bind_ok_iff _ _ _ _ _).mp h
    obtain ⟨g2, hi1, hi2, hi3⟩ := stage_new _ _ _ _ _ _ _ _ g1 h2
    obtain ⟨dst, t3, h3, h⟩ := (bind_ok_iff _ _ _ _ _).mp h
    have g3 := stage_reg _ _ _ _ _ _ g2 h3
    obtain ⟨_, t4, h4, h⟩ := (bind_ok_iff _ _ _ _ _).mp h
    have g4 := stage_eat _ _ _ _ _ _ _ g3 h4
    obtain ⟨src1, t5, h5, h⟩ := (bind_ok_iff _ _ _ _ _).mp h
    have g5 := stage_num _ _ _ _ _ _ g4 h5
    exact stage_finish _ _ _ _ _ _ _ .I_LI [1] [3] [dst] [src1] g5 h
      (by simp [Instruction.addDst, Instruction.addSrc, hi1])
      (by simp [Instruction.addDst, Instruction.addSrc, hi2])
      (by simp [Instruction.addDst, Instruction.addSrc, hi3])
      (List.Forall₂.cons (by simp) List.Forall₂.nil)
      (List.Forall₂.cons (by simp) List.Forall₂.nil)
      (by rw [heq]; rfl)
  · -- lw
    rename_i heq
    have g0 := stage_init s hlex hlive
    obtain ⟨_, t1, h1, h⟩ := (bind_ok_iff _ _ _ _ _).mp h
    have g1 := stage_eat _ _ _ _ _ _ _ g0 h1
    obtain ⟨i, t2, h2, h⟩ := (bind_ok_iff _ _ _ _ _).mp h
    obtain ⟨g2, hi1, hi2, hi3⟩ := stage_new _ _ _ _ _ _ _ _ g1 h2
    obtain ⟨dst, t3, h3, h⟩ := (bind_ok_iff _ _ _ _ _).mp h
    have g3 := stage_reg _ _ _ _ _ _ g2 h3
    obtain ⟨_, t4, h4, h⟩ := (bind_ok_iff _ _ _ _ _).mp h
    have g4 := stage_eat _ _ _ _ _ _ _ g3 h4
    obtain ⟨src1, t5, h5, h⟩ := (bind_ok_iff _ _ _ _ _).mp h
    have g5 := stage_num _ _ _ _ _ _ g4 h5
    obtain ⟨_, t6, h6, h⟩ := (bind_ok_iff _ _ _ _ _).mp h
    have g6 := stage_eat _ _ _ _ _ _ _ g5 h6
    obtain ⟨src2, t7, h7, h⟩ := (bind_ok_iff _ _ _ _ _).mp h
    have g7 := stage_reg _ _ _ _ _ _ g6 h7
    obtain ⟨_, t8, h8, h⟩ := (bind_ok_iff _ _ _ _ _).mp h
    have g8 := stage_eat _ _ _ _ _ _ _ g7 h8
    exact stage_finish _ _ _ _ _ _ _ .I_LW [1] [3, 5] [dst] [src1, src2] g8 h
      (by simp [Instruction.addDst, Instruction.addSrc, hi1])
      (by simp [Instruction.addDst, Instruction.addSrc, hi2])
      (by simp [Instruction.addDst, Instruction.addSrc, hi3])
      (List.Forall₂.cons (by simp) List.Forall₂.nil)
      (List.Forall₂.cons (by simp) (List.Forall₂.cons (by simp) List.Forall₂.nil))
      (by rw [heq]; rfl)
  · -- nop
    rename_i heq
    have g0 := stage_init s hlex hlive
    obtain ⟨_, t1, h1, h⟩ := (bind_ok_iff _ _ _ _ _).mp h
    have g1 := stage_eat _ _ _ _ _ _ _ g0 h1
    obtain ⟨i, t2, h2, h⟩ := (bind_ok_iff _ _ _ _ _).mp h
    obtain ⟨g2, hi1, hi2, hi3⟩ := stage_new _ _ _ _ _ _ _ _ g1 h2
    exact stage_finish _ _ _ _ _ _ _ .I_NOP [] [] [] [] g2 h
      (by simp [Instruction.addDst, Instruction.addSrc, hi1])
      (by simp [Instruction.addDst, Instruction.addSrc, hi2])
      (by simp [Instruction.addDst, Instruction.addSrc, hi3])
      List.Forall₂.nil
      List.Forall₂.nil
      (by rw [heq]; rfl)
  · rename_i heq
    exact threeRegs_operands _ _ s s1 a hlex hlive (by rw [heq]; rfl) h
  · -- sw
    rename_i heq
    have g0 := stage_init s hlex hlive
    obtain ⟨_, t1, h1, h⟩ := (bind_ok_iff _ _ _ _ _).mp h
    have g1 := stage_eat _ _ _ _ _ _ _ g0 h1
    obtain ⟨i, t2, h2, h⟩ := (bind_ok_iff _ _ _ _ _).mp h
    obtain ⟨g2, hi1, hi2, hi3⟩ := stage_new _ _ _ _ _ _ _ _ g1 h2
    obtain ⟨src1, t3, h3, h⟩ := (bind_ok_iff _ _ _ _ _).mp h
    have g3 := stage_reg _ _ _ _ _ _ g2 h3
    obtain ⟨_, t4, h4, h⟩ := (bind_ok_iff _ _ _ _ _).mp h
    have g4 := stage_eat _ _ _ _ _ _ _ g3 h4
    obtain ⟨src2, t5, h5, h⟩ := (bind_ok_iff _ _ _ _ _).mp h
    have g5 := stage_num _ _ _ _ _ _ g4 h5
    obtain ⟨_, t6, h6, h⟩ := (bind_ok_iff _ _ _ _ _).mp h
    have g6 := stage_eat _ _ _ _ _ _ _ g5 h6
    obtain ⟨dst, t7, h7, h⟩ := (bind_ok_iff _ _ _ _ _).mp h
    have g7 := stage_reg _ _ _ _ _ _ g6 h7
    obtain ⟨_, t8, h8, h⟩ := (bind_ok_iff _ _ _ _ _).mp h
    have g8 := stage_eat _ _ _ _ _ _ _ g7 h8
    exact stage_finish _ _ _ _ _ _ _ .I_SW [] [1, 3, 5] [] [src1, src2, dst] g8 h
      (by simp [Instruction.addDst, Instruction.addSrc, hi1])
      (by simp [Instruction.addDst, Instruction.addSrc, hi2])
      (by simp [Instruction.addDst, Instruction.addSrc, hi3])
      List.Forall₂.nil
      (List.Forall₂.cons (by simp) (List.Forall₂.cons (by simp) (List.Forall₂.cons (by simp) List.Forall₂.nil)))
      (by rw [heq]; rfl)
  · rename_i heq
    exact threeRegs_operands _ _ s s1 a hlex hlive (by rw [heq]; rfl) h
  · rename_i heq
    exact threeRegs_operands _ _ s s1 a hlex hlive (by rw [heq]; rfl) h
  · -- not
    rename_i heq
    have g0 := stage_init s hlex hlive
    obtain ⟨_, t1, h1, h⟩ := (bind_ok_iff _ _ _ _ _).mp h
    have g1 := stage_eat _ _ _ _ _ _ _ g0 h1
    obtain ⟨i, t2, h2, h⟩ := (bind_ok_iff _ _ _ _ _).mp h
    obtain ⟨g2, hi1, hi2, hi3⟩ := stage_new _ _ _ _ _ _ _ _ g1 h2
    obtain ⟨dst, t3, h3, h⟩ := (bind_ok_iff _ _ _ _ _).mp h
    have g3 := stage_reg _ _ _ _ _ _ g2 h3
    obtain ⟨_, t4, h4, h⟩ := (bind_ok_iff _ _ _ _ _).mp h
    have g4 := stage_eat _ _ _ _ _ _ _ g3 h4
    obtain ⟨src1, t5, h5, h⟩ := (bind_ok_iff _ _ _ _ _).mp h
    have g5 := stage_reg _ _ _ _ _ _ g4 h5
    exact stage_finish _ _ _ _ _ _ _ .I_NOT [1] [3] [dst] [src1] g5 h
      (by simp [Instruction.addDst, Instruction.addSrc, hi1])
      (by simp [Instruction.addDst, Instruction.addSrc, hi2])
      (by simp [Instruction.addDst, Instruction.addSrc, hi3])
      (List.Forall₂.cons (by simp) List.Forall₂.nil)
      (List.Forall₂.cons (by simp) List.Forall₂.nil)
      (by rw [heq]; rfl)
  · -- bne
    rename_i heq
    have g0 := stage_init s hlex hlive
    obtain ⟨_, t1, h1, h⟩ := (bind_ok_iff _ _ _ _ _).mp h
    have g1 := stage_eat _ _ _ _ _ _ _ g0 h1
    obtain ⟨i, t2, h2, h⟩ := (bind_ok_iff _ _ _ _ _).mp h
    obtain ⟨g2, hi1, hi2, hi3⟩ := stage_new _ _ _ _ _ _ _ _ g1 h2
    obtain ⟨src1, t3, h3, h⟩ := (bind_ok_iff _ _ _ _ _).mp h
    have g3 := stage_reg _ _ _ _ _ _ g2 h3
    obtain ⟨_, t4, h4, h⟩ := (bind_ok_iff _ _ _ _ _).mp h
    have g4 := stage_eat _ _ _ _ _ _ _ g3 h4
    obtain ⟨src2, t5, h5, h⟩ := (bind_ok_iff _ _ _ _ _).mp h
    have g5 := stage_reg _ _ _ _ _ _ g4 h5
    obtain ⟨_, t6, h6, h⟩ := (bind_ok_iff _ _ _ _ _).mp h
    have g6 := stage_eat _ _ _ _ _ _ _ g5 h6
    obtain ⟨dst, t7, h7, h⟩ := (bind_ok_iff _ _ _ _ _).mp h
    have g7 := stage_label _ _ _ _ _ _ g6 h7
    exact stage_finish _ _ _ _ _ _ _ .I_BNE [] [1, 3, 5] [] [src1, src2, dst] g7 h
      (by simp [Instruction.addDst, Instruction.addSrc, hi1])
      (by simp [Instruction.addDst, Instruction.addSrc, hi2])
      (by simp [Instruction.addDst, Instruction.addSrc, hi3])
      List.Forall₂.nil
      (List.Forall₂.cons (by simp) (List.Forall₂.cons (by simp) (List.Forall₂.cons (by simp) List.Forall₂.nil)))
      (by rw [heq]; rfl)
  · cases h

theorem preserves_bind {α β : Type} (m : Parser α) (f : α → Parser β) (hm : Preserves m)
    (hf : ∀ a, Preserves (f a)) : Preserves (m >>= f) := by
  intro s b s2 hinv h
  obtain ⟨a, s1, h1, h2⟩ := (bind_ok_iff _ _ _ _ _).mp h
  exact hf a s1 b s2 (hm s a s1 hinv h1) h2

theorem preserves_of_opnd {α : Type} (m : Parser α)
    (h : ∀ s a s1, m s = .ok a s1 → Opnd s s1) : Preserves m := by
  intro s a s1 hinv hm
  have ho := h s a s1 hm
  exact ⟨ho.const hinv.2.1 hinv.1, ho.live hinv.2.1, by rw [ho.tokens]; exact hinv.2.2⟩

theorem preserves_eat (t : TokenType) : Preserves (eat t) :=
  preserves_of_opnd _ (fun s a s1 h => (eat_opnd t s s1 a h).1)

theorem preserves_E : Preserves E := by
  intro s a s1 hinv h
  obtain ⟨sf, i, _, _, _, ho, hl, hs1, _⟩ := E_operands s s1 a hinv.2.2 hinv.2.1 h
  have hc := ho.const hinv.2.1 hinv.1
  have ht : Lexed sf.tokens := by rw [ho.tokens]; exact hinv.2.2
  subst hs1
  exact ⟨hc, hl, ht⟩

theorem opnd_of_eq (s s1 : SyntaxAnalysis) (h : s1 = s) : Opnd s s1 := by
  subst h; exact opnd_refl _

theorem opnd_lt (s s1 : SyntaxAnalysis) (v : Nat) (h : Opnd s s1) (hv : v < s.heap.length) :
    v < s1.heap.length := by
  obtain ⟨e, he⟩ := h.heap
  rw [he, List.length_append]; omega

/-- The constructor of a variable that is not a constant, under `new`. -/
theorem newVariable_opnd (type : VariableType) (name : String) (val : Int)
    (s s1 : SyntaxAnalysis) (v : Nat) (h : newVariable type name val s = .ok v s1) :
    Opnd s s1 ∧ v < s1.heap.length := by
  obtain ⟨n1, n2, n3, _, n5, n6, n7, n8, n9, _, var, n10, _⟩ := newVariable_ok _ _ _ _ _ _ h
  have hlive : TablesLive s → TablesLive s1 := by
    intro hl
    have h1 := tablesLive_push_heap s [var] hl
    unfold TablesLive at h1 ⊢
    rw [n6, n7, n5, n8, n10]
    exact h1
  have hconst : TablesLive s → ConstTable s → ConstTable s1 := by
    intro hl hc
    have h1 := constTable_push_heap s [var] hl hc
    unfold ConstTable at h1 ⊢
    rw [n8, n10]
    exact h1
  exact ⟨⟨n2, n9, n6, n7, n3, ⟨[], by simp [n5]⟩, ⟨[], by simp [n8]⟩, ⟨[var], n10⟩, hlive, hconst⟩,
    by rw [n1, n10]; simp⟩

/-- What `createVariable()` keeps: it adds one object to the heap and returns its
address. -/
theorem createVariable_opnd (s s1 : SyntaxAnalysis) (v : Nat)
    (h : createVariable s = .ok v s1) : Opnd s s1 ∧ v < s1.heap.length := by
  unfold createVariable at h
  split at h
  · obtain ⟨name, sa, ha, h⟩ := (bind_ok_iff _ _ _ _ _).mp h
    obtain ⟨_, sb, hb, h⟩ := (bind_ok_iff _ _ _ _ _).mp h
    obtain ⟨_, sc, hc, h⟩ := (bind_ok_iff _ _ _ _ _).mp h
    obtain ⟨_, sd, hd, h⟩ := (bind_ok_iff _ _ _ _ _).mp h
    obtain ⟨text, se, he, h⟩ := (bind_ok_iff _ _ _ _ _).mp h
    obtain ⟨val, sf, hf, h⟩ := (bind_ok_iff _ _ _ _ _).mp h
    obtain ⟨var, sg, hg, h⟩ := (bind_ok_iff _ _ _ _ _).mp h
    obtain ⟨_, sh, hh, h⟩ := (bind_ok_iff _ _ _ _ _).mp h
    obtain ⟨hv, hs⟩ := (pure_ok_iff _ _ _ _).mp h
    have o1 : Opnd s sa := opnd_of_eq _ _ (by cases ha; rfl)
    have o2 : Opnd sa sb := opnd_of_eq _ _ (memVariableExists_ok _ _ _ _ hb)
    have o3 : Opnd sb sc := (eat_opnd _ _ _ _ hc).1
    have o4 : Opnd sc sd := opnd_of_eq _ _ (glance_ok _ _ _ _ hd).1
    have o5 : Opnd sd se := opnd_of_eq _ _ (by cases he; rfl)
    have o6 : Opnd se sf := opnd_of_eq _ _ (stoiP_ok _ _ _ _ hf)
    obtain ⟨o7, hlt⟩ := newVariable_opnd _ _ _ _ _ _ hg
    have o8 : Opnd sg sh := (eat_opnd _ _ _ _ hh).1
    rw [← hv, ← hs]
    exact ⟨opnd_trans _ _ _ o1 (opnd_trans _ _ _ o2 (opnd_trans _ _ _ o3 (opnd_trans _ _ _ o4
      (opnd_trans _ _ _ o5 (opnd_trans _ _ _ o6 (opnd_trans _ _ _ o7 o8)))))),
      opnd_lt _ _ _ o8 hlt⟩
  · obtain ⟨name, sa, ha, h⟩ := (bind_ok_iff _ _ _ _ _).mp h
    obtain ⟨_, sb, hb, h⟩ := (bind_ok_iff _ _ _ _ _).mp h
    obtain ⟨_, sc, hc, h⟩ := (bind_ok_iff _ _ _ _ _).mp h
    have o1 : Opnd s sa := opnd_of_eq _ _ (by cases ha; rfl)
    have o2 : Opnd sa sb := opnd_of_eq _ _ (regVariableExists_ok _ _ _ _ hb)
    have o3 : Opnd sb sc := (eat_opnd _ _ _ _ hc).1
    obtain ⟨o7, hlt⟩ := newVariable_opnd _ _ _ _ _ _ h
    exact ⟨opnd_trans _ _ _ o1 (opnd_trans _ _ _ o2 (opnd_trans _ _ _ o3 o7)), hlt⟩
  · obtain ⟨name, sa, ha, h⟩ := (bind_ok_iff _ _ _ _ _).mp h
    obtain ⟨_, sb, hb, h⟩ := (bind_ok_iff _ _ _ _ _).mp h
    obtain ⟨_, sc, hc, h⟩ := (bind_ok_iff _ _ _ _ _).mp h
    have o1 : Opnd s sa := opnd_of_eq _ _ (by cases ha; rfl)
    have o2 : Opnd sa sb := opnd_of_eq _ _ (labelExists_ok _ _ _ _ hb)
    have o3 : Opnd sb sc := (eat_opnd _ _ _ _ hc).1
    obtain ⟨o7, hlt⟩ := newVariable_opnd _ _ _ _ _ _ h
    exact ⟨opnd_trans _ _ _ o1 (opnd_trans _ _ _ o2 (opnd_trans _ _ _ o3 o7)), hlt⟩
  · cases h

/-- A push of a live pointer to a table other than the constant table, and changes of
the instruction list and the flags, keep the invariant. -/
theorem parserInv_push (s s1 : SyntaxAnalysis) (v : Nat) (hinv : ParserInv s)
    (hv : v < s.heap.length) (h1 : s1.tokens = s.tokens) (h2 : s1.heap = s.heap)
    (h3 : s1.const_vars = s.const_vars)
    (h4 : s1.reg_vars = s.reg_vars ∨ s1.reg_vars = s.reg_vars ++ [v])
    (h5 : s1.mem_vars = s.mem_vars ∨ s1.mem_vars = s.mem_vars ++ [v])
    (h6 : s1.label_vars = s.label_vars ∨ s1.label_vars = s.label_vars ++ [v]) :
    ParserInv s1 := by
  obtain ⟨hc, hl, hx⟩ := hinv
  refine ⟨?_, ?_, by rw [h1]; exact hx⟩
  · unfold ConstTable at hc ⊢
    rw [h3, h2]; exact hc
  · unfold TablesLive at hl ⊢
    rw [h2, h3]
    refine ⟨?_, ?_, ?_, hl.2.2.2⟩
    · rcases h4 with h | h <;> rw [h]
      · exact hl.1
      · intro p hp
        rcases List.mem_append.mp hp with hp | hp
        · exact hl.1 p hp
        · simp only [List.mem_singleton] at hp; rw [hp]; exact hv
    · rcases h5 with h | h <;> rw [h]
      · exact hl.2.1
      · intro p hp
        rcases List.mem_append.mp hp with hp | hp
        · exact hl.2.1 p hp
        · simp only [List.mem_singleton] at hp; rw [hp]; exact hv
    · rcases h6 with h | h <;> rw [h]
      · exact hl.2.2.1
      · intro p hp
        rcases List.mem_append.mp hp with hp | hp
        · exact hl.2.2.1 p hp
        · simp only [List.mem_singleton] at hp; rw [hp]; exact hv

theorem parserInv_of_opnd (s s1 : SyntaxAnalysis) (hinv : ParserInv s) (ho : Opnd s s1) :
    ParserInv s1 :=
  ⟨ho.const hinv.2.1 hinv.1, ho.live hinv.2.1, by rw [ho.tokens]; exact hinv.2.2⟩

theorem preserves_S : Preserves S := by
  intro s a s1 hinv h
  unfold S at h
  split at h
  · obtain ⟨_, sa, ha, h⟩ := (bind_ok_iff _ _ _ _ _).mp h
    obtain ⟨var, sb, hb, h⟩ := (bind_ok_iff _ _ _ _ _).mp h
    obtain ⟨o2, hlt⟩ := createVariable_opnd _ _ _ hb
    have i2 := parserInv_of_opnd _ _ (parserInv_of_opnd _ _ hinv (eat_opnd _ _ _ _ ha).1) o2
    simp only [Result.ok.injEq, true_and] at h
    subst h
    exact parserInv_push sb _ var i2 hlt rfl rfl rfl (Or.inl rfl) (Or.inr rfl) (Or.inl rfl)
  · obtain ⟨_, sa, ha, h⟩ := (bind_ok_iff _ _ _ _ _).mp h
    obtain ⟨var, sb, hb, h⟩ := (bind_ok_iff _ _ _ _ _).mp h
    obtain ⟨o2, hlt⟩ := createVariable_opnd _ _ _ hb
    have i2 := parserInv_of_opnd _ _ (parserInv_of_opnd _ _ hinv (eat_opnd _ _ _ _ ha).1) o2
    simp only [Result.ok.injEq, true_and] at h
    subst h
    exact parserInv_push sb _ var i2 hlt rfl rfl rfl (Or.inr rfl) (Or.inl rfl) (Or.inl rfl)
  · obtain ⟨_, sa, ha, h⟩ := (bind_ok_iff _ _ _ _ _).mp h
    obtain ⟨var, sb, hb, h⟩ := (bind_ok_iff _ _ _ _ _).mp h
    obtain ⟨i, sc, hc, h⟩ := (bind_ok_iff _ _ _ _ _).mp h
    obtain ⟨o2, hlt⟩ := createVariable_opnd _ _ _ hb
    have i2 := parserInv_of_opnd _ _ (parserInv_of_opnd _ _ hinv (eat_opnd _ _ _ _ ha).1) o2
    unfold newInstruction at hc
    simp only [Result.ok.injEq] at hc h
    obtain ⟨_, hc⟩ := hc
    subst hc
    obtain ⟨_, h⟩ := h
    subst h
    exact parserInv_push sb _ var i2 hlt rfl rfl rfl (Or.inl rfl) (Or.inl rfl) (Or.inr rfl)
  · obtain ⟨var, sb, hb, h2⟩ := (bind_ok_iff _ _ _ _ _).mp h
    obtain ⟨_, sc, hc, h3⟩ := (bind_ok_iff _ _ _ _ _).mp h2
    obtain ⟨_, sd, hd, h4⟩ := (bind_ok_iff _ _ _ _ _).mp h3
    clear h h2 h3
    obtain ⟨o2, hlt⟩ := createVariable_opnd _ _ _ hb
    have i2 := parserInv_of_opnd _ _ hinv o2
    simp only [Result.ok.injEq, true_and] at hc
    subst hc
    have i3 : ParserInv { sb with label_vars := sb.label_vars ++ [var],
                                   next_instruction_has_label := true } :=
      parserInv_push sb _ var i2 hlt rfl rfl rfl (Or.inl rfl) (Or.inl rfl) (Or.inr rfl)
    exact preserves_E _ _ _ (parserInv_of_opnd _ _ i3 (eat_opnd _ _ _ _ hd).1) h4
  · exact preserves_E _ _ _ hinv h

theorem preserves_L (Qf : Parser Unit) (hQ : Preserves Qf) : Preserves (L Qf) := by
  intro s a s1 hinv h
  unfold L at h
  split at h
  · obtain ⟨_, sa, ha, h⟩ := (bind_ok_iff _ _ _ _ _).mp h
    have i1 := parserInv_of_opnd _ _ hinv (eat_opnd _ _ _ _ ha).1
    simp only [Result.ok.injEq, true_and] at h
    subst h
    exact parserInv_of_opnd _ _ i1 (opnd_of_fields _ _ rfl rfl rfl rfl rfl rfl rfl rfl)
  · exact hQ _ _ _ hinv h

theorem preserves_Q (fuel : Nat) : Preserves (Q fuel) := by
  induction fuel with
  | zero => intro s a s1 _ h; cases h
  | succ n ih =>
    intro s a s1 hinv h
    unfold Q at h
    simp only at h
    have i0 : ParserInv { s with next_instruction_has_label := false } :=
      parserInv_of_opnd _ _ hinv (opnd_of_fields _ _ rfl rfl rfl rfl rfl rfl rfl rfl)
    split at h
    · obtain ⟨_, sa, ha, h⟩ := (bind_ok_iff _ _ _ _ _).mp h
      exact preserves_L _ ih _ _ _ (parserInv_of_opnd _ _ i0 (eat_opnd _ _ _ _ ha).1) h
    · obtain ⟨_, sa, ha, h⟩ := (bind_ok_iff _ _ _ _ _).mp h
      obtain ⟨_, sb, hb, h⟩ := (bind_ok_iff _ _ _ _ _).mp h
      exact preserves_L _ ih _ _ _
        (parserInv_of_opnd _ _ (preserves_S _ _ _ i0 ha) (eat_opnd _ _ _ _ hb).1) h

theorem checkFunctions_ok (s s1 : SyntaxAnalysis) (a : Unit)
    (h : checkFunctions s = .ok a s1) : s1 = s := by
  unfold checkFunctions at h
  split at h
  · cases h
  · split at h
    · cases h
    · simp only at h
      split at h
      · cases h
      · simp only [Result.ok.injEq, true_and] at h; exact h.symm

/-- The parse of a fresh parser ends with the invariant. -/
theorem parserInv_Do (tokens : List Token) (b : Bool) (s1 : SyntaxAnalysis)
    (hlex : Lexed tokens) (h : SyntaxAnalysis.Do (SyntaxAnalysis.init tokens) = .ok b s1) :
    ParserInv s1 := by
  unfold SyntaxAnalysis.Do at h
  obtain ⟨_, sa, ha, h⟩ := (bind_ok_iff _ _ _ _ _).mp h
  obtain ⟨_, sb, hb, h⟩ := (bind_ok_iff _ _ _ _ _).mp h
  obtain ⟨_, sc, hc, h⟩ := (bind_ok_iff _ _ _ _ _).mp h
  have i0 : ParserInv { SyntaxAnalysis.init tokens with currentToken := 0 } := by
    refine ⟨?_, ?_, hlex⟩
    · unfold ConstTable; simp [SyntaxAnalysis.init]
    · unfold TablesLive; simp [SyntaxAnalysis.init]
  have i1 := preserves_Q _ _ _ _ i0 ha
  have e1 := (checkLabels_ok _ _ _ hb)
  have e2 := checkFunctions_ok _ _ _ hc
  simp only [Result.ok.injEq] at h
  rw [← h.2, e2, e1]
  exact i1

/-- C17. Operand assignment: every instruction that `E()` accepts (from a state whose
table pointers are live, on tokens classified as by the lexer) is appended to the
instruction list with the type and the operand lists of `operandOffsets`, i.e. for
`add/sub/and/or a,b,c` dst [a], src [b, c]; `addi a,b,n` dst [a], src [b, const n];
`not a,b` dst [a], src [b]; `la a,m` dst [a], src [m]; `li a,n` dst [a], src [const n];
`lw a,n(b)` dst [a], src [const n, b]; `sw a,n(b)` dst [], src [a, const n, b]; `b L`
src [L]; `bltz a,L` src [a, L]; `bne a,b,L` src [a, b, L]; `nop` both empty; each list
entry is the variable that the token at that place names. -/
theorem operand_assignment (s s1 : SyntaxAnalysis) (hlex : Lexed s.tokens)
    (hlive : TablesLive s) (h : E s = .ok () s1) :
    ∃ i ty dst src, s1.instrs = s.instrs ++ [i] ∧
      operandOffsets (currentTok s).tokenType = some (ty, dst, src) ∧ i.m_type = ty ∧
      List.Forall₂ (fun p off => Denotes s1 p (tokenAt s.tokens (s.currentToken + off)))
        i.m_dst dst ∧
      List.Forall₂ (fun p off => Denotes s1 p (tokenAt s.tokens (s.currentToken + off)))
        i.m_src src := by
  obtain ⟨sf, i, ty, dst, src, ho, _, hs1, hoff, hty, hd, hs⟩ := E_operands s s1 () hlex hlive h
  subst hs1
  exact ⟨i, ty, dst, src, by rw [← ho.instrs], hoff, hty, hd, hs⟩

/-- Witness of C17 on `sw r1, 4(r2)` after `_func main; _reg r1; _reg r2;`. -/
theorem operand_assignment_witness :
    ∃ i ty dst src, operandParsed.instrs = operandState.instrs ++ [i] ∧
      operandOffsets (currentTok operandState).tokenType = some (ty, dst, src) ∧ i.m_type = ty ∧
      List.Forall₂ (fun p off => Denotes operandParsed p
        (tokenAt operandState.tokens (operandState.currentToken + off))) i.m_dst dst ∧
      List.Forall₂ (fun p off => Denotes operandParsed p
        (tokenAt operandState.tokens (operandState.currentToken + off))) i.m_src src :=
  operand_assignment operandState operandParsed (by decide!) (by decide!) (by decide!)

/-- C13. Constant interning.  In every state whose constant table is as `ConstTable`
says (which holds throughout a parse): the first call `constVariable(n)` creates the
constant variable `c<n>` with value `n` at the end of the table; a later call, made when
the table holds an entry `p` with value `n`, returns `p` and changes nothing; and after
`Do()` of a fresh parser the table holds constant variables named `c<value>` with
pairwise different values. -/
theorem constant_interning :
    (∀ (s : SyntaxAnalysis) (n : Int), ConstTable s → TablesLive s →
      -2147483648 ≤ n ∧ n ≤ 2147483647 →
      (∀ q ∈ s.const_vars, (deref s.heap q).value ≠ n) →
      constVariable n s = .ok s.heap.length
        { s with heap := s.heap ++ [⟨.CONST_VAR, "c" ++ to_string n, -1, .no_assign, n⟩],
                 const_vars := s.const_vars ++ [s.heap.length] } ∧
      ConstTable
        { s with heap := s.heap ++ [⟨.CONST_VAR, "c" ++ to_string n, -1, .no_assign, n⟩],
                 const_vars := s.const_vars ++ [s.heap.length] }) ∧
    (∀ (s : SyntaxAnalysis) (n : Int) (p : Nat), ConstTable s → p ∈ s.const_vars →
      (deref s.heap p).value = n → constVariable n s = .ok p s) ∧
    (∀ (tokens : List Token) (b : Bool) (s1 : SyntaxAnalysis), Lexed tokens →
      SyntaxAnalysis.Do (SyntaxAnalysis.init tokens) = .ok b s1 → ConstTable s1) := by
  refine ⟨?_, ?_, ?_⟩
  · intro s n hc hl hn hfresh
    have hnone : findByName s.heap s.const_vars ("c" ++ to_string n) = none := by
      cases hf : findByName s.heap s.const_vars ("c" ++ to_string n) with
      | none => rfl
      | some p =>
        obtain ⟨hp, hv⟩ := (findByName_const s n hc hn).1 p hf
        exact absurd hv (hfresh p hp)
    have heq := constVariable_new n s hn hnone
    exact ⟨heq, (constVariable_opnd n s _ _ hn heq).1.const hl hc⟩
  · intro s n p hc hp hv
    obtain ⟨_, hr, hnm⟩ := hc.1 p hp
    rw [hv] at hr hnm
    obtain ⟨q, hq⟩ := findByName_isSome s.heap s.const_vars _ ⟨p, hp, hnm⟩
    obtain ⟨hq1, hq2⟩ := (findByName_const s n hc hr).1 q hq
    have : q = p := by
      apply List.inj_on_of_nodup_map hc.2 hq1 hp
      rw [hq2, hv]
    rw [constVariable_found n s q hq, this]
  · intro tokens b s1 hlex h
    exact (parserInv_Do tokens b s1 hlex h).1

/-- Witness of C13 on `li r1, 5; addi r1, r1, 5; addi r1, r1, -7; addi r1, r1, 005;`:
after the parse the table holds `c5` and `c-7`, and a further `constVariable(5)` returns
the first entry. -/
theorem constant_interning_witness :
    ConstTable constantParsed ∧
      constVariable 5 constantParsed = .ok (constantParsed.const_vars.headD 0) constantParsed :=
  ⟨constant_interning.2.2 constantTokens true constantParsed (by decide) (by decide!),
    constant_interning.2.1 constantParsed 5 (constantParsed.const_vars.headD 0)
      (constant_interning.2.2 constantTokens true constantParsed (by decide) (by decide!))
      (by decide!) (by decide!)⟩

/-- C11 (divergence). On `_mem m1 6; _reg r1; // only declarations` the grammar phase and
the label check pass with an empty instruction list, and `checkFunctions` then evaluates
`instrs.front()` of the empty list, which is undefined behaviour in C++: `Do()` does not
raise `NO_MAIN_FUNC`. -/
theorem no_instruction_reads_front :
    (SyntaxAnalysis.Do (SyntaxAnalysis.init noInstructionTokens)).raised =
      some (.undefined "front() of an empty list") ∧
    (SyntaxAnalysis.Do (SyntaxAnalysis.init noInstructionTokens)).raised ≠
      some (.syntaxError .NO_MAIN_FUNC) ∧
    ((SyntaxAnalysis.Do (SyntaxAnalysis.init noInstructionTokens)).state.map
      (fun s => s.instrs)) = some [] := by
  decide!

/-- C14 (divergence). On `_reg m1 5; _reg m1 6; _mem r1; _mem r1; _func main;` `Do()`
returns true with two entries named `m1` in the register table and two entries named `r1`
in the memory table: `createVariable` checks the table chosen by the kind of the
identifier, and `S()` pushes into the table chosen by the keyword. -/
theorem duplicate_names_accepted :
    (SyntaxAnalysis.Do (SyntaxAnalysis.init duplicateNameTokens)).returned = some true ∧
    ((SyntaxAnalysis.Do (SyntaxAnalysis.init duplicateNameTokens)).state.map
      (fun s => (names s.heap s.reg_vars, names s.heap s.mem_vars))) =
        some (["m1", "m1"], ["r1", "r1"]) := by
  decide!

/-- C15 (divergence). On `_mem r1; _reg r2; _func main;` a fresh parser returns true with
a register table of one variable, `r2`, whose position is 1: position 0 went to the
register variable that `_mem r1` put into the memory table, and 1 is no index of the
1 x 1 interference matrix. -/
theorem sparse_positions_accepted :
    (SyntaxAnalysis.Do (SyntaxAnalysis.init sparsePositionTokens)).returned = some true ∧
    ((SyntaxAnalysis.Do (SyntaxAnalysis.init sparsePositionTokens)).state.map
      (fun s => (names s.heap s.reg_vars, positions s.heap s.reg_vars))) =
        some (["r2"], [1]) ∧
    ((SyntaxAnalysis.Do (SyntaxAnalysis.init sparsePositionTokens)).state.map
      (fun s => (names s.heap s.mem_vars, positions s.heap s.mem_vars))) =
        some (["r1"], [0]) := by
  decide!

/-- C16 (divergence). On `_reg m1 5; _reg foo; _mem r1; _func m2 1;` no `WRONG_TOKEN` is
raised: `Do()` returns true, the register table holds a memory variable and a label
variable, the memory table a register variable and the label table a memory variable. -/
theorem misdeclared_accepted :
    (SyntaxAnalysis.Do (SyntaxAnalysis.init misdeclaredTokens)).returned = some true ∧
    ((SyntaxAnalysis.Do (SyntaxAnalysis.init misdeclaredTokens)).state.map
      (fun s => (kinds s.heap s.reg_vars, kinds s.heap s.mem_vars, kinds s.heap s.label_vars))) =
        some ([.MEM_VAR, .LABEL_VAR], [.REG_VAR], [.MEM_VAR]) := by
  decide!

theorem findByName_none_iff (heap : List Variable) (table : List Nat) (name : String) :
    findByName heap table name = none ↔ name ∉ names heap table := by
  constructor
  · intro h hmem
    unfold names at hmem
    obtain ⟨p, hp, hn⟩ := List.mem_map.mp hmem
    obtain ⟨q, hq⟩ := findByName_isSome heap table name ⟨p, hp, hn⟩
    rw [hq] at h; cases h
  · intro h
    cases hf : findByName heap table name with
    | none => rfl
    | some p =>
      obtain ⟨hp, hn⟩ := findByName_some _ _ _ _ hf
      exact absurd (List.mem_map.mpr ⟨p, hp, hn⟩) h

theorem names_opnd (heap ext : List Variable) (table : List Nat)
    (h : ∀ p ∈ table, p < heap.length) : names (heap ++ ext) table = names heap table := by
  unfold names
  apply List.map_congr_left
  intro p hp
  rw [deref_append _ _ _ (h p hp)]

theorem declared_opnd (s s1 : SyntaxAnalysis) (tok : Token) (h : Opnd s s1)
    (hl : TablesLive s) : Declared s1 tok ↔ Declared s tok := by
  obtain ⟨e, he⟩ := h.heap
  unfold Declared
  rw [h.reg_vars, h.mem_vars, he, names_opnd _ _ _ hl.1, names_opnd _ _ _ hl.2.1]

theorem window_left (A B : List TokenType) (s : SyntaxAnalysis) (h : Window (A ++ B) s) :
    Window A s := by
  obtain ⟨h1, h2, h3, h4⟩ := h
  refine ⟨?_, ?_, h3, h4⟩
  · intro j hj
    have := h1 j (by rw [List.length_append]; omega)
    rw [List.getD_append _ _ _ _ hj] at this
    exact this
  · intro j hj hn
    apply h2 j (by rw [List.length_append]; omega)
    rw [List.getD_append _ _ _ _ hj]
    exact hn

theorem window_right (A B : List TokenType) (s s1 : SyntaxAnalysis) (h : Window (A ++ B) s)
    (ho : Opnd s s1) (hcur : s1.currentToken = s.currentToken + A.length) : Window B s1 := by
  obtain ⟨h1, h2, h3, h4⟩ := h
  refine ⟨?_, ?_, by rw [ho.tokens]; exact h3, ho.live h4⟩
  · intro j hj
    have := h1 (A.length + j) (by rw [List.length_append]; omega)
    rw [List.getD_append_right _ _ _ _ (by omega)] at this
    rw [ho.tokens, hcur, Nat.add_assoc]
    simpa using this
  · intro j hj hn
    have := h2 (A.length + j) (by rw [List.length_append]; omega)
      (by rw [List.getD_append_right _ _ _ _ (by omega)]; simpa using hn)
    rw [ho.tokens, hcur, Nat.add_assoc]
    exact this

theorem rejects_bind {α β : Type} (m : Parser α) (f : α → Parser β) (A B : List TokenType)
    (hr : Rejects m A) (ha : Accepts m A) (hf : ∀ a, Rejects (f a) B) :
    Rejects (m >>= f) (A ++ B) := by
  intro s hw hu
  obtain ⟨j, hj, hund⟩ := hu
  by_cases hA : ∃ j, j < A.length ∧ ¬ Declared s (tokenAt s.tokens (s.currentToken + j))
  · obtain ⟨s1, h1, h2, h3⟩ := hr s (window_left A B s hw) hA
    exact ⟨s1, bind_of_raise _ _ _ _ _ h1, h2, h3⟩
  · have hall : ∀ j, j < A.length → Declared s (tokenAt s.tokens (s.currentToken + j)) := by
      intro k hk
      by_contra hc
      exact hA ⟨k, hk, hc⟩
    obtain ⟨a, s1, h1, ho, hcur⟩ := ha s (window_left A B s hw) hall
    have hjA : A.length ≤ j := by
      by_contra hc
      exact hund (hall j (by omega))
    have hund2 : ¬ Declared s1 (tokenAt s1.tokens (s1.currentToken + (j - A.length))) := by
      rw [declared_opnd s s1 _ ho hw.2.2.2, ho.tokens, hcur]
      have : s.currentToken + A.length + (j - A.length) = s.currentToken + j := by omega
      rw [this]
      exact hund
    obtain ⟨s2, h2, h3, h4⟩ := hf a s1 (window_right A B s s1 hw ho hcur)
      ⟨j - A.length, by rw [List.length_append] at hj; omega, hund2⟩
    exact ⟨s2, by rw [bind_of_ok _ _ _ _ _ h1]; exact h2, by rw [h3, ho.instrs], h4⟩

theorem rejects_bind_cons {α β : Type} (m : Parser α) (f : α → Parser β) (t : TokenType)
    (tys : List TokenType) (hr : Rejects m [t]) (ha : Accepts m [t])
    (hf : ∀ a, Rejects (f a) tys) : Rejects (m >>= f) (t :: tys) :=
  rejects_bind m f [t] tys hr ha hf

theorem rejects_nil {α : Type} (m : Parser α) : Rejects m [] := by
  intro s _ hu
  obtain ⟨j, hj, _⟩ := hu
  simp at hj

theorem rejects_bind_nil {α β : Type} (m : Parser α) (f : α → Parser β)
    (tys : List TokenType) (ha : Accepts m []) (hf : ∀ a, Rejects (f a) tys) :
    Rejects (m >>= f) tys :=
  rejects_bind m f [] tys (rejects_nil m) ha hf

theorem window_type (t : TokenType) (tys : List TokenType) (s : SyntaxAnalysis)
    (h : Window (t :: tys) s) : (currentTok s).tokenType = t := by
  have := h.1 0 (by simp)
  simpa [tokenAt, currentTok] using this

theorem rejects_eat (t : TokenType) (h1 : t ≠ .T_R_ID) (h2 : t ≠ .T_M_ID) :
    Rejects (eat t) [t] := by
  intro s hw hu
  exfalso
  obtain ⟨j, hj, hund⟩ := hu
  have hj0 : j = 0 := by simp at hj; exact hj
  subst hj0
  apply hund
  have ht : (tokenAt s.tokens (s.currentToken + 0)).tokenType = t := by
    have := hw.1 0 (by simp); simpa using this
  unfold Declared
  rw [ht]
  exact ⟨fun h => absurd h h1, fun h => absurd h h2⟩

theorem accepts_eat (t : TokenType) (hne : t ≠ .T_END_OF_FILE) : Accepts (eat t) [t] := by
  intro s hw _
  have h := eat_of_type t s (window_type t [] s hw) hne
  exact ⟨(), _, h, (eat_opnd _ _ _ _ h).1, rfl⟩

theorem accepts_newInstruction (type : InstructionType) (lab : Option Nat) :
    Accepts (newInstruction type lab) [] := by
  intro s _ _
  exact ⟨_, _, rfl, (newInstruction_opnd type lab s _ _ rfl).1, rfl⟩

theorem glance_of_type (t : TokenType) (s : SyntaxAnalysis)
    (h : (currentTok s).tokenType = t) : glance t s = .ok () s := by
  unfold glance
  rw [if_neg (by rw [h]; simp)]

theorem window_lexed (t : TokenType) (tys : List TokenType) (s : SyntaxAnalysis)
    (h : Window (t :: tys) s) (hne : t ≠ .T_NO_TYPE) :
    (t = .T_R_ID → (currentTok s).value.toList.head? = some 'r') ∧
    (t = .T_M_ID → (currentTok s).value.toList.head? = some 'm') := by
  have ht := window_type t tys s h
  have hmem := currentTok_mem s (by rw [ht]; exact hne)
  have := h.2.2.1 _ hmem
  rw [ht] at this
  exact this

theorem regOperand_eq (s : SyntaxAnalysis) (ht : (currentTok s).tokenType = .T_R_ID)
    (hh : (currentTok s).value.toList.head? = some 'r') :
    regOperand s =
      match findByName s.heap s.reg_vars (currentTok s).value with
      | some p => .ok p { s with currentToken := s.currentToken + 1 }
      | none => .raise (.syntaxError .VARIABLE_DOESNT_EXIST) { s with err := true } := by
  unfold regOperand
  rw [bind_of_ok _ _ _ _ _ (glance_of_type _ s ht)]
  have hf : findVariable s = findVariableNamed (currentTok s).value s := rfl
  cases hfind : findByName s.heap s.reg_vars (currentTok s).value with
  | none =>
    have : findVariable s = .raise (.syntaxError .VARIABLE_DOESNT_EXIST)
        { s with err := true } := by
      rw [hf, findVariableNamed_r _ _ hh, hfind]
    rw [bind_of_raise _ _ _ _ _ this]
  | some p =>
    have : findVariable s = .ok p s := by
      rw [hf, findVariableNamed_r _ _ hh, hfind]
    rw [bind_of_ok _ _ _ _ _ this,
      bind_of_ok _ _ _ _ _ (eat_of_type _ s ht (by decide))]
    rfl

theorem rejects_regOperand : Rejects regOperand [.T_R_ID] := by
  intro s hw hu
  obtain ⟨j, hj, hund⟩ := hu
  have hj0 : j = 0 := by simp at hj; exact hj
  subst hj0
  have ht := window_type _ _ s hw
  have hh := (window_lexed _ _ s hw (by decide)).1 rfl
  have hnone : findByName s.heap s.reg_vars (currentTok s).value = none := by
    rw [findByName_none_iff]
    intro hmem
    apply hund
    have e : tokenAt s.tokens (s.currentToken + 0) = currentTok s := rfl
    rw [e]
    exact ⟨fun _ => hmem, fun h => (by rw [ht] at h; cases h)⟩
  rw [regOperand_eq s ht hh, hnone]
  exact ⟨_, rfl, rfl, rfl⟩

theorem accepts_regOperand : Accepts regOperand [.T_R_ID] := by
  intro s hw hall
  have ht := window_type _ _ s hw
  have hh := (window_lexed _ _ s hw (by decide)).1 rfl
  have hd := (hall 0 (by simp)).1 ht
  have e : tokenAt s.tokens (s.currentToken + 0) = currentTok s := rfl
  rw [e] at hd
  cases hfind : findByName s.heap s.reg_vars (currentTok s).value with
  | none => exact absurd hd ((findByName_none_iff _ _ _).mp hfind)
  | some p =>
    have h := regOperand_eq s ht hh
    rw [hfind] at h
    exact ⟨p, _, h, opnd_of_fields _ _ rfl rfl rfl rfl rfl rfl rfl rfl, rfl⟩

/-- The operand sequence of `la` for the memory variable, followed by the rest of the
case: an undeclared memory id raises before the rest runs. -/
theorem rejects_memOperand {β : Type} (g : Nat → Parser β) :
    Rejects (glance .T_M_ID >>= fun _ => findVariable >>= fun v =>
      eat .T_M_ID >>= fun _ => g v) [.T_M_ID] := by
  intro s hw hu
  obtain ⟨j, hj, hund⟩ := hu
  have hj0 : j = 0 := by simp at hj; exact hj
  subst hj0
  have ht := window_type _ _ s hw
  have hh := (window_lexed _ _ s hw (by decide)).2 rfl
  have hnone : findByName s.heap s.mem_vars (currentTok s).value = none := by
    rw [findByName_none_iff]
    intro hmem
    apply hund
    have e : tokenAt s.tokens (s.currentToken + 0) = currentTok s := rfl
    rw [e]
    exact ⟨fun h => (by rw [ht] at h; cases h), fun _ => hmem⟩
  rw [bind_of_ok _ _ _ _ _ (glance_of_type _ s ht)]
  have hf : findVariable s = .raise (.syntaxError .VARIABLE_DOESNT_EXIST)
      { s with err := true } := by
    show findVariableNamed (currentTok s).value s = _
    rw [findVariableNamed_m _ _ hh, hnone]
  rw [bind_of_raise _ _ _ _ _ hf]
  exact ⟨_, rfl, rfl, rfl⟩

theorem accepts_numOperand : Accepts numOperand [.T_NUM] := by
  intro s hw _
  have ht := window_type _ _ s hw
  have hsome := hw.2.1 0 (by simp) rfl
  have e : tokenAt s.tokens (s.currentToken + 0) = currentTok s := rfl
  rw [e] at hsome
  obtain ⟨n, hn⟩ : ∃ n, stoi (currentTok s).value = .ok n := by
    cases hst : stoi (currentTok s).value with
    | ok n => exact ⟨n, rfl⟩
    | error e => rw [hst] at hsome; simp [Except.toOption] at hsome
  have hr := stoi_range _ _ hn
  have hc : ∃ v s1, constVariable n s = .ok v s1 := by
    cases hf : findByName s.heap s.const_vars ("c" ++ to_string n) with
    | some p => exact ⟨_, _, constVariable_found n s p hf⟩
    | none => exact ⟨_, _, constVariable_new n s hr hf⟩
  obtain ⟨v, s1, hc⟩ := hc
  obtain ⟨ho, hcur, _⟩ := constVariable_opnd n s s1 v hr hc
  have ht1 : (currentTok s1).tokenType = .T_NUM := by
    unfold currentTok at ht ⊢
    rw [ho.tokens, hcur]; exact ht
  have he := eat_of_type .T_NUM s1 ht1 (by decide)
  refine ⟨v, { s1 with currentToken := s1.currentToken + 1 }, ?_,
    opnd_trans _ _ _ ho (eat_opnd _ _ _ _ he).1, by simp [hcur]⟩
  unfold numOperand
  rw [bind_of_ok _ _ _ _ _ (glance_of_type _ s ht)]
  have h1 : curValue s = .ok (currentTok s).value s := rfl
  rw [bind_of_ok _ _ _ _ _ h1]
  have h2 : stoiP (currentTok s).value s = .ok n s := by
    unfold stoiP; rw [hn]
  rw [bind_of_ok _ _ _ _ _ h2, bind_of_ok _ _ _ _ _ hc, bind_of_ok _ _ _ _ _ he]
  rfl

theorem rejects_numOperand : Rejects numOperand [.T_NUM] :=
  fun s hw hu => by
    exfalso
    obtain ⟨j, hj, hund⟩ := hu
    have hj0 : j = 0 := by simp at hj; exact hj
    subst hj0
    apply hund
    have ht : (tokenAt s.tokens (s.currentToken + 0)).tokenType = .T_NUM := by
      have := hw.1 0 (by simp); simpa using this
    unfold Declared
    rw [ht]
    exact ⟨fun h => (by cases h), fun h => (by cases h)⟩

theorem rejects_labelOperand : Rejects labelOperand [.T_ID] :=
  fun s hw hu => by
    exfalso
    obtain ⟨j, hj, hund⟩ := hu
    have hj0 : j = 0 := by simp at hj; exact hj
    subst hj0
    apply hund
    have ht : (tokenAt s.tokens (s.currentToken + 0)).tokenType = .T_ID := by
      have := hw.1 0 (by simp); simpa using this
    unfold Declared
    rw [ht]
    exact ⟨fun h => (by cases h), fun h => (by cases h)⟩

theorem accepts_labelOperand : Accepts labelOperand [.T_ID] := by
  intro s hw _
  have ht := window_type _ _ s hw
  have hc : ∃ v s1, findLabel (currentTok s).value s = .ok v s1 := by
    unfold findLabel
    cases hf : findByName s.heap s.label_vars (currentTok s).value with
    | some p => exact ⟨_, _, rfl⟩
    | none =>
      have h2 : newVariable .LABEL_VAR (currentTok s).value 0 s = .ok s.heap.length
          { s with heap := s.heap ++ [⟨.LABEL_VAR, (currentTok s).value, -1, .no_assign, 0⟩] } := by
        unfold newVariable
        rw [if_neg (by decide)]
      simp only
      rw [bind_of_ok _ _ _ _ _ h2]
      exact ⟨_, _, rfl⟩
  obtain ⟨v, s1, hc⟩ := hc
  obtain ⟨ho, hcur, _⟩ := findLabel_opnd _ s s1 v hc
  have ht1 : (currentTok s1).tokenType = .T_ID := by
    unfold currentTok at ht ⊢
    rw [ho.tokens, hcur]; exact ht
  have he := eat_of_type .T_ID s1 ht1 (by decide)
  refine ⟨v, { s1 with currentToken := s1.currentToken + 1 }, ?_,
    opnd_trans _ _ _ ho (eat_opnd _ _ _ _ he).1, by simp [hcur]⟩
  unfold labelOperand
  rw [bind_of_ok _ _ _ _ _ (glance_of_type _ s ht)]
  have h1 : curValue s = .ok (currentTok s).value s := rfl
  rw [bind_of_ok _ _ _ _ _ h1, bind_of_ok _ _ _ _ _ hc, bind_of_ok _ _ _ _ _ he]
  rfl

theorem rejects_threeRegs (token : TokenType) (type : InstructionType)
    (h1 : token ≠ .T_R_ID) (h2 : token ≠ .T_M_ID) (h3 : token ≠ .T_END_OF_FILE) :
    Rejects (threeRegs token type)
      [token, .T_R_ID, .T_COMMA, .T_R_ID, .T_COMMA, .T_R_ID] := by
  unfold threeRegs
  apply rejects_bind_cons _ _ _ _ (rejects_eat _ h1 h2) (accepts_eat _ h3); intro _
  apply rejects_bind_nil _ _ _ (accepts_newInstruction _ _); intro i
  apply rejects_bind_cons _ _ _ _ rejects_regOperand accepts_regOperand; intro dst
  apply rejects_bind_cons _ _ _ _ (rejects_eat _ (by decide) (by decide))
    (accepts_eat _ (by decide)); intro _
  apply rejects_bind_cons _ _ _ _ rejects_regOperand accepts_regOperand; intro src1
  apply rejects_bind_cons _ _ _ _ (rejects_eat _ (by decide) (by decide))
    (accepts_eat _ (by decide)); intro _
  apply rejects_bind_cons _ _ _ _ rejects_regOperand accepts_regOperand; intro src2
  exact rejects_nil _

/-- Counterexample to C12: in `lw r1, 99999999999(r9)` the register `r9` is not in the
register table, yet `E()` and `Do()` raise `std::out_of_range` from `stoi`, not
`VARIABLE_DOESNT_EXIST`: the literal is read before the register is looked up. -/
theorem undefined_variable_preempted :
    ¬ Declared overlongLiteralState
      (tokenAt overlongLiteralState.tokens (overlongLiteralState.currentToken + 5)) ∧
    (E overlongLiteralState).raised = some (.out_of_range "stoi") ∧
    (SyntaxAnalysis.Do (SyntaxAnalysis.init overlongLiteralTokens)).raised =
      some (.out_of_range "stoi") := by
  decide!

/-- C12 (amended). Undefined variable: for every instruction of the grammar (the tokens
at the current position have the types of a right-hand side of `E`, identifiers are
classified as by the lexer, the integer literals fit an `int`) one of whose operands is a
register id that names no entry of the register table, or a memory id that names no entry
of the memory table, `E()` raises `VARIABLE_DOESNT_EXIST` with the error flag set and the
instruction list unchanged. -/
theorem undefined_variable_rejected (s : SyntaxAnalysis) (shape : List TokenType) (j : Nat)
    (hshape : shape ∈ shapesE) (hw : Window shape s) (hj : j < shape.length)
    (hund : ¬ Declared s (tokenAt s.tokens (s.currentToken + j))) :
    ∃ s1, E s = .raise (.syntaxError .VARIABLE_DOESNT_EXIST) s1 ∧ s1.instrs = s.instrs ∧
      s1.err = true := by
  have hu : ∃ j, j < shape.length ∧ ¬ Declared s (tokenAt s.tokens (s.currentToken + j)) :=
    ⟨j, hj, hund⟩
  clear hj hund
  simp only [shapesE, List.mem_cons, List.mem_singleton, List.not_mem_nil, or_false] at hshape
  rcases hshape with h | h | h | h | h | h | h | h | h | h | h | h | h | h <;> subst h
  · -- add
    have h0 := window_type _ _ s hw
    unfold E; rw [h0]; simp only
    exact rejects_threeRegs .T_ADD .I_ADD (by decide) (by decide) (by decide) s hw hu
  · -- addi
    have h0 := window_type _ _ s hw
    unfold E; rw [h0]; simp only
    refine (?_ : Rejects _ [.T_ADDI, .T_R_ID, .T_COMMA, .T_R_ID, .T_COMMA, .T_NUM]) s hw hu
    apply rejects_bind_cons _ _ _ _ (rejects_eat _ (by decide) (by decide))
      (accepts_eat _ (by decide)); intro _
    apply rejects_bind_nil _ _ _ (accepts_newInstruction _ _); intro i
    apply rejects_bind_cons _ _ _ _ rejects_regOperand accepts_regOperand; intro dst
    apply rejects_bind_cons _ _ _ _ (rejects_eat _ (by decide) (by decide))
      (accepts_eat _ (by decide)); intro _
    apply rejects_bind_cons _ _ _ _ rejects_regOperand accepts_regOperand; intro src1
    apply rejects_bind_cons _ _ _ _ (rejects_eat _ (by decide) (by decide))
      (accepts_eat _ (by decide)); intro _
    apply rejects_bind_cons _ _ _ _ rejects_numOperand accepts_numOperand; intro src2
    exact rejects_nil _
  · -- sub
    have h0 := window_type _ _ s hw
    unfold E; rw [h0]; simp only
    exact rejects_threeRegs .T_SUB .I_SUB (by decide) (by decide) (by decide) s hw hu
  · -- la
    have h0 := window_type _ _ s hw
    unfold E; rw [h0]; simp only
    refine (?_ : Rejects _ [.T_LA, .T_R_ID, .T_COMMA, .T_M_ID]) s hw hu
    apply rejects_bind_cons _ _ _ _ (rejects_eat _ (by decide) (by decide))
      (accepts_eat _ (by decide)); intro _
    apply rejects_bind_nil _ _ _ (accepts_newInstruction _ _); intro i
    apply rejects_bind_cons _ _ _ _ rejects_regOperand accepts_regOperand; intro dst
    apply rejects_bind_cons _ _ _ _ (rejects_eat _ (by decide) (by decide))
      (accepts_eat _ (by decide)); intro _
    exact rejects_memOperand _
  · -- lw
    have h0 := window_type _ _ s hw
    unfold E; rw [h0]; simp only
    refine (?_ : Rejects _ [.T_LW, .T_R_ID, .T_COMMA, .T_NUM, .T_L_PARENT, .T_R_ID, .T_R_PARENT]) s hw hu
    apply rejects_bind_cons _ _ _ _ (rejects_eat _ (by decide) (by decide))
      (accepts_eat _ (by decide)); intro _
    apply rejects_bind_nil _ _ _ (accepts_newInstruction _ _); intro i
    apply rejects_bind_cons _ _ _ _ rejects_regOperand accepts_regOperand; intro dst
    apply rejects_bind_cons _ _ _ _ (rejects_eat _ (by decide) (by decide))
      (accepts_eat _ (by decide)); intro _
    apply rejects_bind_cons _ _ _ _ rejects_numOperand accepts_numOperand; intro src1
    apply rejects_bind_cons _ _ _ _ (rejects_eat _ (by decide) (by decide))
      (accepts_eat _ (by decide)); intro _
    apply rejects_bind_cons _ _ _ _ rejects_regOperand accepts_regOperand; intro src2
    apply rejects_bind_cons _ _ _ _ (rejects_eat _ (by decide) (by decide))
      (accepts_eat _ (by decide)); intro _
    exact rejects_nil _
  · -- li
    have h0 := window_type _ _ s hw
    unfold E; rw [h0]; simp only
    refine (?_ : Rejects _ [.T_LI, .T_R_ID, .T_COMMA, .T_NUM]) s hw hu
    apply rejects_bind_cons _ _ _ _ (rejects_eat _ (by decide) (by decide))
      (accepts_eat _ (by decide)); intro _
    apply rejects_bind_nil _ _ _ (accepts_newInstruction _ _); intro i
    apply rejects_bind_cons _ _ _ _ rejects_regOperand accepts_regOperand; intro dst
    apply rejects_bind_cons _ _ _ _ (rejects_eat _ (by decide) (by decide))
      (accepts_eat _ (by decide)); intro _
    apply rejects_bind_cons _ _ _ _ rejects_numOperand accepts_numOperand; intro src1
    exact rejects_nil _
  · -- sw
    have h0 := window_type _ _ s hw
    unfold E; rw [h0]; simp only
    refine (?_ : Rejects _ [.T_SW, .T_R_ID, .T_COMMA, .T_NUM, .T_L_PARENT, .T_R_ID, .T_R_PARENT]) s hw hu
    apply rejects_bind_cons _ _ _ _ (rejects_eat _ (by decide) (by decide))
      (accepts_eat _ (by decide)); intro _
    apply rejects_bind_nil _ _ _ (accepts_newInstruction _ _); intro i
    apply rejects_bind_cons _ _ _ _ rejects_regOperand accepts_regOperand; intro src1
    apply rejects_bind_cons _ _ _ _ (rejects_eat _ (by decide) (by decide))
      (accepts_eat _ (by decide)); intro _
    apply rejects_bind_cons _ _ _ _ rejects_numOperand accepts_numOperand; intro src2
    apply rejects_bind_cons _ _ _ _ (rejects_eat _ (by decide) (by decide))
      (accepts_eat _ (by decide)); intro _
    apply rejects_bind_cons _ _ _ _ rejects_regOperand accepts_regOperand; intro dst
    apply rejects_bind_cons _ _ _ _ (rejects_eat _ (by decide) (by decide))
      (accepts_eat _ (by decide)); intro _
    exact rejects_nil _
  · -- b
    have h0 := window_type _ _ s hw
    unfold E; rw [h0]; simp only
    refine (?_ : Rejects _ [.T_B, .T_ID]) s hw hu
    apply rejects_bind_cons _ _ _ _ (rejects_eat _ (by decide) (by decide))
      (accepts_eat _ (by decide)); intro _
    apply rejects_bind_nil _ _ _ (accepts_newInstruction _ _); intro i
    apply rejects_bind_cons _ _ _ _ rejects_labelOperand accepts_labelOperand; intro src1
    exact rejects_nil _
  · -- bltz
    have h0 := window_type _ _ s hw
    unfold E; rw [h0]; simp only
    refine (?_ : Rejects _ [.T_BLTZ, .T_R_ID, .T_COMMA, .T_ID]) s hw hu
    apply rejects_bind_cons _ _ _ _ (rejects_eat _ (by decide) (by decide))
      (accepts_eat _ (by decide)); intro _
    apply rejects_bind_nil _ _ _ (accepts_newInstruction _ _); intro i
    apply rejects_bind_cons _ _ _ _ rejects_regOperand accepts_regOperand; intro src1
    apply rejects_bind_cons _ _ _ _ (rejects_eat _ (by decide) (by decide))
      (accepts_eat _ (by decide)); intro _
    apply rejects_bind_cons _ _ _ _ rejects_labelOperand accepts_labelOperand; intro src2
    exact rejects_nil _
  · -- nop
    have h0 := window_type _ _ s hw
    unfold E; rw [h0]; simp only
    refine (?_ : Rejects _ [.T_NOP]) s hw hu
    apply rejects_bind_cons _ _ _ _ (rejects_eat _ (by decide) (by decide))
      (accepts_eat _ (by decide)); intro _
    apply rejects_bind_nil _ _ _ (accepts_newInstruction _ _); intro i
    exact rejects_nil _
  · -- and
    have h0 := window_type _ _ s hw
    unfold E; rw [h0]; simp only
    exact rejects_threeRegs .T_AND .I_AND (by decide) (by decide) (by decide) s hw hu
  · -- or
    have h0 := window_type _ _ s hw
    unfold E; rw [h0]; simp only
    exact rejects_threeRegs .T_OR .I_OR (by decide) (by decide) (by decide) s hw hu
  · -- not
    have h0 := window_type _ _ s hw
    unfold E; rw [h0]; simp only
    refine (?_ : Rejects _ [.T_NOT, .T_R_ID, .T_COMMA, .T_R_ID]) s hw hu
    apply rejects_bind_cons _ _ _ _ (rejects_eat _ (by decide) (by decide))
      (accepts_eat _ (by decide)); intro _
    apply rejects_bind_nil _ _ _ (accepts_newInstruction _ _); intro i
    apply rejects_bind_cons _ _ _ _ rejects_regOperand accepts_regOperand; intro dst
    apply rejects_bind_cons _ _ _ _ (rejects_eat _ (by decide) (by decide))
      (accepts_eat _ (by decide)); intro _
    apply rejects_bind_cons _ _ _ _ rejects_regOperand accepts_regOperand; intro src1
    exact rejects_nil _
  · -- bne
    have h0 := window_type _ _ s hw
    unfold E; rw [h0]; simp only
    refine (?_ : Rejects _ [.T_BNE, .T_R_ID, .T_COMMA, .T_R_ID, .T_COMMA, .T_ID]) s hw hu
    apply rejects_bind_cons _ _ _ _ (rejects_eat _ (by decide) (by decide))
      (accepts_eat _ (by decide)); intro _
    apply rejects_bind_nil _ _ _ (accepts_newInstruction _ _); intro i
    apply rejects_bind_cons _ _ _ _ rejects_regOperand accepts_regOperand; intro src1
    apply rejects_bind_cons _ _ _ _ (rejects_eat _ (by decide) (by decide))
      (accepts_eat _ (by decide)); intro _
    apply rejects_bind_cons _ _ _ _ rejects_regOperand accepts_regOperand; intro src2
    apply rejects_bind_cons _ _ _ _ (rejects_eat _ (by decide) (by decide))
      (accepts_eat _ (by decide)); intro _
    apply rejects_bind_cons _ _ _ _ rejects_labelOperand accepts_labelOperand; intro dst
    exact rejects_nil _

/-- Witness of C12 on `lw r1, 4(r9)` with `r9` undeclared. -/
theorem undefined_variable_rejected_witness :
    ∃ s1, E undeclaredOperandState = .raise (.syntaxError .VARIABLE_DOESNT_EXIST) s1 ∧
      s1.instrs = undeclaredOperandState.instrs ∧ s1.err = true :=
  undefined_variable_rejected undeclaredOperandState
    [.T_LW, .T_R_ID, .T_COMMA, .T_NUM, .T_L_PARENT, .T_R_ID, .T_R_PARENT] 5
    (by decide) (by decide!) (by decide) (by decide!)

/-! ## The control-flow graph -/

theorem addSucc_code (i : Instruction) (v : Nat) :
    (i.addSucc v).label = i.label ∧ (i.addSucc v).m_type = i.m_type ∧
      (i.addSucc v).m_src = i.m_src ∧ (i.addSucc v).m_pred = i.m_pred := by
  unfold Instruction.addSucc
  split <;> simp

theorem addPred_code (i : Instruction) (v : Nat) :
    (i.addPred v).label = i.label ∧ (i.addPred v).m_type = i.m_type ∧
      (i.addPred v).m_src = i.m_src ∧ (i.addPred v).m_succ = i.m_succ := by
  unfold Instruction.addPred
  split <;> simp

theorem mem_addSucc (i : Instruction) (v w : Nat) :
    w ∈ (i.addSucc v).m_succ ↔ w ∈ i.m_succ ∨ w = v := by
  unfold Instruction.addSucc
  split
  · simp
  · rename_i h
    have hv : v ∈ i.m_succ := by
      rw [← contains_iff]
      simpa using h
    constructor
    · intro hw; exact Or.inl hw
    · rintro (hw | hw)
      · exact hw
      · rw [hw]; exact hv

theorem mem_addPred (i : Instruction) (v w : Nat) :
    w ∈ (i.addPred v).m_pred ↔ w ∈ i.m_pred ∨ w = v := by
  unfold Instruction.addPred
  split
  · simp
  · rename_i h
    have hv : v ∈ i.m_pred := by
      rw [← contains_iff]
      simpa using h
    constructor
    · intro hw; exact Or.inl hw
    · rintro (hw | hw)
      · exact hw
      · rw [hw]; exact hv

theorem sameCode_refl (instrs : List Instruction) : SameCode instrs instrs :=
  ⟨rfl, fun _ => ⟨rfl, rfl, rfl⟩⟩

theorem sameCode_trans (a b c : List Instruction) (h1 : SameCode a b) (h2 : SameCode b c) :
    SameCode a c :=
  ⟨h2.1.trans h1.1, fun k =>
    ⟨(h2.2 k).1.trans (h1.2 k).1, (h2.2 k).2.1.trans (h1.2 k).2.1,
      (h2.2 k).2.2.trans (h1.2 k).2.2⟩⟩

theorem addEachother_length (instrs : List Instruction) (a b : Nat) :
    (addEachother instrs a b).length = instrs.length := by
  simp [addEachother]

theorem addEachother_code (instrs : List Instruction) (a b : Nat) :
    SameCode instrs (addEachother instrs a b) := by
  refine ⟨addEachother_length _ _ _, fun k => ?_⟩
  unfold addEachother
  simp only [getD_set_instr, List.length_set]
  by_cases h1 : k = b ∧ b < instrs.length
  · rw [if_pos h1]
    obtain ⟨e1, e2, e3, _⟩ := addSucc_code
      (if b = a ∧ a < instrs.length then (instrs.getD a default).addPred b
        else instrs.getD b default) a
    rw [e1, e2, e3]
    by_cases h2 : b = a ∧ a < instrs.length
    · rw [if_pos h2]
      obtain ⟨f1, f2, f3, _⟩ := addPred_code (instrs.getD a default) b
      rw [f1, f2, f3, h1.1, h2.1]
      exact ⟨rfl, rfl, rfl⟩
    · rw [if_neg h2, h1.1]
      exact ⟨rfl, rfl, rfl⟩
  · rw [if_neg h1]
    by_cases h2 : k = a ∧ a < instrs.length
    · rw [if_pos h2]
      obtain ⟨f1, f2, f3, _⟩ := addPred_code (instrs.getD a default) b
      rw [f1, f2, f3, h2.1]
      exact ⟨rfl, rfl, rfl⟩
    · rw [if_neg h2]
      exact ⟨rfl, rfl, rfl⟩

/-- The successors after `addEachother(successor, predecessor)`. -/
theorem mem_succ_addEachother (instrs : List Instruction) (a b k v : Nat) :
    v ∈ ((addEachother instrs a b).getD k default).m_succ ↔
      v ∈ (instrs.getD k default).m_succ ∨ (k = b ∧ v = a ∧ b < instrs.length) := by
  unfold addEachother
  simp only [getD_set_instr, List.length_set]
  by_cases h1 : k = b ∧ b < instrs.length
  · rw [if_pos h1, mem_addSucc]
    have hs : (if b = a ∧ a < instrs.length then (instrs.getD a default).addPred b
        else instrs.getD b default).m_succ = (instrs.getD k default).m_succ := by
      by_cases h2 : b = a ∧ a < instrs.length
      · rw [if_pos h2, (addPred_code _ _).2.2.2, h1.1, h2.1]
      · rw [if_neg h2, h1.1]
    rw [hs]
    constructor
    · rintro (h | h)
      · exact Or.inl h
      · exact Or.inr ⟨h1.1, h, h1.2⟩
    · rintro (h | ⟨_, h, _⟩)
      · exact Or.inl h
      · exact Or.inr h
  · rw [if_neg h1]
    have hs : (if k = a ∧ a < instrs.length then (instrs.getD a default).addPred b
        else instrs.getD k default).m_succ = (instrs.getD k default).m_succ := by
      by_cases h2 : k = a ∧ a < instrs.length
      · rw [if_pos h2, (addPred_code _ _).2.2.2, h2.1]
      · rw [if_neg h2]
    rw [hs]
    constructor
    · intro h; exact Or.inl h
    · rintro (h | ⟨e1, _, e3⟩)
      · exact h
      · exact absurd ⟨e1, e3⟩ h1

/-- The predecessors after `addEachother(successor, predecessor)`. -/
theorem mem_pred_addEachother (instrs : List Instruction) (a b k u : Nat) :
    u ∈ ((addEachother instrs a b).getD k default).m_pred ↔
      u ∈ (instrs.getD k default).m_pred ∨ (k = a ∧ u = b ∧ a < instrs.length) := by
  unfold addEachother
  simp only [getD_set_instr, List.length_set]
  by_cases h1 : k = b ∧ b < instrs.length
  · rw [if_pos h1, (addSucc_code _ _).2.2.2]
    by_cases h2 : b = a ∧ a < instrs.length
    · rw [if_pos h2, mem_addPred, h1.1, h2.1]
      constructor
      · rintro (h | h)
        · exact Or.inl h
        · exact Or.inr ⟨rfl, h, h2.2⟩
      · rintro (h | ⟨_, h, _⟩)
        · exact Or.inl h
        · exact Or.inr h
    · rw [if_neg h2, h1.1]
      constructor
      · intro h; exact Or.inl h
      · rintro (h | ⟨e1, _, e3⟩)
        · exact h
        · exact absurd ⟨e1, e3⟩ h2
  · rw [if_neg h1]
    by_cases h2 : k = a ∧ a < instrs.length
    · rw [if_pos h2, mem_addPred, h2.1]
      constructor
      · rintro (h | h)
        · exact Or.inl h
        · exact Or.inr ⟨rfl, h, h2.2⟩
      · rintro (h | ⟨_, h, _⟩)
        · exact Or.inl h
        · exact Or.inr h
    · rw [if_neg h2]
      constructor
      · intro h; exact Or.inl h
      · rintro (h | ⟨e1, _, e3⟩)
        · exact h
        · exact absurd ⟨e1, e3⟩ h2

theorem isFunc_sameCode (instrs out : List Instruction) (h : SameCode instrs out) (k : Nat) :
    (out.getD k default).isFunc = (instrs.getD k default).isFunc := by
  unfold Instruction.isFunc
  rw [(h.2 k).1, (h.2 k).2.1]

theorem nextInstruction_sameCode (instrs out : List Instruction) (h : SameCode instrs out)
    (c : Nat) : nextInstruction out c = nextInstruction instrs c := by
  unfold nextInstruction
  rw [h.1, isFunc_sameCode instrs out h]

theorem firstLabelled_sameCode (instrs out : List Instruction) (h : SameCode instrs out)
    (lab t : Nat) : FirstLabelled out lab t ↔ FirstLabelled instrs lab t := by
  unfold FirstLabelled
  rw [h.1, (h.2 t).1]
  constructor
  · rintro ⟨h1, h2, h3⟩
    exact ⟨h1, h2, fun j hj => by rw [← (h.2 j).1]; exact h3 j hj⟩
  · rintro ⟨h1, h2, h3⟩
    exact ⟨h1, h2, fun j hj => by rw [(h.2 j).1]; exact h3 j hj⟩

theorem target_sameCode (instrs out : List Instruction) (h : SameCode instrs out)
    (c v : Nat) : Target out c v ↔ Target instrs c v := by
  unfold Target
  simp only [firstLabelled_sameCode instrs out h, (h.2 c).2.2, isFunc_sameCode instrs out h, h.1]

theorem getD_eq_getElem_instr (instrs : List Instruction) (k : Nat) (h : k < instrs.length) :
    instrs.getD k default = instrs[k] := by
  simp [List.getD_eq_getElem?_getD, List.getElem?_eq_getElem h]

/-- The function `findInstructionWithLabel` returns the first instruction with the
label. -/
theorem findInstructionWithLabel_ok (heap : List Variable) (lab : Nat)
    (ins : List Instruction) (t : Nat) :
    findInstructionWithLabel heap lab ins = .ok t ↔ FirstLabelled ins lab t := by
  unfold findInstructionWithLabel FirstLabelled
  simp only
  constructor
  · intro h
    split at h
    · rename_i hlt
      have ht : ins.findIdx (fun i => i.label == some lab) = t := by
        simpa using h
      rw [← ht]
      refine ⟨hlt, ?_, ?_⟩
      · rw [getD_eq_getElem_instr _ _ hlt]
        have := @List.findIdx_getElem _ (fun i => i.label == some lab) ins hlt
        simpa using this
      · intro j hj
        have hjl : j < ins.length := Nat.lt_trans hj hlt
        rw [getD_eq_getElem_instr _ _ hjl]
        have := @List.not_of_lt_findIdx _ (fun i => i.label == some lab) ins j hj
        simpa using this
    · cases h
  · rintro ⟨h1, h2, h3⟩
    have ht : ins.findIdx (fun i => i.label == some lab) = t := by
      rw [List.findIdx_eq h1]
      refine ⟨?_, ?_⟩
      · rw [getD_eq_getElem_instr _ _ h1] at h2
        simpa using h2
      · intro j hj
        have := h3 j hj
        rw [getD_eq_getElem_instr _ _ (Nat.lt_trans hj h1)] at this
        simpa using this
    rw [ht, if_pos h1]

theorem firstLabelled_unique (ins : List Instruction) (lab t u : Nat)
    (h1 : FirstLabelled ins lab t) (h2 : FirstLabelled ins lab u) : t = u := by
  rcases Nat.lt_trichotomy t u with h | h | h
  · exact absurd h1.2.1 (h2.2.2 t h)
  · exact h
  · exact absurd h2.2.1 (h1.2.2 u h)

theorem target_unique (ins : List Instruction) (c v w : Nat)
    (h1 : Target ins c v) (h2 : Target ins c w) : v = w := by
  obtain ⟨l1, t1, a1, b1, c1, _⟩ := h1
  obtain ⟨l2, t2, a2, b2, c2, _⟩ := h2
  rw [a1] at a2
  cases a2
  have := firstLabelled_unique ins l1 t1 t2 b1 b2
  subst this
  rw [c1, c2]

/-- A normal return of the branch statements adds the edge to the target. -/
theorem linkLabeled_ok (heap : List Variable) (instrs out : List Instruction) (c : Nat)
    (h : linkLabeled heap instrs c = .ok out) :
    ∃ v, Target instrs c v ∧ out = addEachother instrs v c := by
  unfold linkLabeled at h
  split at h
  · cases h
  · rename_i lab hlab
    split at h
    · cases h
    · rename_i t ht
      have hf := (findInstructionWithLabel_ok heap lab instrs t).mp ht
      split at h
      · rename_i hfunc
        split at h
        · cases h
        · rename_i heq
          unfold findInstructionAfterFunc at heq
          split_ifs at heq with h1 h2
          · cases heq
          · exact absurd hf.1 h2
        · rename_i after heq
          unfold findInstructionAfterFunc at heq
          split_ifs at heq with h1 h2
          · simp only [Except.ok.injEq, Option.some.injEq] at heq h
            subst heq
            exact ⟨t + 1, ⟨lab, t, hlab, hf, by rw [if_pos hfunc], h1⟩, h.symm⟩
          · exact absurd hf.1 h2
      · rename_i hfunc
        simp only [Except.ok.injEq] at h
        exact ⟨t, ⟨lab, t, hlab, hf, by rw [if_neg hfunc], hf.1⟩, h.symm⟩

/-- The branch statements return when the branch has a target. -/
theorem linkLabeled_of_target (heap : List Variable) (instrs : List Instruction) (c v : Nat)
    (h : Target instrs c v) : linkLabeled heap instrs c = .ok (addEachother instrs v c) := by
  obtain ⟨lab, t, hlab, hf, hv, hlt⟩ := h
  unfold linkLabeled
  rw [hlab]
  simp only
  rw [(findInstructionWithLabel_ok heap lab instrs t).mpr hf]
  simp only
  by_cases hfunc : (instrs.getD t default).isFunc = true
  · rw [if_pos hfunc] at hv ⊢
    unfold findInstructionAfterFunc
    rw [hv] at hlt
    rw [if_pos hlt, hv]
  · rw [if_neg hfunc] at hv ⊢
    rw [hv]

/-- One round of the loop: the code is kept, the flag becomes "the current instruction is
no `b`", and the edges of the round are added. -/
theorem linkRound_ok (heap : List Variable) (instrs cur out : List Instruction)
    (c p : Nat) (f g : Bool) (hs : SameCode instrs cur) (hc : c < instrs.length)
    (hp : p < instrs.length) (h : linkRound heap cur c p f = .ok (out, g)) :
    SameCode instrs out ∧ g = decide ((instrs.getD c default).m_type ≠ .I_B) ∧
    (∀ k v, v ∈ (out.getD k default).m_succ ↔
      v ∈ (cur.getD k default).m_succ ∨ EdgeAt instrs (c, p, f) k v) ∧
    (∀ k u, u ∈ (out.getD k default).m_pred ↔
      u ∈ (cur.getD k default).m_pred ∨ EdgeAt instrs (c, p, f) u k) := by
  unfold linkRound at h
  simp only at h
  generalize hc1 : (if (!(cur.getD p default).isFunc && f) = true then addEachother cur c p
    else cur) = cur1 at h
  have hs1 : SameCode instrs cur1 := by
    rw [← hc1]
    split
    · exact sameCode_trans _ _ _ hs (addEachother_code _ _ _)
    · exact hs
  have hf1 : (if (!f) = true then true else f) = true := by cases f <;> rfl
  rw [hf1] at h
  have hsucc1 : ∀ k v, v ∈ (cur1.getD k default).m_succ ↔
      v ∈ (cur.getD k default).m_succ ∨
        (k = p ∧ v = c ∧ (instrs.getD p default).isFunc = false ∧ f = true ∧
          p < instrs.length) := by
    intro k v
    rw [← hc1]
    split
    · rename_i hcond
      simp only [Bool.and_eq_true, Bool.not_eq_true', isFunc_sameCode instrs cur hs] at hcond
      rw [mem_succ_addEachother, hs.1]
      constructor
      · rintro (h1 | ⟨h1, h2, h3⟩)
        · exact Or.inl h1
        · exact Or.inr ⟨h1, h2, hcond.1, hcond.2, h3⟩
      · rintro (h1 | ⟨h1, h2, _, _, h3⟩)
        · exact Or.inl h1
        · exact Or.inr ⟨h1, h2, h3⟩
    · rename_i hcond
      simp only [Bool.and_eq_true, Bool.not_eq_true', isFunc_sameCode instrs cur hs] at hcond
      constructor
      · intro h1; exact Or.inl h1
      · rintro (h1 | ⟨_, _, h3, h4, _⟩)
        · exact h1
        · exact absurd ⟨h3, h4⟩ hcond
  have hpred1 : ∀ k u, u ∈ (cur1.getD k default).m_pred ↔
      u ∈ (cur.getD k default).m_pred ∨
        (u = p ∧ k = c ∧ (instrs.getD p default).isFunc = false ∧ f = true ∧
          p < instrs.length) := by
    intro k u
    rw [← hc1]
    split
    · rename_i hcond
      simp only [Bool.and_eq_true, Bool.not_eq_true', isFunc_sameCode instrs cur hs] at hcond
      rw [mem_pred_addEachother, hs.1]
      constructor
      · rintro (h1 | ⟨h1, h2, _⟩)
        · exact Or.inl h1
        · exact Or.inr ⟨h2, h1, hcond.1, hcond.2, hp⟩
      · rintro (h1 | ⟨h1, h2, _, _, _⟩)
        · exact Or.inl h1
        · exact Or.inr ⟨h2, h1, hc⟩
    · rename_i hcond
      simp only [Bool.and_eq_true, Bool.not_eq_true', isFunc_sameCode instrs cur hs] at hcond
      constructor
      · intro h1; exact Or.inl h1
      · rintro (h1 | ⟨_, _, h3, h4, _⟩)
        · exact h1
        · exact absurd ⟨h3, h4⟩ hcond
  have hty : (cur1.getD c default).m_type = (instrs.getD c default).m_type := (hs1.2 c).2.1
  rw [hty] at h
  -- the edges of a branch
  have hbranch : ∀ cur2, linkLabeled heap cur1 c = .ok cur2 →
      SameCode instrs cur2 ∧
      (∀ k v, v ∈ (cur2.getD k default).m_succ ↔
        v ∈ (cur1.getD k default).m_succ ∨ (k = c ∧ Target instrs c v)) ∧
      (∀ k u, u ∈ (cur2.getD k default).m_pred ↔
        u ∈ (cur1.getD k default).m_pred ∨ (u = c ∧ Target instrs c k)) := by
    intro cur2 h2
    obtain ⟨t, ht, he⟩ := linkLabeled_ok heap cur1 cur2 c h2
    have ht1 := (target_sameCode instrs cur1 hs1 c t).mp ht
    subst he
    refine ⟨sameCode_trans _ _ _ hs1 (addEachother_code _ _ _), ?_, ?_⟩
    · intro k v
      rw [mem_succ_addEachother, hs1.1]
      constructor
      · rintro (h1 | ⟨h1, h3, _⟩)
        · exact Or.inl h1
        · exact Or.inr ⟨h1, by rw [h3]; exact ht1⟩
      · rintro (h1 | ⟨h1, h3⟩)
        · exact Or.inl h1
        · exact Or.inr ⟨h1, target_unique _ _ _ _ h3 ht1, hc⟩
    · intro k u
      rw [mem_pred_addEachother, hs1.1]
      constructor
      · rintro (h1 | ⟨h1, h3, _⟩)
        · exact Or.inl h1
        · exact Or.inr ⟨h3, by rw [h1]; exact ht1⟩
      · rintro (h1 | ⟨h1, h3⟩)
        · exact Or.inl h1
        · have hkt := target_unique _ _ _ _ h3 ht1
          obtain ⟨_, _, _, _, _, hlt⟩ := ht1
          exact Or.inr ⟨hkt, h1, hlt⟩
  have hedge1 : ∀ k v, ((instrs.getD c default).m_type = .I_B ∨
      (instrs.getD c default).m_type = .I_BLTZ) →
      (EdgeAt instrs (c, p, f) k v ↔
        (k = p ∧ v = c ∧ (instrs.getD p default).isFunc = false ∧ f = true ∧
          p < instrs.length) ∨ (k = c ∧ Target instrs c v)) := by
    intro k v hb
    unfold EdgeAt
    constructor
    · rintro ⟨_, h1 | ⟨h1, _, h3⟩⟩
      · exact Or.inl h1
      · exact Or.inr ⟨h1, h3⟩
    · rintro (h1 | ⟨h1, h3⟩)
      · exact ⟨hc, Or.inl h1⟩
      · exact ⟨hc, Or.inr ⟨h1, hb, h3⟩⟩
  have hedge2 : ∀ k v, (instrs.getD c default).m_type ≠ .I_B →
      (instrs.getD c default).m_type ≠ .I_BLTZ →
      (EdgeAt instrs (c, p, f) k v ↔
        (k = p ∧ v = c ∧ (instrs.getD p default).isFunc = false ∧ f = true ∧
          p < instrs.length)) := by
    intro k v hn1 hn2
    unfold EdgeAt
    constructor
    · rintro ⟨_, h1 | ⟨_, h2 | h2, _⟩⟩
      · exact h1
      · exact absurd h2 hn1
      · exact absurd h2 hn2
    · intro h1
      exact ⟨hc, Or.inl h1⟩
  split at h
  · rename_i hcase
    split at h
    · cases h
    · rename_i cur2 h2
      simp only [Except.ok.injEq, Prod.mk.injEq] at h
      obtain ⟨e1, e2⟩ := h
      subst e1
      obtain ⟨b1, b2, b3⟩ := hbranch _ h2
      refine ⟨b1, by rw [← e2, hcase]; rfl, ?_, ?_⟩
      · intro k v
        rw [b2, hsucc1, hedge1 k v (Or.inl hcase), or_assoc]
      · intro k u
        rw [b3, hpred1, hedge1 u k (Or.inl hcase), or_assoc]
  · rename_i hcase
    split at h
    · cases h
    · rename_i cur2 h2
      simp only [Except.ok.injEq, Prod.mk.injEq] at h
      obtain ⟨e1, e2⟩ := h
      subst e1
      obtain ⟨b1, b2, b3⟩ := hbranch _ h2
      refine ⟨b1, by rw [← e2, hcase]; rfl, ?_, ?_⟩
      · intro k v
        rw [b2, hsucc1, hedge1 k v (Or.inr hcase), or_assoc]
      · intro k u
        rw [b3, hpred1, hedge1 u k (Or.inr hcase), or_assoc]
  · rename_i hn1 hn2
    simp only [Except.ok.injEq, Prod.mk.injEq] at h
    obtain ⟨e1, e2⟩ := h
    subst e1
    have hne : (instrs.getD c default).m_type ≠ .I_B := fun h => hn1 h
    refine ⟨hs1, by rw [← e2]; exact (decide_eq_true hne).symm, ?_, ?_⟩
    · intro k v
      rw [hsucc1, hedge2 k v hn1 hn2]
    · intro k u
      rw [hpred1, hedge2 u k hn1 hn2]

theorem round_unique (instrs : List Instruction) (x y z : Nat × Nat × Bool)
    (h1 : Round instrs x y) (h2 : Round instrs x z) : y = z := by
  obtain ⟨_, a1, a2, a3⟩ := h1
  obtain ⟨_, b1, b2, b3⟩ := h2
  rcases y with ⟨y1, y2, y3⟩
  rcases z with ⟨z1, z2, z3⟩
  simp only at a1 a2 a3 b1 b2 b3
  rw [a1, a2, a3, b1, b2, b3]

theorem lt_nextInstruction (instrs : List Instruction) (c : Nat) :
    c < nextInstruction instrs c := by
  unfold nextInstruction
  split <;> omega

/-- The rounds after the first one are the rounds from the next triple. -/
theorem rounds_head (instrs : List Instruction) (c p : Nat) (f : Bool) (z : Nat × Nat × Bool)
    (hc : c < instrs.length) :
    Relation.ReflTransGen (Round instrs) (c, p, f) z ↔
      z = (c, p, f) ∨ Relation.ReflTransGen (Round instrs)
        (nextInstruction instrs c, c, decide ((instrs.getD c default).m_type ≠ .I_B)) z := by
  have hr : Round instrs (c, p, f)
      (nextInstruction instrs c, c, decide ((instrs.getD c default).m_type ≠ .I_B)) :=
    ⟨hc, rfl, rfl, rfl⟩
  constructor
  · intro h
    rcases Relation.ReflTransGen.cases_head h with h1 | ⟨y, h1, h2⟩
    · exact Or.inl h1.symm
    · rw [round_unique _ _ _ _ hr h1]
      exact Or.inr h2
  · rintro (h | h)
    · rw [h]
    · exact Relation.ReflTransGen.head hr h

theorem rounds_end (instrs : List Instruction) (c p : Nat) (f : Bool) (z : Nat × Nat × Bool)
    (hc : ¬ c < instrs.length) (h : Relation.ReflTransGen (Round instrs) (c, p, f) z) :
    z = (c, p, f) := by
  rcases Relation.ReflTransGen.cases_head h with h1 | ⟨y, h1, _⟩
  · exact h1.symm
  · exact absurd h1.1 hc

/-- The loop of `setPredAndSucc` keeps the code and adds exactly the edges of its
rounds. -/
theorem predAndSuccLoop_spec (heap : List Variable) (instrs : List Instruction) :
    ∀ (fuel c p : Nat) (f : Bool) (cur out : List Instruction),
      SameCode instrs cur → instrs.length - c ≤ fuel → p < c →
      predAndSuccLoop heap fuel c p f cur = .ok out →
      SameCode instrs out ∧
      (∀ k v, v ∈ (out.getD k default).m_succ ↔
        v ∈ (cur.getD k default).m_succ ∨
          ∃ x, Relation.ReflTransGen (Round instrs) (c, p, f) x ∧ EdgeAt instrs x k v) ∧
      (∀ k u, u ∈ (out.getD k default).m_pred ↔
        u ∈ (cur.getD k default).m_pred ∨
          ∃ x, Relation.ReflTransGen (Round instrs) (c, p, f) x ∧ EdgeAt instrs x u k) := by
  intro fuel
  induction fuel with
  | zero =>
    intro c p f cur out hs hfuel _ h
    have hc : ¬ c < instrs.length := by omega
    unfold predAndSuccLoop at h
    simp only [Except.ok.injEq] at h
    subst h
    refine ⟨hs, fun k v => ⟨fun h1 => Or.inl h1, ?_⟩, fun k u => ⟨fun h1 => Or.inl h1, ?_⟩⟩
    · rintro (h1 | ⟨x, hx, he⟩)
      · exact h1
      · rw [rounds_end _ _ _ _ _ hc hx] at he
        exact absurd he.1 hc
    · rintro (h1 | ⟨x, hx, he⟩)
      · exact h1
      · rw [rounds_end _ _ _ _ _ hc hx] at he
        exact absurd he.1 hc
  | succ n ih =>
    intro c p f cur out hs hfuel hpc h
    unfold predAndSuccLoop at h
    rw [hs.1] at h
    split at h
    · rename_i hc
      split at h
      · cases h
      · rename_i cur2 g heq
        obtain ⟨hs2, hg, hsucc, hpred⟩ :=
          linkRound_ok heap instrs cur cur2 c p f g hs hc (by omega) heq
        rw [nextInstruction_sameCode instrs cur2 hs2, hg] at h
        obtain ⟨r1, r2, r3⟩ := ih _ _ _ _ _ hs2
          (by have := lt_nextInstruction instrs c; omega) (lt_nextInstruction instrs c) h
        refine ⟨r1, ?_, ?_⟩
        · intro k v
          rw [r2, hsucc]
          constructor
          · rintro ((h1 | h1) | ⟨x, hx, he⟩)
            · exact Or.inl h1
            · exact Or.inr ⟨_, Relation.ReflTransGen.refl, h1⟩
            · exact Or.inr ⟨x, (rounds_head _ _ _ _ _ hc).mpr (Or.inr hx), he⟩
          · rintro (h1 | ⟨x, hx, he⟩)
            · exact Or.inl (Or.inl h1)
            · rcases (rounds_head _ _ _ _ _ hc).mp hx with h2 | h2
              · rw [h2] at he
                exact Or.inl (Or.inr he)
              · exact Or.inr ⟨x, h2, he⟩
        · intro k u
          rw [r3, hpred]
          constructor
          · rintro ((h1 | h1) | ⟨x, hx, he⟩)
            · exact Or.inl h1
            · exact Or.inr ⟨_, Relation.ReflTransGen.refl, h1⟩
            · exact Or.inr ⟨x, (rounds_head _ _ _ _ _ hc).mpr (Or.inr hx), he⟩
          · rintro (h1 | ⟨x, hx, he⟩)
            · exact Or.inl (Or.inl h1)
            · rcases (rounds_head _ _ _ _ _ hc).mp hx with h2 | h2
              · rw [h2] at he
                exact Or.inl (Or.inr he)
              · exact Or.inr ⟨x, h2, he⟩
    · rename_i hc
      simp only [Except.ok.injEq] at h
      subst h
      refine ⟨hs, fun k v => ⟨fun h1 => Or.inl h1, ?_⟩, fun k u => ⟨fun h1 => Or.inl h1, ?_⟩⟩
      · rintro (h1 | ⟨x, hx, he⟩)
        · exact h1
        · rw [rounds_end _ _ _ _ _ hc hx] at he
          exact absurd he.1 hc
      · rintro (h1 | ⟨x, hx, he⟩)
        · exact h1
        · rw [rounds_end _ _ _ _ _ hc hx] at he
          exact absurd he.1 hc

/-- The loop returns when every branch it meets has a target. -/
theorem predAndSuccLoop_returns (heap : List Variable) (instrs : List Instruction)
    (htarget : ∀ c, c < instrs.length →
      (instrs.getD c default).m_type = .I_B ∨ (instrs.getD c default).m_type = .I_BLTZ →
      ∃ v, Target instrs c v) :
    ∀ (fuel c p : Nat) (f : Bool) (cur : List Instruction), SameCode instrs cur →
      ∃ out, predAndSuccLoop heap fuel c p f cur = .ok out := by
  intro fuel
  induction fuel with
  | zero =>
    intro c p f cur _
    exact ⟨cur, rfl⟩
  | succ n ih =>
    intro c p f cur hs
    unfold predAndSuccLoop
    rw [hs.1]
    split
    · rename_i hc
      have hround : ∃ cur2 g, linkRound heap cur c p f = .ok (cur2, g) ∧ SameCode instrs cur2 := by
        unfold linkRound
        simp only
        generalize hc1 : (if (!(cur.getD p default).isFunc && f) = true then addEachother cur c p
          else cur) = cur1
        have hs1 : SameCode instrs cur1 := by
          rw [← hc1]
          split
          · exact sameCode_trans _ _ _ hs (addEachother_code _ _ _)
          · exact hs
        rw [(hs1.2 c).2.1]
        split
        · rename_i hcase
          obtain ⟨v, hv⟩ := htarget c hc (Or.inl hcase)
          rw [linkLabeled_of_target heap cur1 c v ((target_sameCode instrs cur1 hs1 c v).mpr hv)]
          exact ⟨_, _, rfl, sameCode_trans _ _ _ hs1 (addEachother_code _ _ _)⟩
        · rename_i hcase
          obtain ⟨v, hv⟩ := htarget c hc (Or.inr hcase)
          rw [linkLabeled_of_target heap cur1 c v ((target_sameCode instrs cur1 hs1 c v).mpr hv)]
          exact ⟨_, _, rfl, sameCode_trans _ _ _ hs1 (addEachother_code _ _ _)⟩
        · exact ⟨_, _, rfl, hs1⟩
      obtain ⟨cur2, g, hr, hs2⟩ := hround
      rw [hr]
      exact ih _ _ _ _ hs2
    · exact ⟨cur, rfl⟩

/-- What `setPredAndSucc` does to an instruction list: the code is kept and the edges of
the rounds from `(1, 0, true)` are added. -/
theorem setPredAndSucc_spec (heap : List Variable) (instrs out : List Instruction)
    (h : setPredAndSucc heap instrs = .ok out) :
    SameCode instrs out ∧
    (∀ k v, v ∈ (out.getD k default).m_succ ↔
      v ∈ (instrs.getD k default).m_succ ∨
        ∃ x, Relation.ReflTransGen (Round instrs) (1, 0, true) x ∧ EdgeAt instrs x k v) ∧
    (∀ k u, u ∈ (out.getD k default).m_pred ↔
      u ∈ (instrs.getD k default).m_pred ∨
        ∃ x, Relation.ReflTransGen (Round instrs) (1, 0, true) x ∧ EdgeAt instrs x u k) := by
  unfold setPredAndSucc at h
  split at h
  · cases h
  · exact predAndSuccLoop_spec heap instrs _ 1 0 true instrs out (sameCode_refl _)
      (by omega) (by omega) h

/-- The shape of the triples that the loop goes through: the previous instruction is the
one before the current one, or the one before a skipped function; the flag is off only
after a `b`. -/
theorem rounds_shape (instrs : List Instruction) (x : Nat × Nat × Bool)
    (h : Relation.ReflTransGen (Round instrs) (1, 0, true) x) :
    (x.2.1 + 1 = x.1 ∨ (x.2.1 + 2 = x.1 ∧ (instrs.getD (x.2.1 + 1) default).isFunc = true ∧
      x.2.1 + 1 < instrs.length)) ∧
    (x.2.2 = true ∨ (instrs.getD x.2.1 default).m_type = .I_B) ∧
    (x.2.2 = true → x = (1, 0, true) ∨ (instrs.getD x.2.1 default).m_type ≠ .I_B) := by
  induction h with
  | refl => exact ⟨Or.inl rfl, Or.inl rfl, fun _ => Or.inl rfl⟩
  | @tail b c _ hbc _ =>
    obtain ⟨h1, h2, h3, h4⟩ := hbc
    rw [h2, h3, h4]
    refine ⟨?_, ?_, ?_⟩
    · unfold nextInstruction
      split
      · rename_i hcond
        simp only [Bool.and_eq_true, decide_eq_true_eq] at hcond
        exact Or.inr ⟨rfl, hcond.2, hcond.1⟩
      · exact Or.inl rfl
    · by_cases hb : (instrs.getD b.1 default).m_type = .I_B
      · exact Or.inr hb
      · exact Or.inl (decide_eq_true hb)
    · intro hd
      exact Or.inr (of_decide_eq_true hd)

/-- Every instruction after the first is the current instruction of a round, or is a
function that the loop skips after the round of the instruction before it. -/
theorem rounds_cover (instrs : List Instruction) (m : Nat) (h1 : 1 ≤ m)
    (h2 : m ≤ instrs.length) :
    (∃ p f, Relation.ReflTransGen (Round instrs) (1, 0, true) (m, p, f)) ∨
    (2 ≤ m ∧ m < instrs.length ∧ (instrs.getD m default).isFunc = true ∧
      ∃ p f, Relation.ReflTransGen (Round instrs) (1, 0, true) (m - 1, p, f)) := by
  induction m with
  | zero => omega
  | succ m ih =>
    by_cases hm : m = 0
    · subst hm
      exact Or.inl ⟨0, true, Relation.ReflTransGen.refl⟩
    · rcases ih (by omega) (by omega) with ⟨p, f, hv⟩ | ⟨_, hlt, hfunc, p, f, hv⟩
      · have hr : Round instrs (m, p, f)
            (nextInstruction instrs m, m, decide ((instrs.getD m default).m_type ≠ .I_B)) :=
          ⟨by omega, rfl, rfl, rfl⟩
        have hv2 := Relation.ReflTransGen.tail hv hr
        by_cases hcond : m + 1 < instrs.length ∧ (instrs.getD (m + 1) default).isFunc = true
        · exact Or.inr ⟨by omega, hcond.1, hcond.2, p, f, by simpa using hv⟩
        · have hn : nextInstruction instrs m = m + 1 := by
            unfold nextInstruction
            rw [if_neg]
            simpa using hcond
          rw [hn] at hv2
          exact Or.inl ⟨_, _, hv2⟩
      · have hr : Round instrs (m - 1, p, f)
            (nextInstruction instrs (m - 1), m - 1,
              decide ((instrs.getD (m - 1) default).m_type ≠ .I_B)) :=
          ⟨by omega, rfl, rfl, rfl⟩
        have hv2 := Relation.ReflTransGen.tail hv hr
        have hn : nextInstruction instrs (m - 1) = m + 1 := by
          unfold nextInstruction
          have e : m - 1 + 1 = m := by omega
          rw [e, if_pos (by rw [Bool.and_eq_true]; exact ⟨decide_eq_true hlt, hfunc⟩)]
          omega
        rw [hn] at hv2
        exact Or.inl ⟨_, _, hv2⟩

/-- The fall-through edge: an instruction that is neither a function nor a `b` gets the
next instruction as a successor when that one is no function. -/
theorem fallthrough_edge (heap : List Variable) (instrs out : List Instruction) (k : Nat)
    (h : setPredAndSucc heap instrs = .ok out) (hk : k + 1 < instrs.length)
    (hf : (instrs.getD k default).isFunc = false)
    (hf1 : (instrs.getD (k + 1) default).isFunc = false)
    (hb : (instrs.getD k default).m_type ≠ .I_B) :
    k + 1 ∈ (out.getD k default).m_succ ∧ k ∈ (out.getD (k + 1) default).m_pred := by
  obtain ⟨_, hsucc, hpred⟩ := setPredAndSucc_spec heap instrs out h
  have hvisit : ∃ p f, Relation.ReflTransGen (Round instrs) (1, 0, true) (k + 1, p, f) := by
    rcases rounds_cover instrs (k + 1) (by omega) (by omega) with hv | ⟨_, _, hfunc, _⟩
    · exact hv
    · rw [hf1] at hfunc; cases hfunc
  obtain ⟨p, f, hv⟩ := hvisit
  obtain ⟨s1, s2, _⟩ := rounds_shape instrs _ hv
  simp only at s1 s2
  have hp : p = k := by
    rcases s1 with s1 | ⟨s1, s3, _⟩
    · omega
    · have : p + 1 = k := by omega
      rw [this, hf] at s3
      cases s3
  subst hp
  have hflag : f = true := by
    rcases s2 with s2 | s2
    · exact s2
    · exact absurd s2 hb
  subst hflag
  have he : EdgeAt instrs (p + 1, p, true) p (p + 1) :=
    ⟨hk, Or.inl ⟨rfl, rfl, hf, rfl, by show p < instrs.length; omega⟩⟩
  exact ⟨(hsucc _ _).mpr (Or.inr ⟨_, hv, he⟩), (hpred _ _).mpr (Or.inr ⟨_, hv, he⟩)⟩

/-- When the only function is the first instruction the loop skips nothing: the
previous instruction of a round is the one before the current instruction. -/
theorem rounds_single (instrs : List Instruction)
    (honly : ∀ j, 1 ≤ j → j < instrs.length → (instrs.getD j default).isFunc = false)
    (x : Nat × Nat × Bool) (h : Relation.ReflTransGen (Round instrs) (1, 0, true) x) :
    x.2.1 + 1 = x.1 := by
  rcases (rounds_shape instrs x h).1 with h1 | ⟨_, h2, h3⟩
  · exact h1
  · rw [honly _ (by omega) h3] at h2
    cases h2

theorem getD_mem_or_default (instrs : List Instruction) (k : Nat) :
    instrs.getD k default ∈ instrs ∨ instrs.getD k default = default := by
  by_cases h : k < instrs.length
  · left
    rw [getD_eq_getElem_instr _ _ h]
    exact List.getElem_mem h
  · right
    exact getD_default_of_ge _ _ h

theorem fresh_succ (instrs : List Instruction)
    (hfresh : ∀ i ∈ instrs, i.m_succ = [] ∧ i.m_pred = []) (k : Nat) :
    (instrs.getD k default).m_succ = [] ∧ (instrs.getD k default).m_pred = [] := by
  rcases getD_mem_or_default instrs k with h | h
  · exact hfresh _ h
  · rw [h]; exact ⟨rfl, rfl⟩

/-- The successors after `setPredAndSucc` of a list whose only function is the first
instruction: the fall-through from an instruction that is no `b`, and the target of a
`b` or a `bltz`. -/
theorem succ_single (heap : List Variable) (instrs out : List Instruction)
    (h : setPredAndSucc heap instrs = .ok out)
    (hfirst : (instrs.getD 0 default).isFunc = true)
    (honly : ∀ j, 1 ≤ j → j < instrs.length → (instrs.getD j default).isFunc = false)
    (hfresh : ∀ i ∈ instrs, i.m_succ = [] ∧ i.m_pred = []) (k v : Nat) :
    v ∈ (out.getD k default).m_succ ↔
      (1 ≤ k ∧ v = k + 1 ∧ v < instrs.length ∧ (instrs.getD k default).m_type ≠ .I_B) ∨
      (1 ≤ k ∧ k < instrs.length ∧ ((instrs.getD k default).m_type = .I_B ∨
        (instrs.getD k default).m_type = .I_BLTZ) ∧ Target instrs k v) := by
  obtain ⟨_, hsucc, _⟩ := setPredAndSucc_spec heap instrs out h
  constructor
  · intro hmem
    rcases (hsucc _ _).mp hmem with h1 | ⟨x, hx, hlt, he⟩
    · rw [(fresh_succ instrs hfresh k).1] at h1
      cases h1
    · have hsh := rounds_single instrs honly x hx
      obtain ⟨_, _, s3⟩ := rounds_shape instrs x hx
      rcases he with ⟨e1, e2, e3, e4, _⟩ | ⟨e1, e2, e3⟩
      · have hk0 : 1 ≤ k := by
          by_contra hk
          have : k = 0 := by omega
          rw [← e1, this, hfirst] at e3
          cases e3
        refine Or.inl ⟨hk0, by omega, by omega, ?_⟩
        rcases s3 e4 with s3 | s3
        · rw [s3] at e1
          simp only at e1
          omega
        · rw [e1]; exact s3
      · exact Or.inr ⟨by omega, by omega, by rw [e1]; exact e2, by rw [e1]; exact e3⟩
  · rintro (⟨h1, h2, h3, h4⟩ | ⟨h1, h2, h3, h4⟩)
    · subst h2
      exact (fallthrough_edge heap instrs out k h h3 (honly k h1 (by omega))
        (honly (k + 1) (by omega) h3) h4).1
    · rcases rounds_cover instrs k h1 (by omega) with ⟨p, f, hv⟩ | ⟨_, _, hfunc, _⟩
      · exact (hsucc _ _).mpr (Or.inr ⟨_, hv, h2, Or.inr ⟨rfl, h3, h4⟩⟩)
      · rw [honly k h1 h2] at hfunc
        cases hfunc

theorem ok_of_toOption {ε α : Type} (r : Except ε α) (a : α) (h : r.toOption = some a) :
    r = .ok a := by
  cases r with
  | error e => cases h
  | ok b =>
    simp only [Except.toOption, Option.some.injEq] at h
    rw [h]

theorem labelsAttached_target (instrs : List Instruction) (hentry : EntryOnly instrs)
    (hlab : LabelsAttached instrs) (c : Nat) (hc : c < instrs.length)
    (hb : (instrs.getD c default).m_type = .I_B ∨ (instrs.getD c default).m_type = .I_BLTZ) :
    ∃ v, Target instrs c v := by
  obtain ⟨t, ht, hsome, hl⟩ := hlab c hc hb
  obtain ⟨lab, hlabel⟩ := Option.isSome_iff_exists.mp hsome
  have hex : ∃ x ∈ instrs, (fun i : Instruction => i.label == some lab) x = true :=
    ⟨instrs.getD t default, by rw [getD_eq_getElem_instr _ _ ht]; exact List.getElem_mem ht,
      by show ((instrs.getD t default).label == some lab) = true
         rw [hlabel]; exact beq_self_eq_true _⟩
  have hlt := List.findIdx_lt_length.mpr hex
  have hfound : findInstructionWithLabel [] lab instrs =
      .ok (instrs.findIdx (fun i => i.label == some lab)) := by
    unfold findInstructionWithLabel
    simp only
    rw [if_pos hlt]
  have hfirst := (findInstructionWithLabel_ok [] lab instrs _).mp hfound
  have hc1 : 1 ≤ c := by
    by_contra h0
    have : c = 0 := by omega
    rw [this] at hb
    have hf := hentry.1
    unfold Instruction.isFunc at hf
    rcases hb with hb | hb <;> rw [hb] at hf <;> simp at hf
  refine ⟨_, lab, _, by rw [← hl, hlabel], hfirst, rfl, ?_⟩
  split
  · rename_i hfunc
    by_cases h0 : instrs.findIdx (fun i => i.label == some lab) = 0
    · rw [h0]; omega
    · rw [hentry.2 _ hlt (by omega)] at hfunc
      cases hfunc
  · exact hlt

/-- C21 (counterexample). In `_func main; _reg r1; loop: li r1, -1; bltz r1, loop;
b main; nop; nop;` the first instruction is the only function, the edge from the first
`nop` to the second exists after `setPredAndSucc()`, and the second `nop` is not reached
from the entry instruction: the function has no successor at all. -/
theorem entry_reaches_nothing :
    EntryOnly branchParsed.instrs ∧
    (setPredAndSucc branchParsed.heap branchParsed.instrs).toOption = some branchLinked ∧
    5 ∈ (branchLinked.getD 4 default).m_succ ∧ ¬ Reach branchLinked 0 5 := by
  refine ⟨by decide!, by decide!, by decide!, ?_⟩
  intro h
  rcases Relation.ReflTransGen.cases_head h with h1 | ⟨c, h1, _⟩
  · cases h1
  · have h0 : (branchLinked.getD 0 default).m_succ = [] := by decide!
    rw [h0] at h1
    cases h1

/-- C21 (amended). For every instruction list without edges whose first instruction is
its only function, after `setPredAndSucc()` the function has no successor, every edge
`u -> v` joins two instructions after the function, and `v` is reached along successor
edges from the instruction that follows the function or from an instruction that follows
a `b`; in a list without `b` it is reached from the instruction that follows the
function. -/
theorem edges_reached_from_leaders (heap : List Variable) (instrs out : List Instruction)
    (hentry : EntryOnly instrs) (hfresh : NoEdges instrs)
    (h : setPredAndSucc heap instrs = .ok out) :
    (out.getD 0 default).m_succ = [] ∧
    ∀ u v, v ∈ (out.getD u default).m_succ →
      1 ≤ u ∧ 1 ≤ v ∧ v < instrs.length ∧
      (∃ l, (l = 1 ∨ (2 ≤ l ∧ (instrs.getD (l - 1) default).m_type = .I_B)) ∧ Reach out l v) ∧
      ((∀ j, (instrs.getD j default).m_type ≠ .I_B) → Reach out 1 v) := by
  have honly : ∀ j, 1 ≤ j → j < instrs.length → (instrs.getD j default).isFunc = false :=
    fun j h1 h2 => hentry.2 j h2 h1
  have hsucc := succ_single heap instrs out h hentry.1 honly hfresh
  -- every instruction after the function is reached from a leader at or before it
  have hreach : ∀ m, 1 ≤ m → m < instrs.length →
      ∃ l, (l = 1 ∨ (2 ≤ l ∧ (instrs.getD (l - 1) default).m_type = .I_B)) ∧ Reach out l m := by
    intro m
    induction m with
    | zero => intro h0; omega
    | succ m ih =>
      intro _ hm
      by_cases hm0 : m = 0
      · subst hm0
        exact ⟨1, Or.inl rfl, Relation.ReflTransGen.refl⟩
      · by_cases hb : (instrs.getD m default).m_type = .I_B
        · exact ⟨m + 1, Or.inr ⟨by omega, by simpa using hb⟩, Relation.ReflTransGen.refl⟩
        · obtain ⟨l, hl, hr⟩ := ih (by omega) (by omega)
          have hedge : m + 1 ∈ (out.getD m default).m_succ :=
            (hsucc m (m + 1)).mpr (Or.inl ⟨by omega, rfl, hm, hb⟩)
          exact ⟨l, hl, Relation.ReflTransGen.tail hr hedge⟩
  refine ⟨?_, ?_⟩
  · cases hs : (out.getD 0 default).m_succ with
    | nil => rfl
    | cons v rest =>
      have hv : v ∈ (out.getD 0 default).m_succ := by rw [hs]; exact List.mem_cons_self _ _
      rcases (hsucc 0 v).mp hv with ⟨h0, _⟩ | ⟨h0, _⟩ <;> omega
  · intro u v huv
    have hbounds : 1 ≤ u ∧ 1 ≤ v ∧ v < instrs.length := by
      rcases (hsucc u v).mp huv with ⟨h1, h2, h3, _⟩ | ⟨h1, _, _, lab, t, _, hf, hv, hlt⟩
      · exact ⟨h1, by omega, h3⟩
      · refine ⟨h1, ?_, hlt⟩
        by_cases hfunc : (instrs.getD t default).isFunc = true
        · rw [if_pos hfunc] at hv; omega
        · rw [if_neg hfunc] at hv
          by_contra hv0
          have : t = 0 := by omega
          rw [this] at hfunc
          exact hfunc hentry.1
    obtain ⟨l, hl, hr⟩ := hreach v hbounds.2.1 hbounds.2.2
    refine ⟨hbounds.1, hbounds.2.1, hbounds.2.2, ⟨l, hl, hr⟩, ?_⟩
    intro hnob
    rcases hl with hl | ⟨_, hl⟩
    · rw [← hl]; exact hr
    · exact absurd hl (hnob _)

/-- Witness of C21 on the list without `b` of `_func main; _reg r1; loop: nop;
bne r1, r1, loop; nop;`. -/
theorem edges_reached_from_leaders_witness :
    (bneLinked.getD 0 default).m_succ = [] ∧
    ∀ u v, v ∈ (bneLinked.getD u default).m_succ →
      1 ≤ u ∧ 1 ≤ v ∧ v < bneParsed.instrs.length ∧
      (∃ l, (l = 1 ∨ (2 ≤ l ∧ (bneParsed.instrs.getD (l - 1) default).m_type = .I_B)) ∧
        Reach bneLinked l v) ∧
      ((∀ j, (bneParsed.instrs.getD j default).m_type ≠ .I_B) → Reach bneLinked 1 v) :=
  edges_reached_from_leaders bneParsed.heap bneParsed.instrs bneLinked (by decide!) (by decide!)
    (ok_of_toOption _ _ (by decide!))

theorem setPredAndSucc_returns (heap : List Variable) (instrs : List Instruction)
    (hentry : EntryOnly instrs) (hlab : LabelsAttached instrs) :
    ∃ out, setPredAndSucc heap instrs = .ok out := by
  unfold setPredAndSucc
  have hne : ¬ instrs.length = 0 := by
    intro h0
    have hf := hentry.1
    rw [getD_default_of_ge _ _ (by omega)] at hf
    cases hf
  rw [if_neg hne]
  exact predAndSuccLoop_returns heap instrs
    (fun c hc hb => labelsAttached_target instrs hentry hlab c hc hb) _ _ _ _ _
    (sameCode_refl _)

/-- C22 (counterexample). In `_func main; _reg r1; loop: li r1, -1; bltz r1, loop;
b main; nop; nop;` the first instruction, the function, is no branch, is not the last
instruction and is followed by an instruction that is no function, and it has no
successor after `setPredAndSucc()`. -/
theorem function_without_successor :
    (setPredAndSucc branchParsed.heap branchParsed.instrs).toOption = some branchLinked ∧
    (branchLinked.getD 0 default).m_type ≠ .I_B ∧
    (branchLinked.getD 0 default).m_type ≠ .I_BLTZ ∧
    (branchLinked.getD 0 default).m_type ≠ .I_BNE ∧
    0 + 1 < branchLinked.length ∧ (branchLinked.getD 1 default).isFunc = false ∧
    (branchLinked.getD 0 default).m_succ = [] := by
  decide!

/-- C22 (amended). After `setPredAndSucc()` every instruction that is no function and no
branch and is not the last instruction of the list has the next instruction among its
successors (and is among the predecessors of the next instruction), except an
instruction that is immediately followed by a function. -/
theorem fallthrough_successor (heap : List Variable) (instrs out : List Instruction) (k : Nat)
    (h : setPredAndSucc heap instrs = .ok out) (hk : k + 1 < instrs.length)
    (hf : (instrs.getD k default).isFunc = false)
    (hb : (instrs.getD k default).m_type ≠ .I_B ∧ (instrs.getD k default).m_type ≠ .I_BLTZ ∧
      (instrs.getD k default).m_type ≠ .I_BNE)
    (hnext : (instrs.getD (k + 1) default).isFunc = false) :
    k + 1 ∈ (out.getD k default).m_succ ∧ k ∈ (out.getD (k + 1) default).m_pred := by
  obtain ⟨_, hsucc, hpred⟩ := setPredAndSucc_spec heap instrs out h
  -- the instruction after `k` is the current instruction of a round
  have hvisit : ∃ p f, Relation.ReflTransGen (Round instrs) (1, 0, true) (k + 1, p, f) := by
    rcases rounds_cover instrs (k + 1) (by omega) (by omega) with hv | ⟨_, _, hfunc, _⟩
    · exact hv
    · rw [hnext] at hfunc; cases hfunc
  obtain ⟨p, f, hv⟩ := hvisit
  obtain ⟨s1, s2, _⟩ := rounds_shape instrs _ hv
  simp only at s1 s2
  -- the previous instruction of that round is `k`
  have hp : p = k := by
    rcases s1 with s1 | ⟨s1, s3, _⟩
    · omega
    · have : p + 1 = k := by omega
      rw [this, hf] at s3
      cases s3
  subst hp
  -- and the flag is on, since `k` is no `b`
  have hflag : f = true := by
    rcases s2 with s2 | s2
    · exact s2
    · exact absurd s2 hb.1
  subst hflag
  have he : EdgeAt instrs (p + 1, p, true) p (p + 1) :=
    ⟨hk, Or.inl ⟨rfl, rfl, hf, rfl, by show p < instrs.length; omega⟩⟩
  exact ⟨(hsucc _ _).mpr (Or.inr ⟨_, hv, he⟩), (hpred _ _).mpr (Or.inr ⟨_, hv, he⟩)⟩

/-- Witness of C22 on the first `nop` of `branchTokens`. -/
theorem fallthrough_successor_witness :
    4 + 1 ∈ (branchLinked.getD 4 default).m_succ ∧ 4 ∈ (branchLinked.getD (4 + 1) default).m_pred :=
  fallthrough_successor branchParsed.heap branchParsed.instrs branchLinked 4
    (ok_of_toOption _ _ (by decide!)) (by decide!) (by decide!) (by decide!) (by decide!)

/-- C23. For every instruction list without edges whose first instruction is its only
function and whose branch labels are attached to instructions, `setPredAndSucc()` returns
and the successors of every `bltz r, L` that is not the last instruction are exactly the
next instruction and the target of `L`: the first instruction labelled `L`, or the
instruction after it when that one is the function. -/
theorem bltz_successors (heap : List Variable) (instrs : List Instruction)
    (hentry : EntryOnly instrs) (hfresh : NoEdges instrs) (hlab : LabelsAttached instrs) :
    ∃ out, setPredAndSucc heap instrs = .ok out ∧
      ∀ k lab t, k + 1 < instrs.length → (instrs.getD k default).m_type = .I_BLTZ →
        (instrs.getD k default).m_src.getLast? = some lab → FirstLabelled instrs lab t →
        ∀ v, v ∈ (out.getD k default).m_succ ↔
          v = k + 1 ∨ v = (if (instrs.getD t default).isFunc then t + 1 else t) := by
  obtain ⟨out, hout⟩ := setPredAndSucc_returns heap instrs hentry hlab
  refine ⟨out, hout, ?_⟩
  intro k lab t hk hty hsrc hfirst v
  have honly : ∀ j, 1 ≤ j → j < instrs.length → (instrs.getD j default).isFunc = false :=
    fun j h1 h2 => hentry.2 j h2 h1
  -- the `bltz` is not the first instruction, which is a function
  have hk1 : 1 ≤ k := by
    by_contra h0
    have hk0 : k = 0 := by omega
    have hf := hentry.1
    unfold Instruction.isFunc at hf
    rw [hk0] at hty
    rw [hty] at hf
    simp at hf
  -- the target of the branch
  have htgt : Target instrs k (if (instrs.getD t default).isFunc then t + 1 else t) := by
    refine ⟨lab, t, hsrc, hfirst, rfl, ?_⟩
    split
    · rename_i hfunc
      by_cases ht0 : t = 0
      · rw [ht0]; omega
      · rw [honly t (by omega) hfirst.1] at hfunc
        cases hfunc
    · exact hfirst.1
  rw [succ_single heap instrs out hout hentry.1 honly hfresh k v]
  constructor
  · rintro (⟨_, h2, _⟩ | ⟨_, _, _, h4⟩)
    · exact Or.inl h2
    · exact Or.inr (target_unique instrs k _ _ h4 htgt)
  · rintro (h1 | h1)
    · exact Or.inl ⟨hk1, h1, by rw [h1]; exact hk, by rw [hty]; simp⟩
    · exact Or.inr ⟨hk1, by omega, Or.inr hty, by rw [h1]; exact htgt⟩

/-- Witness of C23 on `branchTokens`, whose `bltz r1, loop` is instruction 2. -/
theorem bltz_successors_witness :
    ∃ out, setPredAndSucc branchParsed.heap branchParsed.instrs = .ok out ∧
      ∀ k lab t, k + 1 < branchParsed.instrs.length →
        (branchParsed.instrs.getD k default).m_type = .I_BLTZ →
        (branchParsed.instrs.getD k default).m_src.getLast? = some lab →
        FirstLabelled branchParsed.instrs lab t →
        ∀ v, v ∈ (out.getD k default).m_succ ↔
          v = k + 1 ∨ v = (if (branchParsed.instrs.getD t default).isFunc then t + 1 else t) :=
  bltz_successors branchParsed.heap branchParsed.instrs (by decide!) (by decide!) (by decide!)

/-- C25. For every instruction list without edges whose first instruction is its only
function and whose branch labels are attached to instructions, `setPredAndSucc()` returns
and the only successor of every `b L` is the target of `L`: the first instruction
labelled `L`, or the instruction after it when that one is the function; the next
instruction is a successor of the `b` only if it is that target. -/
theorem jump_successors (heap : List Variable) (instrs : List Instruction)
    (hentry : EntryOnly instrs) (hfresh : NoEdges instrs) (hlab : LabelsAttached instrs) :
    ∃ out, setPredAndSucc heap instrs = .ok out ∧
      ∀ k lab t, k < instrs.length → (instrs.getD k default).m_type = .I_B →
        (instrs.getD k default).m_src.getLast? = some lab → FirstLabelled instrs lab t →
        ∀ v, v ∈ (out.getD k default).m_succ ↔
          v = (if (instrs.getD t default).isFunc then t + 1 else t) := by
  obtain ⟨out, hout⟩ := setPredAndSucc_returns heap instrs hentry hlab
  refine ⟨out, hout, ?_⟩
  intro k lab t hk hty hsrc hfirst v
  have honly : ∀ j, 1 ≤ j → j < instrs.length → (instrs.getD j default).isFunc = false :=
    fun j h1 h2 => hentry.2 j h2 h1
  -- the `b` is not the first instruction, which is a function
  have hk1 : 1 ≤ k := by
    by_contra h0
    have hk0 : k = 0 := by omega
    have hf := hentry.1
    unfold Instruction.isFunc at hf
    rw [hk0] at hty
    rw [hty] at hf
    simp at hf
  -- the target of the branch
  have htgt : Target instrs k (if (instrs.getD t default).isFunc then t + 1 else t) := by
    refine ⟨lab, t, hsrc, hfirst, rfl, ?_⟩
    split
    · rename_i hfunc
      by_cases ht0 : t = 0
      · rw [ht0]; omega
      · rw [honly t (by omega) hfirst.1] at hfunc
        cases hfunc
    · exact hfirst.1
  rw [succ_single heap instrs out hout hentry.1 honly hfresh k v]
  constructor
  · rintro (⟨_, _, _, h4⟩ | ⟨_, _, _, h4⟩)
    · exact absurd hty h4
    · exact target_unique instrs k _ _ h4 htgt
  · intro h1
    exact Or.inr ⟨hk1, hk, Or.inl hty, by rw [h1]; exact htgt⟩

/-- Witness of C25 on `branchTokens`, whose `b main` is instruction 3. -/
theorem jump_successors_witness :
    ∃ out, setPredAndSucc branchParsed.heap branchParsed.instrs = .ok out ∧
      ∀ k lab t, k < branchParsed.instrs.length →
        (branchParsed.instrs.getD k default).m_type = .I_B →
        (branchParsed.instrs.getD k default).m_src.getLast? = some lab →
        FirstLabelled branchParsed.instrs lab t →
        ∀ v, v ∈ (out.getD k default).m_succ ↔
          v = (if (branchParsed.instrs.getD t default).isFunc then t + 1 else t) :=
  jump_successors branchParsed.heap branchParsed.instrs (by decide!) (by decide!) (by decide!)

/-- C24 (divergence). On `_func main; _reg r1; loop: nop; bne r1, r1, loop; nop;` the
parser returns true and `setPredAndSucc()` gives the `bne` (instruction 2) the next
instruction as its only successor: the instruction labelled `loop` (instruction 1) is not
among its successors and the `bne` is not among the predecessors of that instruction.
The `switch` of `setPredAndSucc` has the cases `I_B` and `I_BLTZ` and none for `I_BNE`. -/
theorem bne_target_missing :
    (SyntaxAnalysis.Do (SyntaxAnalysis.init bneTokens)).returned = some true ∧
    (setPredAndSucc bneParsed.heap bneParsed.instrs).toOption = some bneLinked ∧
    (bneLinked.getD 2 default).m_type = .I_BNE ∧
    (bneLinked.getD 2 default).m_src.getLast? = (bneLinked.getD 1 default).label ∧
    (bneLinked.getD 1 default).label.isSome = true ∧
    (bneLinked.getD 2 default).m_succ = [3] ∧ 1 ∉ (bneLinked.getD 2 default).m_succ ∧
    2 ∉ (bneLinked.getD 1 default).m_pred := by
  decide!

/-! ## The lexer -/

theorem lex_update_self (lex : LexicalAnalysis) :
    { lex with programBufferPosition := lex.programBufferPosition } = lex := by
  cases lex; rfl

/-- The first round of a scan whose first letter has no transition to a positive state:
the error token of that letter is returned and the object is left as it was. -/
theorem lexLoop_error (lex : LexicalAnalysis) (fuel : Nat) (currentState : Int)
    (hpos : lex.programBufferPosition < lex.programBuffer.length)
    (hstate : lex.fsm.getNextState currentState
      (lex.programBuffer.getD lex.programBufferPosition default) ≤ 0) :
    lexLoop lex (fuel + 1) currentState IDLE_STATE 0 lex.programBufferPosition =
      some (.ok (Token.makeErrorToken lex.programBufferPosition lex.programBuffer, lex)) := by
  unfold lexLoop
  simp only [Nat.add_zero]
  rw [if_neg (by omega), if_pos hpos]
  have h1 : ¬ lex.fsm.getNextState currentState
      (lex.programBuffer.getD lex.programBufferPosition default) > IDLE_STATE := by
    unfold IDLE_STATE; omega
  rw [if_neg h1]
  have herr : returnError lex (0 + 1) =
      .ok (Token.makeErrorToken lex.programBufferPosition lex.programBuffer, lex) := by
    unfold returnError
    have e : lex.programBufferPosition + (0 + 1) - 1 = lex.programBufferPosition := by omega
    rw [e, lex_update_self]
  split
  · rw [if_neg (by simp), herr]
  · rw [if_neg (by simp), herr]

/-- The outcomes of the loop of `getNextTokenLex` under a state machine that goes to the
invalid state on the end letter: a token that ends inside the buffer, the error token of
the first letter, or the exception of the start state. -/
theorem lexLoop_spec (lex : LexicalAnalysis)
    (hfsm : ∀ state, lex.fsm.getNextState state endLetter = INVALID_STATE)
    (hpos : lex.programBufferPosition < lex.programBuffer.length) :
    ∀ (fuel : Nat) (currentState lastFiniteState : Int) (counter lastLetterPos : Nat),
      lex.programBufferPosition + counter ≤ lex.programBuffer.length →
      lex.programBuffer.length < lex.programBufferPosition + counter + fuel →
      ((counter = 0 ∧ lastFiniteState = IDLE_STATE ∧ lastLetterPos = lex.programBufferPosition) ∨
        (0 < counter ∧ lastFiniteState ≠ IDLE_STATE ∧
          lastLetterPos = lex.programBufferPosition + counter)) →
      (∃ q state, lex.programBufferPosition < q ∧ q ≤ lex.programBuffer.length ∧
        lexLoop lex fuel currentState lastFiniteState counter lastLetterPos =
          some (.ok (Token.makeToken lex.fsm lex.programBufferPosition q lex.programBuffer state,
            { lex with programBufferPosition := q }))) ∨
      (counter = 0 ∧
        lex.fsm.getNextState currentState
          (lex.programBuffer.getD lex.programBufferPosition default) ≤ 0 ∧
        lexLoop lex fuel currentState lastFiniteState counter lastLetterPos =
          some (.ok (Token.makeErrorToken lex.programBufferPosition lex.programBuffer, lex))) ∨
      (∃ what, lexLoop lex fuel currentState lastFiniteState counter lastLetterPos =
        some (.error (.runtime_error what))) := by
  intro fuel
  induction fuel with
  | zero => intro cs lfs counter llp h1 h2 _; omega
  | succ n ih =>
    intro cs lfs counter llp h1 h2 hinv
    -- the token return of this round
    have htoken : 0 < counter → lfs ≠ IDLE_STATE →
        llp = lex.programBufferPosition + counter →
        ∃ q state, lex.programBufferPosition < q ∧ q ≤ lex.programBuffer.length ∧
          some (returnToken lex llp lfs) =
            some (.ok (Token.makeToken lex.fsm lex.programBufferPosition q lex.programBuffer state,
              { lex with programBufferPosition := q })) := by
      intro hc _ hl
      refine ⟨llp, lfs, by omega, by omega, ?_⟩
      unfold returnToken
      rw [if_neg (by omega)]
    by_cases hidx : lex.programBufferPosition + counter < lex.programBuffer.length
    · -- a letter of the buffer
      by_cases hpositive : lex.fsm.getNextState cs
          (lex.programBuffer.getD (lex.programBufferPosition + counter) default) > IDLE_STATE
      · by_cases hstart : lex.fsm.getNextState cs
            (lex.programBuffer.getD (lex.programBufferPosition + counter) default) = START_STATE
        · right; right
          unfold lexLoop
          simp only
          rw [if_neg (by omega), if_pos hidx, if_pos hpositive, if_pos hstart]
          exact ⟨_, rfl⟩
        · have hne : lex.fsm.getNextState cs
              (lex.programBuffer.getD (lex.programBufferPosition + counter) default) ≠
                IDLE_STATE := by
            unfold IDLE_STATE at hpositive ⊢; omega
          have hrec := ih (lex.fsm.getNextState cs
              (lex.programBuffer.getD (lex.programBufferPosition + counter) default))
            (lex.fsm.getNextState cs
              (lex.programBuffer.getD (lex.programBufferPosition + counter) default))
            (counter + 1) (lex.programBufferPosition + (counter + 1)) (by omega) (by omega)
            (Or.inr ⟨by omega, hne, rfl⟩)
          have hunfold : lexLoop lex (n + 1) cs lfs counter llp =
              lexLoop lex n (lex.fsm.getNextState cs
                (lex.programBuffer.getD (lex.programBufferPosition + counter) default))
              (lex.fsm.getNextState cs
                (lex.programBuffer.getD (lex.programBufferPosition + counter) default))
              (counter + 1) (lex.programBufferPosition + (counter + 1)) := by
            conv_lhs => unfold lexLoop
            simp only
            rw [if_neg (by omega), if_pos hidx, if_pos hpositive, if_neg hstart]
          rw [hunfold]
          rcases hrec with hrec | ⟨hc, _⟩ | hrec
          · exact Or.inl hrec
          · omega
          · exact Or.inr (Or.inr hrec)
      · -- the scan stops at this letter
        have hstop : lexLoop lex (n + 1) cs lfs counter llp =
            if lfs ≠ IDLE_STATE then some (returnToken lex llp lfs)
            else some (returnError lex (counter + 1)) := by
          conv_lhs => unfold lexLoop
          simp only
          rw [if_neg (by omega), if_pos hidx, if_neg hpositive]
          by_cases hinvld : lex.fsm.getNextState cs
              (lex.programBuffer.getD (lex.programBufferPosition + counter) default) =
                INVALID_STATE
          · rw [if_pos hinvld]
          · rw [if_neg hinvld]
            rcases hinv with ⟨_, hf, hl⟩ | ⟨hc, hf, hl⟩
            · rw [if_neg (by rw [hl]; omega), if_neg (by rw [hf]; simp)]
            · rw [if_pos (by rw [hl]; push_cast; omega), if_pos hf]
        rw [hstop]
        rcases hinv with ⟨hc, hf, hl⟩ | ⟨hc, hf, hl⟩
        · right; left
          subst hc
          rw [if_neg (by rw [hf]; simp)]
          refine ⟨rfl, by
            simp only [Nat.add_zero] at hpositive
            unfold IDLE_STATE at hpositive; omega, ?_⟩
          unfold returnError
          have e : lex.programBufferPosition + (0 + 1) - 1 = lex.programBufferPosition := by omega
          rw [e, lex_update_self]
        · left
          rw [if_pos hf]
          exact htoken hc hf hl
    · -- the end letter
      have hend : lexLoop lex (n + 1) cs lfs counter llp =
          if lfs ≠ IDLE_STATE then some (returnToken lex llp lfs)
          else some (returnError lex (counter + 1)) := by
        conv_lhs => unfold lexLoop
        simp only
        rw [if_neg (by omega), if_neg hidx, hfsm]
        rw [if_neg (by unfold INVALID_STATE IDLE_STATE; omega), if_pos rfl]
      rw [hend]
      rcases hinv with ⟨hc, hf, hl⟩ | ⟨hc, hf, hl⟩
      · omega
      · left
        rw [if_pos hf]
        exact htoken hc hf hl

/-- At the end of the buffer a call returns the END-OF-FILE token and changes nothing. -/
theorem getNextTokenLex_eof (lex : LexicalAnalysis) (fuel : Nat)
    (h : lex.programBuffer.length ≤ lex.programBufferPosition) :
    getNextTokenLex (fuel + 1) lex = some (.ok (Token.makeEofToken, lex)) := by
  unfold getNextTokenLex lexLoop
  simp only [Nat.add_zero]
  rw [if_pos ⟨by omega, h⟩]

/-- C28 (counterexample). With the example state machine and the buffer `aa @a` no token
is recognised at offset 3 (the start state has no transition on `@`); the call returns
the ERROR token `@` and the buffer offset after the call is 3, not 4. -/
theorem error_token_keeps_offset :
    errorLex.programBufferPosition = 3 ∧
    errorLex.fsm.getNextState START_STATE (errorLex.programBuffer.getD 3 default) ≤ 0 ∧
    returnedToken (getNextTokenLex 10 errorLex) = some (⟨.T_ERROR, "@"⟩, 3) ∧
    returnedToken (getNextTokenLex 10 errorLex) ≠ some (⟨.T_ERROR, "@"⟩, 3 + 1) := by
  decide

/-- C28 (amended). For every buffer and offset at which no token can be recognised (the
start state has no transition to a positive state on the letter at the offset),
`getNextTokenLex` returns an ERROR token whose value is the byte at that offset and leaves
the object, its buffer offset included, as it was. -/
theorem error_token_at_offset (lex : LexicalAnalysis) (fuel : Nat)
    (hpos : lex.programBufferPosition < lex.programBuffer.length)
    (hstate : lex.fsm.getNextState START_STATE
      (lex.programBuffer.getD lex.programBufferPosition default) ≤ 0) :
    getNextTokenLex (fuel + 1) lex =
      some (.ok (⟨.T_ERROR, String.mk [lex.programBuffer.getD lex.programBufferPosition default]⟩,
        lex)) := by
  unfold getNextTokenLex lexLoop
  simp only [Nat.add_zero]
  -- the letter is read from the buffer
  rw [if_neg (by omega), if_pos hpos]
  -- the next state is not positive
  have h1 : ¬ lex.fsm.getNextState START_STATE
      (lex.programBuffer.getD lex.programBufferPosition default) > IDLE_STATE := by
    unfold IDLE_STATE; omega
  rw [if_neg h1]
  -- both remaining branches return the error token at `programBufferPosition + 1 - 1`
  have herr : returnError lex (0 + 1) =
      .ok (⟨.T_ERROR, String.mk [lex.programBuffer.getD lex.programBufferPosition default]⟩,
        lex) := by
    unfold returnError Token.makeErrorToken
    have e : lex.programBufferPosition + (0 + 1) - 1 = lex.programBufferPosition := by omega
    rw [e, lex_update_self]
  split
  · rw [if_neg (by unfold IDLE_STATE; simp), herr]
  · rw [if_neg (by simp), herr]

/-- Witness of C28 at the letter `@` of the buffer `aa @a`. -/
theorem error_token_at_offset_witness :
    getNextTokenLex (0 + 1) errorLex =
      some (.ok (⟨.T_ERROR,
        String.mk [errorLex.programBuffer.getD errorLex.programBufferPosition default]⟩,
        errorLex)) :=
  error_token_at_offset errorLex 0 (by decide) (by decide)

/-- The outcomes of a call inside the buffer, under a state machine that goes to the
invalid state on the end letter. -/
theorem getNextTokenLex_spec (lex : LexicalAnalysis) (fuel : Nat)
    (hfsm : ∀ state, lex.fsm.getNextState state endLetter = INVALID_STATE)
    (hpos : lex.programBufferPosition < lex.programBuffer.length)
    (hfuel : lex.programBuffer.length < fuel) :
    (∃ q state, lex.programBufferPosition < q ∧ q ≤ lex.programBuffer.length ∧
      getNextTokenLex fuel lex =
        some (.ok (Token.makeToken lex.fsm lex.programBufferPosition q lex.programBuffer state,
          { lex with programBufferPosition := q }))) ∨
    (getNextTokenLex fuel lex =
      some (.ok (Token.makeErrorToken lex.programBufferPosition lex.programBuffer, lex))) ∨
    (∃ what, getNextTokenLex fuel lex = some (.error (.runtime_error what))) := by
  unfold getNextTokenLex
  rcases lexLoop_spec lex hfsm hpos fuel START_STATE 0 0 lex.programBufferPosition
      (by omega) (by omega) (Or.inl ⟨rfl, rfl, rfl⟩) with h | ⟨_, _, h⟩ | h
  · exact Or.inl h
  · exact Or.inr (Or.inl h)
  · exact Or.inr (Or.inr h)

theorem values_append (tokens : List Token) (token : Token) :
    values (tokens ++ [token]) = values tokens ++ token.value.toList := by
  simp [values]

/-- What successive calls that move the buffer position keep: the buffer and the state
machine, and the values of the tokens make up the buffer before the position. -/
theorem scanned_inv (fuel : Nat) (lex0 : LexicalAnalysis)
    (hfsm : ∀ state, lex0.fsm.getNextState state endLetter = INVALID_STATE)
    (h0 : lex0.programBufferPosition = 0) (hfuel : lex0.programBuffer.length < fuel)
    (tokens : List Token) (lex : LexicalAnalysis) (h : Scanned fuel lex0 tokens lex) :
    lex.programBuffer = lex0.programBuffer ∧ lex.fsm = lex0.fsm ∧
    values tokens = lex0.programBuffer.take lex.programBufferPosition ∧
    lex.programBufferPosition ≤ lex0.programBuffer.length ∧
    tokens.length ≤ lex.programBufferPosition := by
  induction h with
  | start => exact ⟨rfl, rfl, by rw [h0]; rfl, by omega, by simp⟩
  | call tokens lex lex1 token _ hcall hmove ih =>
    obtain ⟨i1, i2, i3, i4, i5⟩ := ih
    by_cases hpos : lex.programBufferPosition < lex.programBuffer.length
    · rcases getNextTokenLex_spec lex fuel (by rw [i2]; exact hfsm) hpos (by rw [i1]; exact hfuel)
        with ⟨q, state, hq1, hq2, hq⟩ | hq | ⟨what, hq⟩
      · rw [hq] at hcall
        simp only [Option.some.injEq, Except.ok.injEq, Prod.mk.injEq] at hcall
        obtain ⟨e1, e2⟩ := hcall
        subst e1; subst e2
        refine ⟨i1, i2, ?_, by rw [← i1]; exact hq2, by
          rw [List.length_append, List.length_singleton]
          show tokens.length + 1 ≤ q
          omega⟩
        rw [values_append, i3]
        show _ ++ (List.take (q - lex.programBufferPosition)
          (List.drop lex.programBufferPosition lex.programBuffer)) = List.take q lex0.programBuffer
        rw [i1]
        have e : q = lex.programBufferPosition + (q - lex.programBufferPosition) := by omega
        conv_rhs => rw [e]
        rw [List.take_add]
      · rw [hq] at hcall
        simp only [Option.some.injEq, Except.ok.injEq, Prod.mk.injEq] at hcall
        exact absurd (by rw [← hcall.2]) hmove
      · rw [hq] at hcall
        cases hcall
    · have hfuel1 : ∃ n, fuel = n + 1 := ⟨fuel - 1, by omega⟩
      obtain ⟨n, hn⟩ := hfuel1
      rw [hn, getNextTokenLex_eof lex n (by omega)] at hcall
      simp only [Option.some.injEq, Except.ok.injEq, Prod.mk.injEq] at hcall
      exact absurd (by rw [← hcall.2]) hmove

/-- C29 (counterexample). The example state machine goes to the invalid state on the end
letter, and on the buffer `aa @a` the successive calls of `getNextTokenLex` never return
the END-OF-FILE token: after the tokens `aa` and the blank every call returns the ERROR
token `@` and leaves the offset at 3, so however many calls are made the offset stays
before the end of the buffer and the values of the tokens are not the buffer. -/
theorem error_token_repeats :
    (∀ state, exampleFsm.getNextState state endLetter = INVALID_STATE) ∧
    exampleLex.programBufferPosition = 0 ∧
    ∀ n, ∃ tokens lex, successiveCalls 10 (n + 3) exampleLex = some (tokens, lex) ∧
      lex.programBufferPosition = 3 ∧ tokens.getLast? = some ⟨.T_ERROR, "@"⟩ ∧
      (∀ token ∈ tokens, token.tokenType ≠ .T_END_OF_FILE) ∧
      values tokens ≠ exampleLex.programBuffer := by
  refine ⟨?_, rfl, ?_⟩
  · intro state
    unfold exampleFsm endLetter INVALID_STATE
    simp only
    have ha : Char.ofNat 255 ≠ 'a' := by decide
    have hb : Char.ofNat 255 ≠ ' ' := by decide
    rw [if_neg (fun h => ha h.1), if_neg (fun h => hb h.1)]
  · -- at the letter `@` every number of calls returns error tokens only
    have hstuck : ∀ n, ∃ tokens, successiveCalls 10 (n + 1) errorLex = some (tokens, errorLex) ∧
        tokens.getLast? = some ⟨.T_ERROR, "@"⟩ ∧
        (∀ token ∈ tokens, token = ⟨.T_ERROR, "@"⟩) := by
      intro n
      have hcall : getNextTokenLex 10 errorLex = some (.ok (⟨.T_ERROR, "@"⟩, errorLex)) := rfl
      induction n with
      | zero =>
        refine ⟨[⟨.T_ERROR, "@"⟩], ?_, rfl, by simp⟩
        unfold successiveCalls
        rw [hcall]
        rfl
      | succ n ih =>
        obtain ⟨tokens, h1, h2, h3⟩ := ih
        refine ⟨⟨.T_ERROR, "@"⟩ :: tokens, ?_, ?_, ?_⟩
        · unfold successiveCalls
          rw [hcall]
          simp only
          rw [h1]
        · cases tokens with
          | nil => cases h2
          | cons t ts => rw [List.getLast?_cons_cons]; exact h2
        · intro token ht
          rcases List.mem_cons.mp ht with ht | ht
          · exact ht
          · exact h3 token ht
    intro n
    obtain ⟨tokens, h1, h2, h3⟩ := hstuck n
    have hc1 : getNextTokenLex 10 exampleLex =
        some (.ok (⟨.T_ID, "aa"⟩, { exampleLex with programBufferPosition := 2 })) := rfl
    have hc2 : getNextTokenLex 10 { exampleLex with programBufferPosition := 2 } =
        some (.ok (⟨.T_WHITE_SPACE, " "⟩, errorLex)) := rfl
    refine ⟨⟨.T_ID, "aa"⟩ :: ⟨.T_WHITE_SPACE, " "⟩ :: tokens, errorLex, ?_, rfl, ?_, ?_, ?_⟩
    · have e : n + 3 = (n + 1) + 1 + 1 := by omega
      rw [e]
      conv_lhs => unfold successiveCalls
      rw [hc1]
      simp only
      conv_lhs => unfold successiveCalls
      rw [hc2]
      simp only
      rw [h1]
    · cases tokens with
      | nil => cases h2
      | cons t ts =>
        rw [List.getLast?_cons_cons, List.getLast?_cons_cons]; exact h2
    · intro token ht
      rcases List.mem_cons.mp ht with ht | ht
      · rw [ht]; decide
      · rcases List.mem_cons.mp ht with ht | ht
        · rw [ht]; decide
        · rw [h3 token ht]; decide
    · intro hv
      cases tokens with
      | nil => cases h2
      | cons t ts =>
        have ht := h3 t (List.mem_cons_self _ _)
        subst ht
        cases ts with
        | nil => exact absurd hv (by decide)
        | cons t2 ts2 =>
          have ht2 := h3 t2 (List.mem_cons_of_mem _ (List.mem_cons_self _ _))
          subst ht2
          have e : values (⟨.T_ID, "aa"⟩ :: ⟨.T_WHITE_SPACE, " "⟩ :: ⟨.T_ERROR, "@"⟩ ::
              ⟨.T_ERROR, "@"⟩ :: ts2) = 'a' :: 'a' :: ' ' :: '@' :: '@' :: values ts2 := rfl
          rw [e] at hv
          have h4 : (('a' :: 'a' :: ' ' :: '@' :: '@' :: values ts2).getD 4 'x') =
              exampleLex.programBuffer.getD 4 'x' := by rw [hv]
          have h5 : ('@' : Char) = 'a' := h4
          exact absurd h5 (by decide)

/-- C29 (amended). For any input buffer and any transition function that returns the
invalid state on the end letter, the tokens returned by successive `getNextTokenLex`
calls from offset 0 that moved the offset have consecutive, non-empty spans inside the
buffer, and their values make up the buffer before the current offset.  The next call
returns the END-OF-FILE token (exactly at the end of the buffer, and then the values make
up the whole buffer), or a further token whose value is the span it moves the offset
over, or the ERROR token of the letter at the offset, leaving the object as it was (so
that every later call does the same and END-OF-FILE is never returned), or it throws. -/
theorem token_spans_cover (fuel : Nat) (lex0 : LexicalAnalysis) (tokens : List Token)
    (lex : LexicalAnalysis)
    (hfsm : ∀ state, lex0.fsm.getNextState state endLetter = INVALID_STATE)
    (h0 : lex0.programBufferPosition = 0) (hfuel : lex0.programBuffer.length < fuel)
    (hscan : Scanned fuel lex0 tokens lex) :
    values tokens = lex0.programBuffer.take lex.programBufferPosition ∧
    lex.programBufferPosition ≤ lex0.programBuffer.length ∧
    tokens.length ≤ lex.programBufferPosition ∧
    ((lex.programBufferPosition = lex0.programBuffer.length ∧
        getNextTokenLex fuel lex = some (.ok (Token.makeEofToken, lex)) ∧
        values tokens = lex0.programBuffer) ∨
     (∃ token lex1, getNextTokenLex fuel lex = some (.ok (token, lex1)) ∧
        lex.programBufferPosition < lex1.programBufferPosition ∧
        lex1.programBufferPosition ≤ lex0.programBuffer.length ∧
        token.value.toList = (lex0.programBuffer.drop lex.programBufferPosition).take
          (lex1.programBufferPosition - lex.programBufferPosition) ∧
        Scanned fuel lex0 (tokens ++ [token]) lex1) ∨
     (lex.programBufferPosition < lex0.programBuffer.length ∧
        getNextTokenLex fuel lex =
          some (.ok (Token.makeErrorToken lex.programBufferPosition lex0.programBuffer, lex))) ∨
     (∃ what, getNextTokenLex fuel lex = some (.error (.runtime_error what)))) := by
  obtain ⟨i1, i2, i3, i4, i5⟩ := scanned_inv fuel lex0 hfsm h0 hfuel tokens lex hscan
  refine ⟨i3, i4, i5, ?_⟩
  by_cases hpos : lex.programBufferPosition < lex.programBuffer.length
  · -- a call inside the buffer
    rcases getNextTokenLex_spec lex fuel (by rw [i2]; exact hfsm) hpos (by rw [i1]; exact hfuel)
      with ⟨q, state, hq1, hq2, hq⟩ | hq | ⟨what, hq⟩
    · right; left
      refine ⟨_, _, hq, hq1, by rw [← i1]; exact hq2, by rw [← i1]; rfl, ?_⟩
      exact Scanned.call tokens lex _ _ hscan hq (by
        show q ≠ lex.programBufferPosition
        omega)
    · right; right; left
      exact ⟨by rw [← i1]; exact hpos, by rw [← i1]; exact hq⟩
    · right; right; right
      exact ⟨what, hq⟩
  · -- a call at the end of the buffer
    left
    have hend : lex.programBufferPosition = lex0.programBuffer.length := by
      rw [i1] at hpos
      omega
    obtain ⟨n, hn⟩ : ∃ n, fuel = n + 1 := ⟨fuel - 1, by omega⟩
    refine ⟨hend, by rw [hn]; exact getNextTokenLex_eof lex n (by omega), ?_⟩
    rw [i3, hend, List.take_length]

/-- Witness of C29 on the buffer `aa a`: the three tokens `aa`, blank and `a` move the
offset to the end of the buffer. -/
theorem token_spans_cover_witness :
    values [⟨.T_ID, "aa"⟩, ⟨.T_WHITE_SPACE, " "⟩, ⟨.T_ID, "a"⟩] =
      cleanLex.programBuffer.take 4 ∧
    4 ≤ cleanLex.programBuffer.length ∧ 3 ≤ 4 ∧
    ((4 = cleanLex.programBuffer.length ∧
        getNextTokenLex 5 { cleanLex with programBufferPosition := 4 } =
          some (.ok (Token.makeEofToken, { cleanLex with programBufferPosition := 4 })) ∧
        values [⟨.T_ID, "aa"⟩, ⟨.T_WHITE_SPACE, " "⟩, ⟨.T_ID, "a"⟩] = cleanLex.programBuffer) ∨
     (∃ token lex1, getNextTokenLex 5 { cleanLex with programBufferPosition := 4 } =
          some (.ok (token, lex1)) ∧
        4 < lex1.programBufferPosition ∧
        lex1.programBufferPosition ≤ cleanLex.programBuffer.length ∧
        token.value.toList = (cleanLex.programBuffer.drop 4).take
          (lex1.programBufferPosition - 4) ∧
        Scanned 5 cleanLex ([⟨.T_ID, "aa"⟩, ⟨.T_WHITE_SPACE, " "⟩, ⟨.T_ID, "a"⟩] ++ [token])
          lex1) ∨
     (4 < cleanLex.programBuffer.length ∧
        getNextTokenLex 5 { cleanLex with programBufferPosition := 4 } =
          some (.ok (Token.makeErrorToken 4 cleanLex.programBuffer,
            { cleanLex with programBufferPosition := 4 }))) ∨
     (∃ what, getNextTokenLex 5 { cleanLex with programBufferPosition := 4 } =
        some (.error (.runtime_error what)))) :=
  token_spans_cover 5 cleanLex [⟨.T_ID, "aa"⟩, ⟨.T_WHITE_SPACE, " "⟩, ⟨.T_ID, "a"⟩]
    { cleanLex with programBufferPosition := 4 }
    (fun state => by
      have ha : Char.ofNat 255 ≠ 'a' := by decide
      have hb : Char.ofNat 255 ≠ ' ' := by decide
      show (if endLetter = 'a' ∧ (state = 1 ∨ state = 2) then (2 : Int)
        else if endLetter = ' ' ∧ (state = 1 ∨ state = 3) then 3 else -2) = INVALID_STATE
      rw [if_neg (fun h => ha h.1), if_neg (fun h => hb h.1)]
      rfl)
    rfl (by decide)
    (Scanned.call [⟨.T_ID, "aa"⟩, ⟨.T_WHITE_SPACE, " "⟩]
      { cleanLex with programBufferPosition := 3 } _ ⟨.T_ID, "a"⟩
      (Scanned.call [⟨.T_ID, "aa"⟩] { cleanLex with programBufferPosition := 2 } _
        ⟨.T_WHITE_SPACE, " "⟩
        (Scanned.call [] cleanLex _ ⟨.T_ID, "aa"⟩ Scanned.start rfl (by decide))
        rfl (by decide))
      rfl (by decide))

/-! ## The emitter -/

theorem replaceChars_cons (c : Char) (rest withText : List Char) :
    replaceChars (c :: rest) withText =
      if c = apostrophe then withText ++ rest.drop 1 else c :: replaceChars rest withText := by
  rw [replaceChars]

theorem fillFrom_cons (c : Char) (rest : List Char) (text : String) (texts : List String) :
    fillFrom false (c :: rest) (text :: texts) =
      if c = apostrophe then text.toList ++ fillFrom true rest texts
      else c :: fillFrom false rest (text :: texts) := by
  rw [fillFrom]

theorem replaceChars_head (head : List Char) (h : apostrophe ∉ head) (rest withText : List Char) :
    replaceChars (head ++ rest) withText = head ++ replaceChars rest withText := by
  induction head with
  | nil => rfl
  | cons c cs ih =>
    have hc : c ≠ apostrophe := fun e => h (by rw [e]; exact List.mem_cons_self _ _)
    have hcs : apostrophe ∉ cs := fun e => h (List.mem_cons_of_mem _ e)
    show replaceChars (c :: (cs ++ rest)) withText = c :: (cs ++ replaceChars rest withText)
    rw [replaceChars_cons, if_neg hc, ih hcs]

theorem replaceChars_nil (withText : List Char) : replaceChars [] withText = [] := rfl

theorem fillFrom_skip (rest : List Char) (texts : List String) :
    fillFrom true rest texts = fillFrom false (rest.drop 1) texts := by
  cases rest with
  | nil => cases texts <;> rfl
  | cons c cs => cases texts <;> rfl

theorem fillFrom_none (template : List Char) : fillFrom false template [] = template := by
  induction template with
  | nil => rfl
  | cons c cs ih =>
    show c :: fillFrom false cs [] = c :: cs
    rw [ih]

/-- The substitution of the operand texts, one `replace` after the other, fills the
placeholders of the template from left to right. -/
theorem replaceAll_fill (texts : List String) (hclean : ∀ t ∈ texts, Clean t) :
    ∀ (head template : List Char), apostrophe ∉ head →
      texts.foldl (fun val t => replaceChars val t.toList) (head ++ template) =
        head ++ fillFrom false template texts := by
  induction texts with
  | nil =>
    intro head template _
    rw [fillFrom_none]
    rfl
  | cons t ts ih =>
    have hts : ∀ u ∈ ts, Clean u := fun u hu => hclean u (List.mem_cons_of_mem _ hu)
    have ht : apostrophe ∉ t.toList := hclean t (List.mem_cons_self _ _)
    intro head template
    induction template generalizing head with
    | nil =>
      intro hh
      show ts.foldl (fun val t => replaceChars val t.toList) (replaceChars (head ++ []) t.toList) = _
      rw [replaceChars_head head hh, replaceChars_nil, ih hts head [] hh]
      cases ts <;> rfl
    | cons c cs ihc =>
      intro hh
      show ts.foldl (fun val t => replaceChars val t.toList)
        (replaceChars (head ++ c :: cs) t.toList) = _
      rw [replaceChars_head head hh]
      by_cases hc : c = apostrophe
      · have e1 : replaceChars (c :: cs) t.toList = t.toList ++ cs.drop 1 := by
          rw [replaceChars_cons, if_pos hc]
        have e2 : fillFrom false (c :: cs) (t :: ts) = t.toList ++ fillFrom true cs ts := by
          rw [fillFrom_cons, if_pos hc]
        rw [e1, e2, fillFrom_skip, ← List.append_assoc,
          ih hts (head ++ t.toList) (cs.drop 1) (by
            intro hmem
            rcases List.mem_append.mp hmem with h1 | h1
            · exact hh h1
            · exact ht h1), List.append_assoc]
      · have e1 : replaceChars (c :: cs) t.toList = c :: replaceChars cs t.toList := by
          rw [replaceChars_cons, if_neg hc]
        have e2 : fillFrom false (c :: cs) (t :: ts) = c :: fillFrom false cs (t :: ts) := by
          rw [fillFrom_cons, if_neg hc]
        have hh2 : apostrophe ∉ head ++ [c] := by
          intro hmem
          rcases List.mem_append.mp hmem with h1 | h1
          · exact hh h1
          · simp only [List.mem_singleton] at h1
            exact hc h1.symm
        have hrec := ihc (head ++ [c]) hh2
        have e3 : ts.foldl (fun val t => replaceChars val t.toList)
            (replaceChars (head ++ [c] ++ cs) t.toList) =
            ts.foldl (fun val t => replaceChars val t.toList)
              (head ++ [c] ++ replaceChars cs t.toList) := by
          rw [replaceChars_head (head ++ [c]) hh2]
        have hrec2 : ts.foldl (fun val t => replaceChars val t.toList)
            (head ++ [c] ++ replaceChars cs t.toList) =
            head ++ [c] ++ fillFrom false cs (t :: ts) := by
          rw [← e3]
          exact hrec
        rw [e1, e2]
        have e4 : head ++ c :: replaceChars cs t.toList =
            head ++ [c] ++ replaceChars cs t.toList := by simp
        have e5 : head ++ c :: fillFrom false cs (t :: ts) =
            head ++ [c] ++ fillFrom false cs (t :: ts) := by simp
        rw [e4, e5]
        exact hrec2

/-- With at least as many texts as apostrophes no placeholder is left. -/
theorem fillFrom_clean (template : List Char) :
    ∀ (skip : Bool) (texts : List String), (∀ t ∈ texts, Clean t) →
      template.count apostrophe ≤ texts.length →
      apostrophe ∉ fillFrom skip template texts := by
  induction template with
  | nil =>
    intro skip texts _ _
    cases skip <;> cases texts <;> simp [fillFrom]
  | cons c cs ih =>
    intro skip texts hclean hcount
    have hle : cs.count apostrophe ≤ (c :: cs).count apostrophe := by
      rw [List.count_cons]
      omega
    cases skip with
    | true =>
      have e : fillFrom true (c :: cs) texts = fillFrom false cs texts := by
        cases texts <;> rfl
      rw [e]
      exact ih false texts hclean (by omega)
    | false =>
      cases texts with
      | nil =>
        have hc0 : (c :: cs).count apostrophe = 0 := by
          simpa using hcount
        have hnot : apostrophe ∉ c :: cs := List.count_eq_zero.mp hc0
        rw [fillFrom_none]
        exact hnot
      | cons t ts =>
        have hts : ∀ u ∈ ts, Clean u := fun u hu => hclean u (List.mem_cons_of_mem _ hu)
        by_cases hc : c = apostrophe
        · have e2 : fillFrom false (c :: cs) (t :: ts) = t.toList ++ fillFrom true cs ts := by
            rw [fillFrom_cons, if_pos hc]
          rw [e2]
          have hcount2 : cs.count apostrophe ≤ ts.length := by
            rw [List.count_cons, hc] at hcount
            simp only [beq_self_eq_true, if_true, List.length_cons] at hcount
            omega
          intro hmem
          rcases List.mem_append.mp hmem with h1 | h1
          · exact hclean t (List.mem_cons_self _ _) h1
          · exact ih true ts hts hcount2 h1
        · have e2 : fillFrom false (c :: cs) (t :: ts) = c :: fillFrom false cs (t :: ts) := by
            rw [fillFrom_cons, if_neg hc]
          rw [e2]
          intro hmem
          rcases List.mem_cons.mp hmem with h1 | h1
          · exact hc h1.symm
          · exact ih false (t :: ts) hclean (by omega) h1

theorem replace_toList (what withText : String) :
    (replace what withText).toList = replaceChars what.toList withText.toList := rfl

theorem replace_head (head what withText : String) (h : Clean head) :
    replace (head ++ what) withText = head ++ replace what withText := by
  apply String.ext
  show replaceChars (head ++ what).data withText.data = (head ++ replace what withText).data
  rw [String.data_append, String.data_append]
  exact replaceChars_head head.data h what.data withText.data

theorem replaceAll_head (heap : List Variable) (operands : List Nat) :
    ∀ (head val : String), Clean head →
      operands.foldl (fun val v => replace val (deref heap v).get) (head ++ val) =
        head ++ operands.foldl (fun val v => replace val (deref heap v).get) val := by
  induction operands with
  | nil =>
    intro head val _
    rfl
  | cons p ps ih =>
    intro head val h
    show ps.foldl _ (replace (head ++ val) (deref heap p).get) = _
    rw [replace_head head val _ h]
    exact ih head _ h

theorem replaceAll_empty (heap : List Variable) (operands : List Nat) :
    operands.foldl (fun val v => replace val (deref heap v).get) "" = "" := by
  induction operands with
  | nil => rfl
  | cons p ps ih =>
    show ps.foldl _ (replace "" (deref heap p).get) = _
    exact ih

theorem replaceAll_toList (heap : List Variable) (operands : List Nat) :
    ∀ val : String,
      (operands.foldl (fun val v => replace val (deref heap v).get) val).toList =
        (operands.map (fun v => (deref heap v).get)).foldl
          (fun val t => replaceChars val t.toList) val.toList := by
  induction operands with
  | nil =>
    intro val
    rfl
  | cons p ps ih =>
    intro val
    show (ps.foldl _ (replace val (deref heap p).get)).toList = _
    rw [ih]
    rfl

/-- The printed line is the head of the line followed by the body, when the label has
no apostrophe in its name. -/
theorem printInstruction_eq (heap : List Variable) (i : Instruction)
    (hclean : Clean (lineHead heap i)) :
    printInstruction heap i = lineHead heap i ++ i.body heap := by
  have hfold : printInstruction heap i =
      (i.m_dst ++ i.m_src).foldl (fun val v => replace val (deref heap v).get)
        (lineHead heap i ++ i.toString) := by
    unfold printInstruction lineHead
    rw [List.foldl_append]
    cases i.label <;> rfl
  rw [hfold, replaceAll_head heap _ _ _ hclean]
  rfl

theorem body_of_isFunc (heap : List Variable) (i : Instruction) (h : i.isFunc = true) :
    i.body heap = "" := by
  have htype : i.m_type = .I_NO_TYPE := by
    unfold Instruction.isFunc at h
    rw [Bool.and_eq_true] at h
    exact eq_of_beq h.2
  unfold Instruction.body Instruction.toString
  rw [htype]
  exact replaceAll_empty heap _

theorem clean_append (a b : String) (ha : Clean a) (hb : Clean b) : Clean (a ++ b) := by
  unfold Clean at *
  show apostrophe ∉ (a ++ b).data
  rw [String.data_append]
  intro h
  rcases List.mem_append.mp h with h1 | h1
  · exact ha h1
  · exact hb h1

/-- C27 (counterexample). The labelled load word of `done: lw r1, 4(r2);` is printed as
`done:`, a line break, a tab and the body; with one tab after the colon and no line break
the text is another one.  The function entry is printed as `main:` alone and the
instruction without a label as a tab and its body. -/
theorem label_then_line_break :
    emitParsed.instrs.map (printInstruction emitHeap) =
        ["main:", "done:\n\tlw $t0, 4($t1)", "\tnop"] ∧
      emitParsed.instrs.map (fun i => i.body emitHeap) = ["", "lw $t0, 4($t1)", "nop"] ∧
      emitParsed.instrs.map (fun i => (i.label.map (fun l => (deref emitHeap l).get), i.isFunc)) =
        [(some "main", true), (some "done", false), (none, false)] ∧
      printInstruction emitHeap (emitParsed.instrs.getD 1 default) ≠
        "done:" ++ "\t" ++ (emitParsed.instrs.getD 1 default).body emitHeap := by
  decide!

/-- C27 (amended). An instruction with an attached label, whose name holds no apostrophe,
is printed as `<label>:` and nothing more when it is the function entry, and as
`<label>:`, a line break, one tab and the body when it is not; an instruction without a
label is printed as a tab and its body. -/
theorem label_line_break (heap : List Variable) (i : Instruction)
    (hclean : ∀ label, i.label = some label → Clean (deref heap label).get) :
    printInstruction heap i =
      match i.label with
      | some label =>
        (deref heap label).get ++ ":" ++ (if i.isFunc then "" else "\n\t" ++ i.body heap)
      | none => "\t" ++ i.body heap := by
  have hhead : Clean (lineHead heap i) := by
    unfold lineHead
    cases hl : i.label with
    | none =>
      show Clean "\t"
      decide
    | some label =>
      show Clean ((deref heap label).get ++ ":" ++ (if i.isFunc then "" else "\n\t"))
      apply clean_append
      · exact clean_append _ _ (hclean label hl) (by decide)
      · split
        · decide
        · decide
  rw [printInstruction_eq heap i hhead]
  unfold lineHead
  cases hl : i.label with
  | none => rfl
  | some label =>
    show (deref heap label).get ++ ":" ++ (if i.isFunc then "" else "\n\t") ++ i.body heap =
      (deref heap label).get ++ ":" ++ (if i.isFunc then "" else "\n\t" ++ i.body heap)
    by_cases hf : i.isFunc = true
    · rw [if_pos hf, if_pos hf, body_of_isFunc heap i hf, String.append_empty]
    · rw [if_neg hf, if_neg hf, String.append_assoc ((deref heap label).get ++ ":")]

/-- Witness of C27: the labelled load word of `done: lw r1, 4(r2);`. -/
theorem label_line_break_witness :
    (∀ label, (emitParsed.instrs.getD 1 default).label = some label →
        Clean (deref emitHeap label).get) ∧
      printInstruction emitHeap (emitParsed.instrs.getD 1 default) =
        "done:" ++ ("\n\t" ++ "lw $t0, 4($t1)") :=
  ⟨by decide!, (label_line_break emitHeap (emitParsed.instrs.getD 1 default)
    (by decide!)).trans (by decide!)⟩

theorem kc_bind {α β : Type} (m : Parser α) (f : α → Parser β) (Q : α → Prop) (R : β → Prop)
    (hm : KeepsClean m Q) (hf : ∀ a, Q a → KeepsClean (f a) R) : KeepsClean (m >>= f) R := by
  intro s b s2 hc h
  obtain ⟨a, s1, h1, h2⟩ := (bind_ok_iff _ _ _ _ _).mp h
  obtain ⟨c1, q1⟩ := hm s a s1 hc h1
  exact hf a q1 s1 b s2 c1 h2

theorem kc_mono {α : Type} (m : Parser α) (Q R : α → Prop) (hm : KeepsClean m Q)
    (h : ∀ a, Q a → R a) : KeepsClean m R := by
  intro s a s1 hc hs
  obtain ⟨c1, q1⟩ := hm s a s1 hc hs
  exact ⟨c1, h a q1⟩

theorem kc_frame {α : Type} (m : Parser α)
    (h : ∀ s a s1, m s = .ok a s1 → s1.tokens = s.tokens ∧ s1.heap = s.heap) :
    KeepsClean m (fun _ => True) := by
  intro s a s1 hc hs
  obtain ⟨h1, h2⟩ := h s a s1 hs
  unfold HeapClean at hc ⊢
  rw [h1, h2]
  exact ⟨hc, trivial⟩

theorem kc_pure {α : Type} (a : α) (Q : α → Prop) (h : Q a) :
    KeepsClean (pure a : Parser α) Q := by
  intro s b s1 hc hs
  obtain ⟨h1, h2⟩ := (pure_ok_iff _ _ _ _).mp hs
  subst h1; subst h2
  exact ⟨hc, h⟩

theorem kc_eat (t : TokenType) : KeepsClean (eat t) (fun _ => True) :=
  kc_frame _ (fun s a s1 h => ⟨(eat_opnd t s s1 a h).1.tokens, eat_heap t s s1 a h⟩)

theorem kc_glance (t : TokenType) : KeepsClean (glance t) (fun _ => True) :=
  kc_frame _ (fun s a s1 h => by rw [(glance_ok t s s1 a h).1]; exact ⟨rfl, rfl⟩)

theorem kc_stoiP (str : String) : KeepsClean (stoiP str) (fun _ => True) :=
  kc_frame _ (fun s a s1 h => by rw [stoiP_ok str s s1 a h]; exact ⟨rfl, rfl⟩)

theorem kc_newInstruction (type : InstructionType) (lab : Option Nat) :
    KeepsClean (newInstruction type lab) (fun _ => True) :=
  kc_frame _ (fun s a s1 h => by
    unfold newInstruction at h
    simp only [Result.ok.injEq] at h
    rw [← h.2]
    exact ⟨rfl, rfl⟩)

theorem kc_finishE (i : Instruction) : KeepsClean (finishE i) (fun _ => True) :=
  kc_frame _ (fun s a s1 h => by
    obtain ⟨j, hj, _⟩ := finishE_ok i s s1 a h
    rw [hj]
    exact ⟨rfl, rfl⟩)

theorem clean_currentTok (s : SyntaxAnalysis) (hc : HeapClean s) : Clean (currentTok s).value := by
  by_cases h : (currentTok s).tokenType = .T_NO_TYPE
  · by_cases hlt : s.currentToken < s.tokens.length
    · have : currentTok s = s.tokens[s.currentToken] := by
        simp [currentTok, List.getD_eq_getElem?_getD, List.getElem?_eq_getElem hlt]
      rw [this]
      exact hc.1 _ (List.getElem_mem hlt)
    · have hnone : s.tokens[s.currentToken]? = none := List.getElem?_eq_none (by omega)
      have : currentTok s = default := by
        simp [currentTok, List.getD_eq_getElem?_getD, hnone]
      rw [this]
      decide
  · exact hc.1 _ (currentTok_mem s h)

theorem kc_curValue : KeepsClean curValue Clean := by
  intro s a s1 hc h
  unfold curValue at h
  simp only [Result.ok.injEq] at h
  rw [← h.1, ← h.2]
  exact ⟨hc, clean_currentTok s hc⟩

theorem kc_newVariable (type : VariableType) (name : String) (val : Int)
    (htype : type ≠ .NO_TYPE) (hname : Clean name) :
    KeepsClean (newVariable type name val) (fun _ => True) := by
  intro s a s1 hc h
  obtain ⟨_, n2, _, _, _, _, _, _, _, _, var, n10, n11, n12, _⟩ := newVariable_ok _ _ _ _ _ _ h
  refine ⟨⟨by rw [n2]; exact hc.1, ?_⟩, trivial⟩
  rw [n10]
  intro v hv
  rcases List.mem_append.mp hv with h1 | h1
  · exact hc.2 v h1
  · simp only [List.mem_singleton] at h1
    rw [h1, n11, n12]
    exact ⟨htype, hname⟩

theorem clean_mk_drop (name : String) (h : Clean name) (k : Nat) :
    Clean (String.mk (name.toList.drop k)) := by
  unfold Clean at *
  intro hm
  exact h (List.mem_of_mem_drop hm)

theorem kc_findVariableNamed (name : String) (hname : Clean name) :
    KeepsClean (findVariableNamed name) (fun _ => True) := by
  intro s a s1 hc h
  unfold findVariableNamed at h
  simp only at h
  split at h
  · split at h
    · simp only [Result.ok.injEq] at h
      rw [← h.2]
      exact ⟨hc, trivial⟩
    · cases h
  · split at h
    · simp only [Result.ok.injEq] at h
      rw [← h.2]
      exact ⟨hc, trivial⟩
    · cases h
  · split at h
    · simp only [Result.ok.injEq] at h
      rw [← h.2]
      exact ⟨hc, trivial⟩
    · refine kc_bind _ _ _ _ (kc_stoiP _) (fun val _ => kc_bind _ _ _ _
        (kc_newVariable .CONST_VAR _ val (by decide)
          (clean_append _ _ (by decide) (clean_mk_drop name hname 1)))
        (fun var _ => kc_frame _ (fun t b t1 ht => by
          simp only [Result.ok.injEq] at ht
          rw [← ht.2]
          exact ⟨rfl, rfl⟩))) s a s1 hc h
  · cases h

theorem kc_findVariable : KeepsClean findVariable (fun _ => True) := by
  intro s a s1 hc h
  exact kc_findVariableNamed _ (clean_currentTok s hc) s a s1 hc h

theorem clean_repr (n : Nat) : apostrophe ∉ (Nat.repr n).toList := by
  intro h
  have := ((repr_spec n).2.1 _ h).1
  revert this
  decide

theorem clean_to_string (n : Int) : Clean (to_string n) := by
  cases n with
  | ofNat m => exact clean_repr m
  | negSucc m =>
    have e : to_string (Int.negSucc m) = String.mk ('-' :: (Nat.repr (m + 1)).toList) := rfl
    rw [e]
    intro h
    rcases List.mem_cons.mp h with h1 | h1
    · revert h1
      decide
    · exact clean_repr (m + 1) h1

theorem kc_constVariable (value : Int) : KeepsClean (constVariable value) (fun _ => True) :=
  kc_findVariableNamed _ (clean_append _ _ (by decide) (clean_to_string value))

theorem kc_findLabel (name : String) (hname : Clean name) :
    KeepsClean (findLabel name) (fun _ => True) := by
  intro s a s1 hc h
  unfold findLabel at h
  split at h
  · simp only [Result.ok.injEq] at h
    rw [← h.2]
    exact ⟨hc, trivial⟩
  · refine kc_bind _ _ _ _ (kc_newVariable .LABEL_VAR name 0 (by decide) hname)
      (fun var _ => kc_frame _ (fun t b t1 ht => by
        simp only [Result.ok.injEq] at ht
        rw [← ht.2]
        exact ⟨rfl, rfl⟩)) s a s1 hc h

theorem kc_exists (m : Parser Unit) (h : ∀ s s1 a, m s = .ok a s1 → s1 = s) :
    KeepsClean m (fun _ => True) :=
  kc_frame _ (fun s a s1 hs => by rw [h s s1 a hs]; exact ⟨rfl, rfl⟩)

theorem kc_createVariable : KeepsClean createVariable (fun _ => True) := by
  intro s a s1 hc h
  unfold createVariable at h
  split at h
  · exact kc_bind _ _ _ _ kc_curValue (fun name hn =>
      kc_bind _ _ _ _ (kc_exists _ (memVariableExists_ok name)) (fun _ _ =>
      kc_bind _ _ _ _ (kc_eat _) (fun _ _ =>
      kc_bind _ _ _ _ (kc_glance _) (fun _ _ =>
      kc_bind _ _ _ _ kc_curValue (fun text _ =>
      kc_bind _ _ _ _ (kc_stoiP text) (fun val _ =>
      kc_bind _ _ _ _ (kc_newVariable .MEM_VAR name val (by decide) hn) (fun var _ =>
      kc_bind _ _ _ _ (kc_eat _) (fun _ _ => kc_pure var _ trivial)))))))) s a s1 hc h
  · exact kc_bind _ _ _ _ kc_curValue (fun name hn =>
      kc_bind _ _ _ _ (kc_exists _ (regVariableExists_ok name)) (fun _ _ =>
      kc_bind _ _ _ _ (kc_eat _) (fun _ _ =>
      kc_newVariable .REG_VAR name 0 (by decide) hn))) s a s1 hc h
  · exact kc_bind _ _ _ _ kc_curValue (fun name hn =>
      kc_bind _ _ _ _ (kc_exists _ (labelExists_ok name)) (fun _ _ =>
      kc_bind _ _ _ _ (kc_eat _) (fun _ _ =>
      kc_newVariable .LABEL_VAR name 1 (by decide) hn))) s a s1 hc h
  · cases h

theorem kc_regOperand : KeepsClean regOperand (fun _ => True) :=
  kc_bind _ _ _ _ (kc_glance _) (fun _ _ =>
    kc_bind _ _ _ _ kc_findVariable (fun v _ =>
    kc_bind _ _ _ _ (kc_eat _) (fun _ _ => kc_pure v _ trivial)))

theorem kc_numOperand : KeepsClean numOperand (fun _ => True) :=
  kc_bind _ _ _ _ (kc_glance _) (fun _ _ =>
    kc_bind _ _ _ _ kc_curValue (fun text _ =>
    kc_bind _ _ _ _ (kc_stoiP text) (fun n _ =>
    kc_bind _ _ _ _ (kc_constVariable n) (fun v _ =>
    kc_bind _ _ _ _ (kc_eat _) (fun _ _ => kc_pure v _ trivial)))))

theorem kc_labelOperand : KeepsClean labelOperand (fun _ => True) :=
  kc_bind _ _ _ _ (kc_glance _) (fun _ _ =>
    kc_bind _ _ _ _ kc_curValue (fun name hn =>
    kc_bind _ _ _ _ (kc_findLabel name hn) (fun v _ =>
    kc_bind _ _ _ _ (kc_eat _) (fun _ _ => kc_pure v _ trivial))))

theorem kc_threeRegs (token : TokenType) (type : InstructionType) :
    KeepsClean (threeRegs token type) (fun _ => True) :=
  kc_bind _ _ _ _ (kc_eat _) (fun _ _ =>
    kc_bind _ _ _ _ (kc_newInstruction _ _) (fun _ _ =>
    kc_bind _ _ _ _ kc_regOperand (fun _ _ =>
    kc_bind _ _ _ _ (kc_eat _) (fun _ _ =>
    kc_bind _ _ _ _ kc_regOperand (fun _ _ =>
    kc_bind _ _ _ _ (kc_eat _) (fun _ _ =>
    kc_bind _ _ _ _ kc_regOperand (fun _ _ => kc_finishE _)))))))

theorem kc_E : KeepsClean E (fun _ => True) := by
  intro s a s1 hc h
  unfold E at h
  split at h
  · exact kc_threeRegs _ _ s a s1 hc h
  · exact kc_bind _ _ _ _ (kc_eat _) (fun _ _ =>
      kc_bind _ _ _ _ (kc_newInstruction _ _) (fun _ _ =>
      kc_bind _ _ _ _ kc_regOperand (fun _ _ =>
      kc_bind _ _ _ _ (kc_eat _) (fun _ _ =>
      kc_bind _ _ _ _ kc_regOperand (fun _ _ =>
      kc_bind _ _ _ _ (kc_eat _) (fun _ _ =>
      kc_bind _ _ _ _ kc_numOperand (fun _ _ => kc_finishE _))))))) s a s1 hc h
  · exact kc_bind _ _ _ _ (kc_eat _) (fun _ _ =>
      kc_bind _ _ _ _ (kc_newInstruction _ _) (fun _ _ =>
      kc_bind _ _ _ _ kc_labelOperand (fun _ _ => kc_finishE _))) s a s1 hc h
  · exact kc_bind _ _ _ _ (kc_eat _) (fun _ _ =>
      kc_bind _ _ _ _ (kc_newInstruction _ _) (fun _ _ =>
      kc_bind _ _ _ _ kc_regOperand (fun _ _ =>
      kc_bind _ _ _ _ (kc_eat _) (fun _ _ =>
      kc_bind _ _ _ _ kc_labelOperand (fun _ _ => kc_finishE _))))) s a s1 hc h
  · exact kc_bind _ _ _ _ (kc_eat _) (fun _ _ =>
      kc_bind _ _ _ _ (kc_newInstruction _ _) (fun _ _ =>
      kc_bind _ _ _ _ kc_regOperand (fun _ _ =>
      kc_bind _ _ _ _ (kc_eat _) (fun _ _ =>
      kc_bind _ _ _ _ (kc_glance _) (fun _ _ =>
      kc_bind _ _ _ _ kc_findVariable (fun _ _ =>
      kc_bind _ _ _ _ (kc_eat _) (fun _ _ => kc_finishE _))))))) s a s1 hc h
  · exact kc_bind _ _ _ _ (kc_eat _) (fun _ _ =>
      kc_bind _ _ _ _ (kc_newInstruction _ _) (fun _ _ =>
      kc_bind _ _ _ _ kc_regOperand (fun _ _ =>
      kc_bind _ _ _ _ (kc_eat _) (fun _ _ =>
      kc_bind _ _ _ _ kc_numOperand (fun _ _ => kc_finishE _))))) s a s1 hc h
  · exact kc_bind _ _ _ _ (kc_eat _) (fun _ _ =>
      kc_bind _ _ _ _ (kc_newInstruction _ _) (fun _ _ =>
      kc_bind _ _ _ _ kc_regOperand (fun _ _ =>
      kc_bind _ _ _ _ (kc_eat _) (fun _ _ =>
      kc_bind _ _ _ _ kc_numOperand (fun _ _ =>
      kc_bind _ _ _ _ (kc_eat _) (fun _ _ =>
      kc_bind _ _ _ _ kc_regOperand (fun _ _ =>
      kc_bind _ _ _ _ (kc_eat _) (fun _ _ => kc_finishE _)))))))) s a s1 hc h
  · exact kc_bind _ _ _ _ (kc_eat _) (fun _ _ =>
      kc_bind _ _ _ _ (kc_newInstruction _ _) (fun _ _ => kc_finishE _)) s a s1 hc h
  · exact kc_threeRegs _ _ s a s1 hc h
  · exact kc_bind _ _ _ _ (kc_eat _) (fun _ _ =>
      kc_bind _ _ _ _ (kc_newInstruction _ _) (fun _ _ =>
      kc_bind _ _ _ _ kc_regOperand (fun _ _ =>
      kc_bind _ _ _ _ (kc_eat _) (fun _ _ =>
      kc_bind _ _ _ _ kc_numOperand (fun _ _ =>
      kc_bind _ _ _ _ (kc_eat _) (fun _ _ =>
      kc_bind _ _ _ _ kc_regOperand (fun _ _ =>
      kc_bind _ _ _ _ (kc_eat _) (fun _ _ => kc_finishE _)))))))) s a s1 hc h
  · exact kc_threeRegs _ _ s a s1 hc h
  · exact kc_threeRegs _ _ s a s1 hc h
  · exact kc_bind _ _ _ _ (kc_eat _) (fun _ _ =>
      kc_bind _ _ _ _ (kc_newInstruction _ _) (fun _ _ =>
      kc_bind _ _ _ _ kc_regOperand (fun _ _ =>
      kc_bind _ _ _ _ (kc_eat _) (fun _ _ =>
      kc_bind _ _ _ _ kc_regOperand (fun _ _ => kc_finishE _))))) s a s1 hc h
  · exact kc_bind _ _ _ _ (kc_eat _) (fun _ _ =>
      kc_bind _ _ _ _ (kc_newInstruction _ _) (fun _ _ =>
      kc_bind _ _ _ _ kc_regOperand (fun _ _ =>
      kc_bind _ _ _ _ (kc_eat _) (fun _ _ =>
      kc_bind _ _ _ _ kc_regOperand (fun _ _ =>
      kc_bind _ _ _ _ (kc_eat _) (fun _ _ =>
      kc_bind _ _ _ _ kc_labelOperand (fun _ _ => kc_finishE _))))))) s a s1 hc h
  · cases h

theorem kc_update (f : SyntaxAnalysis → SyntaxAnalysis)
    (h : ∀ s, (f s).tokens = s.tokens ∧ (f s).heap = s.heap) :
    KeepsClean (fun s => Result.ok () (f s)) (fun _ => True) :=
  kc_frame _ (fun s a s1 hs => by
    simp only [Result.ok.injEq] at hs
    rw [← hs.2]
    exact h s)

theorem kc_S : KeepsClean S (fun _ => True) := by
  intro s a s1 hc h
  unfold S at h
  split at h
  · exact kc_bind _ _ _ _ (kc_eat _) (fun _ _ =>
      kc_bind _ _ _ _ kc_createVariable (fun var _ =>
      kc_update (fun s1 => { s1 with mem_vars := s1.mem_vars ++ [var] })
        (fun _ => ⟨rfl, rfl⟩))) s a s1 hc h
  · exact kc_bind _ _ _ _ (kc_eat _) (fun _ _ =>
      kc_bind _ _ _ _ kc_createVariable (fun var _ =>
      kc_update (fun s1 => { s1 with reg_vars := s1.reg_vars ++ [var] })
        (fun _ => ⟨rfl, rfl⟩))) s a s1 hc h
  · exact kc_bind _ _ _ _ (kc_eat _) (fun _ _ =>
      kc_bind _ _ _ _ kc_createVariable (fun var _ =>
      kc_bind _ _ (fun _ => True) _
        (kc_frame _ (fun t b t1 ht => by
          unfold newInstruction at ht
          simp only [Result.ok.injEq] at ht
          rw [← ht.2]
          exact ⟨rfl, rfl⟩))
        (fun i _ => kc_update (fun s2 => { s2 with instrs := s2.instrs ++ [i] })
          (fun _ => ⟨rfl, rfl⟩)))) s a s1 hc h
  · exact kc_bind _ _ _ _ kc_createVariable (fun var _ =>
      kc_bind _ _ _ _
        (kc_update (fun s1 => { s1 with label_vars := s1.label_vars ++ [var],
                                        next_instruction_has_label := true })
          (fun _ => ⟨rfl, rfl⟩)) (fun _ _ =>
      kc_bind _ _ _ _ (kc_eat _) (fun _ _ => kc_E))) s a s1 hc h
  · exact kc_E s a s1 hc h

theorem kc_L (Qf : Parser Unit) (hQ : KeepsClean Qf (fun _ => True)) :
    KeepsClean (L Qf) (fun _ => True) := by
  intro s a s1 hc h
  unfold L at h
  split at h
  · exact kc_bind _ _ _ _ (kc_eat _) (fun _ _ =>
      kc_update (fun s1 => { s1 with eof := true }) (fun _ => ⟨rfl, rfl⟩)) s a s1 hc h
  · exact hQ s a s1 hc h

theorem kc_Q (fuel : Nat) : KeepsClean (Q fuel) (fun _ => True) := by
  induction fuel with
  | zero =>
    intro s a s1 _ h
    cases h
  | succ n ih =>
    intro s a s1 hc h
    unfold Q at h
    simp only at h
    have c0 : HeapClean { s with next_instruction_has_label := false } := hc
    split at h
    · exact kc_bind _ _ _ _ (kc_eat _) (fun _ _ => kc_L _ ih) _ a s1 c0 h
    · exact kc_bind _ _ _ _ kc_S (fun _ _ =>
        kc_bind _ _ _ _ (kc_eat _) (fun _ _ => kc_L _ ih)) _ a s1 c0 h

/-- The parse of clean tokens ends with clean names. -/
theorem heapClean_Do (tokens : List Token) (b : Bool) (s1 : SyntaxAnalysis)
    (hclean : ∀ t ∈ tokens, Clean t.value)
    (h : SyntaxAnalysis.Do (SyntaxAnalysis.init tokens) = .ok b s1) : HeapClean s1 := by
  unfold SyntaxAnalysis.Do at h
  have c0 : HeapClean { SyntaxAnalysis.init tokens with currentToken := 0 } :=
    ⟨hclean, fun v hv => absurd hv (List.not_mem_nil v)⟩
  exact (kc_bind _ _ _ _ (kc_Q _) (fun _ _ =>
    kc_bind _ _ _ _ (kc_exists _ checkLabels_ok) (fun _ _ =>
    kc_bind _ _ (fun _ => True) _ (kc_exists _ checkFunctions_ok) (fun _ _ =>
    kc_frame _ (fun t c t1 ht => by
      simp only [Result.ok.injEq] at ht
      rw [← ht.2]
      exact ⟨rfl, rfl⟩)))) _ b s1 c0 h).1

/-- The number of operands that `operandOffsets` gives is the number of placeholders of
the template. -/
theorem placeholders_count (t : TokenType) (i : Instruction) (dst src : List Nat)
    (h : operandOffsets t = some (i.m_type, dst, src)) (hne : i.m_type ≠ .I_BNE) :
    dst.length + src.length = i.toString.toList.count apostrophe := by
  unfold Instruction.toString
  cases t
  all_goals simp only [operandOffsets, Option.some.injEq, Prod.mk.injEq, reduceCtorEq] at h
  all_goals
    obtain ⟨h1, h2, h3⟩ := h
    rw [← h1, ← h2, ← h3]
    first
    | decide
    | exact absurd h1.symm hne

theorem instrInv_of_opnd (s s1 : SyntaxAnalysis) (ho : Opnd s s1) (h : InstrInv s) :
    InstrInv s1 := by
  intro i hi
  rw [ho.instrs] at hi
  obtain ⟨h1, h2⟩ := h i hi
  exact ⟨fun p hp => opnd_lt s s1 p ho (h1 p hp), h2⟩

theorem instrInv_push (s : SyntaxAnalysis) (i : Instruction) (h : InstrInv s)
    (h1 : ∀ p ∈ i.m_dst ++ i.m_src, p < s.heap.length)
    (h2 : i.m_type ≠ .I_BNE →
      (i.m_dst ++ i.m_src).length = i.toString.toList.count apostrophe)
    (s1 : SyntaxAnalysis) (hs : s1.instrs = s.instrs ++ [i]) (hh : s1.heap = s.heap) :
    InstrInv s1 := by
  intro j hj
  rw [hs] at hj
  rw [hh]
  rcases List.mem_append.mp hj with hj | hj
  · exact h j hj
  · simp only [List.mem_singleton] at hj
    rw [hj]
    exact ⟨h1, h2⟩

theorem instrInv_fields (s s1 : SyntaxAnalysis) (h : InstrInv s) (h1 : s1.instrs = s.instrs)
    (h2 : s1.heap = s.heap) : InstrInv s1 := by
  intro i hi
  rw [h1] at hi
  rw [h2]
  exact h i hi

theorem forall2_lt (sf : SyntaxAnalysis) (toks : Nat → Token) (ps offs : List Nat)
    (h : List.Forall₂ (fun p off => Denotes sf p (toks off)) ps offs) :
    ps.length = offs.length ∧ ∀ p ∈ ps, p < sf.heap.length := by
  induction h with
  | nil => exact ⟨rfl, fun p hp => absurd hp (List.not_mem_nil p)⟩
  | cons hd _ ih =>
    refine ⟨by simp [ih.1], fun p hp => ?_⟩
    rcases List.mem_cons.mp hp with h1 | h1
    · rw [h1]
      exact hd.1
    · exact ih.2 p h1

theorem instrInv_E (s s1 : SyntaxAnalysis) (a : Unit) (hinv : ParserInv s) (h : InstrInv s)
    (he : E s = .ok a s1) : InstrInv s1 := by
  obtain ⟨sf, i, ty, dst, src, ho, _, hs1, hoff, hty, hd, hs⟩ :=
    E_operands s s1 a hinv.2.2 hinv.2.1 he
  obtain ⟨d1, d2⟩ := forall2_lt sf (fun off => tokenAt s.tokens (s.currentToken + off)) _ _ hd
  obtain ⟨e1, e2⟩ := forall2_lt sf (fun off => tokenAt s.tokens (s.currentToken + off)) _ _ hs
  refine instrInv_push sf i (instrInv_of_opnd s sf ho h) ?_ ?_ s1 (by rw [hs1]) (by rw [hs1])
  · intro p hp
    rcases List.mem_append.mp hp with hp | hp
    · exact d2 p hp
    · exact e2 p hp
  · intro hne
    rw [List.length_append, d1, e1]
    exact placeholders_count _ i dst src (by rw [hoff, hty]) hne

theorem instrInv_S (s s1 : SyntaxAnalysis) (a : Unit) (hinv : ParserInv s) (h : InstrInv s)
    (hS : S s = .ok a s1) : InstrInv s1 := by
  unfold S at hS
  split at hS
  · obtain ⟨_, sa, ha, hS⟩ := (bind_ok_iff _ _ _ _ _).mp hS
    obtain ⟨var, sb, hb, hS⟩ := (bind_ok_iff _ _ _ _ _).mp hS
    have i2 := instrInv_of_opnd _ _ (createVariable_opnd _ _ _ hb).1
      (instrInv_of_opnd _ _ (eat_opnd _ _ _ _ ha).1 h)
    simp only [Result.ok.injEq, true_and] at hS
    subst hS
    exact instrInv_fields sb _ i2 rfl rfl
  · obtain ⟨_, sa, ha, hS⟩ := (bind_ok_iff _ _ _ _ _).mp hS
    obtain ⟨var, sb, hb, hS⟩ := (bind_ok_iff _ _ _ _ _).mp hS
    have i2 := instrInv_of_opnd _ _ (createVariable_opnd _ _ _ hb).1
      (instrInv_of_opnd _ _ (eat_opnd _ _ _ _ ha).1 h)
    simp only [Result.ok.injEq, true_and] at hS
    subst hS
    exact instrInv_fields sb _ i2 rfl rfl
  · obtain ⟨_, sa, ha, hS⟩ := (bind_ok_iff _ _ _ _ _).mp hS
    obtain ⟨var, sb, hb, hS⟩ := (bind_ok_iff _ _ _ _ _).mp hS
    obtain ⟨i, sc, hc, hS⟩ := (bind_ok_iff _ _ _ _ _).mp hS
    have i2 := instrInv_of_opnd _ _ (createVariable_opnd _ _ _ hb).1
      (instrInv_of_opnd _ _ (eat_opnd _ _ _ _ ha).1 h)
    unfold newInstruction at hc
    simp only [Result.ok.injEq] at hc hS
    obtain ⟨hi, hc⟩ := hc
    subst hc
    obtain ⟨_, hS⟩ := hS
    subst hS
    subst hi
    exact instrInv_push sb
      ⟨some var, (sb.insCounter : Int), .I_NO_TYPE, [], [], [], [], [], [], [], []⟩ i2
      (fun p hp => absurd hp (List.not_mem_nil p)) (fun _ => rfl) _ rfl rfl
  · obtain ⟨var, sb, hb, h2⟩ := (bind_ok_iff _ _ _ _ _).mp hS
    obtain ⟨_, sc, hc, h3⟩ := (bind_ok_iff _ _ _ _ _).mp h2
    obtain ⟨_, sd, hd, h4⟩ := (bind_ok_iff _ _ _ _ _).mp h3
    clear hS h2 h3
    obtain ⟨o2, hlt⟩ := createVariable_opnd _ _ _ hb
    have p2 := parserInv_of_opnd _ _ hinv o2
    have i2 := instrInv_of_opnd _ _ o2 h
    simp only [Result.ok.injEq, true_and] at hc
    subst hc
    have p3 : ParserInv { sb with label_vars := sb.label_vars ++ [var],
                                   next_instruction_has_label := true } :=
      parserInv_push sb _ var p2 hlt rfl rfl rfl (Or.inl rfl) (Or.inl rfl) (Or.inr rfl)
    have i3 : InstrInv { sb with label_vars := sb.label_vars ++ [var],
                                  next_instruction_has_label := true } :=
      instrInv_fields sb _ i2 rfl rfl
    exact instrInv_E _ _ _ (parserInv_of_opnd _ _ p3 (eat_opnd _ _ _ _ hd).1)
      (instrInv_of_opnd _ _ (eat_opnd _ _ _ _ hd).1 i3) h4
  · exact instrInv_E _ _ _ hinv h hS

theorem instrInv_L (Qf : Parser Unit)
    (hQ : ∀ s a s1, ParserInv s → InstrInv s → Qf s = .ok a s1 → InstrInv s1)
    (s s1 : SyntaxAnalysis) (a : Unit) (hinv : ParserInv s) (h : InstrInv s)
    (hL : L Qf s = .ok a s1) : InstrInv s1 := by
  unfold L at hL
  split at hL
  · obtain ⟨_, sa, ha, hL⟩ := (bind_ok_iff _ _ _ _ _).mp hL
    have i1 := instrInv_of_opnd _ _ (eat_opnd _ _ _ _ ha).1 h
    simp only [Result.ok.injEq, true_and] at hL
    subst hL
    exact instrInv_fields sa _ i1 rfl rfl
  · exact hQ _ _ _ hinv h hL

theorem instrInv_Q (fuel : Nat) (s s1 : SyntaxAnalysis) (a : Unit) (hinv : ParserInv s)
    (h : InstrInv s) (hQ : Q fuel s = .ok a s1) : InstrInv s1 := by
  induction fuel generalizing s s1 a with
  | zero => cases hQ
  | succ n ih =>
    unfold Q at hQ
    simp only at hQ
    have p0 : ParserInv { s with next_instruction_has_label := false } :=
      parserInv_of_opnd _ _ hinv (opnd_of_fields _ _ rfl rfl rfl rfl rfl rfl rfl rfl)
    have i0 : InstrInv { s with next_instruction_has_label := false } :=
      instrInv_fields s _ h rfl rfl
    split at hQ
    · obtain ⟨_, sa, ha, hQ⟩ := (bind_ok_iff _ _ _ _ _).mp hQ
      exact instrInv_L _ (fun t b t1 => ih t t1 b) _ _ _
        (parserInv_of_opnd _ _ p0 (eat_opnd _ _ _ _ ha).1)
        (instrInv_of_opnd _ _ (eat_opnd _ _ _ _ ha).1 i0) hQ
    · obtain ⟨_, sa, ha, hQ⟩ := (bind_ok_iff _ _ _ _ _).mp hQ
      obtain ⟨_, sb, hb, hQ⟩ := (bind_ok_iff _ _ _ _ _).mp hQ
      exact instrInv_L _ (fun t b t1 => ih t t1 b) _ _ _
        (parserInv_of_opnd _ _ (preserves_S _ _ _ p0 ha) (eat_opnd _ _ _ _ hb).1)
        (instrInv_of_opnd _ _ (eat_opnd _ _ _ _ hb).1 (instrInv_S _ _ _ p0 i0 ha)) hQ

/-- After a parse every operand of every instruction is on the heap, and the operands
of an instruction are as many as the placeholders of its template. -/
theorem instrInv_Do (tokens : List Token) (b : Bool) (s1 : SyntaxAnalysis)
    (hlex : Lexed tokens) (h : SyntaxAnalysis.Do (SyntaxAnalysis.init tokens) = .ok b s1) :
    InstrInv s1 := by
  unfold SyntaxAnalysis.Do at h
  obtain ⟨_, sa, ha, h⟩ := (bind_ok_iff _ _ _ _ _).mp h
  obtain ⟨_, sb, hb, h⟩ := (bind_ok_iff _ _ _ _ _).mp h
  obtain ⟨_, sc, hc, h⟩ := (bind_ok_iff _ _ _ _ _).mp h
  have p0 : ParserInv { SyntaxAnalysis.init tokens with currentToken := 0 } := by
    refine ⟨?_, ?_, hlex⟩
    · unfold ConstTable; simp [SyntaxAnalysis.init]
    · unfold TablesLive; simp [SyntaxAnalysis.init]
  have i0 : InstrInv { SyntaxAnalysis.init tokens with currentToken := 0 } :=
    fun i hi => absurd hi (List.not_mem_nil i)
  have i1 := instrInv_Q _ _ _ _ p0 i0 ha
  have e1 := (checkLabels_ok _ _ _ hb)
  have e2 := checkFunctions_ok _ _ _ hc
  simp only [Result.ok.injEq] at h
  rw [← h.2, e2, e1]
  exact i1

theorem get_clean (v : Variable) (h : Clean v.m_name) : Clean v.get := by
  unfold Variable.get
  cases ht : v.m_type with
  | REG_VAR => cases v.m_assignment <;> dsimp only <;> decide
  | CONST_VAR => exact clean_to_string v.value
  | LABEL_VAR => exact h
  | MEM_VAR => exact h
  | NO_TYPE =>
    show Clean "error"
    decide

theorem operandText_get (v : Variable) (ht : v.m_type ≠ .NO_TYPE)
    (ha : v.m_type = .REG_VAR → v.m_assignment ≠ .no_assign) :
    operandText v = some v.get := by
  unfold operandText Variable.get
  cases hty : v.m_type with
  | REG_VAR =>
    have := ha hty
    cases hr : v.m_assignment with
    | no_assign => exact absurd hr this
    | t0 => rfl
    | t1 => rfl
    | t2 => rfl
    | t3 => rfl
  | CONST_VAR => rfl
  | LABEL_VAR => rfl
  | MEM_VAR => rfl
  | NO_TYPE => exact absurd hty ht

theorem forall2_map {α β : Type} (f : α → β) (P : α → β → Prop) (l : List α)
    (h : ∀ a ∈ l, P a (f a)) : List.Forall₂ P l (l.map f) := by
  induction l with
  | nil => exact List.Forall₂.nil
  | cons a as ih =>
    exact List.Forall₂.cons (h a (List.mem_cons_self _ _))
      (ih (fun b hb => h b (List.mem_cons_of_mem _ hb)))

theorem deref_mem (heap : List Variable) (p : Nat) (h : p < heap.length) :
    deref heap p ∈ heap := by
  have : deref heap p = heap[p] := by
    simp [deref, List.getD_eq_getElem?_getD, List.getElem?_eq_getElem h]
  rw [this]
  exact List.getElem_mem h

theorem deref_outside (heap : List Variable) (p : Nat) (h : heap.length ≤ p) :
    deref heap p = default := by
  have hnone : heap[p]? = none := List.getElem?_eq_none h
  simp [deref, List.getD_eq_getElem?_getD, hnone]

/-- Every variable of the heap after allocation, and the default variable read outside
it, is printed without an apostrophe when the names of the parser are clean. -/
theorem allocated_clean (parsed heap : List Variable) (hheap : Allocated parsed heap)
    (hclean : ∀ v ∈ parsed, v.m_type ≠ .NO_TYPE ∧ Clean v.m_name) (p : Nat) :
    Clean (deref heap p).get := by
  by_cases hp : p < parsed.length
  · apply get_clean
    rw [(hheap.2 p hp).2.1]
    exact (hclean _ (deref_mem parsed p hp)).2
  · rw [deref_outside heap p (by rw [hheap.1]; omega)]
    decide

/-- C26. Emitter substitution: for tokens without an apostrophe, classified as by the
lexer, that the parser accepts, and for every instruction `i` that has the label, type
and operands of a parsed instruction with an opcode other than `bne`: once the register
operands are allocated (the heap differs from the parsed one in the assignments only),
every element of destination list followed by source list has a text, a register `$t0`
to `$t3` by its assignment, a constant its decimal value, a memory or label variable its
name, and never the error text of an unassigned or untyped variable; these are as many
as the placeholders, the rendered body is the template of the opcode with the k-th
placeholder replaced by the k-th text, no placeholder remains, and the printed line is
the line head followed by this body. -/
theorem emitter_substitution (tokens : List Token) (b : Bool) (s1 : SyntaxAnalysis)
    (heap : List Variable) (i j : Instruction)
    (hlex : Lexed tokens) (hclean : ∀ t ∈ tokens, Clean t.value)
    (hparse : SyntaxAnalysis.Do (SyntaxAnalysis.init tokens) = .ok b s1)
    (hj : j ∈ s1.instrs)
    (hsame : i.label = j.label ∧ i.m_type = j.m_type ∧ i.m_dst = j.m_dst ∧ i.m_src = j.m_src)
    (hne : i.m_type ≠ .I_BNE)
    (hheap : Allocated s1.heap heap)
    (halloc : ∀ p ∈ i.m_dst ++ i.m_src,
      (deref heap p).m_type = .REG_VAR → (deref heap p).m_assignment ≠ .no_assign) :
    ∃ texts : List String,
      List.Forall₂ (fun p text => operandText (deref heap p) = some text)
        (i.m_dst ++ i.m_src) texts ∧
      texts.length = i.toString.toList.count apostrophe ∧
      i.body heap = fill i.toString texts ∧
      Clean (i.body heap) ∧
      printInstruction heap i = lineHead heap i ++ fill i.toString texts := by
  have hc := heapClean_Do tokens b s1 hclean hparse
  obtain ⟨hlive, hcount⟩ := instrInv_Do tokens b s1 hlex hparse j hj
  have hstr : i.toString = j.toString := by
    unfold Instruction.toString
    rw [hsame.2.1]
  rw [← hsame.2.2.1, ← hsame.2.2.2, ← hsame.2.1, ← hstr] at hcount
  rw [← hsame.2.2.1, ← hsame.2.2.2] at hlive
  have hget : ∀ p, Clean (deref heap p).get := allocated_clean s1.heap heap hheap hc.2
  have htexts : ∀ t ∈ (i.m_dst ++ i.m_src).map (fun p => (deref heap p).get), Clean t := by
    intro t ht
    obtain ⟨p, _, hp⟩ := List.mem_map.mp ht
    rw [← hp]
    exact hget p
  have hbody : i.body heap =
      fill i.toString ((i.m_dst ++ i.m_src).map (fun p => (deref heap p).get)) := by
    apply String.ext
    show (i.body heap).toList = fillFrom false i.toString.toList _
    unfold Instruction.body
    rw [replaceAll_toList]
    exact replaceAll_fill _ htexts [] i.toString.toList (List.not_mem_nil _)
  have hlen : ((i.m_dst ++ i.m_src).map (fun p => (deref heap p).get)).length =
      i.toString.toList.count apostrophe := by
    rw [List.length_map]
    exact hcount hne
  have hhead : Clean (lineHead heap i) := by
    unfold lineHead
    cases hl : i.label with
    | none =>
      show Clean "\t"
      decide
    | some label =>
      show Clean ((deref heap label).get ++ ":" ++ (if i.isFunc then "" else "\n\t"))
      apply clean_append
      · exact clean_append _ _ (hget label) (by decide)
      · split
        · decide
        · decide
  refine ⟨(i.m_dst ++ i.m_src).map (fun p => (deref heap p).get), ?_, hlen, hbody, ?_, ?_⟩
  · apply forall2_map
    intro p hp
    have hlt := hlive p hp
    apply operandText_get
    · rw [(hheap.2 p hlt).1]
      exact (hc.2 _ (deref_mem s1.heap p hlt)).1
    · exact halloc p hp
  · rw [hbody]
    exact fillFrom_clean _ false _ htexts (by rw [hlen])
  · rw [printInstruction_eq heap i hhead, hbody]

/-- Witness of C26: the load word of `done: lw r1, 4(r2);` with `r1` in `t0` and `r2` in
`t1` is rendered as `lw $t0, 4($t1)`. -/
theorem emitter_substitution_witness :
    (Lexed emitTokens ∧ (∀ t ∈ emitTokens, Clean t.value) ∧
      Allocated emitParsed.heap emitHeap) ∧
    (∃ texts : List String,
      List.Forall₂ (fun p text => operandText (deref emitHeap p) = some text)
        ((emitParsed.instrs.getD 1 default).m_dst ++
          (emitParsed.instrs.getD 1 default).m_src) texts ∧
      texts.length = (emitParsed.instrs.getD 1 default).toString.toList.count apostrophe ∧
      (emitParsed.instrs.getD 1 default).body emitHeap =
        fill (emitParsed.instrs.getD 1 default).toString texts ∧
      Clean ((emitParsed.instrs.getD 1 default).body emitHeap) ∧
      printInstruction emitHeap (emitParsed.instrs.getD 1 default) =
        lineHead emitHeap (emitParsed.instrs.getD 1 default) ++
          fill (emitParsed.instrs.getD 1 default).toString texts) ∧
    (emitParsed.instrs.getD 1 default).body emitHeap = "lw $t0, 4($t1)" :=
  ⟨⟨by decide!, by decide!, by decide!⟩,
    emitter_substitution emitTokens true emitParsed emitHeap
      (emitParsed.instrs.getD 1 default) (emitParsed.instrs.getD 1 default)
      (by decide!) (by decide!) (by decide!) (by decide!) ⟨rfl, rfl, rfl, rfl⟩ (by decide!)
      (by decide!) (by decide!),
    by decide!⟩

/-! ## The position counters -/

theorem shifts_bind {α β : Type} (v0 i0 : Nat) (g : α → α) (k : β → β) (m : Parser α)
    (f : α → Parser β) (hm : Shifts v0 i0 g m)
    (hf : ∀ a s, f (g a) (s.shift v0 i0) = (f a s).shift k v0 i0) :
    Shifts v0 i0 k (m >>= f) := by
  intro s
  change Parser.bind m f _ = (Parser.bind m f s).shift k v0 i0
  unfold Parser.bind
  rw [hm s]
  cases m s with
  | ok a s1 => exact hf a s1
  | raise e s1 => rfl
  | outOfFuel => rfl

theorem shifts_bind_id {α β : Type} (v0 i0 : Nat) (k : β → β) (m : Parser α)
    (f : α → Parser β) (hm : Shifts v0 i0 id m) (hf : ∀ a, Shifts v0 i0 k (f a)) :
    Shifts v0 i0 k (m >>= f) :=
  shifts_bind v0 i0 id k m f hm (fun a s => hf a s)

theorem shifts_pure {α : Type} (v0 i0 : Nat) (a : α) : Shifts v0 i0 id (pure a : Parser α) :=
  fun _ => rfl

theorem shift_name (k : Nat) (v : Variable) : (v.shift k).m_name = v.m_name := by
  unfold Variable.shift
  split <;> rfl

theorem shift_type (k : Nat) (v : Variable) : (v.shift k).m_type = v.m_type := by
  unfold Variable.shift
  split <;> rfl

theorem shift_value (k : Nat) (v : Variable) : (v.shift k).value = v.value := by
  unfold Variable.shift
  split <;> rfl

theorem deref_shift (k : Nat) (heap : List Variable) (p : Nat) :
    deref (heap.map (Variable.shift k)) p = (deref heap p).shift k := by
  unfold deref
  rw [List.getD_eq_getElem?_getD, List.getD_eq_getElem?_getD, List.getElem?_map]
  cases heap[p]? with
  | none => rfl
  | some v => rfl

theorem findByName_shift (k : Nat) (heap : List Variable) (table : List Nat) (name : String) :
    findByName (heap.map (Variable.shift k)) table name = findByName heap table name := by
  unfold findByName
  congr 1
  funext p
  rw [deref_shift, shift_name]

theorem currentTok_shift (v0 i0 : Nat) (s : SyntaxAnalysis) :
    currentTok (s.shift v0 i0) = currentTok s := rfl

theorem shifts_eat (v0 i0 : Nat) (t : TokenType) : Shifts v0 i0 id (eat t) := by
  intro s
  unfold eat
  by_cases h1 : t = .T_END_OF_FILE
  · simp only [h1, if_true]
    by_cases h2 : (currentTok { s with eof := true }).tokenType = .T_END_OF_FILE
    · have h3 : (currentTok { s.shift v0 i0 with eof := true }).tokenType = .T_END_OF_FILE := h2
      rw [if_pos h2, if_pos h3]
      rfl
    · have h3 : ¬ (currentTok { s.shift v0 i0 with eof := true }).tokenType = .T_END_OF_FILE :=
        h2
      rw [if_neg h2, if_neg h3]
      rfl
  · simp only [h1, if_false]
    by_cases h2 : (currentTok s).tokenType = t
    · have h3 : (currentTok (s.shift v0 i0)).tokenType = t := h2
      rw [if_pos h2, if_pos h3]
      rfl
    · have h3 : ¬ (currentTok (s.shift v0 i0)).tokenType = t := h2
      rw [if_neg h2, if_neg h3]
      rfl

theorem shifts_glance (v0 i0 : Nat) (t : TokenType) : Shifts v0 i0 id (glance t) := by
  intro s
  unfold glance
  rw [currentTok_shift]
  split <;> rfl

theorem shifts_curValue (v0 i0 : Nat) : Shifts v0 i0 id curValue := fun _ => rfl

theorem shifts_stoiP (v0 i0 : Nat) (str : String) : Shifts v0 i0 id (stoiP str) := by
  intro s
  unfold stoiP
  cases stoi str <;> rfl

theorem shifts_regVariableExists (v0 i0 : Nat) (name : String) :
    Shifts v0 i0 id (regVariableExists name) := by
  intro s
  unfold regVariableExists
  show (match findByName (s.heap.map (Variable.shift v0)) s.reg_vars name with
    | some _ => _
    | none => _) = _
  rw [findByName_shift]
  cases findByName s.heap s.reg_vars name <;> rfl

theorem shifts_memVariableExists (v0 i0 : Nat) (name : String) :
    Shifts v0 i0 id (memVariableExists name) := by
  intro s
  unfold memVariableExists
  show (match findByName (s.heap.map (Variable.shift v0)) s.mem_vars name with
    | some _ => _
    | none => _) = _
  rw [findByName_shift]
  cases findByName s.heap s.mem_vars name <;> rfl

theorem find_label_shift (k : Nat) (heap : List Variable) (table : List Nat) (name : String) :
    table.find? (fun p => (deref (heap.map (Variable.shift k)) p).m_name == name &&
      (deref (heap.map (Variable.shift k)) p).value == 1) =
    table.find? (fun p => (deref heap p).m_name == name && (deref heap p).value == 1) := by
  congr 1
  funext p
  rw [deref_shift, shift_name, shift_value]

theorem shifts_labelExists (v0 i0 : Nat) (name : String) :
    Shifts v0 i0 id (labelExists name) := by
  intro s
  unfold labelExists
  show (match s.label_vars.find? (fun p =>
      (deref (s.heap.map (Variable.shift v0)) p).m_name == name &&
      (deref (s.heap.map (Variable.shift v0)) p).value == 1) with
    | some _ => _
    | none => _) = _
  rw [find_label_shift]
  cases s.label_vars.find? (fun p => (deref s.heap p).m_name == name &&
    (deref s.heap p).value == 1) <;> rfl

theorem shifts_newVariable (v0 i0 : Nat) (type : VariableType) (name : String) (val : Int) :
    Shifts v0 i0 id (newVariable type name val) := by
  intro s
  unfold newVariable
  by_cases h : type = .REG_VAR
  · rw [if_pos h, if_pos h]
    unfold Result.shift SyntaxAnalysis.shift
    simp [Variable.shift, h, Nat.add_right_comm]
  · rw [if_neg h, if_neg h]
    unfold Result.shift SyntaxAnalysis.shift
    simp [Variable.shift, h]

theorem shifts_newInstruction (v0 i0 : Nat) (type : InstructionType) (lab : Option Nat) :
    Shifts v0 i0 (Instruction.shift i0) (newInstruction type lab) := by
  intro s
  unfold newInstruction Result.shift SyntaxAnalysis.shift Instruction.shift
  simp [Nat.add_right_comm]

theorem shifts_update {α : Type} (v0 i0 : Nat) (a : α) (f : SyntaxAnalysis → SyntaxAnalysis)
    (h : ∀ s, f (s.shift v0 i0) = (f s).shift v0 i0) :
    Shifts v0 i0 id (fun s => Result.ok a (f s)) := by
  intro s
  show Result.ok a (f (s.shift v0 i0)) = Result.ok a ((f s).shift v0 i0)
  rw [h s]

theorem shifts_createVariable (v0 i0 : Nat) : Shifts v0 i0 id createVariable := by
  intro s
  unfold createVariable
  rw [currentTok_shift]
  generalize (currentTok s).tokenType = t
  split
  · exact shifts_bind_id v0 i0 _ _ _ (shifts_curValue v0 i0) (fun name =>
      shifts_bind_id v0 i0 _ _ _ (shifts_memVariableExists v0 i0 name) (fun _ =>
      shifts_bind_id v0 i0 _ _ _ (shifts_eat v0 i0 _) (fun _ =>
      shifts_bind_id v0 i0 _ _ _ (shifts_glance v0 i0 _) (fun _ =>
      shifts_bind_id v0 i0 _ _ _ (shifts_curValue v0 i0) (fun text =>
      shifts_bind_id v0 i0 _ _ _ (shifts_stoiP v0 i0 text) (fun val =>
      shifts_bind_id v0 i0 _ _ _ (shifts_newVariable v0 i0 .MEM_VAR name val) (fun var =>
      shifts_bind_id v0 i0 _ _ _ (shifts_eat v0 i0 _) (fun _ =>
      shifts_pure v0 i0 var)))))))) s
  · exact shifts_bind_id v0 i0 _ _ _ (shifts_curValue v0 i0) (fun name =>
      shifts_bind_id v0 i0 _ _ _ (shifts_regVariableExists v0 i0 name) (fun _ =>
      shifts_bind_id v0 i0 _ _ _ (shifts_eat v0 i0 _) (fun _ =>
      shifts_newVariable v0 i0 .REG_VAR name 0))) s
  · exact shifts_bind_id v0 i0 _ _ _ (shifts_curValue v0 i0) (fun name =>
      shifts_bind_id v0 i0 _ _ _ (shifts_labelExists v0 i0 name) (fun _ =>
      shifts_bind_id v0 i0 _ _ _ (shifts_eat v0 i0 _) (fun _ =>
      shifts_newVariable v0 i0 .LABEL_VAR name 1))) s
  · rfl

theorem shifts_findVariableNamed (v0 i0 : Nat) (name : String) :
    Shifts v0 i0 id (findVariableNamed name) := by
  intro s
  unfold findVariableNamed
  simp only
  generalize name.toList.head? = d
  split
  · show (match findByName (s.heap.map (Variable.shift v0)) s.reg_vars name with
      | some p => _
      | none => _) = _
    rw [findByName_shift]
    cases findByName s.heap s.reg_vars name <;> rfl
  · show (match findByName (s.heap.map (Variable.shift v0)) s.mem_vars name with
      | some p => _
      | none => _) = _
    rw [findByName_shift]
    cases findByName s.heap s.mem_vars name <;> rfl
  · show (match findByName (s.heap.map (Variable.shift v0)) s.const_vars name with
      | some p => _
      | none => _) = _
    rw [findByName_shift]
    cases findByName s.heap s.const_vars name with
    | some p => rfl
    | none =>
      exact shifts_bind_id v0 i0 _ _ _ (shifts_stoiP v0 i0 _) (fun val =>
        shifts_bind_id v0 i0 _ _ _ (shifts_newVariable v0 i0 .CONST_VAR _ val) (fun var =>
        shifts_update v0 i0 var (fun s1 => { s1 with const_vars := s1.const_vars ++ [var] })
          (fun _ => rfl))) s
  · rfl

theorem shifts_findVariable (v0 i0 : Nat) : Shifts v0 i0 id findVariable := by
  intro s
  exact shifts_findVariableNamed v0 i0 (currentTok s).value s

theorem shifts_constVariable (v0 i0 : Nat) (value : Int) :
    Shifts v0 i0 id (constVariable value) :=
  shifts_findVariableNamed v0 i0 _

theorem shifts_findLabel (v0 i0 : Nat) (name : String) : Shifts v0 i0 id (findLabel name) := by
  intro s
  unfold findLabel
  show (match findByName (s.heap.map (Variable.shift v0)) s.label_vars name with
    | some p => _
    | none => _) = _
  rw [findByName_shift]
  cases findByName s.heap s.label_vars name with
  | some p => rfl
  | none =>
    exact shifts_bind_id v0 i0 _ _ _ (shifts_newVariable v0 i0 .LABEL_VAR name 0) (fun var =>
      shifts_update v0 i0 var (fun s1 => { s1 with label_vars := s1.label_vars ++ [var] })
        (fun _ => rfl)) s

theorem shifts_regOperand (v0 i0 : Nat) : Shifts v0 i0 id regOperand :=
  shifts_bind_id v0 i0 _ _ _ (shifts_glance v0 i0 _) (fun _ =>
    shifts_bind_id v0 i0 _ _ _ (shifts_findVariable v0 i0) (fun v =>
    shifts_bind_id v0 i0 _ _ _ (shifts_eat v0 i0 _) (fun _ => shifts_pure v0 i0 v)))

theorem shifts_numOperand (v0 i0 : Nat) : Shifts v0 i0 id numOperand :=
  shifts_bind_id v0 i0 _ _ _ (shifts_glance v0 i0 _) (fun _ =>
    shifts_bind_id v0 i0 _ _ _ (shifts_curValue v0 i0) (fun text =>
    shifts_bind_id v0 i0 _ _ _ (shifts_stoiP v0 i0 text) (fun n =>
    shifts_bind_id v0 i0 _ _ _ (shifts_constVariable v0 i0 n) (fun v =>
    shifts_bind_id v0 i0 _ _ _ (shifts_eat v0 i0 _) (fun _ => shifts_pure v0 i0 v)))))

theorem shifts_labelOperand (v0 i0 : Nat) : Shifts v0 i0 id labelOperand :=
  shifts_bind_id v0 i0 _ _ _ (shifts_glance v0 i0 _) (fun _ =>
    shifts_bind_id v0 i0 _ _ _ (shifts_curValue v0 i0) (fun name =>
    shifts_bind_id v0 i0 _ _ _ (shifts_findLabel v0 i0 name) (fun v =>
    shifts_bind_id v0 i0 _ _ _ (shifts_eat v0 i0 _) (fun _ => shifts_pure v0 i0 v))))

theorem shifts_finishE (v0 i0 : Nat) (i : Instruction) (s : SyntaxAnalysis) :
    finishE (i.shift i0) (s.shift v0 i0) = (finishE i s).shift id v0 i0 := by
  unfold finishE
  have e1 : (s.shift v0 i0).next_instruction_has_label = s.next_instruction_has_label := rfl
  have e2 : (s.shift v0 i0).label_vars = s.label_vars := rfl
  have e3 : (s.shift v0 i0).heap = s.heap.map (Variable.shift v0) := rfl
  rw [e1, e2, e3]
  by_cases h : s.next_instruction_has_label = true
  · rw [if_pos h, if_pos h]
    cases s.label_vars.getLast? with
    | none => rfl
    | some lab =>
      simp only
      rw [deref_shift, shift_type]
      by_cases h2 : (deref s.heap lab).m_type ≠ .LABEL_VAR
      · rw [if_pos h2, if_pos h2]
        rfl
      · rw [if_neg h2, if_neg h2]
        unfold Result.shift SyntaxAnalysis.shift Instruction.shift
        simp
  · rw [if_neg h, if_neg h]
    unfold Result.shift SyntaxAnalysis.shift Instruction.shift
    simp

theorem shiftsWith_finish (v0 i0 : Nat) (build : Instruction → Instruction)
    (h : ∀ i, build (i.shift i0) = (build i).shift i0) :
    ShiftsWith v0 i0 (fun i => finishE (build i)) := by
  intro i s
  show finishE (build (i.shift i0)) (s.shift v0 i0) = _
  rw [h i]
  exact shifts_finishE v0 i0 (build i) s

theorem shiftsWith_bind {α : Type} (v0 i0 : Nat) (m : Parser α)
    (f : α → Instruction → Parser Unit) (hm : Shifts v0 i0 id m)
    (hf : ∀ a, ShiftsWith v0 i0 (f a)) :
    ShiftsWith v0 i0 (fun i => m >>= fun a => f a i) := by
  intro i s
  change Parser.bind m (fun a => f a (i.shift i0)) _ =
    (Parser.bind m (fun a => f a i) s).shift id v0 i0
  unfold Parser.bind
  rw [hm s]
  cases m s with
  | ok a s1 => exact hf a i s1
  | raise e s1 => rfl
  | outOfFuel => rfl

theorem shifts_instruction (v0 i0 : Nat) (t : TokenType) (type : InstructionType)
    (f : Instruction → Parser Unit) (hf : ShiftsWith v0 i0 f) :
    Shifts v0 i0 id (eat t >>= fun _ => newInstruction type none >>= f) :=
  shifts_bind_id v0 i0 _ _ _ (shifts_eat v0 i0 t) (fun _ =>
    shifts_bind v0 i0 _ id _ f (shifts_newInstruction v0 i0 type none) hf)

theorem shifts_threeRegs (v0 i0 : Nat) (token : TokenType) (type : InstructionType) :
    Shifts v0 i0 id (threeRegs token type) :=
  shifts_instruction v0 i0 token type _
    (shiftsWith_bind v0 i0 _ _ (shifts_regOperand v0 i0) (fun dst =>
    shiftsWith_bind v0 i0 _ _ (shifts_eat v0 i0 _) (fun _ =>
    shiftsWith_bind v0 i0 _ _ (shifts_regOperand v0 i0) (fun src1 =>
    shiftsWith_bind v0 i0 _ _ (shifts_eat v0 i0 _) (fun _ =>
    shiftsWith_bind v0 i0 _ _ (shifts_regOperand v0 i0) (fun src2 =>
    shiftsWith_finish v0 i0 (fun i => ((i.addDst dst).addSrc src1).addSrc src2)
      (fun _ => rfl)))))))

theorem shifts_E (v0 i0 : Nat) : Shifts v0 i0 id E := by
  intro s
  unfold E
  rw [currentTok_shift]
  generalize (currentTok s).tokenType = t
  split
  · exact shifts_threeRegs v0 i0 _ _ s
  · exact shifts_instruction v0 i0 _ _ _
      (shiftsWith_bind v0 i0 _ _ (shifts_regOperand v0 i0) (fun dst =>
      shiftsWith_bind v0 i0 _ _ (shifts_eat v0 i0 _) (fun _ =>
      shiftsWith_bind v0 i0 _ _ (shifts_regOperand v0 i0) (fun src1 =>
      shiftsWith_bind v0 i0 _ _ (shifts_eat v0 i0 _) (fun _ =>
      shiftsWith_bind v0 i0 _ _ (shifts_numOperand v0 i0) (fun src2 =>
      shiftsWith_finish v0 i0 (fun i => ((i.addDst dst).addSrc src1).addSrc src2)
        (fun _ => rfl))))))) s
  · exact shifts_instruction v0 i0 _ _ _
      (shiftsWith_bind v0 i0 _ _ (shifts_labelOperand v0 i0) (fun src1 =>
      shiftsWith_finish v0 i0 (fun i => i.addSrc src1) (fun _ => rfl))) s
  · exact shifts_instruction v0 i0 _ _ _
      (shiftsWith_bind v0 i0 _ _ (shifts_regOperand v0 i0) (fun src1 =>
      shiftsWith_bind v0 i0 _ _ (shifts_eat v0 i0 _) (fun _ =>
      shiftsWith_bind v0 i0 _ _ (shifts_labelOperand v0 i0) (fun src2 =>
      shiftsWith_finish v0 i0 (fun i => (i.addSrc src1).addSrc src2) (fun _ => rfl))))) s
  · exact shifts_instruction v0 i0 _ _ _
      (shiftsWith_bind v0 i0 _ _ (shifts_regOperand v0 i0) (fun dst =>
      shiftsWith_bind v0 i0 _ _ (shifts_eat v0 i0 _) (fun _ =>
      shiftsWith_bind v0 i0 _ _ (shifts_glance v0 i0 _) (fun _ =>
      shiftsWith_bind v0 i0 _ _ (shifts_findVariable v0 i0) (fun src1 =>
      shiftsWith_bind v0 i0 _ _ (shifts_eat v0 i0 _) (fun _ =>
      shiftsWith_finish v0 i0 (fun i => (i.addDst dst).addSrc src1) (fun _ => rfl))))))) s
  · exact shifts_instruction v0 i0 _ _ _
      (shiftsWith_bind v0 i0 _ _ (shifts_regOperand v0 i0) (fun dst =>
      shiftsWith_bind v0 i0 _ _ (shifts_eat v0 i0 _) (fun _ =>
      shiftsWith_bind v0 i0 _ _ (shifts_numOperand v0 i0) (fun src1 =>
      shiftsWith_finish v0 i0 (fun i => (i.addDst dst).addSrc src1) (fun _ => rfl))))) s
  · exact shifts_instruction v0 i0 _ _ _
      (shiftsWith_bind v0 i0 _ _ (shifts_regOperand v0 i0) (fun dst =>
      shiftsWith_bind v0 i0 _ _ (shifts_eat v0 i0 _) (fun _ =>
      shiftsWith_bind v0 i0 _ _ (shifts_numOperand v0 i0) (fun src1 =>
      shiftsWith_bind v0 i0 _ _ (shifts_eat v0 i0 _) (fun _ =>
      shiftsWith_bind v0 i0 _ _ (shifts_regOperand v0 i0) (fun src2 =>
      shiftsWith_bind v0 i0 _ _ (shifts_eat v0 i0 _) (fun _ =>
      shiftsWith_finish v0 i0 (fun i => ((i.addDst dst).addSrc src1).addSrc src2)
        (fun _ => rfl)))))))) s
  · exact shifts_instruction v0 i0 _ _ _
      (shiftsWith_finish v0 i0 (fun i => i) (fun _ => rfl)) s
  · exact shifts_threeRegs v0 i0 _ _ s
  · exact shifts_instruction v0 i0 _ _ _
      (shiftsWith_bind v0 i0 _ _ (shifts_regOperand v0 i0) (fun src1 =>
      shiftsWith_bind v0 i0 _ _ (shifts_eat v0 i0 _) (fun _ =>
      shiftsWith_bind v0 i0 _ _ (shifts_numOperand v0 i0) (fun src2 =>
      shiftsWith_bind v0 i0 _ _ (shifts_eat v0 i0 _) (fun _ =>
      shiftsWith_bind v0 i0 _ _ (shifts_regOperand v0 i0) (fun dst =>
      shiftsWith_bind v0 i0 _ _ (shifts_eat v0 i0 _) (fun _ =>
      shiftsWith_finish v0 i0 (fun i => ((i.addSrc src1).addSrc src2).addSrc dst)
        (fun _ => rfl)))))))) s
  · exact shifts_threeRegs v0 i0 _ _ s
  · exact shifts_threeRegs v0 i0 _ _ s
  · exact shifts_instruction v0 i0 _ _ _
      (shiftsWith_bind v0 i0 _ _ (shifts_regOperand v0 i0) (fun dst =>
      shiftsWith_bind v0 i0 _ _ (shifts_eat v0 i0 _) (fun _ =>
      shiftsWith_bind v0 i0 _ _ (shifts_regOperand v0 i0) (fun src1 =>
      shiftsWith_finish v0 i0 (fun i => (i.addDst dst).addSrc src1) (fun _ => rfl))))) s
  · exact shifts_instruction v0 i0 _ _ _
      (shiftsWith_bind v0 i0 _ _ (shifts_regOperand v0 i0) (fun src1 =>
      shiftsWith_bind v0 i0 _ _ (shifts_eat v0 i0 _) (fun _ =>
      shiftsWith_bind v0 i0 _ _ (shifts_regOperand v0 i0) (fun src2 =>
      shiftsWith_bind v0 i0 _ _ (shifts_eat v0 i0 _) (fun _ =>
      shiftsWith_bind v0 i0 _ _ (shifts_labelOperand v0 i0) (fun dst =>
      shiftsWith_finish v0 i0 (fun i => ((i.addSrc src1).addSrc src2).addSrc dst)
        (fun _ => rfl))))))) s
  · rfl

theorem shifts_S (v0 i0 : Nat) : Shifts v0 i0 id S := by
  intro s
  unfold S
  rw [currentTok_shift]
  generalize hcur : (currentTok s).tokenType = t
  split
  · exact shifts_bind_id v0 i0 _ _ _ (shifts_eat v0 i0 _) (fun _ =>
      shifts_bind_id v0 i0 _ _ _ (shifts_createVariable v0 i0) (fun var =>
      shifts_update v0 i0 () (fun s1 => { s1 with mem_vars := s1.mem_vars ++ [var] })
        (fun _ => rfl))) s
  · exact shifts_bind_id v0 i0 _ _ _ (shifts_eat v0 i0 _) (fun _ =>
      shifts_bind_id v0 i0 _ _ _ (shifts_createVariable v0 i0) (fun var =>
      shifts_update v0 i0 () (fun s1 => { s1 with reg_vars := s1.reg_vars ++ [var] })
        (fun _ => rfl))) s
  · exact shifts_bind_id v0 i0 _ _ _ (shifts_eat v0 i0 _) (fun _ =>
      shifts_bind_id v0 i0 _ _ _ (shifts_createVariable v0 i0) (fun var =>
      shifts_bind v0 i0 (Instruction.shift i0) id _ _
        (fun t => by
          unfold newInstruction Result.shift SyntaxAnalysis.shift Instruction.shift
          simp [Nat.add_right_comm])
        (fun i t => by
          unfold Result.shift SyntaxAnalysis.shift
          simp))) s
  · exact shifts_bind_id v0 i0 _ _ _ (shifts_createVariable v0 i0) (fun var =>
      shifts_bind_id v0 i0 _ _ _
        (shifts_update v0 i0 ()
          (fun s1 => { s1 with label_vars := s1.label_vars ++ [var],
                               next_instruction_has_label := true })
          (fun _ => rfl)) (fun _ =>
      shifts_bind_id v0 i0 _ _ _ (shifts_eat v0 i0 _) (fun _ => shifts_E v0 i0))) s
  · exact shifts_E v0 i0 s

theorem shifts_L (v0 i0 : Nat) (Qf : Parser Unit) (hQ : Shifts v0 i0 id Qf) :
    Shifts v0 i0 id (L Qf) := by
  intro s
  unfold L
  rw [currentTok_shift]
  by_cases h : (currentTok s).tokenType = .T_END_OF_FILE
  · rw [if_pos h, if_pos h]
    exact shifts_bind_id v0 i0 _ _ _ (shifts_eat v0 i0 _) (fun _ =>
      shifts_update v0 i0 () (fun s1 => { s1 with eof := true }) (fun _ => rfl)) s
  · rw [if_neg h, if_neg h]
    exact hQ s

theorem shifts_Q (v0 i0 : Nat) (fuel : Nat) : Shifts v0 i0 id (Q fuel) := by
  induction fuel with
  | zero =>
    intro s
    rfl
  | succ n ih =>
    intro s
    unfold Q
    simp only
    have hcur : currentTok { s.shift v0 i0 with next_instruction_has_label := false } =
        currentTok { s with next_instruction_has_label := false } := rfl
    rw [hcur]
    by_cases h : (currentTok { s with next_instruction_has_label := false }).tokenType =
        .T_COMMENT
    · rw [if_pos h, if_pos h]
      exact shifts_bind_id v0 i0 _ _ _ (shifts_eat v0 i0 _) (fun _ => shifts_L v0 i0 _ ih)
        { s with next_instruction_has_label := false }
    · rw [if_neg h, if_neg h]
      exact shifts_bind_id v0 i0 _ _ _ (shifts_S v0 i0) (fun _ =>
        shifts_bind_id v0 i0 _ _ _ (shifts_eat v0 i0 _) (fun _ => shifts_L v0 i0 _ ih))
        { s with next_instruction_has_label := false }

theorem shifts_checkLabels (v0 i0 : Nat) : Shifts v0 i0 id checkLabels := by
  intro s
  unfold checkLabels
  have e2 : (s.shift v0 i0).label_vars = s.label_vars := rfl
  have e3 : (s.shift v0 i0).heap = s.heap.map (Variable.shift v0) := rfl
  have e4 : (fun p => (deref (s.heap.map (Variable.shift v0)) p).value != 1) =
      (fun p => (deref s.heap p).value != 1) := by
    funext p
    rw [deref_shift, shift_value]
  rw [e2, e3, e4]
  cases s.label_vars.find? (fun p => (deref s.heap p).value != 1) <;> rfl

theorem filter_isFunc_shift (k : Nat) (instrs : List Instruction) :
    ((instrs.map (Instruction.shift k)).filter (fun i => i.isFunc)).length =
      (instrs.filter (fun i => i.isFunc)).length := by
  induction instrs with
  | nil => rfl
  | cons i rest ih =>
    have e : (i.shift k).isFunc = i.isFunc := rfl
    rw [List.map_cons, List.filter_cons, List.filter_cons, e]
    split
    · rw [List.length_cons, List.length_cons, ih]
    · exact ih

theorem shifts_checkFunctions (v0 i0 : Nat) : Shifts v0 i0 id checkFunctions := by
  intro s
  unfold checkFunctions
  have e1 : (s.shift v0 i0).instrs = s.instrs.map (Instruction.shift i0) := rfl
  rw [e1]
  cases hs : s.instrs with
  | nil => rfl
  | cons front rest =>
    have e : (front.shift i0).isFunc = front.isFunc := rfl
    have hf := filter_isFunc_shift i0 (front :: rest)
    simp only [List.map_cons, List.head?_cons, e]
    rw [← List.map_cons, hf]
    by_cases h1 : (!front.isFunc) = true
    · rw [if_pos h1, if_pos h1]
      rfl
    · rw [if_neg h1, if_neg h1]
      by_cases h2 : ((front :: rest).filter (fun i => i.isFunc)).length ≠ 1
      · rw [if_pos h2, if_pos h2]
        rfl
      · rw [if_neg h2, if_neg h2]
        rfl

theorem shifts_Do (v0 i0 : Nat) : Shifts v0 i0 id SyntaxAnalysis.Do := by
  intro s
  unfold SyntaxAnalysis.Do
  exact shifts_bind_id v0 i0 _ _ _ (shifts_Q v0 i0 _) (fun _ =>
    shifts_bind_id v0 i0 _ _ _ (shifts_checkLabels v0 i0) (fun _ =>
    shifts_bind_id v0 i0 _ _ _ (shifts_checkFunctions v0 i0) (fun _ => fun _ => rfl)))
    { s with currentToken := 0 }

theorem insPositions_shift (v0 i0 : Nat) (s : SyntaxAnalysis) :
    insPositions (s.shift v0 i0) = (insPositions s).map (fun x : Int => x + (i0 : Int)) := by
  unfold insPositions
  show (s.instrs.map (Instruction.shift i0)).map _ = _
  rw [List.map_map, List.map_map]
  rfl

/-- C30 (counterexample). After a parse of `_func main; _reg r1; _reg r2; done: lw r1,
4(r2); nop;`, which numbers the registers 0, 1 and the instructions 0, 1, 2 and leaves
the counters at 2 and 3, a second parser constructed in the same process numbers the
registers of the same input 2, 3 and its instructions 3, 4, 5. -/
theorem second_parse_renumbers :
    SyntaxAnalysis.Do (SyntaxAnalysis.init emitTokens) = .ok true emitParsed ∧
      regPositions emitParsed = [0, 1] ∧ insPositions emitParsed = [0, 1, 2] ∧
      emitParsed.varCounter = 2 ∧ emitParsed.insCounter = 3 ∧
      SyntaxAnalysis.Do (SyntaxAnalysis.construct emitTokens 2 3) = .ok true emitParsedAgain ∧
      regPositions emitParsedAgain = [2, 3] ∧ insPositions emitParsedAgain = [3, 4, 5] := by
  decide!

/-- C30 (amended). The position counters are static members that a new `SyntaxAnalysis`
does not reset.  When the parse of an input in a fresh process returns `b` with the state
`s1`, the parse of the same input by a parser constructed with the counters at `v0` and
`i0` (within the range of `int`) returns `b` with the state of the fresh parse in which
every register variable has its position raised by `v0` and every instruction its
position raised by `i0`; so a second parse of the input in the same process numbers from
the counters that the first one left. -/
theorem positions_continue (tokens : List Token) (v0 i0 : Nat) (b : Bool)
    (s1 : SyntaxAnalysis)
    (h : SyntaxAnalysis.Do (SyntaxAnalysis.init tokens) = .ok b s1)
    (hv : s1.varCounter + v0 < 2 ^ 31) (hi : s1.insCounter + i0 < 2 ^ 31) :
    SyntaxAnalysis.Do (SyntaxAnalysis.construct tokens v0 i0) = .ok b (s1.shift v0 i0) ∧
      (s1.shift v0 i0).varCounter < 2 ^ 31 ∧ (s1.shift v0 i0).insCounter < 2 ^ 31 ∧
      (∀ p, (deref (s1.shift v0 i0).heap p).m_position =
        if (deref s1.heap p).m_type = .REG_VAR then (deref s1.heap p).m_position + v0
        else (deref s1.heap p).m_position) ∧
      insPositions (s1.shift v0 i0) = (insPositions s1).map (fun x : Int => x + (i0 : Int)) := by
  refine ⟨?_, hv, hi, ?_, insPositions_shift v0 i0 s1⟩
  · have hsim := shifts_Do v0 i0 (SyntaxAnalysis.init tokens)
    have hinit : (SyntaxAnalysis.init tokens).shift v0 i0 =
        SyntaxAnalysis.construct tokens v0 i0 := by
      unfold SyntaxAnalysis.shift SyntaxAnalysis.init SyntaxAnalysis.construct
      simp
    rw [hinit, h] at hsim
    exact hsim
  · intro p
    show (deref (s1.heap.map (Variable.shift v0)) p).m_position = _
    rw [deref_shift]
    unfold Variable.shift
    split <;> rfl

/-- Witness of C30: the second parse of `_func main; _reg r1; _reg r2; done: lw r1,
4(r2); nop;` with the counters at 2 and 3. -/
theorem positions_continue_witness :
    SyntaxAnalysis.Do (SyntaxAnalysis.construct emitTokens 2 3) =
        .ok true (emitParsed.shift 2 3) ∧
      (emitParsed.shift 2 3).varCounter < 2 ^ 31 ∧
      (emitParsed.shift 2 3).insCounter < 2 ^ 31 ∧
      (∀ p, (deref (emitParsed.shift 2 3).heap p).m_position =
        if (deref emitParsed.heap p).m_type = .REG_VAR then
          (deref emitParsed.heap p).m_position + (2 : Nat)
        else (deref emitParsed.heap p).m_position) ∧
      insPositions (emitParsed.shift 2 3) =
        (insPositions emitParsed).map (fun x : Int => x + ((3 : Nat) : Int)) :=
  positions_continue emitTokens 2 3 true emitParsed (by decide!) (by decide!) (by decide!)

/-! ## The passes of the liveness analysis -/

theorem livenessFor_passes (fuel : Nat) :
    ∀ (counter : Nat) (done : Bool) (instrs : List Instruction), counter ≤ 10 →
      (livenessFor fuel counter done instrs).2.2 ≤ 10 := by
  induction fuel with
  | zero =>
    intro counter done instrs h
    exact h
  | succ n ih =>
    intro counter done instrs h
    unfold livenessFor
    split
    · rename_i hc
      simp only [Bool.and_eq_true, decide_eq_true_eq] at hc
      exact ih _ _ _ (by omega)
    · exact h

/-- C40. A dead definition may overwrite a live register: the program `_func main;
_reg r1; _reg r2; li r1, 1; li r2, 2; add r1, r1, r1;` parses and allocates (`Do()` of
the parser and of the analysis return true); at the instruction `li r2, 2` the variable
`r2` is in DEF and not in OUT, the other variable `r1` is in OUT, the interference
matrix has no edge between the two, and both are assigned the register `t0`. -/
theorem dead_definition_shares_register :
    ∃ la, compile deadDefTokens = some la ∧
      ∃ i ∈ la.instrs, ∃ d ∈ i.m_def, ∃ v ∈ i.m_out,
        d ∉ i.m_out ∧ v ≠ d ∧ d ∈ la.reg_vars ∧ v ∈ la.reg_vars ∧
        i.m_type = .I_LI ∧ (deref la.heap d).m_name = "r2" ∧ (deref la.heap v).m_name = "r1" ∧
        matAt la.interferenceGraph (getPos la.heap d) (getPos la.heap v) = 0 ∧
        matAt la.interferenceGraph (getPos la.heap v) (getPos la.heap d) = 0 ∧
        (deref la.heap d).m_assignment = (deref la.heap v).m_assignment ∧
        (deref la.heap d).m_assignment = .t0 :=
  ⟨deadDefCompiled, by decide!, deadDefCompiled.instrs.getD 2 default, by decide!,
    2, by decide!, 1, by decide!, by decide!⟩

/-- C36. The 10-pass cap can cut the analysis short: `liveness()` never makes more than
10 passes, and for the program `_func main; _reg r1; l0: add r1, r1, r1; l1: b l0;
l2: b l1; ... l10: b l9;`, which parses, `liveness()` returns after the 10th pass with
`done` unset and with the register `r1` in IN of the successor `l9: b l8` of the last
instruction `l10: b l9` but not in OUT of that instruction. -/
theorem ten_pass_cap :
    (∀ instrs, (liveness instrs).2.2 ≤ 10) ∧
    ∃ la, constructed chainTokens = some la ∧
      (SyntaxAnalysis.Do (SyntaxAnalysis.init chainTokens)).returned = some true ∧
      (liveness la.instrs).2 = (false, 10) ∧
      ∃ i s v, i < la.instrs.length ∧
        s ∈ ((liveness la.instrs).1.getD i default).m_succ ∧
        v ∈ ((liveness la.instrs).1.getD s default).m_in ∧
        v ∉ ((liveness la.instrs).1.getD i default).m_out ∧
        ((liveness la.instrs).1.getD i default).m_out ≠
          getSuccIns (liveness la.instrs).1 ((liveness la.instrs).1.getD i default) := by
  refine ⟨fun instrs => livenessFor_passes 10 0 false instrs (by omega), chainLA, ?_, ?_, ?_,
    11, 10, 1, ?_⟩
  · decide!
  · decide!
  · decide!
  · decide!

theorem foldl_succIns_congr (a b : List Instruction) (l : List Nat)
    (h : ∀ s ∈ l, (a.getD s default).m_in = (b.getD s default).m_in) :
    ∀ init : List Nat,
      l.foldl (fun vars s => (a.getD s default).m_in.foldl pushIfNew vars) init =
        l.foldl (fun vars s => (b.getD s default).m_in.foldl pushIfNew vars) init := by
  induction l with
  | nil => exact fun _ => rfl
  | cons s rest ih =>
    intro init
    rw [List.foldl_cons, List.foldl_cons, h s (List.mem_cons_self _ _)]
    exact ih (fun t ht => h t (List.mem_cons_of_mem _ ht)) _

theorem getSuccIns_congr (a b : List Instruction) (curr : Instruction)
    (h : ∀ s ∈ curr.m_succ, (a.getD s default).m_in = (b.getD s default).m_in) :
    getSuccIns a curr = getSuccIns b curr :=
  foldl_succIns_congr a b curr.m_succ h []

theorem getUseWithOutWithoutDef_in (c : Instruction) (i : List Nat) :
    getUseWithOutWithoutDef { c with m_in := i } = getUseWithOutWithoutDef c := rfl

/-- A visit of an index at which nothing is to change leaves the list and the flag. -/
theorem livenessVisit_fix (st : List Instruction) (k : Nat) (h : FixAt st k) :
    livenessVisit (st, true) k = (st, true) := by
  obtain ⟨hout, hin⟩ := h
  have hc : ({ st.getD k default with m_out := getSuccIns st (st.getD k default) } :
      Instruction) = st.getD k default := by
    rw [← hout]
  unfold livenessVisit
  simp only
  rw [hc, ← hin, ← hout]
  simp only [ne_eq, not_true_eq_false, or_self, if_false, if_true]
  rw [instr_update_self _ _ _ rfl rfl, set_getD_self]

theorem foldl_livenessVisit_fix (l : List Nat) (st : List Instruction)
    (h : ∀ k ∈ l, FixAt st k) : l.foldl livenessVisit (st, true) = (st, true) := by
  induction l with
  | nil => rfl
  | cons k rest ih =>
    rw [List.foldl_cons, livenessVisit_fix st k (h k (List.mem_cons_self _ _))]
    exact ih (fun j hj => h j (List.mem_cons_of_mem _ hj))

/-- A pass over a list at every index of which nothing is to change returns the list
and `prevGood = true`. -/
theorem livenessPass_fix (st : List Instruction) (h : ∀ k, k < st.length → FixAt st k) :
    livenessPass st = (st, true) := by
  unfold livenessPass
  apply foldl_livenessVisit_fix
  intro k hk
  rw [List.mem_reverse, List.mem_range] at hk
  exact h k hk

/-- A visit of the index `m` keeps what is settled at the later indices and settles
`m`, when every successor comes later in the list. -/
theorem livenessVisit_settles (instrs : List Instruction) (st : List Instruction × Bool)
    (m : Nat) (hs : SameStatic instrs st.1)
    (hfwd : ∀ k, k < instrs.length → ∀ s ∈ (instrs.getD k default).m_succ, k < s)
    (hfix : ∀ j, m < j → j < instrs.length → FixAt st.1 j) :
    ∀ j, m ≤ j → j < instrs.length → FixAt (livenessVisit st m).1 j := by
  intro j hmj hj
  have hin : ∀ s, m < s → ((livenessVisit st m).1.getD s default).m_in =
      (st.1.getD s default).m_in := by
    intro s hms
    rw [livenessVisit_fst, getD_set_instr, if_neg (by omega)]
  have hsucc : ∀ i, i < instrs.length → m ≤ i →
      getSuccIns (livenessVisit st m).1 (st.1.getD i default) =
        getSuccIns st.1 (st.1.getD i default) := by
    intro i hi hmi
    apply getSuccIns_congr
    intro s hs2
    rw [(hs.2 i).2.2] at hs2
    exact hin s (by have := hfwd i hi s hs2; omega)
  by_cases hjm : j = m
  · subst hjm
    have hlen : j < st.1.length := by rw [hs.1]; exact hj
    have hget : (livenessVisit st j).1.getD j default =
        { ({ st.1.getD j default with
            m_out := getSuccIns st.1 (st.1.getD j default) } : Instruction) with
          m_in := getUseWithOutWithoutDef
            { st.1.getD j default with
              m_out := getSuccIns st.1 (st.1.getD j default) } } := by
      rw [livenessVisit_fst, getD_set_instr, if_pos ⟨rfl, hlen⟩]
    unfold FixAt
    rw [hget]
    constructor
    · show getSuccIns st.1 (st.1.getD j default) = getSuccIns (livenessVisit st j).1 _
      rw [← hsucc j hj (Nat.le_refl j)]
      rfl
    · rfl
  · have hget : (livenessVisit st m).1.getD j default = st.1.getD j default := by
      rw [livenessVisit_fst, getD_set_instr, if_neg (by omega)]
    obtain ⟨h1, h2⟩ := hfix j (by omega) hj
    unfold FixAt
    rw [hget, hsucc j hj hmj]
    exact ⟨h1, h2⟩

theorem range_reverse_succ (m : Nat) :
    (List.range (m + 1)).reverse = m :: (List.range m).reverse := by
  rw [List.range_succ, List.reverse_append]
  rfl

theorem foldl_livenessVisit_static (instrs : List Instruction) (l : List Nat) :
    ∀ st : List Instruction × Bool, SameStatic instrs st.1 →
      SameStatic instrs (l.foldl livenessVisit st).1 := by
  induction l with
  | nil => exact fun _ h => h
  | cons k rest ih =>
    intro st h
    exact ih _ (livenessVisit_static instrs st k h)

/-- The visits of the indices below `m` in reverse order settle every index, when the
indices from `m` on are settled and every successor comes later in the list. -/
theorem foldl_livenessVisit_settles (instrs : List Instruction)
    (hfwd : ∀ k, k < instrs.length → ∀ s ∈ (instrs.getD k default).m_succ, k < s)
    (m : Nat) :
    ∀ st : List Instruction × Bool, SameStatic instrs st.1 →
      (∀ j, m ≤ j → j < instrs.length → FixAt st.1 j) →
      ∀ j, j < instrs.length → FixAt ((List.range m).reverse.foldl livenessVisit st).1 j := by
  induction m with
  | zero =>
    intro st _ hfix j hj
    exact hfix j (Nat.zero_le j) hj
  | succ m ih =>
    intro st hs hfix j hj
    rw [range_reverse_succ, List.foldl_cons]
    exact ih _ (livenessVisit_static instrs st m hs)
      (livenessVisit_settles instrs st m hs hfwd (fun i hmi hi => hfix i (by omega) hi)) j hj

/-- One pass settles every index when every successor comes later in the list. -/
theorem livenessPass_settles (instrs : List Instruction)
    (hfwd : ∀ k, k < instrs.length → ∀ s ∈ (instrs.getD k default).m_succ, k < s) :
    (livenessPass instrs).1.length = instrs.length ∧
      ∀ j, j < instrs.length → FixAt (livenessPass instrs).1 j := by
  unfold livenessPass
  exact ⟨(foldl_livenessVisit_static instrs _ (instrs, true) (sameStatic_refl instrs)).1,
    foldl_livenessVisit_settles instrs hfwd instrs.length (instrs, true)
      (sameStatic_refl instrs) (fun j h1 h2 => absurd h2 (by omega))⟩

/-- C38. Convergence without back edges: for every instruction list in which every
successor of an instruction comes later in the list, whatever the IN and OUT sets at the
start, `liveness()` ends with `done` set after at most 2 passes; the list it leaves is
the one of the first pass, and a second pass over it changes nothing. -/
theorem converges_without_back_edges (instrs : List Instruction)
    (hfwd : ∀ k, k < instrs.length → ∀ s ∈ (instrs.getD k default).m_succ, k < s) :
    (liveness instrs).2.1 = true ∧ (liveness instrs).2.2 ≤ 2 ∧
      (liveness instrs).1 = (livenessPass instrs).1 ∧
      livenessPass (livenessPass instrs).1 = ((livenessPass instrs).1, true) := by
  obtain ⟨hlen, hfix⟩ := livenessPass_settles instrs hfwd
  have hsecond : livenessPass (livenessPass instrs).1 = ((livenessPass instrs).1, true) :=
    livenessPass_fix _ (fun k hk => hfix k (by rw [← hlen]; exact hk))
  have hrun : liveness instrs =
      livenessFor 9 1 (livenessPass instrs).2 (livenessPass instrs).1 := by
    unfold liveness
    rw [livenessFor]
    rfl
  rw [hrun]
  cases hflag : (livenessPass instrs).2 with
  | true =>
    have e : livenessFor 9 1 true (livenessPass instrs).1 =
        ((livenessPass instrs).1, true, 1) := by
      rw [livenessFor]
      rfl
    rw [e]
    exact ⟨rfl, by show (1 : Nat) ≤ 2; omega, rfl, hsecond⟩
  | false =>
    have e : livenessFor 9 1 false (livenessPass instrs).1 =
        ((livenessPass instrs).1, true, 2) := by
      rw [livenessFor]
      simp only [Bool.not_false, Bool.true_and, decide_eq_true_eq]
      rw [if_pos (by omega), hsecond, livenessFor]
      rfl
    rw [e]
    exact ⟨rfl, Nat.le_refl 2, rfl, hsecond⟩

/-- Witness of C38: the program `_func main; _reg r1; _reg r2; li r1, 0; add r2, r1,
r1; nop;` has no branch; its analysis makes 2 passes. -/
theorem converges_without_back_edges_witness :
    (∀ k, k < straightLA.instrs.length →
      ∀ s ∈ (straightLA.instrs.getD k default).m_succ, k < s) ∧
    (constructed straightTokens = some straightLA ∧
      (liveness straightLA.instrs).2.2 = 2) ∧
    ((liveness straightLA.instrs).2.1 = true ∧ (liveness straightLA.instrs).2.2 ≤ 2 ∧
      (liveness straightLA.instrs).1 = (livenessPass straightLA.instrs).1 ∧
      livenessPass (livenessPass straightLA.instrs).1 =
        ((livenessPass straightLA.instrs).1, true)) :=
  ⟨by decide!, by decide!, converges_without_back_edges straightLA.instrs (by decide!)⟩

theorem sameSet_iff (a b : List Nat) : sameSet a b = true ↔ ∀ v, v ∈ a ↔ v ∈ b := by
  unfold sameSet
  rw [Bool.and_eq_true, List.all_eq_true, List.all_eq_true]
  constructor
  · rintro ⟨h1, h2⟩ v
    exact ⟨fun h => (contains_iff b v).mp (h1 v h), fun h => (contains_iff a v).mp (h2 v h)⟩
  · intro h
    exact ⟨fun v hv => (contains_iff b v).mpr ((h v).mp hv),
      fun v hv => (contains_iff a v).mpr ((h v).mpr hv)⟩

theorem sameSet_self (a : List Nat) : sameSet a a = true :=
  (sameSet_iff a a).mpr (fun _ => Iff.rfl)

theorem sameSets_refl (a : List Instruction) : SameSets a a :=
  ⟨rfl, fun _ => ⟨rfl, rfl, rfl, fun _ => Iff.rfl, fun _ => Iff.rfl⟩⟩

theorem sameSets_symm (a b : List Instruction) (h : SameSets a b) : SameSets b a :=
  ⟨h.1.symm, fun i => ⟨(h.2 i).1.symm, (h.2 i).2.1.symm, (h.2 i).2.2.1.symm,
    fun v => ((h.2 i).2.2.2.1 v).symm, fun v => ((h.2 i).2.2.2.2 v).symm⟩⟩

theorem sameSets_trans (a b c : List Instruction) (h1 : SameSets a b) (h2 : SameSets b c) :
    SameSets a c :=
  ⟨h1.1.trans h2.1, fun i => ⟨(h1.2 i).1.trans (h2.2 i).1, (h1.2 i).2.1.trans (h2.2 i).2.1,
    (h1.2 i).2.2.1.trans (h2.2 i).2.2.1,
    fun v => ((h1.2 i).2.2.2.1 v).trans ((h2.2 i).2.2.2.1 v),
    fun v => ((h1.2 i).2.2.2.2 v).trans ((h2.2 i).2.2.2.2 v)⟩⟩

theorem livenessVisitSets_fst (st : List Instruction × Bool) (k : Nat) :
    (livenessVisitSets st k).1 = (livenessVisit st k).1 := rfl

/-- The visit of an index computes, from lists that agree as sets, lists that agree as
sets. -/
theorem livenessVisit_sameSets (a b : List Instruction × Bool) (k : Nat)
    (h : SameSets a.1 b.1) : SameSets (livenessVisit a k).1 (livenessVisit b k).1 := by
  obtain ⟨hlen, hall⟩ := h
  rw [livenessVisit_fst, livenessVisit_fst]
  refine ⟨by simp [hlen], ?_⟩
  intro i
  rw [getD_set_instr, getD_set_instr]
  by_cases hik : i = k ∧ k < a.1.length
  · have hik2 : i = k ∧ k < b.1.length := ⟨hik.1, by rw [← hlen]; exact hik.2⟩
    rw [if_pos hik, if_pos hik2]
    obtain ⟨hu, hd, hs, _, _⟩ := hall k
    have hout : ∀ v, v ∈ getSuccIns a.1 (a.1.getD k default) ↔
        v ∈ getSuccIns b.1 (b.1.getD k default) := by
      intro v
      rw [mem_getSuccIns, mem_getSuccIns, hs]
      constructor
      · rintro ⟨s, hs1, hs2⟩
        exact ⟨s, hs1, ((hall s).2.2.2.1 v).mp hs2⟩
      · rintro ⟨s, hs1, hs2⟩
        exact ⟨s, hs1, ((hall s).2.2.2.1 v).mpr hs2⟩
    refine ⟨hu, hd, hs, ?_, hout⟩
    intro v
    show v ∈ getUseWithOutWithoutDef _ ↔ v ∈ getUseWithOutWithoutDef _
    rw [mem_getUseWithOutWithoutDef, mem_getUseWithOutWithoutDef]
    show v ∈ (a.1.getD k default).m_use ∨ (v ∈ getSuccIns a.1 (a.1.getD k default) ∧
        v ∉ (a.1.getD k default).m_def) ↔
      v ∈ (b.1.getD k default).m_use ∨ (v ∈ getSuccIns b.1 (b.1.getD k default) ∧
        v ∉ (b.1.getD k default).m_def)
    rw [hu, hd, hout v]
  · have hik2 : ¬ (i = k ∧ k < b.1.length) := by rw [← hlen]; exact hik
    rw [if_neg hik, if_neg hik2]
    exact hall i

theorem foldl_livenessVisit_sameSets (l : List Nat) :
    ∀ a b : List Instruction × Bool, SameSets a.1 b.1 →
      SameSets (l.foldl livenessVisit a).1 (l.foldl livenessVisit b).1 := by
  induction l with
  | nil => exact fun _ _ h => h
  | cons k rest ih =>
    intro a b h
    exact ih _ _ (livenessVisit_sameSets a b k h)

theorem livenessPass_sameSets (a b : List Instruction) (h : SameSets a b) :
    SameSets (livenessPass a).1 (livenessPass b).1 := by
  unfold livenessPass
  rw [h.1]
  exact foldl_livenessVisit_sameSets _ (a, true) (b, true) h

theorem foldl_livenessVisitSets_fst (l : List Nat) :
    ∀ (a : List Instruction) (f g : Bool),
      (l.foldl livenessVisitSets (a, f)).1 = (l.foldl livenessVisit (a, g)).1 := by
  induction l with
  | nil => exact fun _ _ _ => rfl
  | cons k rest ih =>
    intro a f g
    rw [List.foldl_cons, List.foldl_cons]
    exact ih _ _ _

theorem livenessPassSets_fst (a : List Instruction) :
    (livenessPassSets a).1 = (livenessPass a).1 :=
  foldl_livenessVisitSets_fst _ a true true

/-- A visit after which the flag of the set analysis is set has changed no IN and no
OUT as a set. -/
theorem livenessVisitSets_true (a : List Instruction) (f : Bool) (k : Nat)
    (h : (livenessVisitSets (a, f) k).2 = true) :
    f = true ∧ SameSets a (livenessVisitSets (a, f) k).1 := by
  have hflag : (livenessVisitSets (a, f) k).2 =
      if f then
        (if !sameSet (a.getD k default).m_in (getUseWithOutWithoutDef
              { a.getD k default with m_out := getSuccIns a (a.getD k default) }) ||
            !sameSet (a.getD k default).m_out (getSuccIns a (a.getD k default))
          then false else f)
      else f := rfl
  rw [hflag] at h
  cases f with
  | false => simp at h
  | true =>
    simp only [if_true] at h
    split at h
    · simp at h
    · rename_i hc
      simp only [Bool.or_eq_true, Bool.not_eq_true', not_or, Bool.not_eq_false] at hc
      obtain ⟨h1, h2⟩ := hc
      refine ⟨rfl, ?_⟩
      rw [livenessVisitSets_fst, livenessVisit_fst]
      refine ⟨by simp, ?_⟩
      intro i
      rw [getD_set_instr]
      by_cases hik : i = k ∧ k < a.length
      · rw [if_pos hik, hik.1]
        exact ⟨rfl, rfl, rfl, (sameSet_iff _ _).mp h1, (sameSet_iff _ _).mp h2⟩
      · rw [if_neg hik]
        exact ⟨rfl, rfl, rfl, fun _ => Iff.rfl, fun _ => Iff.rfl⟩

theorem foldl_livenessVisitSets_true (l : List Nat) :
    ∀ (a : List Instruction) (f : Bool), (l.foldl livenessVisitSets (a, f)).2 = true →
      f = true ∧ SameSets a (l.foldl livenessVisitSets (a, f)).1 := by
  induction l with
  | nil => exact fun a f h => ⟨h, sameSets_refl a⟩
  | cons k rest ih =>
    intro a f h
    rw [List.foldl_cons] at h ⊢
    obtain ⟨h1, h2⟩ := ih (livenessVisitSets (a, f) k).1 (livenessVisitSets (a, f) k).2 h
    obtain ⟨h3, h4⟩ := livenessVisitSets_true a f k h1
    exact ⟨h3, sameSets_trans _ _ _ h4 h2⟩

/-- A pass after which the flag of the set analysis is set has changed no IN and no OUT
as a set. -/
theorem livenessPassSets_true (a : List Instruction) (h : (livenessPassSets a).2 = true) :
    SameSets a (livenessPass a).1 := by
  rw [← livenessPassSets_fst]
  exact (foldl_livenessVisitSets_true _ a true h).2

/-- A visit that leaves the flag of `liveness()` set leaves the flag of the set analysis
set. -/
theorem foldl_livenessVisit_flag (l : List Nat) :
    ∀ (a : List Instruction) (fc fs : Bool), (fc = true → fs = true) →
      (l.foldl livenessVisit (a, fc)).2 = true →
      (l.foldl livenessVisitSets (a, fs)).2 = true := by
  induction l with
  | nil => exact fun a fc fs h1 h2 => h1 h2
  | cons k rest ih =>
    intro a fc fs h1 h2
    rw [List.foldl_cons] at h2 ⊢
    have hstate : livenessVisitSets (a, fs) k =
        ((livenessVisit (a, fc) k).1, (livenessVisitSets (a, fs) k).2) := rfl
    have hstate2 : livenessVisit (a, fc) k =
        ((livenessVisit (a, fc) k).1, (livenessVisit (a, fc) k).2) := rfl
    rw [hstate]
    rw [hstate2] at h2
    refine ih _ _ _ ?_ h2
    intro hc
    have hflagc : (livenessVisit (a, fc) k).2 =
        if fc then
          (if (a.getD k default).m_in ≠ getUseWithOutWithoutDef
                { a.getD k default with m_out := getSuccIns a (a.getD k default) } ∨
              (a.getD k default).m_out ≠ getSuccIns a (a.getD k default)
            then false else fc)
        else fc := rfl
    have hflags : (livenessVisitSets (a, fs) k).2 =
        if fs then
          (if !sameSet (a.getD k default).m_in (getUseWithOutWithoutDef
                { a.getD k default with m_out := getSuccIns a (a.getD k default) }) ||
              !sameSet (a.getD k default).m_out (getSuccIns a (a.getD k default))
            then false else fs)
        else fs := rfl
    rw [hflagc] at hc
    cases fc with
    | false => simp at hc
    | true =>
      simp only [if_true] at hc
      split at hc
      · simp at hc
      · rename_i hne
        simp only [ne_eq, not_or, not_not] at hne
        rw [hflags, h1 rfl]
        simp only [if_true]
        rw [← hne.1, ← hne.2, sameSet_self, sameSet_self]
        rfl

theorem livenessPass_flag (a : List Instruction) (h : (livenessPass a).2 = true) :
    (livenessPassSets a).2 = true :=
  foldl_livenessVisit_flag _ a true true (fun h => h) h

theorem livenessFor_done_eq (fuel counter : Nat) (instrs : List Instruction) :
    livenessFor fuel counter true instrs = (instrs, true, counter) := by
  cases fuel with
  | zero => rfl
  | succ n =>
    rw [livenessFor]
    rfl

theorem livenessForSets_done_eq (fuel counter : Nat) (instrs : List Instruction) :
    livenessForSets fuel counter true instrs = (instrs, true, counter) := by
  cases fuel with
  | zero => rfl
  | succ n =>
    rw [livenessForSets]
    rfl

theorem livenessFor_counter (fuel : Nat) :
    ∀ (counter : Nat) (done : Bool) (instrs : List Instruction),
      counter ≤ (livenessFor fuel counter done instrs).2.2 := by
  induction fuel with
  | zero => exact fun _ _ _ => Nat.le_refl _
  | succ n ih =>
    intro counter done instrs
    rw [livenessFor]
    split
    · exact Nat.le_trans (Nat.le_succ counter) (ih _ _ _)
    · exact Nat.le_refl _

/-- From a list that a pass changes in no IN and no OUT as a set, every further pass
leaves the sets. -/
theorem livenessFor_sameSets (fuel : Nat) :
    ∀ (counter : Nat) (done : Bool) (instrs : List Instruction),
      SameSets instrs (livenessPass instrs).1 →
      SameSets (livenessFor fuel counter done instrs).1 instrs := by
  induction fuel with
  | zero => exact fun _ _ a _ => sameSets_refl a
  | succ n ih =>
    intro counter done instrs h
    rw [livenessFor]
    split
    · exact sameSets_trans _ _ _
        (ih _ _ _ (livenessPass_sameSets _ _ h)) (sameSets_symm _ _ h)
    · exact sameSets_refl instrs

/-- C37 (counterexample). For the program `_func main; _reg r1; _reg r2; _reg r3;
loop: add r1, r2, r1; bltz r1, loop; add r3, r1, r2;` the second pass changes no IN and
no OUT as a set but writes OUT of the `bltz` as r2, r1 where it was r1, r2: `liveness()`
counts it as a pass with a change and makes 3 passes, the analysis that compares sets
makes 2. -/
theorem reordering_pass_counts :
    constructed reorderTokens = some reorderLA ∧
      (livenessPass reorderLA.instrs).1.map (fun i => (i.m_in, i.m_out)) =
        [([], []), ([2, 1], [1, 2]), ([1, 2], [1, 2]), ([1, 2], [])] ∧
      (livenessPass (livenessPass reorderLA.instrs).1).1.map (fun i => (i.m_in, i.m_out)) =
        [([], []), ([2, 1], [2, 1]), ([2, 1], [2, 1]), ([1, 2], [])] ∧
      (livenessPass (livenessPass reorderLA.instrs).1).2 = false ∧
      (livenessPassSets (livenessPass reorderLA.instrs).1).2 = true ∧
      (liveness reorderLA.instrs).2 = (true, 3) ∧
      (livenessSets reorderLA.instrs).2 = (true, 2) := by
  decide!

/-- C37 (amended). Order-sensitive change test: `liveness()` compares the IN and OUT
lists element by element, so a pass that only reorders a list counts as a pass with a
change.  For every instruction list it makes at least as many passes as the analysis that
compares sets (both under the cap of 10), it ends with the same IN and OUT sets at every
instruction as that analysis, and when it ends with `done` set so does that analysis. -/
theorem passes_at_least_set_passes (instrs : List Instruction) :
    (livenessSets instrs).2.2 ≤ (liveness instrs).2.2 ∧
      SameSets (liveness instrs).1 (livenessSets instrs).1 ∧
      ((liveness instrs).2.1 = true → (livenessSets instrs).2.1 = true) := by
  have key : ∀ (fuel counter : Nat) (instrs : List Instruction),
      (livenessForSets fuel counter false instrs).2.2 ≤
        (livenessFor fuel counter false instrs).2.2 ∧
      SameSets (livenessFor fuel counter false instrs).1
        (livenessForSets fuel counter false instrs).1 ∧
      ((livenessFor fuel counter false instrs).2.1 = true →
        (livenessForSets fuel counter false instrs).2.1 = true) := by
    intro fuel
    induction fuel with
    | zero => exact fun _ a => ⟨Nat.le_refl _, sameSets_refl a, fun h => h⟩
    | succ n ih =>
      intro counter instrs
      rw [livenessFor, livenessForSets]
      by_cases hc : counter < 10
      · have hcond : (!false && decide (counter < 10)) = true := by simp [hc]
        rw [if_pos hcond, if_pos hcond]
        simp only
        rw [livenessPassSets_fst]
        cases hs : (livenessPassSets instrs).2 with
        | false =>
          have hcode : (livenessPass instrs).2 = false := by
            cases hcf : (livenessPass instrs).2 with
            | false => rfl
            | true =>
              rw [livenessPass_flag instrs hcf] at hs
              exact absurd hs (by decide)
          rw [hcode]
          exact ih _ _
        | true =>
          have hsets := livenessPassSets_true instrs hs
          rw [livenessForSets_done_eq]
          cases hcf : (livenessPass instrs).2 with
          | true =>
            rw [livenessFor_done_eq]
            exact ⟨Nat.le_refl _, sameSets_refl _, fun h => h⟩
          | false =>
            exact ⟨livenessFor_counter n _ _ _,
              livenessFor_sameSets n _ _ _ (livenessPass_sameSets _ _ hsets), fun _ => rfl⟩
      · have hcond : ¬ ((!false && decide (counter < 10)) = true) := by simp [hc]
        rw [if_neg hcond, if_neg hcond]
        exact ⟨Nat.le_refl _, sameSets_refl instrs, fun h => h⟩
  exact key 10 0 instrs

/-! ## Simplification choice, simplification stack and colours -/

theorem rang_eq_degree (matrix : Matrix)
    (hsymm : ∀ x, x < matrix.length → ∀ y, y < matrix.length →
      matAt matrix x y = matAt matrix y x)
    (i : Nat) (hi : i < matrix.length) : rang matrix i = degree matrix i := by
  rw [rang_eq_countP matrix i hi]
  unfold degree
  apply List.countP_congr
  intro j hj
  rw [List.mem_range] at hj
  unfold adjacent
  simp only [decide_eq_true_eq]
  rw [hsymm j hj i hi]
  constructor
  · rintro (⟨h1, h2⟩ | ⟨h1, h2⟩)
    · exact ⟨by omega, h2⟩
    · exact ⟨by omega, h2⟩
  · rintro ⟨h1, h2⟩
    by_cases hlt : j < i
    · exact Or.inl ⟨hlt, h2⟩
    · exact Or.inr ⟨by omega, h2⟩

/-- The first selection loop returns the last candidate. -/
theorem lastCandidate_last (count : List Nat) : ∀ size max,
    lastCandidate count size = some max →
      ∀ i, max < i → i < size → ¬ count.getD i 0 < __REG_NUMBER__ := by
  intro size
  induction size with
  | zero => intro max h; simp [lastCandidate] at h
  | succ n ih =>
    intro max h i hmi hi
    unfold lastCandidate at h ih
    rw [foldl_range_succ] at h
    by_cases hc : count.getD n 0 < __REG_NUMBER__
    · simp only [hc, if_true, Option.some.injEq] at h
      omega
    · simp only [hc, if_false] at h
      by_cases hin : i = n
      · rw [hin]; exact hc
      · exact ih max h i hmi (by omega)

/-- The second selection loop: the result has the largest count among the candidates;
it is the starting index, or it is the first candidate with that count and its count is
above the one of the starting index. -/
theorem raiseCandidate_spec (count : List Nat) (init : Nat) : ∀ size,
    count.getD init 0 ≤ count.getD (raiseCandidate count size init) 0 ∧
    (∀ i, i < size → count.getD i 0 < __REG_NUMBER__ →
      count.getD i 0 ≤ count.getD (raiseCandidate count size init) 0) ∧
    (raiseCandidate count size init = init ∨
      (raiseCandidate count size init < size ∧
        count.getD (raiseCandidate count size init) 0 < __REG_NUMBER__ ∧
        count.getD init 0 < count.getD (raiseCandidate count size init) 0 ∧
        ∀ j, j < raiseCandidate count size init → count.getD j 0 < __REG_NUMBER__ →
          count.getD j 0 < count.getD (raiseCandidate count size init) 0)) := by
  intro size
  induction size with
  | zero =>
    refine ⟨Nat.le_refl _, fun i hi => absurd hi (by omega), Or.inl rfl⟩
  | succ n ih =>
    obtain ⟨h1, h2, h3⟩ := ih
    have hstep : raiseCandidate count (n + 1) init =
        if count.getD (raiseCandidate count n init) 0 < count.getD n 0 ∧
          count.getD n 0 < __REG_NUMBER__ then n else raiseCandidate count n init := by
      unfold raiseCandidate
      rw [foldl_range_succ]
    rw [hstep]
    by_cases hc : count.getD (raiseCandidate count n init) 0 < count.getD n 0 ∧
        count.getD n 0 < __REG_NUMBER__
    · rw [if_pos hc]
      refine ⟨by omega, ?_, Or.inr ⟨by omega, hc.2, by omega, ?_⟩⟩
      · intro i hi hci
        by_cases hin : i = n
        · rw [hin]
        · have := h2 i (by omega) hci
          omega
      · intro j hj hcj
        have := h2 j hj hcj
        omega
    · rw [if_neg hc]
      refine ⟨h1, ?_, ?_⟩
      · intro i hi hci
        by_cases hin : i = n
        · rw [hin]
          rw [hin] at hci
          by_contra hlt
          exact hc ⟨by omega, hci⟩
        · exact h2 i (by omega) hci
      · rcases h3 with h3 | ⟨h3, h4, h5, h6⟩
        · exact Or.inl h3
        · exact Or.inr ⟨by omega, h4, h5, h6⟩

/-- C32. Simplification choice: for every symmetric working matrix,
`findElementWithHighestRang` raises "Not enough registers!" if and only if every node has
degree at least K = 4; otherwise it returns an index whose degree is below K and is the
largest among the degrees below K; it has no other outcome. -/
theorem simplification_choice (matrix : Matrix)
    (hsymm : ∀ x, x < matrix.length → ∀ y, y < matrix.length →
      matAt matrix x y = matAt matrix y x) :
    (findElementWithHighestRang matrix = .error (.runtime_error "Not enough registers!") ↔
      ∀ i, i < matrix.length → __REG_NUMBER__ ≤ degree matrix i) ∧
    (∀ curr, findElementWithHighestRang matrix = .ok curr →
      curr < matrix.length ∧ degree matrix curr < __REG_NUMBER__ ∧
      ∀ i, i < matrix.length → degree matrix i < __REG_NUMBER__ →
        degree matrix i ≤ degree matrix curr) ∧
    (findElementWithHighestRang matrix = .error (.runtime_error "Not enough registers!") ∨
      ∃ curr, findElementWithHighestRang matrix = .ok curr) := by
  have hcount : ∀ i, i < matrix.length → (countRang matrix).getD i 0 = degree matrix i :=
    fun i hi => (countRang_getD matrix i hi).trans (rang_eq_degree matrix hsymm i hi)
  refine ⟨?_, ?_, ?_⟩
  · constructor
    · intro h i hi
      unfold findElementWithHighestRang at h
      simp only at h
      split at h
      · rename_i hnone
        have := lastCandidate_none _ _ hnone i hi
        rw [hcount i hi] at this
        omega
      · cases h
    · intro hall
      unfold findElementWithHighestRang
      simp only
      split
      · rfl
      · rename_i max hmax
        have h1 := lastCandidate_some _ _ _ hmax
        have h2 := lastCandidate_lt _ _ _ hmax
        rw [hcount max h2] at h1
        have := hall max h2
        omega
  · intro curr h
    have hlt := findElementWithHighestRang_lt matrix curr h
    unfold findElementWithHighestRang at h
    simp only at h
    split at h
    · cases h
    · rename_i max hmax
      simp only [Except.ok.injEq] at h
      obtain ⟨_, hmaxi, _⟩ := raiseCandidate_spec (countRang matrix) max matrix.length
      have hcand := raiseCandidate_candidate (countRang matrix) matrix.length max
        (lastCandidate_some _ _ _ hmax)
      rw [h] at hmaxi hcand
      rw [hcount curr hlt] at hcand
      refine ⟨hlt, hcand, ?_⟩
      intro i hi hdeg
      have := hmaxi i hi (by rw [hcount i hi]; exact hdeg)
      rw [hcount i hi, hcount curr hlt] at this
      exact this
  · unfold findElementWithHighestRang
    simp only
    split
    · exact Or.inl rfl
    · exact Or.inr ⟨_, rfl⟩

/-- Witness of C32: on the path 0 - 1 - 2 - 3 the node 1 is returned, of degree 2. -/
theorem simplification_choice_witness :
    ((findElementWithHighestRang pathOfFour).toOption = some 1 ∧
      (List.range 4).map (degree pathOfFour) = [1, 2, 2, 1]) ∧
    ((findElementWithHighestRang pathOfFour =
        .error (.runtime_error "Not enough registers!") ↔
      ∀ i, i < pathOfFour.length → __REG_NUMBER__ ≤ degree pathOfFour i) ∧
    (∀ curr, findElementWithHighestRang pathOfFour = .ok curr →
      curr < pathOfFour.length ∧ degree pathOfFour curr < __REG_NUMBER__ ∧
      ∀ i, i < pathOfFour.length → degree pathOfFour i < __REG_NUMBER__ →
        degree pathOfFour i ≤ degree pathOfFour curr) ∧
    (findElementWithHighestRang pathOfFour =
        .error (.runtime_error "Not enough registers!") ∨
      ∃ curr, findElementWithHighestRang pathOfFour = .ok curr)) :=
  ⟨by decide, simplification_choice pathOfFour (by decide)⟩

/-- C33 (counterexample). For two nodes without an edge both are candidates of the same
degree 0, and `findElementWithHighestRang` returns the index 1, not the lowest index
0. -/
theorem tie_goes_to_last_candidate :
    (findElementWithHighestRang twoIsolated).toOption = some 1 ∧
      degree twoIsolated 0 = 0 ∧ degree twoIsolated 1 = 0 ∧
      degree twoIsolated 0 < __REG_NUMBER__ := by
  decide

/-- C33 (amended). Simplification tie-break: for every symmetric working matrix on which
`findElementWithHighestRang` returns an index, let `last` be the last candidate (node of
degree below K).  When no candidate has a larger degree than `last`, the index returned
is `last`, the highest index among the candidates that share the highest candidate
degree; otherwise it is the lowest index among those candidates. -/
theorem tie_break_last_or_first (matrix : Matrix) (curr : Nat)
    (hsymm : ∀ x, x < matrix.length → ∀ y, y < matrix.length →
      matAt matrix x y = matAt matrix y x)
    (h : findElementWithHighestRang matrix = .ok curr) :
    ∃ last, last < matrix.length ∧ degree matrix last < __REG_NUMBER__ ∧
      (∀ i, last < i → i < matrix.length → __REG_NUMBER__ ≤ degree matrix i) ∧
      ((∀ i, i < matrix.length → degree matrix i < __REG_NUMBER__ →
          degree matrix i ≤ degree matrix last) → curr = last) ∧
      ((∃ i, i < matrix.length ∧ degree matrix i < __REG_NUMBER__ ∧
          degree matrix last < degree matrix i) →
        degree matrix last < degree matrix curr ∧
        ∀ j, j < curr → degree matrix j < __REG_NUMBER__ →
          degree matrix j < degree matrix curr) := by
  have hcount : ∀ i, i < matrix.length → (countRang matrix).getD i 0 = degree matrix i :=
    fun i hi => (countRang_getD matrix i hi).trans (rang_eq_degree matrix hsymm i hi)
  have hlt := findElementWithHighestRang_lt matrix curr h
  unfold findElementWithHighestRang at h
  simp only at h
  split at h
  · cases h
  · rename_i max hmax
    simp only [Except.ok.injEq] at h
    have hmaxlt := lastCandidate_lt _ _ _ hmax
    have hmaxc := lastCandidate_some _ _ _ hmax
    obtain ⟨_, hmaxi, hcase⟩ := raiseCandidate_spec (countRang matrix) max matrix.length
    rw [h] at hmaxi hcase
    rw [hcount max hmaxlt] at hmaxc
    refine ⟨max, hmaxlt, hmaxc, ?_, ?_, ?_⟩
    · intro i hmi hi
      have := lastCandidate_last _ _ _ hmax i hmi hi
      rw [hcount i hi] at this
      omega
    · intro hall
      rcases hcase with hcase | ⟨_, h4, h5, _⟩
      · exact hcase
      · rw [hcount curr hlt] at h4
        rw [hcount curr hlt, hcount max hmaxlt] at h5
        have := hall curr hlt h4
        omega
    · rintro ⟨i, hi, hdeg, hgt⟩
      rcases hcase with hcase | ⟨_, _, h5, h6⟩
      · have := hmaxi i hi (by rw [hcount i hi]; exact hdeg)
        rw [hcount i hi, hcase, hcount max hmaxlt] at this
        omega
      · rw [hcount curr hlt, hcount max hmaxlt] at h5
        refine ⟨h5, ?_⟩
        intro j hj hdj
        have hjlt : j < matrix.length := by omega
        have := h6 j hj (by rw [hcount j hjlt]; exact hdj)
        rw [hcount j hjlt, hcount curr hlt] at this
        exact this

/-- Witness of C33 on two nodes without an edge: the last candidate 1 is returned. -/
theorem tie_break_last_or_first_witness :
    ∃ last, last < twoIsolated.length ∧ degree twoIsolated last < __REG_NUMBER__ ∧
      (∀ i, last < i → i < twoIsolated.length → __REG_NUMBER__ ≤ degree twoIsolated i) ∧
      ((∀ i, i < twoIsolated.length → degree twoIsolated i < __REG_NUMBER__ →
          degree twoIsolated i ≤ degree twoIsolated last) → 1 = last) ∧
      ((∃ i, i < twoIsolated.length ∧ degree twoIsolated i < __REG_NUMBER__ ∧
          degree twoIsolated last < degree twoIsolated i) →
        degree twoIsolated last < degree twoIsolated 1 ∧
        ∀ j, j < 1 → degree twoIsolated j < __REG_NUMBER__ →
          degree twoIsolated j < degree twoIsolated 1) :=
  tie_break_last_or_first twoIsolated 1 (by decide) (ok_of_toOption _ _ (by decide))

theorem aligned_start (G : Matrix) (reg_vars : List Nat) (hsize : G.length = reg_vars.length) :
    Aligned G reg_vars G reg_vars := by
  refine ⟨List.range reg_vars.length, List.nodup_range _, ?_, by simp [hsize], ?_, ?_⟩
  · intro a ha
    exact List.mem_range.mp ha
  · apply List.ext_getElem
    · simp
    · intro k h1 h2
      simp [List.getD_eq_getElem?_getD, List.getElem?_eq_getElem h1]
  · intro a b ha hb
    rw [List.length_range] at ha hb
    simp [List.getD_eq_getElem?_getD, List.getElem?_range ha, List.getElem?_range hb]

theorem aligned_step (G : Matrix) (reg_vars : List Nat) (work : Matrix) (taken : List Nat)
    (curr : Nat) (hcurr : curr < work.length) (h : Aligned G reg_vars work taken) :
    Aligned G reg_vars (removeElementOfMatrix curr work) (taken.eraseIdx curr) := by
  obtain ⟨idx, hnd, hlt, hlen, htaken, hmat⟩ := h
  have hci : curr < idx.length := by rw [← hlen]; exact hcurr
  have hlen2 : (idx.eraseIdx curr).length = idx.length - 1 := by
    rw [List.length_eraseIdx, if_pos hci]
  refine ⟨idx.eraseIdx curr, hnd.sublist (List.eraseIdx_sublist _ _), ?_, ?_, ?_, ?_⟩
  · intro a ha
    exact hlt a ((List.eraseIdx_sublist _ _).subset ha)
  · rw [length_removeElementOfMatrix _ _ hcurr, hlen2, hlen]
  · rw [htaken]
    apply List.ext_getElem?
    intro k
    simp only [List.getElem?_eraseIdx, List.getElem?_map]
    split <;> rfl
  · intro a b ha hb
    rw [hlen2] at ha hb
    rw [matAt_removeElementOfMatrix, getD_eraseIdx, getD_eraseIdx]
    apply hmat
    · unfold beforeRemoval
      split <;> omega
    · unfold beforeRemoval
      split <;> omega

/-- Every state of the loop keeps the working matrix and the list of the variables not
yet taken aligned and of the same length. -/
theorem simplifying_aligned (G : Matrix) (reg_vars : List Nat)
    (hsize : G.length = reg_vars.length) (work : Matrix) (taken result : List Nat)
    (h : Simplifying G reg_vars work taken result) : Aligned G reg_vars work taken := by
  induction h with
  | start => exact aligned_start G reg_vars hsize
  | step work taken result curr found _ hcurr _ ih =>
    exact aligned_step G reg_vars work taken curr
      (findElementWithHighestRang_lt _ _ hcurr) ih

/-- The stack that the loop returns is the stack of a state of the loop with an empty
working matrix. -/
theorem simplificationLoop_state (G : Matrix) (reg_vars : List Nat) (n : Nat) :
    ∀ (work : Matrix) (taken result st : List Nat), work.length = n → taken.length = n →
      Simplifying G reg_vars work taken result →
      simplificationLoop n work taken result = .ok st →
      Simplifying G reg_vars [] [] st := by
  induction n with
  | zero =>
    intro work taken result st hw ht hs h
    simp only [simplificationLoop, Except.ok.injEq] at h
    rw [List.length_eq_zero.mp hw, List.length_eq_zero.mp ht, h] at hs
    exact hs
  | succ n ih =>
    intro work taken result st hw ht hs h
    simp only [simplificationLoop] at h
    split at h
    · cases h
    · rename_i curr hcurr
      have hlt := findElementWithHighestRang_lt _ _ hcurr
      split at h
      · cases h
      · rename_i found hfound
        have h1 : (removeElementOfMatrix curr work).length = n := by
          rw [length_removeElementOfMatrix _ _ hlt, hw]; rfl
        have h2 : (taken.eraseIdx curr).length = n := by
          rw [List.length_eraseIdx]
          have : curr < taken.length := by omega
          rw [if_pos this, ht]; rfl
        exact ih _ _ _ _ h1 h2 (Simplifying.step work taken result curr found hs hcurr hfound) h

/-- C34. Simplification stack is a permutation: for every register table of R variables
and every interference matrix of R rows, if `createSimplificationStack` returns without
raising, the stack holds exactly R entries and is a rearrangement of the register table,
so that every variable of a table without repetition occurs in it exactly once; the
stack is the one of a state of the loop with an empty working matrix, and in every state
of the loop the working matrix and the list of not-yet-taken variables denote the same
nodes index by index. -/
theorem simplification_stack_permutation (G : Matrix) (reg_vars st : List Nat)
    (hsize : G.length = reg_vars.length)
    (h : createSimplificationStack G reg_vars = .ok st) :
    st.length = reg_vars.length ∧ st.Perm reg_vars ∧
      (∀ v, st.count v = reg_vars.count v) ∧
      (reg_vars.Nodup → ∀ v ∈ reg_vars, st.count v = 1) ∧
      Simplifying G reg_vars [] [] st ∧
      ∀ matrixToWorkOn notYetTaken result,
        Simplifying G reg_vars matrixToWorkOn notYetTaken result →
          matrixToWorkOn.length = notYetTaken.length ∧
          Aligned G reg_vars matrixToWorkOn notYetTaken := by
  have hperm : st.Perm reg_vars := by
    have := simplificationLoop_perm G.length G reg_vars [] st rfl hsize.symm h
    simpa using this
  refine ⟨hperm.length_eq, hperm, fun v => hperm.count_eq v, ?_, ?_, ?_⟩
  · intro hnd v hv
    rw [hperm.count_eq v]
    exact List.count_eq_one_of_mem hnd hv
  · exact simplificationLoop_state G reg_vars G.length G reg_vars [] st rfl hsize.symm
      Simplifying.start h
  · intro work taken result hs
    have hal := simplifying_aligned G reg_vars hsize work taken result hs
    refine ⟨?_, hal⟩
    obtain ⟨idx, _, _, hlen, htaken, _⟩ := hal
    rw [hlen, htaken, List.length_map]

/-- Witness of C34 on the triangle 0 - 1 - 2 with the isolated node 3 and the register
table 10, 11, 12, 13: the stack is 12, 13, 11, 10 from the top. -/
theorem simplification_stack_permutation_witness :
    (createSimplificationStack triangleAndOne [10, 11, 12, 13]).toOption =
        some [12, 13, 11, 10] ∧
    ([12, 13, 11, 10].length = [10, 11, 12, 13].length ∧
      [12, 13, 11, 10].Perm [10, 11, 12, 13] ∧
      (∀ v, [12, 13, 11, 10].count v = [10, 11, 12, 13].count v) ∧
      ([10, 11, 12, 13].Nodup → ∀ v ∈ [10, 11, 12, 13], [12, 13, 11, 10].count v = 1) ∧
      Simplifying triangleAndOne [10, 11, 12, 13] [] [] [12, 13, 11, 10] ∧
      ∀ matrixToWorkOn notYetTaken result,
        Simplifying triangleAndOne [10, 11, 12, 13] matrixToWorkOn notYetTaken result →
          matrixToWorkOn.length = notYetTaken.length ∧
          Aligned triangleAndOne [10, 11, 12, 13] matrixToWorkOn notYetTaken) :=
  ⟨by decide, simplification_stack_permutation triangleAndOne [10, 11, 12, 13]
    [12, 13, 11, 10] (by decide) (ok_of_toOption _ _ (by decide))⟩

theorem do_eq (la : LivenessAnalysis) :
    la.Do = match resourceAllocation (analysed la) with
      | .error e => .error e
      | .ok la => .ok (la, !la.err) := rfl

/-- A colouring loop that ends without the error flag has pushed every variable of the
stack to `vars`, in order. -/
theorem allocationLoop_vars :
    ∀ (st : List Nat) (prev : Option Nat) (la : LivenessAnalysis),
      (allocationLoop st prev la).err = false →
      (allocationLoop st prev la).vars = la.vars ++ st := by
  intro st
  induction st with
  | nil =>
    intro prev la _
    simp [allocationLoop]
  | cons v st ih =>
    intro prev la herr
    cases prev with
    | none =>
      simp only [allocationLoop] at herr ⊢
      rw [ih _ _ herr]
      simp
    | some w =>
      simp only [allocationLoop] at herr ⊢
      split at herr
      · simp at herr
      · rename_i hcol
        rw [if_neg hcol]
        rw [ih _ _ herr]
        simp

/-- The colouring loop on a stack is the loop on its lower part run from the state that
the loop on its upper part has left, when that part ends without the error flag. -/
theorem allocationLoop_append :
    ∀ (pre post : List Nat) (prev : Option Nat) (la : LivenessAnalysis),
      (allocationLoop pre prev la).err = false → la.err = false →
      allocationLoop (pre ++ post) prev la =
        allocationLoop post (if pre = [] then prev else pre.getLast?)
          (allocationLoop pre prev la) := by
  intro pre
  induction pre with
  | nil =>
    intro post prev la _ _
    simp [allocationLoop]
  | cons v pre ih =>
    intro post prev la herr herr0
    have hlast : (if v :: pre = [] then prev else (v :: pre).getLast?) =
        (if pre = [] then some v else pre.getLast?) := by
      cases pre with
      | nil => simp
      | cons w rest => simp [List.getLast?_cons_cons]
    rw [hlast]
    cases prev with
    | none =>
      simp only [List.cons_append, allocationLoop] at herr ⊢
      exact ih post (some v) _ herr herr0
    | some w =>
      simp only [List.cons_append, allocationLoop] at herr ⊢
      split at herr
      · simp at herr
      · rename_i hcol
        rw [if_neg hcol, if_neg hcol]
        exact ih post (some v) _ herr herr0

/-- C39. The colouring phase cannot fail: when the interference matrix that `Do()` hands
to `resourceAllocation()` is symmetric with a zero diagonal, over a register table whose
positions equal the table indices, with no variable coloured and no error flag yet, then
for every stack that `createSimplificationStack` returns, at every variable `v` of the
stack the colouring loop reaches the call `getColor(v)` without the error flag and the
call does not return -1, so the loop ends without the error flag; hence `Do()` either
raises or returns true, never false. -/
theorem colouring_cannot_fail (la : LivenessAnalysis)
    (hsq : Square la.reg_vars.length (analysed la).interferenceGraph)
    (hpos : ∀ k (hk : k < la.reg_vars.length),
      (deref la.heap (la.reg_vars.get ⟨k, hk⟩)).m_position = (k : Int))
    (hsymm : ∀ x, x < la.reg_vars.length → ∀ y, y < la.reg_vars.length →
      matAt (analysed la).interferenceGraph x y = matAt (analysed la).interferenceGraph y x)
    (hdiag : ∀ x, x < la.reg_vars.length → matAt (analysed la).interferenceGraph x x = 0)
    (hvars : la.vars = []) (herr : la.err = false) :
    (∀ stack, createSimplificationStack (analysed la).interferenceGraph la.reg_vars =
        .ok stack →
      (∀ pre v post, stack = pre ++ v :: post →
        (allocationLoop pre none (analysed la)).err = false ∧
        allocationLoop stack none (analysed la) =
          allocationLoop (v :: post) (if pre = [] then none else pre.getLast?)
            (allocationLoop pre none (analysed la)) ∧
        getColor { allocationLoop pre none (analysed la) with
          vars := (allocationLoop pre none (analysed la)).vars ++ [v] } v ≠ -1) ∧
      (allocationLoop stack none (analysed la)).err = false) ∧
    ((∃ e, la.Do = .error e) ∨ ∃ after, la.Do = .ok (after, true)) := by
  have hsymm2 : ∀ x y, matAt (analysed la).interferenceGraph x y =
      matAt (analysed la).interferenceGraph y x := by
    intro x y
    by_cases hx : x < la.reg_vars.length
    · by_cases hy : y < la.reg_vars.length
      · exact hsymm x hx y hy
      · rw [matAt_eq_zero _ _ hsq x y (Or.inr (by omega)),
          matAt_eq_zero _ _ hsq y x (Or.inl (by omega))]
    · rw [matAt_eq_zero _ _ hsq x y (Or.inl (by omega)),
        matAt_eq_zero _ _ hsq y x (Or.inr (by omega))]
  have hdiag2 : ∀ x, matAt (analysed la).interferenceGraph x x = 0 := by
    intro x
    by_cases hx : x < la.reg_vars.length
    · exact hdiag x hx
    · exact matAt_eq_zero _ _ hsq x x (Or.inl (by omega))
  have hheap : (analysed la).heap = la.heap := rfl
  have hv0 : (analysed la).vars = [] := hvars
  have herr0 : (analysed la).err = false := herr
  have hmain : ∀ stack, createSimplificationStack (analysed la).interferenceGraph
      la.reg_vars = .ok stack →
      (∀ pre v post, stack = pre ++ v :: post →
        (allocationLoop pre none (analysed la)).err = false ∧
        allocationLoop stack none (analysed la) =
          allocationLoop (v :: post) (if pre = [] then none else pre.getLast?)
            (allocationLoop pre none (analysed la)) ∧
        getColor { allocationLoop pre none (analysed la) with
          vars := (allocationLoop pre none (analysed la)).vars ++ [v] } v ≠ -1) ∧
      (allocationLoop stack none (analysed la)).err = false := by
    intro stack hstack
    have hinv : ∀ i j, i < (analysed la).interferenceGraph.length →
        j < (analysed la).interferenceGraph.length →
        matAt (analysed la).interferenceGraph i j = matAt (analysed la).interferenceGraph
          (getPos la.heap (la.reg_vars.getD i 0)) (getPos la.heap (la.reg_vars.getD j 0)) := by
      have hget : ∀ i, i < (analysed la).interferenceGraph.length →
          getPos la.heap (la.reg_vars.getD i 0) = i := by
        intro i hi
        have hi2 : i < la.reg_vars.length := by rw [← hsq.1]; exact hi
        have := hpos i hi2
        have e : la.reg_vars.getD i 0 = la.reg_vars.get ⟨i, hi2⟩ := by
          simp [List.getD_eq_getElem?_getD, List.getElem?_eq_getElem hi2]
        unfold getPos
        rw [e, this]
        simp
      intro i j hi hj
      rw [hget i hi, hget j hj]
    obtain ⟨order, hst, _, hgood⟩ := simplificationLoop_order (analysed la).interferenceGraph
      la.heap hsymm2 hdiag2 _ _ _ _ _ rfl hsq.1.symm hinv hstack
    have hso : stack = order := by simpa using hst
    rw [← hso] at hgood
    constructor
    · intro pre v post hsplit
      have hpre : (allocationLoop pre none (analysed la)).err = false := by
        apply allocationLoop_no_error pre none (analysed la) herr0 hdiag2
        intro k hk
        have hk2 : k < stack.length := by rw [hsplit, List.length_append]; omega
        have := hgood k hk2
        rw [hsplit, List.take_append_of_le_length (by omega),
          List.getD_append _ _ _ _ hk] at this
        rw [hv0, List.nil_append, hheap]
        exact this
      refine ⟨hpre, ?_, ?_⟩
      · rw [hsplit]
        exact allocationLoop_append pre (v :: post) none (analysed la) hpre herr0
      · apply getColor_ne
        obtain ⟨f1, _, _, f4⟩ := allocationLoop_frame pre none (analysed la)
        have hk2 : pre.length < stack.length := by
          rw [hsplit, List.length_append, List.length_cons]; omega
        have := hgood pre.length hk2
        rw [hsplit, List.take_left, List.getD_append_right _ _ _ _ (Nat.le_refl _)] at this
        simp only [Nat.sub_self, List.getD_cons_zero] at this
        simp only [allocationLoop_vars pre none (analysed la) hpre, hv0, List.nil_append, f1]
        rw [List.countP_append]
        simp only [f4, hheap, List.countP_cons, List.countP_nil, hdiag2]
        simpa using this
    · apply allocationLoop_no_error stack none (analysed la) herr0 hdiag2
      intro k hk
      rw [hv0, List.nil_append, hheap]
      exact hgood k hk
  refine ⟨hmain, ?_⟩
  rw [do_eq]
  unfold resourceAllocation
  cases hstack : createSimplificationStack (analysed la).interferenceGraph
      (analysed la).reg_vars with
  | error e => exact Or.inl ⟨e, rfl⟩
  | ok stack =>
    refine Or.inr ⟨allocationLoop stack none (analysed la), ?_⟩
    have := (hmain stack hstack).2
    simp only [this, Bool.not_false]

/-- Witness of C39 on the object that `main()` constructs for `_func main; _reg r1;
_reg r2; _reg r3; loop: add r1, r2, r1; bltz r1, loop; add r3, r1, r2;`: `Do()` returns
true. -/
theorem colouring_cannot_fail_witness :
    (reorderLA.Do.toOption.map (fun r => r.2) = some true) ∧
    ((∀ stack, createSimplificationStack (analysed reorderLA).interferenceGraph
        reorderLA.reg_vars = .ok stack →
      (∀ pre v post, stack = pre ++ v :: post →
        (allocationLoop pre none (analysed reorderLA)).err = false ∧
        allocationLoop stack none (analysed reorderLA) =
          allocationLoop (v :: post) (if pre = [] then none else pre.getLast?)
            (allocationLoop pre none (analysed reorderLA)) ∧
        getColor { allocationLoop pre none (analysed reorderLA) with
          vars := (allocationLoop pre none (analysed reorderLA)).vars ++ [v] } v ≠ -1) ∧
      (allocationLoop stack none (analysed reorderLA)).err = false) ∧
    ((∃ e, reorderLA.Do = .error e) ∨ ∃ after, reorderLA.Do = .ok (after, true))) :=
  ⟨by decide!, colouring_cannot_fail reorderLA (by unfold Square; decide!) (by decide!)
    (by decide!) (by decide!) (by decide!) (by decide!)⟩

/-- A colour that the removal loop of `getColor` takes away is the colour of an already
coloured neighbour. -/
theorem colorFold_removed (m : Matrix) (heap : List Variable) (var : Nat) (vars : List Nat) :
    ∀ (allReg : List Int) (c : Int), c ∈ allReg →
      c ∉ vars.foldl
        (fun allReg other =>
          if matAt m (getPos heap var) (getPos heap other) = 1 then
            allReg.filter (fun c => c ≠ (deref heap other).m_assignment.toInt)
          else allReg) allReg →
      ∃ other ∈ vars, matAt m (getPos heap var) (getPos heap other) = 1 ∧
        (deref heap other).m_assignment.toInt = c := by
  induction vars with
  | nil =>
    intro allReg c hc hnot
    exact absurd hc hnot
  | cons o rest ih =>
    intro allReg c hc hnot
    rw [List.foldl_cons] at hnot
    by_cases hedge : matAt m (getPos heap var) (getPos heap o) = 1
    · rw [if_pos hedge] at hnot
      by_cases hco : c = (deref heap o).m_assignment.toInt
      · exact ⟨o, List.mem_cons_self _ _, hedge, hco.symm⟩
      · have hmem : c ∈ allReg.filter (fun c => c ≠ (deref heap o).m_assignment.toInt) := by
          rw [List.mem_filter]
          exact ⟨hc, by simpa using hco⟩
        obtain ⟨other, h1, h2, h3⟩ := ih _ c hmem hnot
        exact ⟨other, List.mem_cons_of_mem _ h1, h2, h3⟩
    · rw [if_neg hedge] at hnot
      obtain ⟨other, h1, h2, h3⟩ := ih _ c hc hnot
      exact ⟨other, List.mem_cons_of_mem _ h1, h2, h3⟩

/-- The removal loop of `getColor` keeps the colours in ascending order. -/
theorem colorFold_pairwise (m : Matrix) (heap : List Variable) (var : Nat) (vars : List Nat) :
    ∀ (allReg : List Int), allReg.Pairwise (fun a b => a < b) →
      (vars.foldl
        (fun allReg other =>
          if matAt m (getPos heap var) (getPos heap other) = 1 then
            allReg.filter (fun c => c ≠ (deref heap other).m_assignment.toInt)
          else allReg) allReg).Pairwise (fun a b => a < b) := by
  induction vars with
  | nil => exact fun _ h => h
  | cons o rest ih =>
    intro allReg h
    rw [List.foldl_cons]
    split
    · exact ih _ (h.sublist (List.filter_sublist _))
    · exact ih _ h

/-- The colour that `getColor` returns is the lowest free one: every lower colour is the
colour of a neighbour among the coloured variables. -/
theorem getColor_lowest (la : LivenessAnalysis) (var : Nat) (h : getColor la var ≠ -1) :
    ∀ c, 1 ≤ c → c < getColor la var →
      ∃ other ∈ la.vars,
        matAt la.interferenceGraph (getPos la.heap var) (getPos la.heap other) = 1 ∧
        (deref la.heap other).m_assignment.toInt = c := by
  have hle := (getColor_spec la var h).1.2
  intro c hc1 hc2
  have hall : ((List.range __REG_NUMBER__).map (fun i => (i : Int) + 1)) = [1, 2, 3, 4] := rfl
  have hsorted : ((List.range __REG_NUMBER__).map (fun i => (i : Int) + 1)).Pairwise
      (fun a b => a < b) := by
    rw [hall]
    decide
  have hpw := colorFold_pairwise la.interferenceGraph la.heap var la.vars _ hsorted
  apply colorFold_removed la.interferenceGraph la.heap var la.vars
    ((List.range __REG_NUMBER__).map (fun i => (i : Int) + 1)) c
  · rw [hall]
    have : c = 1 ∨ c = 2 ∨ c = 3 := by omega
    rcases this with rfl | rfl | rfl <;> decide
  · intro hmem
    unfold getColor at hc2
    simp only at hc2
    split at hc2
    · rename_i heq
      rw [heq] at hmem
      exact absurd hmem (List.not_mem_nil c)
    · rename_i c0 rest heq
      rw [heq] at hmem hpw
      rcases List.mem_cons.mp hmem with h1 | h1
      · omega
      · have := (List.pairwise_cons.mp hpw).1 c h1
        omega

/-- The colouring loop leaves the assignment of a variable that is not on the stack. -/
theorem allocationLoop_other :
    ∀ (st : List Nat) (prev : Option Nat) (la : LivenessAnalysis) (p : Nat), p ∉ st →
      (deref (allocationLoop st prev la).heap p).m_assignment =
        (deref la.heap p).m_assignment := by
  intro st
  induction st with
  | nil =>
    intro prev la p _
    simp [allocationLoop]
  | cons v st ih =>
    intro prev la p hp
    have hpv : p ≠ v := fun e => hp (by rw [e]; exact List.mem_cons_self _ _)
    have hpst : p ∉ st := fun e => hp (List.mem_cons_of_mem _ e)
    have hset : ∀ r, (deref (setAssignment la.heap v r) p).m_assignment =
        (deref la.heap p).m_assignment := by
      intro r
      rw [deref_setAssignment, if_neg (fun h => hpv h.1)]
    cases prev with
    | none =>
      simp only [allocationLoop]
      rw [ih _ _ p hpst]
      exact hset _
    | some w =>
      simp only [allocationLoop]
      split
      · rfl
      · rw [ih _ _ p hpst]
        exact hset _

/-- The colouring loop keeps the lowest-colour property: every coloured variable has,
for each colour below its own, a coloured neighbour of that colour. -/
theorem allocationLoop_lowest (m : Matrix) (hdiag : ∀ x, matAt m x x = 0) :
    ∀ (st : List Nat) (prev : Option Nat) (la : LivenessAnalysis),
      la.interferenceGraph = m →
      (∀ p ∈ st, p < la.heap.length) → st.Nodup → (∀ p ∈ st, p ∉ la.vars) →
      (∀ v ∈ la.vars, ∀ c, 1 ≤ c → c < (deref la.heap v).m_assignment.toInt →
        ∃ w ∈ la.vars, matAt m (getPos la.heap v) (getPos la.heap w) = 1 ∧
          (deref la.heap w).m_assignment.toInt = c) →
      (allocationLoop st prev la).err = false →
      ∀ v, (v ∈ la.vars ∨ v ∈ st) → ∀ c, 1 ≤ c →
        c < (deref (allocationLoop st prev la).heap v).m_assignment.toInt →
        ∃ w, (w ∈ la.vars ∨ w ∈ st) ∧
          matAt m (getPos la.heap v) (getPos la.heap w) = 1 ∧
          (deref (allocationLoop st prev la).heap w).m_assignment.toInt = c := by
  intro st
  induction st with
  | nil =>
    intro prev la _ _ _ _ hinv _ v hv c hc1 hc2
    simp only [List.not_mem_nil, or_false] at hv
    simp only [allocationLoop] at hc2 ⊢
    obtain ⟨w, hw, h1, h2⟩ := hinv v hv c hc1 hc2
    exact ⟨w, Or.inl hw, h1, h2⟩
  | cons v st ih =>
    intro prev la hm hst hnd hfresh hinv herr u hu c hc1 hc2
    have hv : v < la.heap.length := hst v (List.mem_cons_self _ _)
    have hvvars : v ∉ la.vars := hfresh v (List.mem_cons_self _ _)
    have hnd2 : st.Nodup := (List.nodup_cons.mp hnd).2
    have hvst : v ∉ st := (List.nodup_cons.mp hnd).1
    -- the step: colouring `v` with `r` keeps the invariant when `r` is a lowest colour
    have step : ∀ (r : Regs),
        (∀ c, 1 ≤ c → c < r.toInt → ∃ w ∈ la.vars,
          matAt m (getPos la.heap v) (getPos la.heap w) = 1 ∧
          (deref la.heap w).m_assignment.toInt = c) →
        ∀ x ∈ la.vars ++ [v], ∀ c, 1 ≤ c →
          c < (deref (setAssignment la.heap v r) x).m_assignment.toInt →
          ∃ w ∈ la.vars ++ [v],
            matAt m (getPos (setAssignment la.heap v r) x)
              (getPos (setAssignment la.heap v r) w) = 1 ∧
            (deref (setAssignment la.heap v r) w).m_assignment.toInt = c := by
      intro r hr x hx c hc1 hc2
      have hold : ∀ w ∈ la.vars, deref (setAssignment la.heap v r) w = deref la.heap w := by
        intro w hw
        have hwv : ¬ (w = v ∧ v < la.heap.length) := fun h => hvvars (h.1 ▸ hw)
        rw [deref_setAssignment, if_neg hwv]
      rcases List.mem_append.mp hx with hx | hx
      · rw [hold x hx] at hc2
        obtain ⟨w, hw, h1, h2⟩ := hinv x hx c hc1 hc2
        refine ⟨w, List.mem_append_left _ hw, ?_, ?_⟩
        · rw [getPos_setAssignment, getPos_setAssignment]
          exact h1
        · rw [hold w hw]
          exact h2
      · simp only [List.mem_singleton] at hx
        subst hx
        rw [deref_setAssignment, if_pos ⟨rfl, hv⟩] at hc2
        obtain ⟨w, hw, h1, h2⟩ := hr c hc1 hc2
        refine ⟨w, List.mem_append_left _ hw, ?_, ?_⟩
        · rw [getPos_setAssignment, getPos_setAssignment]
          exact h1
        · rw [hold w hw]
          exact h2
    have hfresh2 : ∀ p ∈ st, p ∉ la.vars ++ [v] := by
      intro p hp hmem
      rcases List.mem_append.mp hmem with h | h
      · exact hfresh p (List.mem_cons_of_mem _ hp) h
      · simp only [List.mem_singleton] at h
        exact hvst (h ▸ hp)
    have hu2 : u ∈ la.vars ++ [v] ∨ u ∈ st := by
      rcases hu with h | h
      · exact Or.inl (List.mem_append_left _ h)
      · rcases List.mem_cons.mp h with h | h
        · exact Or.inl (by rw [h]; simp)
        · exact Or.inr h
    have hback : ∀ w, (w ∈ la.vars ++ [v] ∨ w ∈ st) → (w ∈ la.vars ∨ w ∈ v :: st) := by
      intro w hw
      rcases hw with h | h
      · rcases List.mem_append.mp h with h | h
        · exact Or.inl h
        · simp only [List.mem_singleton] at h
          exact Or.inr (by rw [h]; exact List.mem_cons_self _ _)
      · exact Or.inr (List.mem_cons_of_mem _ h)
    cases prev with
    | none =>
      simp only [allocationLoop] at herr hc2 ⊢
      have hone : ∀ c : Int, 1 ≤ c → c < (Regs.ofInt 1).toInt → ∃ w ∈ la.vars,
          matAt m (getPos la.heap v) (getPos la.heap w) = 1 ∧
          (deref la.heap w).m_assignment.toInt = c := by
        intro c h1 h2
        have e : (Regs.ofInt 1).toInt = 1 := rfl
        rw [e] at h2
        omega
      obtain ⟨w, hw, h1, h2⟩ := ih (some v)
        { la with vars := la.vars ++ [v], heap := setAssignment la.heap v (Regs.ofInt 1) }
        hm (fun p hp => by
          rw [length_setAssignment]
          exact hst p (List.mem_cons_of_mem _ hp)) hnd2 hfresh2 (step _ hone) herr
        u hu2 c hc1 hc2
      refine ⟨w, hback w hw, ?_, h2⟩
      simp only [getPos_setAssignment] at h1
      exact h1
    | some prevVar =>
      simp only [allocationLoop] at herr hc2 ⊢
      split at herr
      · simp at herr
      · rename_i hcol
        rw [if_neg hcol] at hc2 ⊢
        have hspec := getColor_spec { la with vars := la.vars ++ [v] } v hcol
        have hlow : ∀ c : Int, 1 ≤ c →
            c < (Regs.ofInt (getColor { la with vars := la.vars ++ [v] } v)).toInt →
            ∃ w ∈ la.vars, matAt m (getPos la.heap v) (getPos la.heap w) = 1 ∧
              (deref la.heap w).m_assignment.toInt = c := by
          intro c h1 h2
          rw [ofInt_toInt _ hspec.1] at h2
          obtain ⟨other, ho, hedge, hcolour⟩ :=
            getColor_lowest { la with vars := la.vars ++ [v] } v hcol c h1 h2
          simp only at ho hedge hcolour
          rw [hm] at hedge
          rcases List.mem_append.mp ho with ho | ho
          · exact ⟨other, ho, hedge, hcolour⟩
          · simp only [List.mem_singleton] at ho
            rw [ho, hdiag] at hedge
            exact absurd hedge (by decide)
        obtain ⟨w, hw, h1, h2⟩ := ih (some v)
          { la with vars := la.vars ++ [v],
                    heap := setAssignment la.heap v
                      (Regs.ofInt (getColor { la with vars := la.vars ++ [v] } v)) }
          hm (fun p hp => by
            rw [length_setAssignment]
            exact hst p (List.mem_cons_of_mem _ hp)) hnd2 hfresh2 (step _ hlow) herr
          u hu2 c hc1 hc2
        refine ⟨w, hback w hw, ?_, h2⟩
        simp only [getPos_setAssignment] at h1
        exact h1

theorem toInt_cases (r : Regs) :
    0 ≤ r.toInt ∧ r.toInt ≤ 4 ∧ (r.toInt = 0 → r = .no_assign) ∧ (r.toInt = 1 → r = .t0) ∧
      (r.toInt = 2 → r = .t1) ∧ (r.toInt = 3 → r = .t2) := by
  cases r <;> decide

/-- Three colours 1, 2, 3 do not fit on two variables. -/
theorem three_colours_two_variables (colour : Nat → Int) (y z w1 w2 w3 : Nat)
    (h1 : w1 = y ∨ w1 = z) (h2 : w2 = y ∨ w2 = z) (h3 : w3 = y ∨ w3 = z)
    (c1 : colour w1 = 1) (c2 : colour w2 = 2) (c3 : colour w3 = 3) : False := by
  rcases h1 with h1 | h1 <;> rcases h2 with h2 | h2 <;> rcases h3 with h3 | h3 <;>
    subst h1 <;> subst h2 <;> subst h3 <;> omega

/-- C35. Lowest free colour: over a symmetric, zero-diagonal R x R interference matrix
and a register table whose positions equal the table indices, with no variable coloured
before, after a `resourceAllocation` that neither raises nor sets the error flag the
first popped variable has the colour 1 (`t0`), and every variable of colour `c` has, for
each colour from 1 up to `c - 1`, an interfering variable of that colour; hence a variable
without interference edges gets `t0`, and three variables that interfere pairwise and
with nothing else get `t0`, `t1` and `t2` in some order. -/
theorem lowest_free_colour (la after : LivenessAnalysis)
    (hsq : Square la.reg_vars.length la.interferenceGraph)
    (hpos : ∀ k (hk : k < la.reg_vars.length),
      (deref la.heap (la.reg_vars.get ⟨k, hk⟩)).m_position = (k : Int))
    (hsymm : ∀ x, x < la.reg_vars.length → ∀ y, y < la.reg_vars.length →
      matAt la.interferenceGraph x y = matAt la.interferenceGraph y x)
    (hdiag : ∀ x, x < la.reg_vars.length → matAt la.interferenceGraph x x = 0)
    (hvars : la.vars = [])
    (hrun : resourceAllocation la = .ok after) (herr : after.err = false) :
    (∃ stack, createSimplificationStack la.interferenceGraph la.reg_vars = .ok stack ∧
      after = allocationLoop stack none la ∧
      ∀ first, stack.head? = some first → (deref after.heap first).m_assignment = .t0) ∧
    (∀ v ∈ after.reg_vars, ∀ c, 1 ≤ c → c < (deref after.heap v).m_assignment.toInt →
      ∃ w ∈ after.reg_vars,
        matAt after.interferenceGraph (getPos after.heap v) (getPos after.heap w) = 1 ∧
        (deref after.heap w).m_assignment.toInt = c) ∧
    (∀ v ∈ after.reg_vars,
      (∀ w ∈ after.reg_vars,
        matAt after.interferenceGraph (getPos after.heap v) (getPos after.heap w) ≠ 1) →
      (deref after.heap v).m_assignment = .t0) ∧
    (∀ a ∈ after.reg_vars, ∀ b ∈ after.reg_vars, ∀ c ∈ after.reg_vars,
      matAt after.interferenceGraph (getPos after.heap a) (getPos after.heap b) = 1 →
      matAt after.interferenceGraph (getPos after.heap a) (getPos after.heap c) = 1 →
      matAt after.interferenceGraph (getPos after.heap b) (getPos after.heap c) = 1 →
      (∀ w ∈ after.reg_vars, w ≠ a → w ≠ b → w ≠ c →
        matAt after.interferenceGraph (getPos after.heap a) (getPos after.heap w) ≠ 1 ∧
        matAt after.interferenceGraph (getPos after.heap b) (getPos after.heap w) ≠ 1 ∧
        matAt after.interferenceGraph (getPos after.heap c) (getPos after.heap w) ≠ 1) →
      ((deref after.heap a).m_assignment ≠ (deref after.heap b).m_assignment ∧
        (deref after.heap a).m_assignment ≠ (deref after.heap c).m_assignment ∧
        (deref after.heap b).m_assignment ≠ (deref after.heap c).m_assignment) ∧
      ∀ x, x = a ∨ x = b ∨ x = c →
        (deref after.heap x).m_assignment = .t0 ∨ (deref after.heap x).m_assignment = .t1 ∨
          (deref after.heap x).m_assignment = .t2) := by
  have hsymm2 : ∀ x y, matAt la.interferenceGraph x y = matAt la.interferenceGraph y x := by
    intro x y
    by_cases hx : x < la.reg_vars.length
    · by_cases hy : y < la.reg_vars.length
      · exact hsymm x hx y hy
      · rw [matAt_eq_zero _ _ hsq x y (Or.inr (by omega)),
          matAt_eq_zero _ _ hsq y x (Or.inl (by omega))]
    · rw [matAt_eq_zero _ _ hsq x y (Or.inl (by omega)),
        matAt_eq_zero _ _ hsq y x (Or.inr (by omega))]
  have hdiag2 : ∀ x, matAt la.interferenceGraph x x = 0 := by
    intro x
    by_cases hx : x < la.reg_vars.length
    · exact hdiag x hx
    · exact matAt_eq_zero _ _ hsq x x (Or.inl (by omega))
  unfold resourceAllocation at hrun
  split at hrun
  · cases hrun
  · rename_i st hst
    cases hrun
    have hperm := createSimplificationStack_perm _ _ _ hsq.1 hst
    have hnd : la.reg_vars.Nodup := nodup_of_pos _ _ hpos
    have hstnd : st.Nodup := hperm.nodup_iff.mpr hnd
    have hvalid : ∀ p ∈ st, p < la.heap.length := by
      intro p hp
      have hp2 : p ∈ la.reg_vars := hperm.subset hp
      obtain ⟨i, hi⟩ := List.get_of_mem hp2
      have := hpos i.1 i.2
      have e : la.reg_vars.get ⟨i.1, i.2⟩ = p := hi
      rw [e] at this
      exact pointer_valid_of_pos _ _ _ this
    obtain ⟨f1, f2, _, f4⟩ := allocationLoop_frame st none la
    -- the lowest-colour property of every variable of the table
    have hlow : ∀ v ∈ la.reg_vars, ∀ c, 1 ≤ c →
        c < (deref (allocationLoop st none la).heap v).m_assignment.toInt →
        ∃ w ∈ la.reg_vars,
          matAt la.interferenceGraph (getPos la.heap v) (getPos la.heap w) = 1 ∧
          (deref (allocationLoop st none la).heap w).m_assignment.toInt = c := by
      intro v hv c hc1 hc2
      obtain ⟨w, hw, h1, h2⟩ := allocationLoop_lowest la.interferenceGraph hdiag2 st none la
        rfl hvalid hstnd (by rw [hvars]; simp) (by rw [hvars]; simp) herr
        v (Or.inr (hperm.symm.subset hv)) c hc1 hc2
      rw [hvars] at hw
      simp only [List.not_mem_nil, false_or] at hw
      exact ⟨w, hperm.subset hw, h1, h2⟩
    have hassigned : ∀ v ∈ la.reg_vars,
        (deref (allocationLoop st none la).heap v).m_assignment ≠ .no_assign := by
      intro v hv
      exact allocationLoop_assigned st none la [] hvalid (by simp) herr v
        (Or.inr (hperm.symm.subset hv))
    have hdiff : ∀ a ∈ la.reg_vars, ∀ b ∈ la.reg_vars,
        matAt la.interferenceGraph (getPos la.heap a) (getPos la.heap b) = 1 →
        (deref (allocationLoop st none la).heap a).m_assignment ≠
          (deref (allocationLoop st none la).heap b).m_assignment := by
      intro a ha b hb hab
      exact allocationLoop_valid la.interferenceGraph hsymm2 hdiag2 st none la [] rfl hvalid
        hstnd (by simp) (by simp) (by simp) (by simp) herr
        a (Or.inr (hperm.symm.subset ha)) b (Or.inr (hperm.symm.subset hb)) hab
    -- a variable whose neighbours are among `y` and `z` has a colour up to 3
    have hthree : ∀ x ∈ la.reg_vars, ∀ y z,
        (∀ w ∈ la.reg_vars,
          matAt la.interferenceGraph (getPos la.heap x) (getPos la.heap w) = 1 →
            w = y ∨ w = z) →
        (deref (allocationLoop st none la).heap x).m_assignment = .t0 ∨
          (deref (allocationLoop st none la).heap x).m_assignment = .t1 ∨
          (deref (allocationLoop st none la).heap x).m_assignment = .t2 := by
      intro x hx y z hnb
      obtain ⟨t0, t4, tn, t1, t2, t3⟩ :=
        toInt_cases (deref (allocationLoop st none la).heap x).m_assignment
      have hne := hassigned x hx
      by_cases h4 : (deref (allocationLoop st none la).heap x).m_assignment.toInt = 4
      · obtain ⟨w1, hw1, e1, c1⟩ := hlow x hx 1 (by omega) (by omega)
        obtain ⟨w2, hw2, e2, c2⟩ := hlow x hx 2 (by omega) (by omega)
        obtain ⟨w3, hw3, e3, c3⟩ := hlow x hx 3 (by omega) (by omega)
        exact absurd (three_colours_two_variables
          (fun w => (deref (allocationLoop st none la).heap w).m_assignment.toInt)
          y z w1 w2 w3 (hnb w1 hw1 e1) (hnb w2 hw2 e2) (hnb w3 hw3 e3) c1 c2 c3) id
      · have hcases : (deref (allocationLoop st none la).heap x).m_assignment.toInt = 0 ∨
            (deref (allocationLoop st none la).heap x).m_assignment.toInt = 1 ∨
            (deref (allocationLoop st none la).heap x).m_assignment.toInt = 2 ∨
            (deref (allocationLoop st none la).heap x).m_assignment.toInt = 3 := by omega
        rcases hcases with h | h | h | h
        · exact absurd (tn h) hne
        · exact Or.inl (t1 h)
        · exact Or.inr (Or.inl (t2 h))
        · exact Or.inr (Or.inr (t3 h))
    refine ⟨⟨st, hst, rfl, ?_⟩, ?_, ?_, ?_⟩
    · intro first hfirst
      cases st with
      | nil => simp at hfirst
      | cons v rest =>
        simp only [List.head?_cons, Option.some.injEq] at hfirst
        subst hfirst
        have hv : v < la.heap.length := hvalid v (List.mem_cons_self _ _)
        simp only [allocationLoop]
        rw [allocationLoop_other rest (some v) _ v (List.nodup_cons.mp hstnd).1]
        simp only
        rw [deref_setAssignment, if_pos ⟨rfl, hv⟩]
        rfl
    · intro v hv c hc1 hc2
      rw [f2] at hv
      obtain ⟨w, hw, h1, h2⟩ := hlow v hv c hc1 hc2
      exact ⟨w, by rw [f2]; exact hw, by rw [f1, f4, f4]; exact h1, h2⟩
    · intro v hv hnone
      rw [f2] at hv
      rcases hthree v hv v v (fun w hw hedge => by
        rw [f2] at hnone
        have := hnone w hw
        rw [f1, f4, f4] at this
        exact absurd hedge this) with h | h | h
      · exact h
      · have hc : (deref (allocationLoop st none la).heap v).m_assignment.toInt = 2 := by
          rw [h]; rfl
        obtain ⟨w, hw, h1, _⟩ := hlow v hv 1 (by omega) (by omega)
        have := hnone w (by rw [f2]; exact hw)
        rw [f1, f4, f4] at this
        exact absurd h1 this
      · have hc : (deref (allocationLoop st none la).heap v).m_assignment.toInt = 3 := by
          rw [h]; rfl
        obtain ⟨w, hw, h1, _⟩ := hlow v hv 1 (by omega) (by omega)
        have := hnone w (by rw [f2]; exact hw)
        rw [f1, f4, f4] at this
        exact absurd h1 this
    · intro a ha b hb c hc hab hac hbc hnothing
      rw [f2] at ha hb hc hnothing
      rw [f1, f4, f4] at hab hac hbc
      have hother : ∀ w ∈ la.reg_vars, w ≠ a → w ≠ b → w ≠ c →
          matAt la.interferenceGraph (getPos la.heap a) (getPos la.heap w) ≠ 1 ∧
          matAt la.interferenceGraph (getPos la.heap b) (getPos la.heap w) ≠ 1 ∧
          matAt la.interferenceGraph (getPos la.heap c) (getPos la.heap w) ≠ 1 := by
        intro w hw h1 h2 h3
        have := hnothing w hw h1 h2 h3
        rw [f1, f4, f4, f4, f4] at this
        exact this
      have hself : ∀ x, matAt la.interferenceGraph (getPos la.heap x) (getPos la.heap x) ≠ 1 := by
        intro x
        rw [hdiag2]
        decide
      refine ⟨⟨hdiff a ha b hb hab, hdiff a ha c hc hac, hdiff b hb c hc hbc⟩, ?_⟩
      intro x hx
      rcases hx with hx | hx | hx
      · subst hx
        apply hthree x ha b c
        intro w hw hedge
        by_contra hne
        simp only [not_or] at hne
        by_cases hwx : w = x
        · rw [hwx] at hedge
          exact hself x hedge
        · exact (hother w hw hwx hne.1 hne.2).1 hedge
      · subst hx
        apply hthree x hb a c
        intro w hw hedge
        by_contra hne
        simp only [not_or] at hne
        by_cases hwx : w = x
        · rw [hwx] at hedge
          exact hself x hedge
        · exact (hother w hw hne.1 hwx hne.2).2.1 hedge
      · subst hx
        apply hthree x hc a b
        intro w hw hedge
        by_contra hne
        simp only [not_or] at hne
        by_cases hwx : w = x
        · rw [hwx] at hedge
          exact hself x hedge
        · exact (hother w hw hne.1 hne.2 hwx).2.2 hedge

/-- Witness of C35: the allocation of `_func main; _reg r1; _reg r2; _reg r3;
loop: add r1, r2, r1; bltz r1, loop; add r3, r1, r2;`, where only `r1` and `r2`
interfere: `r2` is popped first and gets `t0`, `r3` has no edge and gets `t0`, `r1` gets
`t1` and its neighbour `r2` holds the colour below. -/
theorem lowest_free_colour_witness :
    (analysed reorderLA).interferenceGraph = [[0, 1, 0], [1, 0, 0], [0, 0, 0]] ∧
    (analysed reorderLA).vars = [] ∧
    (resourceAllocation (analysed reorderLA)).toOption = some reorderCompiled ∧
    reorderCompiled.err = false ∧
    reorderCompiled.reg_vars = [1, 2, 3] ∧
    reorderCompiled.reg_vars.map (fun v => (deref reorderCompiled.heap v).m_assignment) =
      [.t1, .t0, .t0] ∧
    (∃ stack,
      createSimplificationStack (analysed reorderLA).interferenceGraph
        (analysed reorderLA).reg_vars = .ok stack ∧
      reorderCompiled = allocationLoop stack none (analysed reorderLA) ∧
      ∀ first, stack.head? = some first →
        (deref reorderCompiled.heap first).m_assignment = .t0) ∧
    (∀ v ∈ reorderCompiled.reg_vars, ∀ c, 1 ≤ c →
      c < (deref reorderCompiled.heap v).m_assignment.toInt →
      ∃ w ∈ reorderCompiled.reg_vars,
        matAt reorderCompiled.interferenceGraph (getPos reorderCompiled.heap v)
          (getPos reorderCompiled.heap w) = 1 ∧
        (deref reorderCompiled.heap w).m_assignment.toInt = c) ∧
    (∀ v ∈ reorderCompiled.reg_vars,
      (∀ w ∈ reorderCompiled.reg_vars,
        matAt reorderCompiled.interferenceGraph (getPos reorderCompiled.heap v)
          (getPos reorderCompiled.heap w) ≠ 1) →
      (deref reorderCompiled.heap v).m_assignment = .t0) :=
  ⟨by decide!, by decide!, by decide!, by decide!, by decide!, by decide!,
    (lowest_free_colour (analysed reorderLA) reorderCompiled (by unfold Square; decide!)
      (by decide!) (by decide!) (by decide!) (by decide!)
      (ok_of_toOption _ _ (by decide!)) (by decide!)).1,
    (lowest_free_colour (analysed reorderLA) reorderCompiled (by unfold Square; decide!)
      (by decide!) (by decide!) (by decide!) (by decide!)
      (ok_of_toOption _ _ (by decide!)) (by decide!)).2.1,
    (lowest_free_colour (analysed reorderLA) reorderCompiled (by unfold Square; decide!)
      (by decide!) (by decide!) (by decide!) (by decide!)
      (ok_of_toOption _ _ (by decide!)) (by decide!)).2.2.1⟩

/-! ## The USE and DEF sets -/

theorem unique_cons_cons (a b : Nat) (rest : List Nat) :
    unique (a :: b :: rest) =
      if a = b then unique (b :: rest) else a :: unique (b :: rest) := by
  rw [unique]

/-- The method `std::list::unique` keeps every value of the list. -/
theorem mem_unique (l : List Nat) (v : Nat) : v ∈ unique l ↔ v ∈ l := by
  induction l with
  | nil => simp [unique]
  | cons a t ih =>
    cases t with
    | nil => simp [unique]
    | cons b rest =>
      rw [unique_cons_cons]
      split
      · rename_i h
        subst h
        rw [ih]
        simp
      · simp only [List.mem_cons, ih]

/-- After `unique()` a list of at most two entries, or of three whose first and last
differ, holds no value twice. -/
theorem unique_nodup (l : List Nat)
    (h : l.length ≤ 2 ∨ ∃ a c b, l = [a, c, b] ∧ a ≠ b) : (unique l).Nodup := by
  rcases h with h | ⟨a, c, b, rfl, hab⟩
  · match l, h with
    | [], _ => simp [unique]
    | [a], _ => simp [unique]
    | [a, b], _ =>
      rw [unique_cons_cons]
      split
      · simp [unique]
      · rename_i hne
        simp [unique, hne]
    | _ :: _ :: _ :: _, h => simp at h
  · rw [unique_cons_cons]
    by_cases hac : a = c
    · rw [if_pos hac, unique_cons_cons]
      subst hac
      rw [if_neg hab]
      simp [unique, hab]
    · rw [if_neg hac, unique_cons_cons]
      by_cases hcb : c = b
      · rw [if_pos hcb]
        simp [unique, hab]
      · rw [if_neg hcb]
        simp [unique, hab, hac, hcb]

/-- The loop of `setUse` and `setDef` appends the entries that pass the test, in order. -/
theorem foldl_push (P : Nat → Prop) [DecidablePred P] (l init : List Nat) :
    l.foldl (fun acc v => if P v then acc ++ [v] else acc) init =
      init ++ l.filter (fun v => decide (P v)) := by
  induction l generalizing init with
  | nil => simp
  | cons a t ih =>
    rw [List.foldl_cons, ih]
    by_cases h : P a
    · simp [h, List.filter_cons]
    · simp [h, List.filter_cons]

/-- The register entries of a source list of the shape that the parser builds hold no
value twice after `unique()`. -/
theorem unique_filter_nodup (P : Nat → Bool) (l : List Nat)
    (h : l.length ≤ 2 ∨ ∃ a c b, l = [a, c, b] ∧ (P c = false ∨ a ≠ b)) :
    (unique (l.filter P)).Nodup := by
  rcases h with h | ⟨a, c, b, rfl, h⟩
  · exact unique_nodup _ (Or.inl (Nat.le_trans (List.length_filter_le _ _) h))
  · rcases h with h | h
    · cases ha : P a <;> cases hb : P b <;>
        simp only [List.filter, ha, hb, h] <;> exact unique_nodup _ (Or.inl (by simp))
    · cases ha : P a <;> cases hb : P b <;> cases hc : P c <;>
        simp only [List.filter, ha, hb, hc] <;>
        first
        | exact unique_nodup _ (Or.inr ⟨a, c, b, rfl, h⟩)
        | exact unique_nodup _ (Or.inl (by simp))

theorem shape_mono (s s1 : SyntaxAnalysis) (i : Instruction)
    (hr : ∀ p ∈ s.reg_vars, p ∈ s1.reg_vars) (hl : ∀ p ∈ s.label_vars, p ∈ s1.label_vars)
    (hc : ∀ p ∈ s.const_vars, p ∈ s1.const_vars) (h : Shape s i) : Shape s1 i := by
  obtain ⟨h1, h2, h3, h4, h5⟩ := h
  refine ⟨h1, h2, h3, h4, ?_⟩
  rcases h5 with h5 | ⟨a, c, b, e, h5⟩
  · exact Or.inl h5
  · refine Or.inr ⟨a, c, b, e, ?_⟩
    rcases h5 with h5 | ⟨h5, h6⟩
    · exact Or.inl (hc c h5)
    · exact Or.inr ⟨hr a h5, hl b h6⟩

theorem parserInv_fields (s s1 : SyntaxAnalysis) (hinv : ParserInv s)
    (h1 : s1.tokens = s.tokens) (h2 : s1.heap = s.heap) (h3 : s1.const_vars = s.const_vars)
    (h4 : s1.reg_vars = s.reg_vars) (h5 : s1.mem_vars = s.mem_vars)
    (h6 : s1.label_vars = s.label_vars) : ParserInv s1 := by
  unfold ParserInv ConstTable TablesLive at *
  rw [h1, h2, h3, h4, h5, h6]
  exact hinv

theorem facts_of (r c l : List Nat) (s s1 : SyntaxAnalysis) (h : Facts r c l s)
    (hinv : ParserInv s1) (hap : Apart s1)
    (hreg : ∀ p ∈ s.reg_vars, p ∈ s1.reg_vars)
    (hlab : ∀ p ∈ s.label_vars, p ∈ s1.label_vars)
    (hconst : ∀ p ∈ s.const_vars, p ∈ s1.const_vars)
    (hins : ∀ i ∈ s1.instrs, i ∈ s.instrs ∨ Shape s1 i) : Facts r c l s1 := by
  obtain ⟨_, _, f3, f4, f5, f6⟩ := h
  refine ⟨hinv, hap, ?_, fun p hp => hreg p (f4 p hp), fun p hp => hconst p (f5 p hp),
    fun p hp => hlab p (f6 p hp)⟩
  intro i hi
  rcases hins i hi with hi | hi
  · exact shape_mono s s1 i hreg hlab hconst (f3 i hi)
  · exact hi

theorem apart_fresh (s s1 : SyntaxAnalysis) (hl : TablesLive s) (h : Apart s)
    (hr : s1.reg_vars = s.reg_vars)
    (hfresh : ∀ p ∈ s1.label_vars, p ∈ s.label_vars ∨ s.heap.length ≤ p) : Apart s1 := by
  intro p hp hq
  rw [hr] at hp
  rcases hfresh p hq with hq | hq
  · exact h p hp hq
  · have := hl.1 p hp
    omega

/-- A step that keeps the register table and adds only new objects to the label table
keeps the facts. -/
theorem facts_opnd (r c l : List Nat) (s s1 : SyntaxAnalysis) (ho : Opnd s s1)
    (hfresh : ∀ p ∈ s1.label_vars, p ∈ s.label_vars ∨ s.heap.length ≤ p)
    (h : Facts r c l s) : Facts r c l s1 := by
  obtain ⟨e1, he1⟩ := ho.label_vars
  obtain ⟨e2, he2⟩ := ho.const_vars
  refine facts_of r c l s s1 h (parserInv_of_opnd _ _ h.1 ho)
    (apart_fresh s s1 h.1.2.1 h.2.1 ho.reg_vars hfresh) ?_ ?_ ?_ ?_
  · rw [ho.reg_vars]
    exact fun p hp => hp
  · rw [he1]
    exact fun p hp => List.mem_append_left _ hp
  · rw [he2]
    exact fun p hp => List.mem_append_left _ hp
  · rw [ho.instrs]
    exact fun i hi => Or.inl hi

theorem facts_seg (r c l : List Nat) (s s1 : SyntaxAnalysis) (ho : Opnd s s1)
    (hl : s1.label_vars = s.label_vars) (h : Facts r c l s) : Facts r c l s1 :=
  facts_opnd r c l s s1 ho (fun p hp => Or.inl (by rw [← hl]; exact hp)) h

theorem findLabel_fresh (name : String) (s s1 : SyntaxAnalysis) (v : Nat)
    (h : findLabel name s = .ok v s1) :
    ∀ p ∈ s1.label_vars, p ∈ s.label_vars ∨ s.heap.length ≤ p := by
  unfold findLabel at h
  cases hf : findByName s.heap s.label_vars name with
  | some p =>
    rw [hf] at h
    simp only [Result.ok.injEq] at h
    obtain ⟨_, rfl⟩ := h
    exact fun p hp => Or.inl hp
  | none =>
    rw [hf] at h
    have h2 : newVariable .LABEL_VAR name 0 s = .ok s.heap.length
        { s with heap := s.heap ++ [⟨.LABEL_VAR, name, -1, .no_assign, 0⟩] } := by
      unfold newVariable
      rw [if_neg (by decide)]
    simp only at h
    rw [bind_of_ok _ _ _ _ _ h2] at h
    simp only [Result.ok.injEq] at h
    obtain ⟨_, rfl⟩ := h
    intro p hp
    simp only [List.mem_append, List.mem_singleton] at hp
    rcases hp with hp | hp
    · exact Or.inl hp
    · exact Or.inr (by rw [hp])

theorem labelOperand_fresh (s s1 : SyntaxAnalysis) (v : Nat)
    (h : labelOperand s = .ok v s1) :
    ∀ p ∈ s1.label_vars, p ∈ s.label_vars ∨ s.heap.length ≤ p := by
  unfold labelOperand at h
  obtain ⟨_, sa, ha, h⟩ := (bind_ok_iff _ _ _ _ _).mp h
  obtain ⟨name, sb, hb, h⟩ := (bind_ok_iff _ _ _ _ _).mp h
  obtain ⟨w, sd, hd, h⟩ := (bind_ok_iff _ _ _ _ _).mp h
  obtain ⟨_, se, he, h⟩ := (bind_ok_iff _ _ _ _ _).mp h
  obtain ⟨_, rfl⟩ := (pure_ok_iff _ _ _ _).mp h
  obtain ⟨rfl, _⟩ := glance_ok _ _ _ _ ha
  unfold curValue at hb
  simp only [Result.ok.injEq] at hb
  obtain ⟨_, rfl⟩ := hb
  have h1 := findLabel_fresh _ _ _ _ hd
  have h2 := (eat_consumes _ _ _ _ he).label_vars
  intro p hp
  rw [h2] at hp
  exact h1 p hp

theorem holds_bind {α β : Type} (P : SyntaxAnalysis → Prop) (m : Parser α)
    (f : α → Parser β) (Q : α → SyntaxAnalysis → Prop) (R : β → SyntaxAnalysis → Prop)
    (hm : Holds P m Q) (hf : ∀ a, Holds (Q a) (f a) R) : Holds P (m >>= f) R := by
  intro s b s2 hp h
  obtain ⟨a, s1, h1, h2⟩ := (bind_ok_iff _ _ _ _ _).mp h
  exact hf a s1 b s2 (hm s a s1 hp h1) h2

theorem holds_pre {α : Type} (P : SyntaxAnalysis → Prop) (fact : Prop) (m : Parser α)
    (R : α → SyntaxAnalysis → Prop) (h : fact → Holds P m R) :
    Holds (fun s => P s ∧ fact) m R :=
  fun s a s1 hp hs => h hp.2 s a s1 hp.1 hs

theorem holds_update (P : SyntaxAnalysis → Prop) (f : SyntaxAnalysis → SyntaxAnalysis)
    (Q : Unit → SyntaxAnalysis → Prop) (h : ∀ s, P s → Q () (f s)) :
    Holds P (fun s => Result.ok () (f s)) Q := by
  intro s a s1 hp hs
  simp only [Result.ok.injEq, true_and] at hs
  rw [← hs]
  exact h s hp

theorem holds_same {α : Type} (P : SyntaxAnalysis → Prop) (m : Parser α)
    (h : ∀ s s1 a, m s = .ok a s1 → s1 = s) : Holds P m (fun _ => P) := by
  intro s a s1 hp hs
  rw [h s s1 a hs]
  exact hp

theorem h_eat (r c l : List Nat) (t : TokenType) :
    Holds (Facts r c l) (eat t) (fun _ => Facts r c l) :=
  fun s a s1 hf h =>
    facts_seg r c l s s1 (eat_opnd t s s1 a h).1 (eat_consumes t s a s1 h).label_vars hf

theorem h_new (r c l : List Nat) (type : InstructionType) :
    Holds (Facts r c l) (newInstruction type none)
      (fun i s => Facts r c l s ∧ Built type [] [] i) := by
  intro s i s1 hf h
  have ho := (newInstruction_opnd _ _ _ _ _ h).1
  unfold newInstruction at h
  simp only [Result.ok.injEq] at h
  obtain ⟨hi, hs⟩ := h
  subst hi
  subst hs
  exact ⟨facts_seg r c l _ _ ho rfl hf, rfl, rfl, rfl, rfl, rfl⟩

theorem h_reg (r c l : List Nat) :
    Holds (Facts r c l) regOperand (fun v => Facts (v :: r) c l) := by
  intro s v s1 hf h
  obtain ⟨ho, _, hd⟩ := regOperand_opnd s s1 v hf.1.2.2 hf.1.2.1 h
  have hseg := regOperand_consumes s v s1 h
  have hty : (tokenAt s.tokens s.currentToken).tokenType = .T_R_ID := by
    have := hseg.types 0 (by simp)
    simpa using this
  have hv : v ∈ s1.reg_vars := by
    obtain ⟨_, hd⟩ := hd
    rw [hty] at hd
    exact hd.1
  obtain ⟨f1, f2, f3, f4, f5, f6⟩ := facts_seg r c l s s1 ho hseg.label_vars hf
  refine ⟨f1, f2, f3, ?_, f5, f6⟩
  intro p hp
  rcases List.mem_cons.mp hp with hp | hp
  · rw [hp]
    exact hv
  · exact f4 p hp

theorem h_num (r c l : List Nat) :
    Holds (Facts r c l) numOperand (fun v => Facts r (v :: c) l) := by
  intro s v s1 hf h
  obtain ⟨ho, _, hd⟩ := numOperand_opnd s s1 v hf.1.2.1 h
  have hseg := numOperand_consumes s v s1 h
  have hty : (tokenAt s.tokens s.currentToken).tokenType = .T_NUM := by
    have := hseg.types 0 (by simp)
    simpa using this
  have hv : v ∈ s1.const_vars := by
    obtain ⟨_, hd⟩ := hd
    rw [hty] at hd
    exact hd.1
  obtain ⟨f1, f2, f3, f4, f5, f6⟩ := facts_seg r c l s s1 ho hseg.label_vars hf
  refine ⟨f1, f2, f3, f4, ?_, f6⟩
  intro p hp
  rcases List.mem_cons.mp hp with hp | hp
  · rw [hp]
    exact hv
  · exact f5 p hp

theorem h_label (r c l : List Nat) :
    Holds (Facts r c l) labelOperand (fun v => Facts r c (v :: l)) := by
  intro s v s1 hf h
  obtain ⟨ho, _, hd⟩ := labelOperand_opnd s s1 v hf.1.2.1 h
  have hty : (tokenAt s.tokens s.currentToken).tokenType = .T_ID :=
    (labelOperand_ok s s1 v h).2.2.2.1
  have hv : v ∈ s1.label_vars := by
    obtain ⟨_, hd⟩ := hd
    rw [hty] at hd
    exact hd.1
  obtain ⟨f1, f2, f3, f4, f5, f6⟩ :=
    facts_opnd r c l s s1 ho (labelOperand_fresh s s1 v h) hf
  refine ⟨f1, f2, f3, f4, f5, ?_⟩
  intro p hp
  rcases List.mem_cons.mp hp with hp | hp
  · rw [hp]
    exact hv
  · exact f6 p hp

/-- The operand sequence `glance(T_M_ID); v = findVariable(); eat(T_M_ID);` of `la`. -/
theorem h_mem {β : Type} (r c l : List Nat) (k : Nat → Parser β)
    (R : β → SyntaxAnalysis → Prop) (hk : ∀ v, Holds (Facts r c l) (k v) R) :
    Holds (Facts r c l)
      (glance .T_M_ID >>= fun _ => findVariable >>= fun v => eat .T_M_ID >>= fun _ => k v)
      R := by
  intro s b s2 hf h
  obtain ⟨_, sa, ha, h⟩ := (bind_ok_iff _ _ _ _ _).mp h
  obtain ⟨v, sb, hb, h⟩ := (bind_ok_iff _ _ _ _ _).mp h
  obtain ⟨_, sc, hc, h⟩ := (bind_ok_iff _ _ _ _ _).mp h
  obtain ⟨ho, _, _⟩ := memOperand_opnd s sa sb sc v _ _ hf.1.2.2 hf.1.2.1 ha hb hc
  have hl : sc.label_vars = s.label_vars := by
    rw [(eat_consumes _ _ _ _ hc).label_vars, (findVariable_consumes _ _ _ hb).label_vars,
      (glance_ok _ _ _ _ ha).1]
  exact hk v sc b s2 (facts_seg r c l s sc ho hl hf) h

theorem built_addDst (type : InstructionType) (dst src : List Nat) (i : Instruction)
    (v : Nat) (h : Built type dst src i) : Built type (dst ++ [v]) src (i.addDst v) := by
  obtain ⟨h1, h2, h3, h4, h5⟩ := h
  exact ⟨h1, by simp [Instruction.addDst, h2], h3, h4, h5⟩

theorem built_addSrc (type : InstructionType) (dst src : List Nat) (i : Instruction)
    (v : Nat) (h : Built type dst src i) : Built type dst (src ++ [v]) (i.addSrc v) := by
  obtain ⟨h1, h2, h3, h4, h5⟩ := h
  exact ⟨h1, h2, by simp [Instruction.addSrc, h3], h4, h5⟩

/-- An instruction of the right shape pushed to the instruction list keeps the facts. -/
theorem facts_push (r c l : List Nat) (s : SyntaxAnalysis) (i : Instruction)
    (h : Facts r c l s) (hi : Shape s i) :
    Facts [] [] [] { s with instrs := s.instrs ++ [i] } := by
  obtain ⟨f1, f2, f3, _, _, _⟩ := h
  refine ⟨parserInv_fields s _ f1 rfl rfl rfl rfl rfl rfl, f2, ?_,
    fun p hp => absurd hp (List.not_mem_nil p), fun p hp => absurd hp (List.not_mem_nil p),
    fun p hp => absurd hp (List.not_mem_nil p)⟩
  intro j hj
  rcases List.mem_append.mp hj with hj | hj
  · exact f3 j hj
  · simp only [List.mem_singleton] at hj
    rw [hj]
    exact hi

theorem h_finish (r c l : List Nat) (j : Instruction) (type : InstructionType)
    (dst src : List Nat) (hb : Built type dst src j) (hd : dst.length ≤ 1)
    (hbr : (type = .I_SW ∨ type = .I_B ∨ type = .I_BLTZ ∨ type = .I_BNE) → dst = [])
    (hs : src.length ≤ 2 ∨ ∃ a m b, src = [a, m, b] ∧ (m ∈ c ∨ (a ∈ r ∧ b ∈ l))) :
    Holds (Facts r c l) (finishE j) (fun _ => Facts [] [] []) := by
  intro s a s1 hf h
  obtain ⟨b1, b2, b3, b4, b5⟩ := hb
  have hshape : ∀ lab, Shape s { j with label := lab } := by
    intro lab
    have e1 : ({ j with label := lab } : Instruction).m_dst = dst := b2
    have e2 : ({ j with label := lab } : Instruction).m_src = src := b3
    have e3 : ({ j with label := lab } : Instruction).m_type = type := b1
    refine ⟨b4, b5, ?_, ?_, ?_⟩
    · rw [e1]
      exact hd
    · intro ht
      rw [e1]
      exact hbr (by rw [← e3]; exact ht)
    · rw [e2]
      rcases hs with hs | ⟨x, m, y, e, hs⟩
      · exact Or.inl hs
      · refine Or.inr ⟨x, m, y, e, ?_⟩
        rcases hs with hs | ⟨h1, h2⟩
        · exact Or.inl (hf.2.2.2.2.1 m hs)
        · exact Or.inr ⟨hf.2.2.2.1 x h1, hf.2.2.2.2.2 y h2⟩
  unfold finishE at h
  split at h
  · split at h
    · cases h
    · split at h
      · cases h
      · simp only [Result.ok.injEq, true_and] at h
        rw [← h]
        exact facts_push r c l s _ hf (hshape _)
  · simp only [Result.ok.injEq, true_and] at h
    rw [← h]
    exact facts_push r c l s _ hf (hshape j.label)

theorem h_threeRegs (token : TokenType) (type : InstructionType)
    (htype : ¬ (type = .I_SW ∨ type = .I_B ∨ type = .I_BLTZ ∨ type = .I_BNE)) :
    Holds (Facts [] [] []) (threeRegs token type) (fun _ => Facts [] [] []) :=
  holds_bind _ _ _ _ _ (h_eat _ _ _ _) (fun _ =>
  holds_bind _ _ _ _ _ (h_new _ _ _ _) (fun i =>
  holds_pre _ _ _ _ (fun hi =>
  holds_bind _ _ _ _ _ (h_reg _ _ _) (fun dst =>
  holds_bind _ _ _ _ _ (h_eat _ _ _ _) (fun _ =>
  holds_bind _ _ _ _ _ (h_reg _ _ _) (fun src1 =>
  holds_bind _ _ _ _ _ (h_eat _ _ _ _) (fun _ =>
  holds_bind _ _ _ _ _ (h_reg _ _ _) (fun src2 =>
  h_finish _ _ _ _ _ _ _
    (built_addSrc _ _ _ _ _ (built_addSrc _ _ _ _ _ (built_addDst _ _ _ _ _ hi)))
    (by simp) (fun h => absurd h htype) (Or.inl (by simp))))))))))

/-- The method `E()` keeps the facts: the instruction it pushes has the shape `Shape`. -/
theorem h_E : Holds (Facts [] [] []) E (fun _ => Facts [] [] []) := by
  intro s a s1 hf h
  unfold E at h
  split at h
  · exact h_threeRegs _ _ (by simp) s a s1 hf h
  · -- addi
    exact holds_bind _ _ _ _ _ (h_eat _ _ _ _) (fun _ =>
      holds_bind _ _ _ _ _ (h_new _ _ _ _) (fun i =>
      holds_pre _ _ _ _ (fun hi =>
      holds_bind _ _ _ _ _ (h_reg _ _ _) (fun v0 =>
      holds_bind _ _ _ _ _ (h_eat _ _ _ _) (fun _ =>
      holds_bind _ _ _ _ _ (h_reg _ _ _) (fun v1 =>
      holds_bind _ _ _ _ _ (h_eat _ _ _ _) (fun _ =>
      holds_bind _ _ _ _ _ (h_num _ _ _) (fun v2 =>
      h_finish _ _ _ _ _ _ _ (built_addSrc _ _ _ _ _ (built_addSrc _ _ _ _ _ (built_addDst _ _ _ _ _ hi)))
        (by simp) (by simp) (Or.inl (by simp)))))))))) s a s1 hf h
  · -- b
    exact holds_bind _ _ _ _ _ (h_eat _ _ _ _) (fun _ =>
      holds_bind _ _ _ _ _ (h_new _ _ _ _) (fun i =>
      holds_pre _ _ _ _ (fun hi =>
      holds_bind _ _ _ _ _ (h_label _ _ _) (fun v0 =>
      h_finish _ _ _ _ _ _ _ (built_addSrc _ _ _ _ _ hi)
        (by simp) (by simp) (Or.inl (by simp)))))) s a s1 hf h
  · -- bltz
    exact holds_bind _ _ _ _ _ (h_eat _ _ _ _) (fun _ =>
      holds_bind _ _ _ _ _ (h_new _ _ _ _) (fun i =>
      holds_pre _ _ _ _ (fun hi =>
      holds_bind _ _ _ _ _ (h_reg _ _ _) (fun v0 =>
      holds_bind _ _ _ _ _ (h_eat _ _ _ _) (fun _ =>
      holds_bind _ _ _ _ _ (h_label _ _ _) (fun v1 =>
      h_finish _ _ _ _ _ _ _ (built_addSrc _ _ _ _ _ (built_addSrc _ _ _ _ _ hi))
        (by simp) (by simp) (Or.inl (by simp)))))))) s a s1 hf h
  · -- la
    exact holds_bind _ _ _ _ _ (h_eat _ _ _ _) (fun _ =>
      holds_bind _ _ _ _ _ (h_new _ _ _ _) (fun i =>
      holds_pre _ _ _ _ (fun hi =>
      holds_bind _ _ _ _ _ (h_reg _ _ _) (fun v0 =>
      holds_bind _ _ _ _ _ (h_eat _ _ _ _) (fun _ =>
      h_mem _ _ _ _ _ (fun v1 =>
      h_finish _ _ _ _ _ _ _ (built_addSrc _ _ _ _ _ (built_addDst _ _ _ _ _ hi))
        (by simp) (by simp) (Or.inl (by simp)))))))) s a s1 hf h
  · -- li
    exact holds_bind _ _ _ _ _ (h_eat _ _ _ _) (fun _ =>
      holds_bind _ _ _ _ _ (h_new _ _ _ _) (fun i =>
      holds_pre _ _ _ _ (fun hi =>
      holds_bind _ _ _ _ _ (h_reg _ _ _) (fun v0 =>
      holds_bind _ _ _ _ _ (h_eat _ _ _ _) (fun _ =>
      holds_bind _ _ _ _ _ (h_num _ _ _) (fun v1 =>
      h_finish _ _ _ _ _ _ _ (built_addSrc _ _ _ _ _ (built_addDst _ _ _ _ _ hi))
        (by simp) (by simp) (Or.inl (by simp)))))))) s a s1 hf h
  · -- lw
    exact holds_bind _ _ _ _ _ (h_eat _ _ _ _) (fun _ =>
      holds_bind _ _ _ _ _ (h_new _ _ _ _) (fun i =>
      holds_pre _ _ _ _ (fun hi =>
      holds_bind _ _ _ _ _ (h_reg _ _ _) (fun v0 =>
      holds_bind _ _ _ _ _ (h_eat _ _ _ _) (fun _ =>
      holds_bind _ _ _ _ _ (h_num _ _ _) (fun v1 =>
      holds_bind _ _ _ _ _ (h_eat _ _ _ _) (fun _ =>
      holds_bind _ _ _ _ _ (h_reg _ _ _) (fun v2 =>
      holds_bind _ _ _ _ _ (h_eat _ _ _ _) (fun _ =>
      h_finish _ _ _ _ _ _ _ (built_addSrc _ _ _ _ _ (built_addSrc _ _ _ _ _ (built_addDst _ _ _ _ _ hi)))
        (by simp) (by simp) (Or.inl (by simp))))))))))) s a s1 hf h
  · -- nop
    exact holds_bind _ _ _ _ _ (h_eat _ _ _ _) (fun _ =>
      holds_bind _ _ _ _ _ (h_new _ _ _ _) (fun i =>
      holds_pre _ _ _ _ (fun hi =>
      h_finish _ _ _ _ _ _ _ hi
        (by simp) (by simp) (Or.inl (by simp))))) s a s1 hf h
  · exact h_threeRegs _ _ (by simp) s a s1 hf h
  · -- sw
    exact holds_bind _ _ _ _ _ (h_eat _ _ _ _) (fun _ =>
      holds_bind _ _ _ _ _ (h_new _ _ _ _) (fun i =>
      holds_pre _ _ _ _ (fun hi =>
      holds_bind _ _ _ _ _ (h_reg _ _ _) (fun v0 =>
      holds_bind _ _ _ _ _ (h_eat _ _ _ _) (fun _ =>
      holds_bind _ _ _ _ _ (h_num _ _ _) (fun v1 =>
      holds_bind _ _ _ _ _ (h_eat _ _ _ _) (fun _ =>
      holds_bind _ _ _ _ _ (h_reg _ _ _) (fun v2 =>
      holds_bind _ _ _ _ _ (h_eat _ _ _ _) (fun _ =>
      h_finish _ _ _ _ _ _ _ (built_addSrc _ _ _ _ _ (built_addSrc _ _ _ _ _ (built_addSrc _ _ _ _ _ hi)))
        (by simp) (by simp) (Or.inr ⟨_, _, _, rfl, Or.inl (by simp)⟩)))))))))) s a s1 hf h
  · exact h_threeRegs _ _ (by simp) s a s1 hf h
  · exact h_threeRegs _ _ (by simp) s a s1 hf h
  · -- not
    exact holds_bind _ _ _ _ _ (h_eat _ _ _ _) (fun _ =>
      holds_bind _ _ _ _ _ (h_new _ _ _ _) (fun i =>
      holds_pre _ _ _ _ (fun hi =>
      holds_bind _ _ _ _ _ (h_reg _ _ _) (fun v0 =>
      holds_bind _ _ _ _ _ (h_eat _ _ _ _) (fun _ =>
      holds_bind _ _ _ _ _ (h_reg _ _ _) (fun v1 =>
      h_finish _ _ _ _ _ _ _ (built_addSrc _ _ _ _ _ (built_addDst _ _ _ _ _ hi))
        (by simp) (by simp) (Or.inl (by simp)))))))) s a s1 hf h
  · -- bne
    exact holds_bind _ _ _ _ _ (h_eat _ _ _ _) (fun _ =>
      holds_bind _ _ _ _ _ (h_new _ _ _ _) (fun i =>
      holds_pre _ _ _ _ (fun hi =>
      holds_bind _ _ _ _ _ (h_reg _ _ _) (fun v0 =>
      holds_bind _ _ _ _ _ (h_eat _ _ _ _) (fun _ =>
      holds_bind _ _ _ _ _ (h_reg _ _ _) (fun v1 =>
      holds_bind _ _ _ _ _ (h_eat _ _ _ _) (fun _ =>
      holds_bind _ _ _ _ _ (h_label _ _ _) (fun v2 =>
      h_finish _ _ _ _ _ _ _ (built_addSrc _ _ _ _ _ (built_addSrc _ _ _ _ _ (built_addSrc _ _ _ _ _ hi)))
        (by simp) (by simp) (Or.inr ⟨_, _, _, rfl, Or.inr ⟨by simp, by simp⟩⟩))))))))) s a s1 hf h
  · cases h

theorem facts_fields (r c l : List Nat) (s s1 : SyntaxAnalysis) (h : Facts r c l s)
    (e1 : s1.tokens = s.tokens) (e2 : s1.heap = s.heap) (e3 : s1.const_vars = s.const_vars)
    (e4 : s1.reg_vars = s.reg_vars) (e5 : s1.mem_vars = s.mem_vars)
    (e6 : s1.label_vars = s.label_vars) (e7 : s1.instrs = s.instrs) : Facts r c l s1 := by
  refine facts_of r c l s s1 h (parserInv_fields s s1 h.1 e1 e2 e3 e4 e5 e6) ?_ ?_ ?_ ?_ ?_
  · intro p hp hq
    rw [e4] at hp
    rw [e6] at hq
    exact h.2.1 p hp hq
  · rw [e4]
    exact fun p hp => hp
  · rw [e6]
    exact fun p hp => hp
  · rw [e3]
    exact fun p hp => hp
  · rw [e7]
    exact fun i hi => Or.inl hi

/-- What `createVariable()` returns is a new object: it is in no table yet. -/
theorem h_createVariable :
    Holds (Facts [] [] []) createVariable
      (fun v s1 => Facts [] [] [] s1 ∧
        (v < s1.heap.length ∧ v ∉ s1.reg_vars ∧ v ∉ s1.label_vars)) := by
  intro s v s1 hf h
  obtain ⟨hv, _, tys, hseg, _⟩ := createVariable_ok s s1 v h
  obtain ⟨ho, hlt⟩ := createVariable_opnd s s1 v h
  refine ⟨facts_seg [] [] [] s s1 ho hseg.label_vars hf, hlt, ?_, ?_⟩
  · rw [ho.reg_vars]
    intro hin
    have := hf.1.2.1.1 v hin
    omega
  · rw [hseg.label_vars]
    intro hin
    have := hf.1.2.1.2.2.1 v hin
    omega

/-- The push `mem_vars.push_back(var)`. -/
theorem facts_push_mem (s s1 : SyntaxAnalysis) (var : Nat) (h : Facts [] [] [] s)
    (hv : var < s.heap.length) (e1 : s1.tokens = s.tokens) (e2 : s1.heap = s.heap)
    (e3 : s1.const_vars = s.const_vars) (e4 : s1.reg_vars = s.reg_vars)
    (e5 : s1.mem_vars = s.mem_vars ++ [var]) (e6 : s1.label_vars = s.label_vars)
    (e7 : s1.instrs = s.instrs) : Facts [] [] [] s1 := by
  refine facts_of [] [] [] s s1 h
    (parserInv_push s s1 var h.1 hv e1 e2 e3 (Or.inl e4) (Or.inr e5) (Or.inl e6)) ?_ ?_ ?_ ?_ ?_
  · intro p hp hq
    rw [e4] at hp
    rw [e6] at hq
    exact h.2.1 p hp hq
  · rw [e4]
    exact fun p hp => hp
  · rw [e6]
    exact fun p hp => hp
  · rw [e3]
    exact fun p hp => hp
  · rw [e7]
    exact fun i hi => Or.inl hi

/-- The push `reg_vars.push_back(var)` of an object that is not in the label table. -/
theorem facts_push_reg (s s1 : SyntaxAnalysis) (var : Nat) (h : Facts [] [] [] s)
    (hv : var < s.heap.length) (hl : var ∉ s.label_vars)
    (e1 : s1.tokens = s.tokens) (e2 : s1.heap = s.heap)
    (e3 : s1.const_vars = s.const_vars) (e4 : s1.reg_vars = s.reg_vars ++ [var])
    (e5 : s1.mem_vars = s.mem_vars) (e6 : s1.label_vars = s.label_vars)
    (e7 : s1.instrs = s.instrs) : Facts [] [] [] s1 := by
  refine facts_of [] [] [] s s1 h
    (parserInv_push s s1 var h.1 hv e1 e2 e3 (Or.inr e4) (Or.inl e5) (Or.inl e6)) ?_ ?_ ?_ ?_ ?_
  · intro p hp hq
    rw [e4] at hp
    rw [e6] at hq
    rcases List.mem_append.mp hp with hp | hp
    · exact h.2.1 p hp hq
    · simp only [List.mem_singleton] at hp
      rw [hp] at hq
      exact hl hq
  · rw [e4]
    exact fun p hp => List.mem_append_left _ hp
  · rw [e6]
    exact fun p hp => hp
  · rw [e3]
    exact fun p hp => hp
  · rw [e7]
    exact fun i hi => Or.inl hi

/-- The push `label_vars.push_back(var)` of an object that is not in the register
table. -/
theorem facts_push_label (s s1 : SyntaxAnalysis) (var : Nat) (h : Facts [] [] [] s)
    (hv : var < s.heap.length) (hr : var ∉ s.reg_vars)
    (e1 : s1.tokens = s.tokens) (e2 : s1.heap = s.heap)
    (e3 : s1.const_vars = s.const_vars) (e4 : s1.reg_vars = s.reg_vars)
    (e5 : s1.mem_vars = s.mem_vars) (e6 : s1.label_vars = s.label_vars ++ [var])
    (e7 : s1.instrs = s.instrs) : Facts [] [] [] s1 := by
  refine facts_of [] [] [] s s1 h
    (parserInv_push s s1 var h.1 hv e1 e2 e3 (Or.inl e4) (Or.inl e5) (Or.inr e6)) ?_ ?_ ?_ ?_ ?_
  · intro p hp hq
    rw [e4] at hp
    rw [e6] at hq
    rcases List.mem_append.mp hq with hq | hq
    · exact h.2.1 p hp hq
    · simp only [List.mem_singleton] at hq
      rw [hq] at hp
      exact hr hp
  · rw [e4]
    exact fun p hp => hp
  · rw [e6]
    exact fun p hp => List.mem_append_left _ hp
  · rw [e3]
    exact fun p hp => hp
  · rw [e7]
    exact fun i hi => Or.inl hi

/-- The method `S()` keeps the facts. -/
theorem h_S : Holds (Facts [] [] []) S (fun _ => Facts [] [] []) := by
  intro s a s1 hf h
  unfold S at h
  split at h
  · exact holds_bind _ _ _ _ _ (h_eat _ _ _ _) (fun _ =>
      holds_bind _ _ _ _ _ h_createVariable (fun var =>
      holds_update _ (fun s1 => { s1 with mem_vars := s1.mem_vars ++ [var] })
        (fun _ => Facts [] [] [])
        (fun t ht => facts_push_mem t _ var ht.1 ht.2.1 rfl rfl rfl rfl rfl rfl rfl)))
      s a s1 hf h
  · exact holds_bind _ _ _ _ _ (h_eat _ _ _ _) (fun _ =>
      holds_bind _ _ _ _ _ h_createVariable (fun var =>
      holds_update _ (fun s1 => { s1 with reg_vars := s1.reg_vars ++ [var] })
        (fun _ => Facts [] [] [])
        (fun t ht =>
          facts_push_reg t _ var ht.1 ht.2.1 ht.2.2.2 rfl rfl rfl rfl rfl rfl rfl)))
      s a s1 hf h
  · exact holds_bind _ _ _ _ _ (h_eat _ _ _ _) (fun _ =>
      holds_bind _ _ _ _ _ h_createVariable (fun var =>
      holds_bind _ _ _
        (fun i t => Facts [] [] [] t ∧ Built .I_NO_TYPE [] [] i) _
        (fun t i t1 ht hi => by
          unfold newInstruction at hi
          simp only [Result.ok.injEq] at hi
          obtain ⟨hi, hs⟩ := hi
          subst hi
          subst hs
          exact ⟨facts_push_label t _ var ht.1 ht.2.1 ht.2.2.1 rfl rfl rfl rfl rfl rfl rfl,
            rfl, rfl, rfl, rfl, rfl⟩)
        (fun i => holds_update _ (fun s2 => { s2 with instrs := s2.instrs ++ [i] })
          (fun _ => Facts [] [] [])
          (fun t ht => facts_push [] [] [] t i ht.1
            ⟨ht.2.2.2.2.1, ht.2.2.2.2.2, by rw [ht.2.2.1]; exact Nat.zero_le 1,
              fun _ => ht.2.2.1, Or.inl (by rw [ht.2.2.2.1]; exact Nat.zero_le 2)⟩))))
      s a s1 hf h
  · exact holds_bind _ _ _ _ _ h_createVariable (fun var =>
      holds_bind _ _ _ (fun _ => Facts [] [] []) _
        (holds_update _
          (fun s1 => { s1 with label_vars := s1.label_vars ++ [var],
                               next_instruction_has_label := true })
          (fun _ => Facts [] [] [])
          (fun t ht =>
            facts_push_label t _ var ht.1 ht.2.1 ht.2.2.1 rfl rfl rfl rfl rfl rfl rfl))
        (fun _ => holds_bind _ _ _ _ _ (h_eat _ _ _ _) (fun _ => h_E)))
      s a s1 hf h
  · exact h_E s a s1 hf h

theorem h_L (Qf : Parser Unit) (hQ : Holds (Facts [] [] []) Qf (fun _ => Facts [] [] [])) :
    Holds (Facts [] [] []) (L Qf) (fun _ => Facts [] [] []) := by
  intro s a s1 hf h
  unfold L at h
  split at h
  · exact holds_bind _ _ _ _ _ (h_eat _ _ _ _) (fun _ =>
      holds_update _ (fun s1 => { s1 with eof := true }) (fun _ => Facts [] [] [])
        (fun t ht => facts_fields [] [] [] t _ ht rfl rfl rfl rfl rfl rfl rfl))
      s a s1 hf h
  · exact hQ s a s1 hf h

theorem h_Q (fuel : Nat) : Holds (Facts [] [] []) (Q fuel) (fun _ => Facts [] [] []) := by
  induction fuel with
  | zero =>
    intro s a s1 _ h
    cases h
  | succ n ih =>
    intro s a s1 hf h
    unfold Q at h
    simp only at h
    have c0 : Facts [] [] [] { s with next_instruction_has_label := false } :=
      facts_fields [] [] [] s _ hf rfl rfl rfl rfl rfl rfl rfl
    split at h
    · exact holds_bind _ _ _ _ _ (h_eat _ _ _ _) (fun _ => h_L _ ih) _ a s1 c0 h
    · exact holds_bind _ _ _ _ _ h_S (fun _ =>
        holds_bind _ _ _ _ _ (h_eat _ _ _ _) (fun _ => h_L _ ih)) _ a s1 c0 h

/-- After a parse of tokens classified as by the lexer, the register table and the label
table share no object and every instruction has the shape `Shape`. -/
theorem facts_Do (tokens : List Token) (b : Bool) (s1 : SyntaxAnalysis)
    (hlex : Lexed tokens) (h : SyntaxAnalysis.Do (SyntaxAnalysis.init tokens) = .ok b s1) :
    Facts [] [] [] s1 := by
  unfold SyntaxAnalysis.Do at h
  have c0 : Facts [] [] [] { SyntaxAnalysis.init tokens with currentToken := 0 } := by
    refine ⟨⟨?_, ?_, hlex⟩, ?_, ?_, ?_, ?_, ?_⟩
    · unfold ConstTable; simp [SyntaxAnalysis.init]
    · unfold TablesLive; simp [SyntaxAnalysis.init]
    · exact fun p hp => absurd hp (List.not_mem_nil p)
    · exact fun i hi => absurd hi (List.not_mem_nil i)
    · exact fun p hp => absurd hp (List.not_mem_nil p)
    · exact fun p hp => absurd hp (List.not_mem_nil p)
    · exact fun p hp => absurd hp (List.not_mem_nil p)
  exact (holds_bind _ _ _ _ _ (h_Q _) (fun _ =>
    holds_bind _ _ _ _ _ (holds_same _ _ checkLabels_ok) (fun _ =>
    holds_bind _ _ _ (fun _ => Facts [] [] []) (fun _ => Facts [] [] [])
      (holds_same _ _ checkFunctions_ok) (fun _ =>
    (fun t c t1 ht hc => by
      simp only [Result.ok.injEq] at hc
      rw [← hc.2]
      exact ht))))) _ b s1 c0 h

/-- C31. USE and DEF: for every instruction that the parser builds from tokens
classified as by the lexer, `setDef()` followed by `setUse()` on the fresh object leaves
in DEF exactly the entries of the destination list that are register variables and in USE
exactly those of the source list, each of them once; DEF of `sw` and of every branch is
empty. -/
theorem use_def_sets (tokens : List Token) (b : Bool) (parsed : SyntaxAnalysis)
    (hlex : Lexed tokens)
    (hparse : SyntaxAnalysis.Do (SyntaxAnalysis.init tokens) = .ok b parsed) :
    ∀ i ∈ parsed.instrs,
      (∀ v, v ∈ ((i.setDef parsed.heap).setUse parsed.heap).m_def ↔
        v ∈ i.m_dst ∧ (deref parsed.heap v).m_type = .REG_VAR) ∧
      (∀ v, v ∈ ((i.setDef parsed.heap).setUse parsed.heap).m_use ↔
        v ∈ i.m_src ∧ (deref parsed.heap v).m_type = .REG_VAR) ∧
      ((i.setDef parsed.heap).setUse parsed.heap).m_def.Nodup ∧
      ((i.setDef parsed.heap).setUse parsed.heap).m_use.Nodup ∧
      ((i.m_type = .I_SW ∨ i.m_type = .I_B ∨ i.m_type = .I_BLTZ ∨ i.m_type = .I_BNE) →
        ((i.setDef parsed.heap).setUse parsed.heap).m_def = []) := by
  intro i hi
  obtain ⟨hinv, hap, hshape, _⟩ := facts_Do tokens b parsed hlex hparse
  obtain ⟨hu, hd, hdl, hbr, hsrc⟩ := hshape i hi
  have hdef : ((i.setDef parsed.heap).setUse parsed.heap).m_def =
      unique (i.m_dst.filter
        (fun v => decide ((deref parsed.heap v).m_type = .REG_VAR))) := by
    show unique (i.m_dst.foldl
      (fun defs v => if (deref parsed.heap v).m_type = .REG_VAR then defs ++ [v] else defs)
      i.m_def) = _
    rw [foldl_push (fun v => (deref parsed.heap v).m_type = .REG_VAR), hd, List.nil_append]
  have huse : ((i.setDef parsed.heap).setUse parsed.heap).m_use =
      unique (i.m_src.filter
        (fun v => decide ((deref parsed.heap v).m_type = .REG_VAR))) := by
    show unique (i.m_src.foldl
      (fun use v => if (deref parsed.heap v).m_type = .REG_VAR then use ++ [v] else use)
      i.m_use) = _
    rw [foldl_push (fun v => (deref parsed.heap v).m_type = .REG_VAR), hu, List.nil_append]
  rw [hdef, huse]
  refine ⟨?_, ?_, ?_, ?_, ?_⟩
  · intro v
    rw [mem_unique, List.mem_filter, decide_eq_true_eq]
  · intro v
    rw [mem_unique, List.mem_filter, decide_eq_true_eq]
  · exact unique_filter_nodup _ _ (Or.inl (Nat.le_trans hdl (by decide)))
  · apply unique_filter_nodup
    rcases hsrc with hsrc | ⟨a, c, b, e, hsrc⟩
    · exact Or.inl hsrc
    · refine Or.inr ⟨a, c, b, e, ?_⟩
      rcases hsrc with hc | ⟨ha, hb⟩
      · -- the middle operand of `sw` is a constant
        have hty := (hinv.1.1 c hc).1
        left
        rw [decide_eq_false_iff_not, hty]
        decide
      · -- the first operand of `bne` is a register entry, the last a label entry
        right
        intro hab
        rw [hab] at ha
        exact hap b ha hb
  · intro hty
    rw [hbr hty]
    rfl

/-- Witness of C31: the program `_func main; _reg r1; _reg r2; add r1, r2, r2;
sw r1, 0(r1); loop: bne r1, r2, loop;`: the sources r2, r2 of `add` and r1, 0, r1 of
`sw` give a USE of one element, `bne` uses r1 and r2, and DEF of `sw` and of `bne` is
empty. -/
theorem use_def_sets_witness :
    Lexed useTokens ∧
    SyntaxAnalysis.Do (SyntaxAnalysis.init useTokens) = .ok true useParsed ∧
    useParsed.instrs.map (fun i => (i.m_type, i.m_dst, i.m_src)) =
      [(.I_NO_TYPE, [], []), (.I_ADD, [1], [2, 2]), (.I_SW, [], [1, 3, 1]),
        (.I_BNE, [], [1, 2, 4])] ∧
    (setUseAndDef useParsed.heap useParsed.instrs).map (fun i => (i.m_def, i.m_use)) =
      [([], []), ([1], [2]), ([], [1]), ([], [1, 2])] ∧
    ∀ i ∈ useParsed.instrs,
      (∀ v, v ∈ ((i.setDef useParsed.heap).setUse useParsed.heap).m_def ↔
        v ∈ i.m_dst ∧ (deref useParsed.heap v).m_type = .REG_VAR) ∧
      (∀ v, v ∈ ((i.setDef useParsed.heap).setUse useParsed.heap).m_use ↔
        v ∈ i.m_src ∧ (deref useParsed.heap v).m_type = .REG_VAR) ∧
      ((i.setDef useParsed.heap).setUse useParsed.heap).m_def.Nodup ∧
      ((i.setDef useParsed.heap).setUse useParsed.heap).m_use.Nodup ∧
      ((i.m_type = .I_SW ∨ i.m_type = .I_B ∨ i.m_type = .I_BLTZ ∨ i.m_type = .I_BNE) →
        ((i.setDef useParsed.heap).setUse useParsed.heap).m_def = []) :=
  ⟨by decide, by decide!, by decide!, by decide!,
    use_def_sets useTokens true useParsed (by decide) (by decide!)⟩

end Mavn
